import Mathlib

/-!
Verification of the LaCAM / LaCAM2 multi-agent path finding planners
(`src/lacam/src/planner.cpp` and `src/lacam2/src/planner.cpp`).

The two planners are embedded shallowly and separately, in namespaces
`Lacam` and `Lacam2`, mirroring the two source files.  Machinery shared by
both embeddings (instances, configurations, a C++ `float` model, a stable
sort model for `std::sort`) lives in the root namespace.

Modelling conventions, used throughout:
* C++ `float` values are modelled exactly by unnormalised fractions `Q`
  (integer numerator, natural denominator); every operation the planners
  perform on floats (add one, subtract the integer part, divide by `N`,
  compare) is exact on such fractions, so no rounding is modelled.
* `std::mt19937 *MT` is modelled by a flag `rngOn : Bool` (`MT != nullptr`)
  together with an ambient entropy stream `Nat → Q`; a counter in the state
  records how much of the stream has been consumed.
* `std::sort` leaves the relative order of tie elements unspecified; on the
  small ranges the planners sort, libstdc++ uses insertion sort, which is
  stable, and the spec (§4.2) prescribes the stable order, so sorting is
  modelled by a stable insertion sort.
* Containers indexed by vertex or agent ids (`occupied_now`,
  `occupied_next`, per-agent fields) are modelled as total functions from
  `Nat`; loops are given explicit fuel and return `Option` (`none` = fuel
  exhausted), so `f … = some r` states that the C++ run produced `r`.
-/

/-- Unnormalised rational numbers, an exact model of the C++ `float`
values manipulated by the planners (priorities, tie-breakers, the restart
rate).  The denominator is kept positive by every constructor used. -/
structure Q where
  num : Int
  den : Nat
deriving DecidableEq, Repr

/-- Embed a natural number (e.g. a `uint` distance) into `Q`. -/
def Q.ofNat (n : Nat) : Q := ⟨n, 1⟩

/-- Exact addition of fractions (no normalisation). -/
def Q.add (a b : Q) : Q := ⟨a.num * b.den + b.num * a.den, a.den * b.den⟩

/-- Exact subtraction of fractions (no normalisation). -/
def Q.sub (a b : Q) : Q := ⟨a.num * b.den - b.num * a.den, a.den * b.den⟩

/-- Division of a fraction by a natural number, as in `priorities[i] =
d(i, C[i]) / N`. -/
def Q.divNat (a : Q) (n : Nat) : Q := ⟨a.num, a.den * n⟩

/-- The C cast `(int)x`: truncation toward zero (`Int.tdiv`). -/
def Q.trunc (a : Q) : Int := a.num.tdiv a.den

/-- Strict comparison of fractions by cross multiplication. -/
def Q.blt (a b : Q) : Bool := decide (a.num * (b.den : Int) < b.num * (a.den : Int))

/-- Non-strict comparison of fractions by cross multiplication. -/
def Q.ble (a b : Q) : Bool := decide (a.num * (b.den : Int) ≤ b.num * (a.den : Int))

/-- The exact rational value denoted by a fraction; used only in theorem
statements, never in the executable embedding. -/
def Q.toRat (a : Q) : ℚ := (a.num : ℚ) / (a.den : ℚ)

/-- Insert into a sorted list, keeping earlier elements first on ties when
`le` is reflexive on them: the stable insertion step. -/
def insertLe (le : α → α → Bool) (a : α) : List α → List α
  | [] => [a]
  | b :: l => if le a b then a :: b :: l else b :: insertLe le a l

/-- Stable insertion sort, the model of `std::sort` on the short ranges the
planners sort (libstdc++ runs insertion sort below 16 elements, which is
stable; the C++ standard leaves tie order unspecified). -/
def isortLe (le : α → α → Bool) : List α → List α
  | [] => []
  | a :: l => insertLe le a (isortLe le l)

/-- Pointwise update of a total-function array, the model of `arr[i] = a`. -/
def upd {α : Type} (f : Nat → α) (i : Nat) (a : α) : Nat → α :=
  fun j => if j = i then a else f j

/-- A MAPF instance: graph on vertex ids `[0, V)` given by adjacency lists,
`N` agents, start and goal configurations (`Instance` in the sources). -/
structure Inst where
  V : Nat
  adj : Nat → List Nat
  N : Nat
  starts : List Nat
  goals : List Nat

/-- One BFS round: vertices adjacent to the frontier, not yet seen. -/
def bfsNext (adj : Nat → List Nat) (seen frontier : List Nat) : List Nat :=
  ((frontier.flatMap adj).filter (fun v => ¬ seen.contains v)).dedup

/-- Fueled BFS producing `(vertex, distance)` pairs level by level. -/
def bfsGo (adj : Nat → List Nat) : Nat → List Nat → List Nat → Nat → List (Nat × Nat)
  | 0, _, _, _ => []
  | fuel + 1, seen, frontier, d =>
    match frontier with
    | [] => []
    | _ =>
      frontier.map (fun v => (v, d)) ++
        bfsGo adj fuel (seen ++ bfsNext adj seen frontier)
          (bfsNext adj seen frontier) (d + 1)

/-- Modelled from the spec: the distance oracle `DistTable` is constructed
by the planner constructor but its code is not under `src/`; per spec §2 it
returns `d(i, v)` = shortest path length from `v` to agent `i`'s goal,
realised here by BFS from the goal (the graph is undirected, spec §1);
unreachable vertices get the out-of-range value `V`. -/
def distTable (ins : Inst) (i : Nat) (v : Nat) : Nat :=
  match (bfsGo ins.adj (ins.V + 1) [ins.goals.getD i 0] [ins.goals.getD i 0] 0).lookup v with
  | some d => d
  | none => ins.V

/-- Modelled from the spec: `is_same_config` (utility code not under
`src/`) is elementwise equality of configurations. -/
def is_same_config (C1 C2 : List Nat) : Bool := C1 = C2

/-- The three objectives (`enum Objective`; the enum declaration is in a
header not under `src/`). -/
inductive Objective | OBJ_NONE | OBJ_MAKESPAN | OBJ_SUM_OF_LOSS
deriving DecidableEq, Repr

open Objective

/-- Modelled from the spec: `std::to_string(objective)` prints the enum's
integer value; the enum declaration is not under `src/`, and the order
`NONE, MAKESPAN, SUM_OF_LOSS` follows the spec's listing (§6). -/
def Objective.code : Objective → Nat
  | OBJ_NONE => 0
  | OBJ_MAKESPAN => 1
  | OBJ_SUM_OF_LOSS => 2

/-- Movement validity of one joint step `C → C'` (spec P2): every agent
stays or moves along an edge. -/
def stepMoves (ins : Inst) (C C' : List Nat) : Prop :=
  ∀ i < ins.N, C'.getD i 0 ∈ ins.adj (C.getD i 0) ∨ C'.getD i 0 = C.getD i 0

/-- Vertex collision freedom of the target configuration (spec P3). -/
def stepNoVertexCollision (ins : Inst) (C' : List Nat) : Prop :=
  ∀ i < ins.N, ∀ j < ins.N, i ≠ j → C'.getD i 0 ≠ C'.getD j 0

/-- Swap collision freedom of one joint step (spec P4). -/
def stepNoSwap (ins : Inst) (C C' : List Nat) : Prop :=
  ∀ i < ins.N, ∀ j < ins.N, i ≠ j →
    ¬(C.getD i 0 = C'.getD j 0 ∧ C.getD j 0 = C'.getD i 0)

/-- Full validity of one joint step: P2 ∧ P3 ∧ P4. -/
def validStep (ins : Inst) (C C' : List Nat) : Prop :=
  stepMoves ins C C' ∧ stepNoVertexCollision ins C' ∧ stepNoSwap ins C C'

/-- The per-step planner scratch state shared by both planners: the
`Agent` fields `v_now`/`v_next` (indexed by agent id) and the planner
buffers `occupied_now`/`occupied_next` (indexed by vertex id, holding an
agent id or null) and `tie_breakers`; `rngK` counts how many values of the
ambient entropy stream have been consumed (the state of `*MT`). -/
structure PState where
  v_now : Nat → Option Nat
  v_next : Nat → Option Nat
  occupied_now : Nat → Option Nat
  occupied_next : Nat → Option Nat
  tie_breakers : Nat → Q
  rngK : Nat

/-- The scratch state of a freshly constructed planner: all-null agent
fields and occupancy buffers, all-zero tie-breakers. -/
def PState.init : PState :=
  { v_now := fun _ => none, v_next := fun _ => none,
    occupied_now := fun _ => none, occupied_next := fun _ => none,
    tie_breakers := fun _ => ⟨0, 1⟩, rngK := 0 }

namespace Lacam2

/-- `Planner::get_edge_cost(C1, C2)` of lacam2: Hamming count under
`OBJ_NONE`, loss count under `OBJ_SUM_OF_LOSS`, else 1. -/
def get_edge_cost (objective : Objective) (goals : List Nat) (N : Nat)
    (C1 C2 : List Nat) : Nat :=
  if objective = OBJ_NONE then
    (List.range N).foldl
      (fun cost i => if C1.getD i 0 ≠ C2.getD i 0 then cost + 1 else cost) 0
  else if objective = OBJ_SUM_OF_LOSS then
    (List.range N).foldl
      (fun cost i =>
        if C1.getD i 0 ≠ goals.getD i 0 ∨ C2.getD i 0 ≠ goals.getD i 0 then
          cost + 1
        else cost) 0
  else 1

/-- `Planner::get_h_value(C)` of lacam2: running max of distances under
`OBJ_MAKESPAN`, otherwise (both `OBJ_SUM_OF_LOSS` and the `OBJ_NONE`
fall-through of the `else` branch) the sum of distances. -/
def get_h_value (objective : Objective) (D : Nat → Nat → Nat) (N : Nat)
    (C : List Nat) : Nat :=
  if objective = OBJ_MAKESPAN then
    (List.range N).foldl (fun cost i => max cost (D i (C.getD i 0))) 0
  else
    (List.range N).foldl (fun cost i => cost + D i (C.getD i 0)) 0

end Lacam2

namespace Lacam

/-- `Planner::get_edge_cost(C1, C2)` of lacam: loss count under
`OBJ_SUM_OF_LOSS`, else (both `OBJ_MAKESPAN` and `OBJ_NONE`) 1. -/
def get_edge_cost (objective : Objective) (goals : List Nat) (N : Nat)
    (C1 C2 : List Nat) : Nat :=
  if objective = OBJ_SUM_OF_LOSS then
    (List.range N).foldl
      (fun cost i =>
        if C1.getD i 0 ≠ goals.getD i 0 ∨ C2.getD i 0 ≠ goals.getD i 0 then
          cost + 1
        else cost) 0
  else 1

/-- `Planner::get_h_value(C)` of lacam: running max of distances under
`OBJ_MAKESPAN`, sum of distances under `OBJ_SUM_OF_LOSS`, and the
initial `cost = 0` unchanged under `OBJ_NONE` (neither branch taken). -/
def get_h_value (objective : Objective) (D : Nat → Nat → Nat) (N : Nat)
    (C : List Nat) : Nat :=
  if objective = OBJ_MAKESPAN then
    (List.range N).foldl (fun cost i => max cost (D i (C.getD i 0))) 0
  else if objective = OBJ_SUM_OF_LOSS then
    (List.range N).foldl (fun cost i => cost + D i (C.getD i 0)) 0
  else 0

end Lacam

namespace Lacam2

/-- `LNode` of lacam2: a low-level constraint frame carrying one
`(who, where)` pair and a parent pointer; the root frame (default
constructor, null parent) carries no constraint. `depth` is the chain
length, as in the source's `depth` field. -/
inductive LNode where
  | root : LNode
  | child (parent : LNode) (who : Nat) (loc : Nat) : LNode
deriving DecidableEq, Repr

/-- The `depth` field of an `LNode`: 0 at the root, `parentedepth + 1`
below it. -/
def LNode.depth : LNode → Nat
  | .root => 0
  | .child p _ _ => p.depth + 1

/-- The vertices counted as live pull targets in `is_swap_required` /
`is_swap_possible`: neighbors `u` of `v_puller` other than `v_pusher` and
other than occupied dead-ends whose occupant has its goal there.  The
source decrements a counter `n` once per dead neighbor and keeps the last
live neighbor in `tmp`; this list's length is that `n` and its last
element is that `tmp`. -/
def liveNbrs (ins : Inst) (goals : List Nat) (occupied_now : Nat → Option Nat)
    (v_pusher v_puller : Nat) : List Nat :=
  (ins.adj v_puller).filter (fun u =>
    !(decide (u = v_pusher) ||
      (decide ((ins.adj u).length = 1) &&
        (match occupied_now u with
         | some a => decide (goals.getD a 0 = u)
         | none => false))))

/-- `Planner::is_swap_required` of lacam2: walk the corridor while the
puller lies on the pusher's shortest path, then judge by distances.  The
loop measure `D(pusher, v_puller)` strictly decreases, so the fuel passed
at call sites (`D pusher v_puller + 1`) always suffices; `none` is fuel
exhaustion. -/
def is_swap_required (ins : Inst) (D : Nat → Nat → Nat) (goals : List Nat)
    (occupied_now : Nat → Option Nat) (pusher puller : Nat) :
    Nat → Nat → Nat → Option Bool
  | 0, _, _ => none
  | fuel + 1, v_pusher, v_puller =>
    if D pusher v_puller < D pusher v_pusher then
      let live := liveNbrs ins goals occupied_now v_pusher v_puller
      if live.length ≥ 2 then some false
      else if live.length = 0 then
        some (decide (D puller v_pusher < D puller v_puller) &&
              (decide (D pusher v_pusher = 0) ||
               decide (D pusher v_puller < D pusher v_pusher)))
      else
        is_swap_required ins D goals occupied_now pusher puller fuel
          v_puller (live.getLastD 0)
    else
      some (decide (D puller v_pusher < D puller v_puller) &&
            (decide (D pusher v_pusher = 0) ||
             decide (D pusher v_puller < D pusher v_pusher)))

/-- `Planner::is_swap_possible` of lacam2: walk the corridor until the
puller returns to the pusher's origin (cycle, no swap), a branch appears
(swap possible) or the corridor dead-ends.  This loop has no decreasing
measure in the source; call sites pass `V + 1` fuel and `none` marks runs
the C++ would iterate longer than that. -/
def is_swap_possible (ins : Inst) (goals : List Nat)
    (occupied_now : Nat → Option Nat) (v_pusher_origin : Nat) :
    Nat → Nat → Nat → Option Bool
  | 0, _, _ => none
  | fuel + 1, v_pusher, v_puller =>
    if v_puller ≠ v_pusher_origin then
      let live := liveNbrs ins goals occupied_now v_pusher v_puller
      if live.length ≥ 2 then some true
      else if live.length = 0 then some false
      else
        is_swap_possible ins goals occupied_now v_pusher_origin fuel
          v_puller (live.getLastD 0)
    else some false

/-- The `for (auto u : ai->v_now->neighbor)` clear-operation loop of
`swap_possible_and_required` (its case-c): return the first neighbor's
occupant `ak` that makes a swap with `ai` required and possible. -/
def swapCaseC (ins : Inst) (D : Nat → Nat → Nat) (goals : List Nat)
    (s : PState) (ai : Nat) (vnow c0 : Nat) : List Nat → Option (Option Nat)
  | [] => some none
  | u :: rest =>
    match s.occupied_now u with
    | none => swapCaseC ins D goals s ai vnow c0 rest
    | some ak =>
      if c0 = (s.v_now ak).getD 0 then swapCaseC ins D goals s ai vnow c0 rest
      else
        match is_swap_required ins D goals s.occupied_now ak ai
            (D ak c0 + 1) vnow c0 with
        | none => none
        | some false => swapCaseC ins D goals s ai vnow c0 rest
        | some true =>
          match is_swap_possible ins goals s.occupied_now c0 (ins.V + 1)
              c0 vnow with
          | none => none
          | some true => some (some ak)
          | some false => swapCaseC ins D goals s ai vnow c0 rest

/-- `Planner::swap_possible_and_required(ai)` of lacam2: detect the usual
swap situation with the occupant of `ai`'s best candidate, else scan
`ai`'s neighbors for the clear operation.  `c0` is `C_next[i][0]`, the
sorted (pre-reversal) best candidate.  The outer `Option` is fuel
exhaustion of the corridor walks. -/
def swap_possible_and_required (ins : Inst) (D : Nat → Nat → Nat)
    (goals : List Nat) (s : PState) (ai : Nat) (cand : List Nat) :
    Option (Option Nat) :=
  let vnow := (s.v_now ai).getD 0
  let c0 := cand.headD 0
  if c0 = vnow then some none
  else
    let caseAB : Option (Option Nat) :=
      match s.occupied_now c0 with
      | none => some none
      | some aj =>
        if s.v_next aj = none then
          match is_swap_required ins D goals s.occupied_now ai aj
              (D ai ((s.v_now aj).getD 0) + 1) vnow ((s.v_now aj).getD 0) with
          | none => none
          | some false => some none
          | some true =>
            match is_swap_possible ins goals s.occupied_now
                ((s.v_now aj).getD 0) (ins.V + 1) ((s.v_now aj).getD 0) vnow with
            | none => none
            | some true => some (some aj)
            | some false => some none
        else some none
    match caseAB with
    | none => none
    | some (some aj) => some (some aj)
    | some none => swapCaseC ins D goals s ai vnow c0 (ins.adj vnow)

/-- The tie-breaker loop at the head of `funcPIBT`: when an RNG is
present, draw one value of the entropy stream for each neighbor of
`ai->v_now` and store it in `tie_breakers`; without an RNG the buffer is
untouched. -/
def setTies (rngOn : Bool) (stream : Nat → Q) : List Nat → PState → PState
  | [], s => s
  | u :: rest, s =>
    if rngOn then
      setTies rngOn stream rest
        { s with tie_breakers := upd s.tie_breakers u (stream s.rngK),
                 rngK := s.rngK + 1 }
    else setTies rngOn stream rest s

/-- The swap-pull epilogue of lacam2's `funcPIBT` success path: if the
successful candidate was the first one (`k == 0`), a swap agent was
detected, it is still unassigned and `ai`'s origin is unreserved, pull it
onto `ai->v_now`. -/
def pullSwap (FLG_SWAP : Bool) (isFirst : Bool) (swap_agent : Option Nat)
    (vnow : Nat) (s : PState) : PState :=
  if FLG_SWAP then
    match swap_agent with
    | some sa =>
      if isFirst ∧ s.v_next sa = none ∧ s.occupied_next vnow = none then
        { s with v_next := upd s.v_next sa (some vnow),
                 occupied_next := upd s.occupied_next vnow (some sa) }
      else s
    | none => s
  else s

/-- The main candidate loop of lacam2's `funcPIBT`: skip reserved
vertices and head-on swaps, reserve the candidate, inherit priority into
the current occupant when it is unassigned, and on failure of that
recursion move to the next candidate; when all candidates fail, retake
`ai->v_now` and report failure.  `rec` is the recursive `funcPIBT` at one
fuel less. -/
def pibtLoop (rec : Nat → PState → Option (Bool × PState)) (ai vnow : Nat)
    (swap_agent : Option Nat) (FLG_SWAP : Bool) :
    Bool → List Nat → PState → Option (Bool × PState)
  | _, [], s =>
    some (false, { s with occupied_next := upd s.occupied_next vnow (some ai),
                          v_next := upd s.v_next ai (some vnow) })
  | isFirst, u :: rest, s =>
    if s.occupied_next u ≠ none then
      pibtLoop rec ai vnow swap_agent FLG_SWAP false rest s
    else
      match s.occupied_now u with
      | some ak =>
        if s.v_next ak = some vnow then
          pibtLoop rec ai vnow swap_agent FLG_SWAP false rest s
        else
          let s1 : PState :=
            { s with occupied_next := upd s.occupied_next u (some ai),
                     v_next := upd s.v_next ai (some u) }
          if ak ≠ ai ∧ s1.v_next ak = none then
            match rec ak s1 with
            | none => none
            | some (false, s2) =>
              pibtLoop rec ai vnow swap_agent FLG_SWAP false rest s2
            | some (true, s2) =>
              some (true, pullSwap FLG_SWAP isFirst swap_agent vnow s2)
          else some (true, pullSwap FLG_SWAP isFirst swap_agent vnow s1)
      | none =>
        let s1 : PState :=
          { s with occupied_next := upd s.occupied_next u (some ai),
                   v_next := upd s.v_next ai (some u) }
        some (true, pullSwap FLG_SWAP isFirst swap_agent vnow s1)

/-- `Planner::funcPIBT(ai)` of lacam2 (PIBT*): collect and sort the
candidate next vertices by distance plus tie-breaker, optionally detect
and prepare a swap (reversing the candidate order), then run the main
candidate loop.  Fuel bounds the priority-inheritance recursion depth
(at most one level per still-unassigned agent); `none` is fuel
exhaustion. -/
def funcPIBT (ins : Inst) (D : Nat → Nat → Nat) (goals : List Nat)
    (FLG_SWAP rngOn : Bool) (stream : Nat → Q) :
    Nat → Nat → PState → Option (Bool × PState)
  | 0, _, _ => none
  | fuel + 1, ai, s =>
    let vnow := (s.v_now ai).getD 0
    let nbrs := ins.adj vnow
    let s := setTies rngOn stream nbrs s
    let key : Nat → Q := fun v => Q.add (Q.ofNat (D ai v)) (s.tie_breakers v)
    let cand := isortLe (fun v u => Q.ble (key v) (key u)) (nbrs ++ [vnow])
    let swres : Option (Option Nat) :=
      if FLG_SWAP then swap_possible_and_required ins D goals s ai cand
      else some none
    match swres with
    | none => none
    | some swap_agent =>
      let cand2 := if swap_agent.isSome then cand.reverse else cand
      pibtLoop (funcPIBT ins D goals FLG_SWAP rngOn stream fuel) ai vnow
        swap_agent FLG_SWAP true cand2 s

end Lacam2

namespace Lacam2

/-- One iteration of the cache-setup loop at the head of
`get_new_config`: clear the agent's stale `occupied_now`/`occupied_next`
entries and its `v_next`, then set `v_now` from the node's configuration
and mark `occupied_now`. -/
def resetAgent (C : List Nat) (a : Nat) (s : PState) : PState :=
  let s1 :=
    match s.v_now a with
    | some v =>
      if s.occupied_now v = some a then
        { s with occupied_now := upd s.occupied_now v none }
      else s
    | none => s
  let s2 :=
    match s1.v_next a with
    | some u =>
      { s1 with occupied_next := upd s1.occupied_next u none,
                v_next := upd s1.v_next a none }
    | none => s1
  { s2 with v_now := upd s2.v_now a (some (C.getD a 0)),
            occupied_now := upd s2.occupied_now (C.getD a 0) (some a) }

/-- The `for (auto a : A)` cache-setup loop of `get_new_config`, in agent
id order. -/
def resetAll (C : List Nat) : List Nat → PState → PState
  | [], s => s
  | a :: rest, s => resetAll C rest (resetAgent C a s)

/-- The constraint-installation loop of lacam2's `get_new_config`: walk
the `LNode` chain from leaf to parent (as the source's `tmp = tmp->parent`
loop does), rejecting vertex and swap conflicts, and reserve each
constrained agent's target; `false` is the source's early `return
false` (with the partially updated state, as in C++). -/
def addConstraints (C : List Nat) : LNode → PState → Bool × PState
  | .root, s => (true, s)
  | .child p i l, s =>
    if s.occupied_next l ≠ none then (false, s)
    else
      let l_pre := C.getD i 0
      if (match s.occupied_next l_pre, s.occupied_now l with
          | some x, some y => decide (x = y)
          | _, _ => false) then (false, s)
      else
        addConstraints C p
          { s with v_next := upd s.v_next i (some l),
                   occupied_next := upd s.occupied_next l (some i) }

/-- The `for (auto k : H->order)` PIBT loop of `get_new_config`: run
`funcPIBT` for every still-unassigned agent in priority order; any failure
aborts (`return false`).  Each root call receives `N + 1` fuel, a bound on
the priority-inheritance depth (each recursion level permanently assigns
its caller first). -/
def pibtAll (ins : Inst) (D : Nat → Nat → Nat) (goals : List Nat)
    (FLG_SWAP rngOn : Bool) (stream : Nat → Q) :
    List Nat → PState → Option (Bool × PState)
  | [], s => some (true, s)
  | k :: rest, s =>
    if s.v_next k = none then
      match funcPIBT ins D goals FLG_SWAP rngOn stream (ins.N + 1) k s with
      | none => none
      | some (false, s') => some (false, s')
      | some (true, s') => pibtAll ins D goals FLG_SWAP rngOn stream rest s'
    else pibtAll ins D goals FLG_SWAP rngOn stream rest s

/-- `Planner::get_new_config(H, L)` of lacam2: reset the scratch caches
from `H`'s configuration, install `L`'s constraints, then complete the
step with PIBT.  Returns the source's boolean with the updated scratch
state; `none` is fuel exhaustion inside `funcPIBT`. -/
def get_new_config (ins : Inst) (D : Nat → Nat → Nat) (goals : List Nat)
    (FLG_SWAP rngOn : Bool) (stream : Nat → Q) (C : List Nat)
    (order : List Nat) (L : LNode) (s : PState) : Option (Bool × PState) :=
  let s0 := resetAll C (List.range ins.N) s
  match addConstraints C L s0 with
  | (false, s1) => some (false, s1)
  | (true, s1) => pibtAll ins D goals FLG_SWAP rngOn stream order s1

/-- A high-level node (`HNode` of lacam2): configuration, parent pointer
(arena index), neighbor set (insertion-ordered, duplicates never added),
costs `g`/`h`/`f`, per-agent priorities, agent order, and the FIFO
low-level search tree. -/
structure HN where
  C : List Nat
  parent : Option Nat
  neighbor : List Nat
  g : Nat
  h : Nat
  f : Nat
  priorities : List Q
  order : List Nat
  search_tree : List LNode
deriving Repr

/-- The comparator of `HNode`'s order sort, `priorities[i] >
priorities[j]` under `std::sort`, modelled by its non-strict counterpart.
C++'s `std::sort` leaves the relative order of tied elements unspecified,
so the code only guarantees a permutation arranged in non-ascending
priority; the stable `isortLe` used below realises one of the permitted
outcomes, and what is proved about `order` holds for all of them
(permutation of `[0, N)` and pairwise non-ascending priorities — not any
particular tie order). -/
def orderLe (priorities : List Q) (i j : Nat) : Bool :=
  Q.ble (priorities.getD j ⟨0, 1⟩) (priorities.getD i ⟨0, 1⟩)

/-- `HNode::HNode` of lacam2 (arena version): build the node's fields.
Root nodes get `priorities[i] = d(i, C[i]) / N`; children bump the
parent's priority by one for agents off goal and drop to its fractional
part (`p - (int)p`) for agents on goal.  `order` is `iota` sorted by
non-increasing priority — `std::sort` with a strict comparator, whose
tie order the code leaves unspecified; this executable model picks the
stable outcome as its concrete representative — and the search tree
starts with one root `LNode`.  (The constructor's insertion of the node
into `parent->neighbor` is done by the allocation helper `allocHN`.) -/
def makeHN (D : Nat → Nat → Nat) (N : Nat) (C : List Nat)
    (parent : Option Nat) (parentPr : List Q) (g h : Nat) : HN :=
  let priorities : List Q :=
    match parent with
    | none => (List.range N).map (fun i => Q.divNat (Q.ofNat (D i (C.getD i 0))) N)
    | some _ =>
      (List.range N).map (fun i =>
        if D i (C.getD i 0) ≠ 0 then
          Q.add (parentPr.getD i ⟨0, 1⟩) (Q.ofNat 1)
        else
          Q.sub (parentPr.getD i ⟨0, 1⟩)
            ⟨Q.trunc (parentPr.getD i ⟨0, 1⟩), 1⟩)
  { C := C, parent := parent, neighbor := [], g := g, h := h, f := g + h,
    priorities := priorities,
    order := isortLe (orderLe priorities) (List.range N),
    search_tree := [LNode.root] }

end Lacam2

/-- `unordered_set::insert` / `unordered_map` insertion on a neighbor
list: append if absent (both planners). -/
def nbrInsert (l : List Nat) (x : Nat) : List Nat :=
  if x ∈ l then l else l ++ [x]

namespace Lacam2

/-- The search state of lacam2's `solve`: the node arena (`EXPLORED`
owns every node; `arena`/`size` model the heap), the explored map as an
association list, the `OPEN` stack (head = top), the scratch buffers and
the loop counter. -/
structure SState where
  arena : Nat → HN
  size : Nat
  explored : List (List Nat × Nat)
  OPEN : List Nat
  scr : PState
  loop_cnt : Nat

/-- Modelled from the spec: one Fisher-Yates step index drawn from the
entropy stream (`std::shuffle` consumes the raw generator; its exact
protocol is not under `src/`).  `q` is a stream value in `[0,1)`; the
index is `⌊q·n⌋`. -/
def drawIdx (q : Q) (n : Nat) : Nat :=
  (Q.trunc ⟨q.num * n, q.den⟩).toNat % (max n 1)

/-- Modelled from the spec: `std::shuffle` of the candidate list, drawing
one stream value per element and moving the drawn element to the front. -/
def shuffleGo (stream : Nat → Q) : Nat → List Nat → Nat → List Nat × Nat
  | 0, l, k => (l, k)
  | n + 1, l, k =>
    let j := drawIdx (stream k) l.length
    let x := l.getD j 0
    let rest := l.take j ++ l.drop (j + 1)
    let (tl, k') := shuffleGo stream n rest (k + 1)
    (x :: tl, k')

/-- `Planner::expand_lowlevel_tree(H, L)` of lacam2: below depth `N`,
take the next agent in `H`'s order, collect its current vertex's
neighbors plus the vertex itself, shuffle when an RNG is present, and
return the child constraint frames to enqueue (with the advanced entropy
counter). -/
def expand_lowlevel_tree (ins : Inst) (rngOn : Bool) (stream : Nat → Q)
    (H : HN) (L : LNode) (k : Nat) : List LNode × Nat :=
  if L.depth ≥ ins.N then ([], k)
  else
    let i := H.order.getD L.depth 0
    let cand := ins.adj (H.C.getD i 0) ++ [H.C.getD i 0]
    let (cand2, k') :=
      if rngOn then shuffleGo stream cand.length cand k else (cand, k)
    (cand2.map (fun v => .child L i v), k')

/-- The `for (auto n_to : n_from->neighbor)` relaxation loop of lacam2's
`rewrite`: relax each neighbor of `n_from`, collecting relaxed nodes for
the queue and pushing improved nodes onto `OPEN` when a goal bound
exists. -/
def relaxNbrs (objective : Objective) (goals : List Nat) (N : Nat)
    (hGoal : Option Nat) (n_from : Nat) :
    List Nat → (Nat → HN) → List Nat → List Nat →
    (Nat → HN) × List Nat × List Nat
  | [], arena, qAcc, OPEN => (arena, qAcc, OPEN)
  | n_to :: rest, arena, qAcc, OPEN =>
    let g_val := (arena n_from).g +
      get_edge_cost objective goals N (arena n_from).C (arena n_to).C
    if g_val < (arena n_to).g then
      let arena' := upd arena n_to
        { arena n_to with g := g_val, f := g_val + (arena n_to).h,
                          parent := some n_from }
      let OPEN' :=
        match hGoal with
        | some gi =>
          if g_val + (arena n_to).h < (arena' gi).f then n_to :: OPEN else OPEN
        | none => OPEN
      relaxNbrs objective goals N hGoal n_from rest arena' (qAcc ++ [n_to]) OPEN'
    else relaxNbrs objective goals N hGoal n_from rest arena qAcc OPEN

/-- The Dijkstra-update queue loop of lacam2's `rewrite`; fuel bounds the
number of popped queue entries. -/
def rewriteGo (objective : Objective) (goals : List Nat) (N : Nat)
    (hGoal : Option Nat) :
    Nat → List Nat → (Nat → HN) → List Nat → Option ((Nat → HN) × List Nat)
  | 0, _, _, _ => none
  | _ + 1, [], arena, OPEN => some (arena, OPEN)
  | fuel + 1, n_from :: Qrest, arena, OPEN =>
    let (arena', qNew, OPEN') :=
      relaxNbrs objective goals N hGoal n_from (arena n_from).neighbor
        arena [] OPEN
    rewriteGo objective goals N hGoal fuel (Qrest ++ qNew) arena' OPEN'

/-- `Planner::rewrite(H_from, H_to, H_goal, OPEN)` of lacam2: record the
directed neighbor edge, then run the BFS-order relaxation from `H_from`,
pushing improved nodes onto `OPEN` under a goal bound. -/
def rewrite (objective : Objective) (goals : List Nat) (N : Nat)
    (fuel : Nat) (arena : Nat → HN) (OPEN : List Nat)
    (H_from H_to : Nat) (hGoal : Option Nat) :
    Option ((Nat → HN) × List Nat) :=
  let arena0 := upd arena H_from
    { arena H_from with neighbor := nbrInsert (arena H_from).neighbor H_to }
  rewriteGo objective goals N hGoal fuel [H_from] arena0 OPEN

end Lacam2

namespace Lacam2

/-- Allocate a freshly constructed node at index `size` and perform the
constructor's `parent->neighbor.insert(this)`. -/
def allocHN (arena : Nat → HN) (size : Nat) (hn : HN) (parent : Option Nat) :
    (Nat → HN) × Nat :=
  let arena1 := upd arena size hn
  let arena2 :=
    match parent with
    | some p =>
      upd arena1 p
        { arena1 p with neighbor := nbrInsert (arena1 p).neighbor size }
    | none => arena1
  (arena2, size + 1)

/-- The explored-hit branch of lacam2's `solve`: call `rewrite` on the
pair, then either re-insert the hit node (when an RNG is present and its
draw clears the restart rate) or the root `H_init` (index 0), gating the
push on `H_goal == nullptr || H_insert->f < H_goal->f`.  Returns the
updated arena, `OPEN`, and entropy counter. -/
def hit_branch (objective : Objective) (goals : List Nat) (N : Nat)
    (restart_rate : Q) (rngOn : Bool) (stream : Nat → Q) (fuel : Nat)
    (arena : Nat → HN) (OPEN : List Nat) (Hidx hitIdx : Nat)
    (hGoal : Option Nat) (k : Nat) : Option ((Nat → HN) × List Nat × Nat) :=
  match rewrite objective goals N fuel arena OPEN Hidx hitIdx hGoal with
  | none => none
  | some (arena', OPEN') =>
    let draw : Bool × Nat :=
      if rngOn then (Q.ble restart_rate (stream k), k + 1) else (false, k)
    let H_insert := if draw.1 then hitIdx else 0
    let push :=
      match hGoal with
      | none => true
      | some gi => decide ((arena' H_insert).f < (arena' gi).f)
    some (arena', (if push then H_insert :: OPEN' else OPEN'), draw.2)

/-- The DFS loop of lacam2's `solve`, one recursive call per `while`
iteration.  `hGoal` is the loop-local `H_goal` (an arena index); the loop
returns the final state together with it.  The second `Nat` argument of
each level is the rewrite fuel. -/
def loopGo (ins : Inst) (objective : Objective) (restart_rate : Q)
    (FLG_SWAP rngOn : Bool) (stream : Nat → Q) (ddl : Nat → Bool)
    (D : Nat → Nat → Nat) (rwFuel : Nat) :
    Nat → SState → Option Nat → Option (SState × Option Nat)
  | 0, _, _ => none
  | fuel + 1, s, hGoal =>
    match s.OPEN with
    | [] => some (s, hGoal)
    | Hidx :: rest =>
      if ddl s.loop_cnt then some (s, hGoal)
      else
        let s1 : SState := { s with loop_cnt := s.loop_cnt + 1 }
        let H := s1.arena Hidx
        if H.search_tree = [] then
          loopGo ins objective restart_rate FLG_SWAP rngOn stream ddl D rwFuel
            fuel { s1 with OPEN := rest } hGoal
        else if (match hGoal with
                 | some gi => decide ((s1.arena gi).f ≤ H.f)
                 | none => false) then
          loopGo ins objective restart_rate FLG_SWAP rngOn stream ddl D rwFuel
            fuel { s1 with OPEN := rest } hGoal
        else if hGoal = none ∧ is_same_config H.C ins.goals then
          some (s1, some Hidx)
        else
          let L := H.search_tree.headD .root
          let ex := expand_lowlevel_tree ins rngOn stream H L s1.scr.rngK
          let H1 : HN := { H with search_tree := H.search_tree.tail ++ ex.1 }
          let s2 : SState := { s1 with arena := upd s1.arena Hidx H1,
                                       scr := { s1.scr with rngK := ex.2 } }
          match get_new_config ins D ins.goals FLG_SWAP rngOn stream H1.C
              H1.order L s2.scr with
          | none => none
          | some (false, scr') =>
            loopGo ins objective restart_rate FLG_SWAP rngOn stream ddl D
              rwFuel fuel { s2 with scr := scr' } hGoal
          | some (true, scr') =>
            let C_new := (List.range ins.N).map (fun i => (scr'.v_next i).getD 0)
            let s3 : SState := { s2 with scr := scr' }
            match s3.explored.lookup C_new with
            | some hitIdx =>
              match hit_branch objective ins.goals ins.N restart_rate rngOn
                  stream rwFuel s3.arena s3.OPEN Hidx hitIdx hGoal
                  s3.scr.rngK with
              | none => none
              | some (arena', OPEN', k') =>
                loopGo ins objective restart_rate FLG_SWAP rngOn stream ddl D
                  rwFuel fuel
                  { s3 with arena := arena', OPEN := OPEN',
                            scr := { s3.scr with rngK := k' } } hGoal
            | none =>
              let g_new := H1.g + get_edge_cost objective ins.goals ins.N H1.C C_new
              let h_new := get_h_value objective D ins.N C_new
              let hn := makeHN D ins.N C_new (some Hidx) H1.priorities g_new h_new
              let al := allocHN s3.arena s3.size hn (some Hidx)
              let push :=
                match hGoal with
                | none => true
                | some gi => decide ((al.1 s3.size).f < (al.1 gi).f)
              loopGo ins objective restart_rate FLG_SWAP rngOn stream ddl D
                rwFuel fuel
                { s3 with arena := al.1, size := al.2,
                          explored := (C_new, s3.size) :: s3.explored,
                          OPEN := if push then s3.size :: s3.OPEN else s3.OPEN }
                hGoal

/-- The backtracking walk of `solve`: collect configurations from a node
to the root along parent pointers (goal first); fuel bounds the chain
length (`size` suffices, as parent chains strictly decrease `g`). -/
def backtrackGo (arena : Nat → HN) : Nat → Nat → Option (List (List Nat))
  | 0, _ => none
  | fuel + 1, idx =>
    match (arena idx).parent with
    | none => some [(arena idx).C]
    | some p =>
      match backtrackGo arena fuel p with
      | some l => some ((arena idx).C :: l)
      | none => none

/-- `Planner::solve` of lacam2 (together with the wrapping `solve`
function): set up the root node, run the DFS loop, backtrack from the
goal node if one was recorded, and render the `additional_info` lines.
`fuel` bounds both the number of loop iterations and each rewrite's queue
pops; `none` means the bound was hit before the C++ run would have
returned. -/
def solve (ins : Inst) (objective : Objective) (restart_rate : Q)
    (FLG_SWAP : Bool) (ddl : Nat → Bool) (rngOn : Bool) (stream : Nat → Q)
    (fuel : Nat) : Option (List (List Nat) × List String) :=
  let D := distTable ins
  let H_init := makeHN D ins.N ins.starts none [] 0
    (get_h_value objective D ins.N ins.starts)
  let s0 : SState :=
    { arena := fun _ => H_init, size := 1, explored := [(ins.starts, 0)],
      OPEN := [0], scr := PState.init, loop_cnt := 0 }
  match loopGo ins objective restart_rate FLG_SWAP rngOn stream ddl D fuel
      fuel s0 none with
  | none => none
  | some (s, hGoal) =>
    let solOpt : Option (List (List Nat)) :=
      match hGoal with
      | some gi =>
        match backtrackGo s.arena s.size gi with
        | some l => some l.reverse
        | none => none
      | none => some []
    match solOpt with
    | none => none
    | some solution =>
      let optimal : Bool := hGoal.isSome && s.OPEN.isEmpty
      some (solution,
        ["optimal=" ++ (if optimal then "1" else "0"),
         "objective=" ++ toString objective.code,
         "loop_cnt=" ++ toString s.loop_cnt,
         "num_node_gen=" ++ toString s.explored.length])

end Lacam2

namespace Lacam

/-- Modelled from the spec: lacam's `Constraint` constructor is not under
`src/`; per spec §3/§4.3 a low-level node carries flat arrays
`who[0..depth)` / `where[0..depth)` (here `loc`), the root being empty and
a child appending one `(agent, vertex)` pair. -/
structure Constraint where
  who : List Nat
  loc : List Nat
deriving DecidableEq, Repr

/-- The `depth` of a lacam constraint frame: the number of constrained
agents. -/
def Constraint.depth (M : Constraint) : Nat := M.who.length

/-- The child constraint `Constraint(M, i, v)`: append one pair. -/
def Constraint.child (M : Constraint) (i v : Nat) : Constraint :=
  ⟨M.who ++ [i], M.loc ++ [v]⟩

/-- A high-level node (`Node` of lacam), same data as lacam2's `HNode`
with the flat-array search tree. -/
structure HN where
  C : List Nat
  parent : Option Nat
  neighbor : List Nat
  g : Nat
  h : Nat
  f : Nat
  priorities : List Q
  order : List Nat
  search_tree : List Constraint
deriving Repr

/-- The descending-priority comparator of the order sort, as in lacam2. -/
def orderLe (priorities : List Q) (i j : Nat) : Bool :=
  Q.ble (priorities.getD j ⟨0, 1⟩) (priorities.getD i ⟨0, 1⟩)

/-- Modelled from the spec: lacam's `Node::Node` is not under `src/`; per
spec §4.2 it computes `f = g + h`, root priorities `d(i, C[i]) / N`,
child priorities as in lacam2 (`+1` off goal, drop the integer part on
goal), the order as `[0..N)` sorted by descending priority (stable
tie-break by index), and a search tree holding one empty frame.  The
parent-neighbor insertion is done by the allocation helper. -/
def makeHN (D : Nat → Nat → Nat) (N : Nat) (C : List Nat)
    (parent : Option Nat) (parentPr : List Q) (g h : Nat) : HN :=
  let priorities : List Q :=
    match parent with
    | none => (List.range N).map (fun i => Q.divNat (Q.ofNat (D i (C.getD i 0))) N)
    | some _ =>
      (List.range N).map (fun i =>
        if D i (C.getD i 0) ≠ 0 then
          Q.add (parentPr.getD i ⟨0, 1⟩) (Q.ofNat 1)
        else
          Q.sub (parentPr.getD i ⟨0, 1⟩)
            ⟨Q.trunc (parentPr.getD i ⟨0, 1⟩), 1⟩)
  { C := C, parent := parent, neighbor := [], g := g, h := h, f := g + h,
    priorities := priorities,
    order := isortLe (orderLe priorities) (List.range N),
    search_tree := [⟨[], []⟩] }

/-- The tie-breaker loop of lacam's `funcPIBT`, identical to lacam2's. -/
def setTies (rngOn : Bool) (stream : Nat → Q) : List Nat → PState → PState
  | [], s => s
  | u :: rest, s =>
    if rngOn then
      setTies rngOn stream rest
        { s with tie_breakers := upd s.tie_breakers u (stream s.rngK),
                 rngK := s.rngK + 1 }
    else setTies rngOn stream rest s

/-- The main candidate loop of lacam's `funcPIBT(ai, aj)`: skip reserved
vertices, the caller `aj`'s current vertex, and head-on swaps; reserve;
return success on an empty vertex or a stay; otherwise inherit priority
into the occupant when unassigned, moving on if that fails.  When all
candidates fail, retake `ai->v_now` and report failure. -/
def pibtLoop (rec : Nat → Option Nat → PState → Option (Bool × PState))
    (ai vnow : Nat) (aj : Option Nat) :
    List Nat → PState → Option (Bool × PState)
  | [], s =>
    some (false, { s with occupied_next := upd s.occupied_next vnow (some ai),
                          v_next := upd s.v_next ai (some vnow) })
  | u :: rest, s =>
    if s.occupied_next u ≠ none then pibtLoop rec ai vnow aj rest s
    else if (match aj with
             | some a => decide (u = (s.v_now a).getD 0)
             | none => false) then
      pibtLoop rec ai vnow aj rest s
    else
      match s.occupied_now u with
      | none =>
        some (true, { s with occupied_next := upd s.occupied_next u (some ai),
                             v_next := upd s.v_next ai (some u) })
      | some ak =>
        if s.v_next ak = some vnow then pibtLoop rec ai vnow aj rest s
        else
          let s1 : PState :=
            { s with occupied_next := upd s.occupied_next u (some ai),
                     v_next := upd s.v_next ai (some u) }
          if u = vnow then some (true, s1)
          else if s1.v_next ak = none then
            match rec ak (some ai) s1 with
            | none => none
            | some (false, s2) => pibtLoop rec ai vnow aj rest s2
            | some (true, s2) => some (true, s2)
          else some (true, s1)

/-- `Planner::funcPIBT(ai, aj)` of lacam: collect and sort the candidate
next vertices by distance plus tie-breaker, then run the main candidate
loop; `aj` is the caller during priority inheritance (null at top
level). -/
def funcPIBT (ins : Inst) (D : Nat → Nat → Nat) (rngOn : Bool)
    (stream : Nat → Q) : Nat → Nat → Option Nat → PState →
    Option (Bool × PState)
  | 0, _, _, _ => none
  | fuel + 1, ai, aj, s =>
    let vnow := (s.v_now ai).getD 0
    let nbrs := ins.adj vnow
    let s := setTies rngOn stream nbrs s
    let key : Nat → Q := fun v => Q.add (Q.ofNat (D ai v)) (s.tie_breakers v)
    let cand := isortLe (fun v u => Q.ble (key v) (key u)) (nbrs ++ [vnow])
    pibtLoop (funcPIBT ins D rngOn stream fuel) ai vnow aj cand s

/-- The cache-setup loop of lacam's `get_new_config`, identical to
lacam2's (`Lacam2.resetAgent`/`resetAll` are reused verbatim). -/
def resetAll (C : List Nat) : List Nat → PState → PState :=
  Lacam2.resetAll C

/-- The constraint-installation loop of lacam's `get_new_config`: iterate
the flat `(who, where)` pairs in index order (root to leaf), rejecting
vertex and swap conflicts and reserving each constrained agent's
target. -/
def addConstraints (C : List Nat) : List (Nat × Nat) → PState → Bool × PState
  | [], s => (true, s)
  | (i, l) :: rest, s =>
    if s.occupied_next l ≠ none then (false, s)
    else
      let l_pre := C.getD i 0
      if (match s.occupied_next l_pre, s.occupied_now l with
          | some x, some y => decide (x = y)
          | _, _ => false) then (false, s)
      else
        addConstraints C rest
          { s with v_next := upd s.v_next i (some l),
                   occupied_next := upd s.occupied_next l (some i) }

/-- The PIBT loop of lacam's `get_new_config`: top-level `funcPIBT(a)`
calls (null caller) in priority order. -/
def pibtAll (ins : Inst) (D : Nat → Nat → Nat) (rngOn : Bool)
    (stream : Nat → Q) : List Nat → PState → Option (Bool × PState)
  | [], s => some (true, s)
  | k :: rest, s =>
    if s.v_next k = none then
      match funcPIBT ins D rngOn stream (ins.N + 1) k none s with
      | none => none
      | some (false, s') => some (false, s')
      | some (true, s') => pibtAll ins D rngOn stream rest s'
    else pibtAll ins D rngOn stream rest s

/-- `Planner::get_new_config(S, M)` of lacam: reset caches, install the
flat constraints root-to-leaf, then complete the step with PIBT. -/
def get_new_config (ins : Inst) (D : Nat → Nat → Nat) (rngOn : Bool)
    (stream : Nat → Q) (C : List Nat) (order : List Nat) (M : Constraint)
    (s : PState) : Option (Bool × PState) :=
  let s0 := resetAll C (List.range ins.N) s
  match addConstraints C (M.who.zip M.loc) s0 with
  | (false, s1) => some (false, s1)
  | (true, s1) => pibtAll ins D rngOn stream order s1

/-- `Planner::expand_lowlevel_tree(S, M)` of lacam: as in lacam2, with
flat-array child constraints. -/
def expand_lowlevel_tree (ins : Inst) (rngOn : Bool) (stream : Nat → Q)
    (S : HN) (M : Constraint) (k : Nat) : List Constraint × Nat :=
  if M.depth ≥ ins.N then ([], k)
  else
    let i := S.order.getD M.depth 0
    let cand := ins.adj (S.C.getD i 0) ++ [S.C.getD i 0]
    let (cand2, k') :=
      if rngOn then Lacam2.shuffleGo stream cand.length cand k else (cand, k)
    (cand2.map (fun v => M.child i v), k')

end Lacam

namespace Lacam

/-- The search state of lacam's `solve`: arena, `CLOSED` map, `OPEN`
stack, scratch buffers, loop counter, and the improvement-history lists
`hist_cost`/`hist_time`. -/
structure SState where
  arena : Nat → HN
  size : Nat
  explored : List (List Nat × Nat)
  OPEN : List Nat
  scr : PState
  loop_cnt : Nat
  hist_cost : List Nat
  hist_time : List Nat

/-- `Planner::update_hist`: when a goal node exists, append its current
`g` and the elapsed time to the history lists.  `elapsedNow` models the
opaque clock read `elapsed_ms(deadline)`. -/
def update_hist (hGoal : Option Nat) (elapsedNow : Nat) (s : SState) : SState :=
  match hGoal with
  | none => s
  | some gi =>
    { s with hist_cost := s.hist_cost ++ [(s.arena gi).g],
             hist_time := s.hist_time ++ [elapsedNow] }

/-- The relaxation loop over `U->neighbor` inside lacam's `rewrite`,
including the `U == S && W != T` skip of the first round, the goal-cost
history update, and no `OPEN` pushes (that line is commented out in
lacam).  Returns the updated arena, queue additions and history state. -/
def relaxNbrs (objective : Objective) (goals : List Nat) (N : Nat)
    (hGoal : Option Nat) (elapsedNow : Nat) (Sidx Tidx U : Nat)
    (firstRound : Bool) :
    List Nat → (Nat → HN) → List Nat → List Nat × List Nat →
    (Nat → HN) × List Nat × (List Nat × List Nat)
  | [], arena, qAcc, hist => (arena, qAcc, hist)
  | W :: rest, arena, qAcc, hist =>
    if firstRound ∧ U = Sidx ∧ W ≠ Tidx then
      relaxNbrs objective goals N hGoal elapsedNow Sidx Tidx U firstRound rest
        arena qAcc hist
    else
      let c := (arena U).g + get_edge_cost objective goals N (arena U).C (arena W).C
      if c < (arena W).g then
        let arena' := upd arena W
          { arena W with g := c, f := c + (arena W).h, parent := some U }
        let hist' :=
          if hGoal = some W then
            (hist.1 ++ [(arena' W).g], hist.2 ++ [elapsedNow])
          else hist
        relaxNbrs objective goals N hGoal elapsedNow Sidx Tidx U firstRound
          rest arena' (qAcc ++ [W]) hist'
      else
        relaxNbrs objective goals N hGoal elapsedNow Sidx Tidx U firstRound
          rest arena qAcc hist

/-- The BFS queue loop of lacam's `rewrite`. -/
def rewriteGo (objective : Objective) (goals : List Nat) (N : Nat)
    (hGoal : Option Nat) (elapsedNow : Nat) (Sidx Tidx : Nat) :
    Nat → List Nat → (Nat → HN) → List Nat × List Nat →
    Option ((Nat → HN) × (List Nat × List Nat))
  | 0, _, _, _ => none
  | _ + 1, [], arena, hist => some (arena, hist)
  | fuel + 1, U :: Qrest, arena, hist =>
    let r := relaxNbrs objective goals N hGoal elapsedNow Sidx Tidx U
      (decide (U = Sidx)) (arena U).neighbor arena [] hist
    rewriteGo objective goals N hGoal elapsedNow Sidx Tidx fuel
      (Qrest ++ r.2.1) r.1 r.2.2

/-- `Planner::rewrite(S, T)` of lacam: record the undirected neighbor
edge, return early unless the new path to `T` is strictly cheaper, then
run the BFS relaxation (whose first round only relaxes `T` from `S`). -/
def rewrite (objective : Objective) (goals : List Nat) (N : Nat)
    (fuel : Nat) (arena : Nat → HN) (Sidx Tidx : Nat) (hGoal : Option Nat)
    (elapsedNow : Nat) (hist : List Nat × List Nat) :
    Option ((Nat → HN) × (List Nat × List Nat)) :=
  let arena0 := upd arena Sidx
    { arena Sidx with neighbor := nbrInsert (arena Sidx).neighbor Tidx }
  let arena1 := upd arena0 Tidx
    { arena0 Tidx with neighbor := nbrInsert (arena0 Tidx).neighbor Sidx }
  let c := (arena1 Sidx).g +
    get_edge_cost objective goals N (arena1 Sidx).C (arena1 Tidx).C
  if c ≥ (arena1 Tidx).g then some (arena1, hist)
  else rewriteGo objective goals N hGoal elapsedNow Sidx Tidx fuel [Sidx]
    arena1 hist

/-- Modelled from the spec: `get_random_float` is utility code not under
`src/`; per spec §6 it returns a value in `[0,1)` from the RNG, and per
§4.4 runs without an RNG are deterministic with zero tie-breakers, so the
null-RNG draw is the constant 0 and consumes no entropy. -/
def get_random_float (rngOn : Bool) (stream : Nat → Q) (k : Nat) : Q × Nat :=
  if rngOn then (stream k, k + 1) else (⟨0, 1⟩, k)

/-- The explored-hit branch of lacam's `solve`: rewrite, then re-insert
the hit node if the (unguarded) random draw clears the restart rate, else
the root, gating the push on the goal bound. -/
def hit_branch (objective : Objective) (goals : List Nat) (N : Nat)
    (restart_rate : Q) (rngOn : Bool) (stream : Nat → Q) (fuel : Nat)
    (arena : Nat → HN) (OPEN : List Nat) (Sidx hitIdx : Nat)
    (hGoal : Option Nat) (elapsedNow : Nat) (hist : List Nat × List Nat)
    (k : Nat) :
    Option ((Nat → HN) × List Nat × (List Nat × List Nat) × Nat) :=
  match rewrite objective goals N fuel arena Sidx hitIdx hGoal elapsedNow hist with
  | none => none
  | some (arena', hist') =>
    let draw := get_random_float rngOn stream k
    let T := if Q.ble restart_rate draw.1 then hitIdx else 0
    let push :=
      match hGoal with
      | none => true
      | some gi => decide ((arena' T).f < (arena' gi).f)
    some (arena', (if push then T :: OPEN else OPEN), hist', draw.2)

/-- Allocate a freshly constructed node at index `size`; per spec §4.2
the constructor inserts the node into its parent's neighbor set. -/
def allocHN (arena : Nat → HN) (size : Nat) (hn : HN) (parent : Option Nat) :
    (Nat → HN) × Nat :=
  let arena1 := upd arena size hn
  let arena2 :=
    match parent with
    | some p =>
      upd arena1 p
        { arena1 p with neighbor := nbrInsert (arena1 p).neighbor size }
    | none => arena1
  (arena2, size + 1)

/-- The DFS loop of lacam's `solve`: no bound pruning (commented out in
the source); on first reaching the goal configuration record `S_goal`,
update the history, and break only under `OBJ_NONE`, otherwise keep
searching; the goal node `S_goal` persists across iterations. -/
def loopGo (ins : Inst) (objective : Objective) (restart_rate : Q)
    (rngOn : Bool) (stream : Nat → Q) (ddl : Nat → Bool)
    (elapsedF : Nat → Nat) (D : Nat → Nat → Nat) (rwFuel : Nat) :
    Nat → SState → Option Nat → Option (SState × Option Nat)
  | 0, _, _ => none
  | fuel + 1, s, hGoal =>
    match s.OPEN with
    | [] => some (s, hGoal)
    | Sidx :: rest =>
      if ddl s.loop_cnt then some (s, hGoal)
      else
        let s1 : SState := { s with loop_cnt := s.loop_cnt + 1 }
        let S := s1.arena Sidx
        if S.search_tree = [] then
          loopGo ins objective restart_rate rngOn stream ddl elapsedF D rwFuel
            fuel { s1 with OPEN := rest } hGoal
        else if hGoal = none ∧ is_same_config S.C ins.goals then
          let s2 := update_hist (some Sidx) (elapsedF s1.loop_cnt) s1
          if objective = OBJ_NONE then some (s2, some Sidx)
          else
            loopGo ins objective restart_rate rngOn stream ddl elapsedF D
              rwFuel fuel s2 (some Sidx)
        else
          let M := S.search_tree.headD ⟨[], []⟩
          let ex := expand_lowlevel_tree ins rngOn stream S M s1.scr.rngK
          let S1 : HN := { S with search_tree := S.search_tree.tail ++ ex.1 }
          let s2 : SState := { s1 with arena := upd s1.arena Sidx S1,
                                       scr := { s1.scr with rngK := ex.2 } }
          match get_new_config ins D rngOn stream S1.C S1.order M s2.scr with
          | none => none
          | some (false, scr') =>
            loopGo ins objective restart_rate rngOn stream ddl elapsedF D
              rwFuel fuel { s2 with scr := scr' } hGoal
          | some (true, scr') =>
            let C_new := (List.range ins.N).map (fun i => (scr'.v_next i).getD 0)
            let s3 : SState := { s2 with scr := scr' }
            match s3.explored.lookup C_new with
            | some hitIdx =>
              match hit_branch objective ins.goals ins.N restart_rate rngOn
                  stream rwFuel s3.arena s3.OPEN Sidx hitIdx hGoal
                  (elapsedF s3.loop_cnt) (s3.hist_cost, s3.hist_time)
                  s3.scr.rngK with
              | none => none
              | some (arena', OPEN', hist', k') =>
                loopGo ins objective restart_rate rngOn stream ddl elapsedF D
                  rwFuel fuel
                  { s3 with arena := arena', OPEN := OPEN',
                            hist_cost := hist'.1, hist_time := hist'.2,
                            scr := { s3.scr with rngK := k' } } hGoal
            | none =>
              let g_new := S1.g + get_edge_cost objective ins.goals ins.N S1.C C_new
              let h_new := get_h_value objective D ins.N C_new
              let hn := makeHN D ins.N C_new (some Sidx) S1.priorities g_new h_new
              let al := allocHN s3.arena s3.size hn (some Sidx)
              let push :=
                match hGoal with
                | none => true
                | some gi => decide ((al.1 s3.size).f < (al.1 gi).f)
              loopGo ins objective restart_rate rngOn stream ddl elapsedF D
                rwFuel fuel
                { s3 with arena := al.1, size := al.2,
                          explored := (C_new, s3.size) :: s3.explored,
                          OPEN := if push then s3.size :: s3.OPEN else s3.OPEN }
                hGoal

/-- The backtracking walk of lacam's `solve`, as in lacam2. -/
def backtrackGo (arena : Nat → HN) : Nat → Nat → Option (List (List Nat))
  | 0, _ => none
  | fuel + 1, idx =>
    match (arena idx).parent with
    | none => some [(arena idx).C]
    | some p =>
      match backtrackGo arena fuel p with
      | some l => some ((arena idx).C :: l)
      | none => none

/-- Render `hist_cost=c1,c2,…` (each entry followed by a comma, as the
source's `+=` loop does). -/
def histLine (tag : String) (l : List Nat) : String :=
  tag ++ String.join (l.map (fun c => toString c ++ ","))

/-- `Planner::solve` of lacam: set up the root node, run the DFS loop,
backtrack from `S_goal` if recorded, and render the `additional_info`
lines including the improvement history. -/
def solve (ins : Inst) (objective : Objective) (restart_rate : Q)
    (ddl : Nat → Bool) (elapsedF : Nat → Nat) (rngOn : Bool)
    (stream : Nat → Q) (fuel : Nat) :
    Option (List (List Nat) × List String) :=
  let D := distTable ins
  let S_init := makeHN D ins.N ins.starts none [] 0
    (get_h_value objective D ins.N ins.starts)
  let s0 : SState :=
    { arena := fun _ => S_init, size := 1, explored := [(ins.starts, 0)],
      OPEN := [0], scr := PState.init, loop_cnt := 0,
      hist_cost := [], hist_time := [] }
  match loopGo ins objective restart_rate rngOn stream ddl elapsedF D fuel
      fuel s0 none with
  | none => none
  | some (s, hGoal) =>
    let solOpt : Option (List (List Nat)) :=
      match hGoal with
      | some gi =>
        match backtrackGo s.arena s.size gi with
        | some l => some l.reverse
        | none => none
      | none => some []
    match solOpt with
    | none => none
    | some solution =>
      let optimal : Bool := hGoal.isSome && s.OPEN.isEmpty
      let s1 := update_hist hGoal (elapsedF s.loop_cnt) s
      some (solution,
        ["optimal=" ++ (if optimal then "1" else "0"),
         "objective=" ++ toString objective.code,
         "loop_cnt=" ++ toString s1.loop_cnt,
         "num_node_gen=" ++ toString s1.explored.length,
         histLine "hist_cost=" s1.hist_cost,
         histLine "hist_time=" s1.hist_time])

end Lacam

/-! Concrete fixtures used by counterexamples and witnesses. -/

/-- A 2-vertex path instance with one agent going from 0 to 1. -/
def insA : Inst :=
  { V := 2, adj := fun v => [[1], [0]].getD v [], N := 1,
    starts := [0], goals := [1] }

/-- A 6-vertex instance (path 0-1-2-3-4 with branch 2-5) with two agents
exchanging ends, spec scenario S3. -/
def insB : Inst :=
  { V := 6, adj := fun v => [[1], [0, 2], [1, 3, 5], [2, 4], [3], [2]].getD v [],
    N := 2, starts := [0, 4], goals := [4, 0] }

/-- The all-zeros entropy stream. -/
def zeroStream : Nat → Q := fun _ => ⟨0, 1⟩

/-- A deadline that never expires. -/
def ddlNever : Nat → Bool := fun _ => false

/-- An arbitrary concrete clock for `elapsed_ms`. -/
def elapsedId : Nat → Nat := fun t => t

/-- A concrete lacam2 root node for `insA`. -/
def c3root : Lacam2.HN := Lacam2.makeHN (distTable insA) 1 [0] none [] 0 1

/-- A concrete lacam2 goal node for `insA` (configuration `[1]`). -/
def c3goal : Lacam2.HN :=
  Lacam2.makeHN (distTable insA) 1 [1] (some 0) c3root.priorities 1 0

/-- A concrete lacam2 search state whose `OPEN` top is the goal node. -/
def c3state : Lacam2.SState :=
  { arena := fun j => if j = 1 then c3goal else c3root, size := 2,
    explored := [([1], 1), ([0], 0)], OPEN := [1, 0], scr := PState.init,
    loop_cnt := 1 }

/-- A concrete lacam root node for `insA`. -/
def c3rootL : Lacam.HN := Lacam.makeHN (distTable insA) 1 [0] none [] 0 1

/-- A concrete lacam goal node for `insA` (configuration `[1]`). -/
def c3goalL : Lacam.HN :=
  Lacam.makeHN (distTable insA) 1 [1] (some 0) c3rootL.priorities 1 0

/-- A concrete lacam search state whose `OPEN` top is the goal node. -/
def c3stateL : Lacam.SState :=
  { arena := fun j => if j = 1 then c3goalL else c3rootL, size := 2,
    explored := [([1], 1), ([0], 0)], OPEN := [1, 0], scr := PState.init,
    loop_cnt := 1, hist_cost := [], hist_time := [] }


/-- Consistency of the `occupied_now` buffer: every occupied entry holds
a real agent standing there (spec §4.4 step 1). -/
def NowConsistent (N : Nat) (s : PState) : Prop :=
  ∀ v a, s.occupied_now v = some a → a < N ∧ s.v_now a = some v

/-- Consistency of the `occupied_next` buffer: every reservation is owned
by the agent whose `v_next` is that vertex.  This is the invariant behind
"one live reservation per agent": two slots held by the same agent would
force equal vertices. -/
def NextConsistent (N : Nat) (s : PState) : Prop :=
  ∀ v b, s.occupied_next v = some b → b < N ∧ s.v_next b = some v

/-- Completeness of `occupied_now`: every agent stands somewhere and its
vertex maps back to it; entails that `v_now` is injective on agents. -/
def NowComplete (N : Nat) (s : PState) : Prop :=
  ∀ a < N, ∃ v, s.v_now a = some v ∧ s.occupied_now v = some a

/-- No two agents are committed to exchanging vertices (spec P4 at the
scratch-state level). -/
def NoSwapInv (N : Nat) (s : PState) : Prop :=
  ∀ a < N, ∀ b < N, a ≠ b →
    ¬(s.v_next a = s.v_now b ∧ s.v_next b = s.v_now a)

/-- Every committed next vertex is a neighbor of, or equal to, the
agent's current vertex (spec P2 at the scratch-state level). -/
def AdjInv (ins : Inst) (s : PState) : Prop :=
  ∀ a < ins.N, ∀ u, s.v_next a = some u →
    u ∈ ins.adj ((s.v_now a).getD 0) ∨ u = (s.v_now a).getD 0

/-- Agent `b`'s commitment (if any) is backed by a live reservation in
`occupied_next`; unassigned agents are vacuously good. -/
def Good (s : PState) (b : Nat) : Prop :=
  ∀ u, s.v_next b = some u → s.occupied_next u = some b

/-- The bundled PIBT scratch-state invariant. -/
def PInv (ins : Inst) (s : PState) : Prop :=
  NowConsistent ins.N s ∧ NextConsistent ins.N s ∧ NowComplete ins.N s ∧
  NoSwapInv ins.N s ∧ AdjInv ins s

/-- The contract of one `funcPIBT` call (or of its candidate loop) for
agent `ai` standing on `vnow`, relating the state `s` before to the
state `s'` and the returned boolean `r` after: the scratch invariant is
preserved, the current configuration is untouched, commitments of other
agents are never lost, backed reservations of other agents survive
(except, on failure, the reservation covering `ai`'s own vertex, which
the exhaustion write retakes), `ai` ends backed, every reservation moved
by a failed call now belongs to an agent standing on it, failure ends
with `ai` re-reserving its own vertex, and success ends with `ai`
assigned. -/
def PibtPost (ins : Inst) (ai vnow : Nat) (s : PState) (r : Bool)
    (s' : PState) : Prop :=
  PInv ins s' ∧
  s'.v_now = s.v_now ∧
  s'.occupied_now = s.occupied_now ∧
  (∀ b, b ≠ ai → ∀ w, s.v_next b = some w → s'.v_next b = some w) ∧
  (∀ b, b ≠ ai → Good s b →
    (r = false → s.occupied_next vnow ≠ some b) → Good s' b) ∧
  Good s' ai ∧
  (r = false → ∀ v, s'.occupied_next v = s.occupied_next v ∨
    ∃ c, s'.occupied_next v = some c ∧ s.v_now c = some v) ∧
  (r = false → s'.occupied_next vnow = some ai ∧ s'.v_next ai = some vnow) ∧
  (r = true → ∃ w, s'.v_next ai = some w)

/-- A 2-vertex instance with two agents facing each other, used to
exhibit a failing `funcPIBT` call: agent 1 is already committed to move
onto agent 0's vertex, so agent 0 has nowhere to go. -/
def insC : Inst :=
  { V := 2, adj := fun v => if v = 0 then [1] else if v = 1 then [0] else [],
    N := 2, starts := [0, 1], goals := [1, 0] }

/-- The scratch state for the failing-`funcPIBT` fixture: both agents in
place, agent 1 constrained onto vertex 0 (reservation installed). -/
def wPS : PState :=
  { v_now := fun a => if a < 2 then some a else none,
    v_next := fun a => if a = 1 then some 0 else none,
    occupied_now := fun v => if v < 2 then some v else none,
    occupied_next := fun v => if v = 0 then some 1 else none,
    tie_breakers := fun _ => ⟨0, 1⟩, rngK := 0 }

/-- The state left by the failing lacam2 `funcPIBT(0)` call on `wPS`. -/
def wPS2 : PState :=
  ((Lacam2.funcPIBT insC (fun _ _ => 0) [] false false zeroStream 3 0
      wPS).getD (false, wPS)).2

/-- The state left by the failing lacam `funcPIBT(0, null)` call on
`wPS`. -/
def wPSL : PState :=
  ((Lacam.funcPIBT insC (fun _ _ => 0) false zeroStream 3 0 none
      wPS).getD (false, wPS)).2

/-- The constrained agents of a lacam2 low-level chain, leaf to root. -/
def Lacam2.LNode.whos : Lacam2.LNode → List Nat
  | .root => []
  | .child p who _ => who :: Lacam2.LNode.whos p

/-- Well-formedness of a lacam2 low-level node w.r.t. the owning
high-level node's configuration `C` and agent `order`: every frame
constrains the next agent of `order` at its depth (hence all constrained
agents are distinct) to a neighbor of, or to, its current vertex. -/
def Lacam2.treeFrame (ins : Inst) (C : List Nat) (order : List Nat) :
    Lacam2.LNode → Prop
  | .root => True
  | .child p who loc =>
      who = order.getD p.depth 0 ∧ who < ins.N ∧
      (loc ∈ ins.adj (C.getD who 0) ∨ loc = C.getD who 0) ∧
      p.depth < ins.N ∧ Lacam2.treeFrame ins C order p

/-- Well-formedness of a lacam constraint frame (flat arrays, root to
leaf): pair `d` constrains agent `order[d]` to a neighbor of, or to, its
current vertex. -/
def Lacam.frameOK (ins : Inst) (C : List Nat) (order : List Nat)
    (M : Lacam.Constraint) : Prop :=
  M.who.length = M.loc.length ∧ M.depth ≤ ins.N ∧
  ∀ d, d < M.depth →
    M.who.getD d 0 = order.getD d 0 ∧ M.who.getD d 0 < ins.N ∧
    (M.loc.getD d 0 ∈ ins.adj (C.getD (M.who.getD d 0) 0) ∨
      M.loc.getD d 0 = C.getD (M.who.getD d 0) 0)

/-- The structural invariant of the lacam2 node arena: the root (index
0) holds the start configuration at cost 0, every parent pointer goes to
a live node of strictly smaller `g` across a valid joint step, every
neighbor edge is a valid joint step, and stored configurations have
length `N`, are vertex-collision-free and pairwise distinct. -/
def Lacam2.ArenaOK (ins : Inst) (size : Nat)
    (arena : Nat → Lacam2.HN) : Prop :=
  (arena 0).parent = none ∧ (arena 0).C = ins.starts ∧ (arena 0).g = 0 ∧
  (∀ i, i < size → ∀ p, (arena i).parent = some p →
    p < size ∧ (arena p).g < (arena i).g ∧
    validStep ins (arena p).C (arena i).C) ∧
  (∀ i, i < size → (arena i).parent = none → (arena i).C = ins.starts) ∧
  (∀ i, i < size → ∀ j, j ∈ (arena i).neighbor →
    j < size ∧ validStep ins (arena i).C (arena j).C) ∧
  (∀ i, i < size → (arena i).C.length = ins.N) ∧
  (∀ i, i < size → stepNoVertexCollision ins (arena i).C) ∧
  (∀ i, i < size → ∀ j, j < size → i ≠ j → (arena i).C ≠ (arena j).C)

/-- The full invariant of lacam2's search loop state. -/
def Lacam2.SOK (ins : Inst) (s : Lacam2.SState) : Prop :=
  1 ≤ s.size ∧ Lacam2.ArenaOK ins s.size s.arena ∧
  (∀ k, k ∈ s.OPEN → k < s.size) ∧
  (∀ e, e ∈ s.explored → e.2 < s.size ∧ (s.arena e.2).C = e.1) ∧
  (∀ i, i < s.size → s.explored.lookup (s.arena i).C = some i) ∧
  (∀ i, i < s.size → (s.arena i).order.Perm (List.range ins.N)) ∧
  (∀ i, i < s.size → ∀ L, L ∈ (s.arena i).search_tree →
    Lacam2.treeFrame ins (s.arena i).C (s.arena i).order L) ∧
  NowConsistent ins.N s.scr ∧ NextConsistent ins.N s.scr

/-- The recorded-goal invariant of lacam2's loop: a recorded `H_goal`
names a live node holding the goal configuration. -/
def Lacam2.GoalOK (ins : Inst) (s : Lacam2.SState) (hg : Option Nat) :
    Prop :=
  ∀ gi, hg = some gi → gi < s.size ∧ (s.arena gi).C = ins.goals

/-- The structural invariant of the lacam node arena (same as lacam2's).
-/
def Lacam.ArenaOK (ins : Inst) (size : Nat)
    (arena : Nat → Lacam.HN) : Prop :=
  (arena 0).parent = none ∧ (arena 0).C = ins.starts ∧ (arena 0).g = 0 ∧
  (∀ i, i < size → ∀ p, (arena i).parent = some p →
    p < size ∧ (arena p).g < (arena i).g ∧
    validStep ins (arena p).C (arena i).C) ∧
  (∀ i, i < size → (arena i).parent = none → (arena i).C = ins.starts) ∧
  (∀ i, i < size → ∀ j, j ∈ (arena i).neighbor →
    j < size ∧ validStep ins (arena i).C (arena j).C) ∧
  (∀ i, i < size → (arena i).C.length = ins.N) ∧
  (∀ i, i < size → stepNoVertexCollision ins (arena i).C) ∧
  (∀ i, i < size → ∀ j, j < size → i ≠ j → (arena i).C ≠ (arena j).C)

/-- The full invariant of lacam's search loop state. -/
def Lacam.SOK (ins : Inst) (s : Lacam.SState) : Prop :=
  1 ≤ s.size ∧ Lacam.ArenaOK ins s.size s.arena ∧
  (∀ k, k ∈ s.OPEN → k < s.size) ∧
  (∀ e, e ∈ s.explored → e.2 < s.size ∧ (s.arena e.2).C = e.1) ∧
  (∀ i, i < s.size → s.explored.lookup (s.arena i).C = some i) ∧
  (∀ i, i < s.size → (s.arena i).order.Perm (List.range ins.N)) ∧
  (∀ i, i < s.size → ∀ M, M ∈ (s.arena i).search_tree →
    Lacam.frameOK ins (s.arena i).C (s.arena i).order M) ∧
  NowConsistent ins.N s.scr ∧ NextConsistent ins.N s.scr

/-- The recorded-goal invariant of lacam's loop. -/
def Lacam.GoalOK (ins : Inst) (s : Lacam.SState) (hg : Option Nat) :
    Prop :=
  ∀ gi, hg = some gi → gi < s.size ∧ (s.arena gi).C = ins.goals

/-- Intermediate state of `get_new_config`'s cache-setup loop after the
agents `[0, done)` have been processed: processed agents sit at their
configured vertex with no commitment, every remaining `occupied_next`
entry belongs to an unprocessed agent still committed to it, and every
`occupied_now` entry is either a processed agent's configured vertex or
an unprocessed agent's current vertex. -/
def ResetMid (C : List Nat) (N done : Nat) (s : PState) : Prop :=
  (∀ a, a < done → s.v_now a = some (C.getD a 0)) ∧
  (∀ a, a < done → s.v_next a = none) ∧
  (∀ a, a < done → s.occupied_now (C.getD a 0) = some a) ∧
  (∀ v c, s.occupied_next v = some c →
    c < N ∧ done ≤ c ∧ s.v_next c = some v) ∧
  (∀ v a, s.occupied_now v = some a →
    a < N ∧ ((a < done ∧ C.getD a 0 = v) ∨ (done ≤ a ∧ s.v_now a = some v)))

/-- Two lacam2 arenas agree on every field that identifies a node to the
explored map and the low-level search (`rewrite` touches only `g`, `f`,
`parent` and `neighbor`). -/
def Lacam2.sameFrame (arena arena' : Nat → Lacam2.HN) : Prop :=
  ∀ i, (arena' i).C = (arena i).C ∧ (arena' i).order = (arena i).order ∧
    (arena' i).search_tree = (arena i).search_tree

/-- Two lacam arenas agree on every field that identifies a node to the
explored map and the low-level search. -/
def Lacam.sameFrame (arena arena' : Nat → Lacam.HN) : Prop :=
  ∀ i, (arena' i).C = (arena i).C ∧ (arena' i).order = (arena i).order ∧
    (arena' i).search_tree = (arena i).search_tree


@[simp]
theorem upd_same {α : Type} (f : Nat → α) (i : Nat) (a : α) : upd f i a i = a := by
  simp [upd]

theorem upd_ne {α : Type} (f : Nat → α) (i : Nat) (a : α) {j : Nat} (h : j ≠ i) :
    upd f i a j = f j := by
  simp [upd, h]

@[simp]
theorem upd_apply {α : Type} (f : Nat → α) (i : Nat) (a : α) (j : Nat) :
    upd f i a j = if j = i then a else f j := rfl

theorem foldl_max_eq_sup (f : Nat → Nat) (N : Nat) :
    (List.range N).foldl (fun c i => max c (f i)) 0 = (Finset.range N).sup f := by
  induction N with
  | zero => simp
  | succ n ih =>
    rw [List.range_succ, List.foldl_append, ih, Finset.range_succ, Finset.sup_insert]
    simp only [List.foldl_cons, List.foldl_nil]
    exact Nat.max_comm _ _

theorem foldl_add_eq_sum (f : Nat → Nat) (N : Nat) :
    (List.range N).foldl (fun c i => c + f i) 0 = ∑ i ∈ Finset.range N, f i := by
  induction N with
  | zero => simp
  | succ n ih =>
    rw [List.range_succ, List.foldl_append, ih, Finset.sum_range_succ]
    simp

/-- C4 (amended): `get_h_value(C)` returns `max_i d(i, C[i])` under
`OBJ_MAKESPAN` in both planners and `Σ_i d(i, C[i])` under
`OBJ_SUM_OF_LOSS` in both planners; under `OBJ_NONE`, lacam2's
`get_h_value` falls through to the sum-of-loss formula, while lacam's
takes neither branch and returns 0. -/
theorem C4_get_h_value_characterisation (D : Nat → Nat → Nat) (N : Nat)
    (C : List Nat) :
    Lacam.get_h_value OBJ_MAKESPAN D N C =
      (Finset.range N).sup (fun i => D i (C.getD i 0)) ∧
    Lacam2.get_h_value OBJ_MAKESPAN D N C =
      (Finset.range N).sup (fun i => D i (C.getD i 0)) ∧
    Lacam.get_h_value OBJ_SUM_OF_LOSS D N C =
      (∑ i ∈ Finset.range N, D i (C.getD i 0)) ∧
    Lacam2.get_h_value OBJ_SUM_OF_LOSS D N C =
      (∑ i ∈ Finset.range N, D i (C.getD i 0)) ∧
    Lacam2.get_h_value OBJ_NONE D N C =
      (∑ i ∈ Finset.range N, D i (C.getD i 0)) ∧
    Lacam.get_h_value OBJ_NONE D N C = 0 := by
  refine ⟨?_, ?_, ?_, ?_, ?_, ?_⟩ <;>
    simp [Lacam.get_h_value, Lacam2.get_h_value, foldl_max_eq_sup,
      foldl_add_eq_sum]

/-- C4 counterexample: under `OBJ_NONE`, lacam's `get_h_value` does not
return the sum-of-loss value: with one agent at distance 1 from its goal
it returns 0 while `Σ_i d(i, C[i]) = 1`. -/
theorem C4_counterexample :
    Lacam.get_h_value OBJ_NONE (fun _ _ => 1) 1 [0] = 0 ∧
    (∑ i ∈ Finset.range 1, (fun _ _ => 1) i ([0].getD i 0)) = 1 := by
  constructor
  · rfl
  · simp

theorem insertLe_perm (le : α → α → Bool) (a : α) (l : List α) :
    (insertLe le a l).Perm (a :: l) := by
  induction l with
  | nil => simp [insertLe]
  | cons b t ih =>
    by_cases h : le a b = true
    · simp [insertLe, h]
    · simp only [insertLe, h, if_false]
      exact (ih.cons b).trans (List.Perm.swap a b t)

theorem isortLe_perm (le : α → α → Bool) (l : List α) :
    (isortLe le l).Perm l := by
  induction l with
  | nil => simp [isortLe]
  | cons a t ih => exact (insertLe_perm le a (isortLe le t)).trans (ih.cons a)

theorem isortLe_mem (le : α → α → Bool) (l : List α) {x : α} :
    x ∈ isortLe le l ↔ x ∈ l := (isortLe_perm le l).mem_iff

theorem pairwise_insertLe (le : α → α → Bool) (P : α → α → Prop) (a : α)
    (l : List α)
    (htot : ∀ x y, le x y = true ∨ le y x = true)
    (htrans : ∀ x y z, le x y = true → le y z = true → le x z = true)
    (hl : l.Pairwise (fun x y => le x y = true ∧ (le y x = true → P x y)))
    (ha : ∀ b ∈ l, P a b) :
    (insertLe le a l).Pairwise
      (fun x y => le x y = true ∧ (le y x = true → P x y)) := by
  induction l with
  | nil => simp [insertLe]
  | cons b t ih =>
    rcases List.pairwise_cons.mp hl with ⟨hb, ht⟩
    by_cases h : le a b = true
    · simp only [insertLe, h, if_true]
      refine List.pairwise_cons.mpr ⟨?_, hl⟩
      intro c hc
      rcases List.mem_cons.mp hc with rfl | hc
      · exact ⟨h, fun _ => ha c (by simp)⟩
      · exact ⟨htrans a b c h (hb c hc).1, fun _ => ha c (by simp [hc])⟩
    · simp only [insertLe, h, if_false]
      refine List.pairwise_cons.mpr
        ⟨?_, ih ht (fun c hc => ha c (by simp [hc]))⟩
      intro c hc
      rcases List.mem_cons.mp ((insertLe_perm le a t).mem_iff.mp hc) with rfl | hc
      · rcases htot c b with h1 | h1
        · exact absurd h1 h
        · exact ⟨h1, fun hbc => absurd hbc h⟩
      · exact hb c hc

theorem pairwise_isortLe (le : α → α → Bool) (P : α → α → Prop) (l : List α)
    (htot : ∀ x y, le x y = true ∨ le y x = true)
    (htrans : ∀ x y z, le x y = true → le y z = true → le x z = true)
    (hP : l.Pairwise P) :
    (isortLe le l).Pairwise
      (fun x y => le x y = true ∧ (le y x = true → P x y)) := by
  induction l with
  | nil => simp [isortLe]
  | cons a t ih =>
    rcases List.pairwise_cons.mp hP with ⟨hat, ht⟩
    exact pairwise_insertLe le P a (isortLe le t) htot htrans (ih ht)
      (fun b hb => hat b ((isortLe_perm le t).mem_iff.mp hb))

theorem Q.ble_total (a b : Q) : Q.ble a b = true ∨ Q.ble b a = true := by
  simp only [Q.ble, decide_eq_true_eq]
  omega

theorem Q.ble_trans {a b c : Q} (hb : 0 < b.den)
    (h1 : Q.ble a b = true) (h2 : Q.ble b c = true) : Q.ble a c = true := by
  simp only [Q.ble, decide_eq_true_eq] at *
  have hb' : (0 : ℤ) < (b.den : ℤ) := by exact_mod_cast hb
  have k1 := mul_le_mul_of_nonneg_right h1 (show (0:ℤ) ≤ (c.den : ℤ) by positivity)
  have k2 := mul_le_mul_of_nonneg_right h2 (show (0:ℤ) ≤ (a.den : ℤ) by positivity)
  nlinarith [k1, k2]

theorem Q.toRat_ofNat (n : Nat) : (Q.ofNat n).toRat = n := by
  simp [Q.toRat, Q.ofNat]

theorem Q.toRat_add {a b : Q} (ha : 0 < a.den) (hb : 0 < b.den) :
    (a.add b).toRat = a.toRat + b.toRat := by
  have ha' : ((a.den : ℚ)) ≠ 0 := by positivity
  have hb' : ((b.den : ℚ)) ≠ 0 := by positivity
  simp only [Q.toRat, Q.add]
  push_cast
  field_simp

theorem Q.toRat_sub {a b : Q} (ha : 0 < a.den) (hb : 0 < b.den) :
    (a.sub b).toRat = a.toRat - b.toRat := by
  have ha' : ((a.den : ℚ)) ≠ 0 := by positivity
  have hb' : ((b.den : ℚ)) ≠ 0 := by positivity
  simp only [Q.toRat, Q.sub]
  push_cast
  field_simp
  try ring

theorem Q.ble_iff {a b : Q} (ha : 0 < a.den) (hb : 0 < b.den) :
    Q.ble a b = true ↔ a.toRat ≤ b.toRat := by
  have ha' : (0 : ℚ) < (a.den : ℚ) := by positivity
  have hb' : (0 : ℚ) < (b.den : ℚ) := by positivity
  simp only [Q.ble, decide_eq_true_eq, Q.toRat, div_le_div_iff₀ ha' hb']
  constructor
  · intro h; exact_mod_cast h
  · intro h; exact_mod_cast h

theorem Q.toRat_nonneg {a : Q} (ha : 0 < a.den) : 0 ≤ a.toRat ↔ 0 ≤ a.num := by
  have ha' : (0 : ℚ) < (a.den : ℚ) := by positivity
  simp only [Q.toRat]
  rw [le_div_iff₀ ha']
  simp

theorem Q.trunc_eq_floor {a : Q} (hn : 0 ≤ a.num) (hd : 0 < a.den) :
    Q.trunc a = ⌊a.toRat⌋ := by
  simp only [Q.trunc, Q.toRat]
  rw [Rat.floor_intCast_div_natCast, Int.tdiv_eq_ediv hn (by positivity)]

theorem getD_mem_of_lt {α : Type} (l : List α) (i : Nat) (d : α)
    (h : i < l.length) : l.getD i d ∈ l := by
  rw [List.getD_eq_getElem?_getD, List.getElem?_eq_getElem h]
  exact List.getElem_mem h

theorem getD_map_range {α : Type} (f : Nat → α) {N i : Nat} (hi : i < N)
    (d : α) : ((List.range N).map f).getD i d = f i := by
  rw [List.getD_eq_getElem?_getD, List.getElem?_map, List.getElem?_range hi]
  rfl

theorem Q.toRat_intLit (t : Int) : (⟨t, 1⟩ : Q).toRat = t := by
  simp [Q.toRat]

theorem Q.blt_iff {a b : Q} (ha : 0 < a.den) (hb : 0 < b.den) :
    Q.blt a b = true ↔ a.toRat < b.toRat := by
  have ha' : (0 : ℚ) < (a.den : ℚ) := by positivity
  have hb' : (0 : ℚ) < (b.den : ℚ) := by positivity
  simp only [Q.blt, decide_eq_true_eq, Q.toRat, div_lt_div_iff₀ ha' hb']
  constructor
  · intro h; exact_mod_cast h
  · intro h; exact_mod_cast h

/-- The child-priority value of `makeHN` (both planners compute the same
expression): `parent + 1` off goal, `parent - (int)parent` on goal. -/
theorem makeHN_priorities_getD (D : Nat → Nat → Nat) (N : Nat) (C : List Nat)
    (pidx : Nat) (pr : List Q) (g h : Nat) {i : Nat} (hi : i < N) :
    (Lacam2.makeHN D N C (some pidx) pr g h).priorities.getD i ⟨0, 1⟩ =
      (if D i (C.getD i 0) ≠ 0 then
        Q.add (pr.getD i ⟨0, 1⟩) (Q.ofNat 1)
      else
        Q.sub (pr.getD i ⟨0, 1⟩) ⟨Q.trunc (pr.getD i ⟨0, 1⟩), 1⟩) := by
  simp only [Lacam2.makeHN]
  rw [getD_map_range _ hi]

theorem makeHN_order (D : Nat → Nat → Nat) (N : Nat) (C : List Nat)
    (pidx : Nat) (pr : List Q) (g h : Nat) :
    (Lacam2.makeHN D N C (some pidx) pr g h).order =
      isortLe (Lacam2.orderLe (Lacam2.makeHN D N C (some pidx) pr g h).priorities)
        (List.range N) := rfl

/-- Value-level characterisation of one child priority produced by
lacam2's `HNode` constructor. -/
theorem makeHN_child_prio_spec (D : Nat → Nat → Nat) (N : Nat) (C : List Nat)
    (pidx : Nat) (pr : List Q) (g h : Nat) (hlen : pr.length = N)
    (hden : ∀ q ∈ pr, 0 < q.den) (hnn : ∀ q ∈ pr, 0 ≤ q.toRat)
    {i : Nat} (hi : i < N) :
    (D i (C.getD i 0) ≠ 0 →
      ((Lacam2.makeHN D N C (some pidx) pr g h).priorities.getD i ⟨0,1⟩).toRat
        = (pr.getD i ⟨0,1⟩).toRat + 1) ∧
    (D i (C.getD i 0) = 0 →
      ((Lacam2.makeHN D N C (some pidx) pr g h).priorities.getD i ⟨0,1⟩).toRat
        = (pr.getD i ⟨0,1⟩).toRat - ⌊(pr.getD i ⟨0,1⟩).toRat⌋) ∧
    0 ≤ ((Lacam2.makeHN D N C (some pidx) pr g h).priorities.getD i ⟨0,1⟩).toRat := by
  have hmem : pr.getD i ⟨0,1⟩ ∈ pr := getD_mem_of_lt pr i _ (by omega)
  have hd : 0 < (pr.getD i ⟨0,1⟩).den := hden _ hmem
  have hn : 0 ≤ (pr.getD i ⟨0,1⟩).toRat := hnn _ hmem
  have hnum : 0 ≤ (pr.getD i ⟨0,1⟩).num := (Q.toRat_nonneg hd).mp hn
  simp only [makeHN_priorities_getD D N C pidx pr g h hi]
  by_cases hD : D i (C.getD i 0) = 0
  · rw [if_neg (by omega)]
    refine ⟨fun hc => absurd hD hc, fun _ => ?_, ?_⟩
    · rw [Q.toRat_sub hd (by norm_num), Q.toRat_intLit, Q.trunc_eq_floor hnum hd]
    · rw [Q.toRat_sub hd (by norm_num), Q.toRat_intLit, Q.trunc_eq_floor hnum hd,
        Int.self_sub_floor]
      exact Int.fract_nonneg _
  · rw [if_pos hD]
    refine ⟨fun _ => ?_, fun hc => absurd hc hD, ?_⟩
    · rw [Q.toRat_add hd (by decide), Q.toRat_ofNat]
      norm_num
    · rw [Q.toRat_add hd (by decide), Q.toRat_ofNat]
      push_cast
      linarith

theorem getD_eq_default_of_le {α : Type} (l : List α) {i : Nat} (d : α)
    (h : l.length ≤ i) : l.getD i d = d := by
  rw [List.getD_eq_getElem?_getD, List.getElem?_eq_none h]
  rfl

/-- The `iota`-then-sort order of an `HNode`, characterised for the
model's stable sort representative: a permutation of `[0, N)` pairwise
sorted by strictly descending priority with ties broken by ascending
index.  (Only the tie-order-independent consequences — permutation and
non-ascending priorities — reflect guarantees of the C++ `std::sort`.) -/
theorem order_sort_spec (P : List Q) (N : Nat)
    (hden : ∀ j, 0 < (P.getD j ⟨0,1⟩).den) :
    (isortLe (Lacam2.orderLe P) (List.range N)).Perm (List.range N) ∧
    (isortLe (Lacam2.orderLe P) (List.range N)).Pairwise (fun i j =>
      (P.getD j ⟨0,1⟩).toRat < (P.getD i ⟨0,1⟩).toRat ∨
      ((P.getD i ⟨0,1⟩).toRat = (P.getD j ⟨0,1⟩).toRat ∧ i < j)) := by
  refine ⟨isortLe_perm _ _, ?_⟩
  have htot : ∀ x y, Lacam2.orderLe P x y = true ∨ Lacam2.orderLe P y x = true :=
    fun x y => Q.ble_total _ _
  have htrans : ∀ x y z, Lacam2.orderLe P x y = true →
      Lacam2.orderLe P y z = true → Lacam2.orderLe P x z = true :=
    fun x y z h1 h2 => Q.ble_trans (hden y) h2 h1
  have hp := pairwise_isortLe (Lacam2.orderLe P) (· < ·) (List.range N) htot
    htrans (List.pairwise_lt_range N)
  refine hp.imp ?_
  intro a b hab
  rcases hab with ⟨h1, h2⟩
  have hba := (Q.ble_iff (hden b) (hden a)).mp h1
  by_cases heq : (P.getD a ⟨0,1⟩).toRat = (P.getD b ⟨0,1⟩).toRat
  · exact Or.inr ⟨heq, h2 ((Q.ble_iff (hden a) (hden b)).mpr (le_of_eq heq))⟩
  · exact Or.inl (lt_of_le_of_ne hba (fun hc => heq hc.symm))

/-- C7 (amended): on constructing a lacam2 `HNode` with a non-null
parent, `priorities[i] = parent.priorities[i] + 1` for every agent `i`
with `d(i, C[i]) ≠ 0` and `priorities[i] = parent.priorities[i]` minus
its integer part otherwise — so priorities stay nonnegative, strictly
increase for agents off goal, and reset to a fractional value (< 1) on
arrival — and `order` is a permutation of `[0, N)` arranged in
non-increasing priority order.  (The spec's further "stable tie-break by
agent index" is not guaranteed by the code: `std::sort` with the strict
comparator `priorities[i] > priorities[j]` leaves the tie order
unspecified — see `C7_counterexample`.) -/
theorem C7_hnode_construction (D : Nat → Nat → Nat) (N : Nat) (C : List Nat)
    (pidx : Nat) (pr : List Q) (g h : Nat) (hlen : pr.length = N)
    (hden : ∀ q ∈ pr, 0 < q.den) (hnn : ∀ q ∈ pr, 0 ≤ q.toRat) :
    (∀ i < N, D i (C.getD i 0) ≠ 0 →
      ((Lacam2.makeHN D N C (some pidx) pr g h).priorities.getD i ⟨0,1⟩).toRat
        = (pr.getD i ⟨0,1⟩).toRat + 1) ∧
    (∀ i < N, D i (C.getD i 0) = 0 →
      ((Lacam2.makeHN D N C (some pidx) pr g h).priorities.getD i ⟨0,1⟩).toRat
        = (pr.getD i ⟨0,1⟩).toRat - ⌊(pr.getD i ⟨0,1⟩).toRat⌋) ∧
    (∀ i < N,
      0 ≤ ((Lacam2.makeHN D N C (some pidx) pr g h).priorities.getD i ⟨0,1⟩).toRat) ∧
    (∀ i < N, D i (C.getD i 0) ≠ 0 →
      (pr.getD i ⟨0,1⟩).toRat <
        ((Lacam2.makeHN D N C (some pidx) pr g h).priorities.getD i ⟨0,1⟩).toRat) ∧
    (∀ i < N, D i (C.getD i 0) = 0 →
      ((Lacam2.makeHN D N C (some pidx) pr g h).priorities.getD i ⟨0,1⟩).toRat < 1) ∧
    (Lacam2.makeHN D N C (some pidx) pr g h).order.Perm (List.range N) ∧
    (Lacam2.makeHN D N C (some pidx) pr g h).order.Pairwise (fun i j =>
      ((Lacam2.makeHN D N C (some pidx) pr g h).priorities.getD j ⟨0,1⟩).toRat
        ≤ ((Lacam2.makeHN D N C (some pidx) pr g h).priorities.getD i
            ⟨0,1⟩).toRat) := by
  have key := fun {i : Nat} (hi : i < N) =>
    makeHN_child_prio_spec D N C pidx pr g h hlen hden hnn hi
  have hNden : ∀ j,
      0 < ((Lacam2.makeHN D N C (some pidx) pr g h).priorities.getD j ⟨0,1⟩).den := by
    intro j
    by_cases hj : j < N
    · rw [makeHN_priorities_getD D N C pidx pr g h hj]
      have hmem : pr.getD j ⟨0,1⟩ ∈ pr := getD_mem_of_lt pr j _ (by omega)
      have hd := hden _ hmem
      by_cases hD : D j (C.getD j 0) = 0
      · rw [if_neg (by omega)]
        simpa [Q.sub] using hd
      · rw [if_pos hD]
        simpa [Q.add, Q.ofNat] using hd
    · rw [getD_eq_default_of_le]
      · norm_num
      · have hl : (Lacam2.makeHN D N C (some pidx) pr g h).priorities.length = N := by
          simp [Lacam2.makeHN]
        omega
  obtain ⟨hperm, hpair⟩ :=
    order_sort_spec ((Lacam2.makeHN D N C (some pidx) pr g h).priorities) N hNden
  refine ⟨fun i hi hD => (key hi).1 hD, fun i hi hD => (key hi).2.1 hD,
    fun i hi => (key hi).2.2, ?_, ?_, hperm, hpair.imp (fun hab => ?_)⟩
  · intro i hi hD
    rw [(key hi).1 hD]
    linarith
  · intro i hi hD
    rw [(key hi).2.1 hD, Int.self_sub_floor]
    exact Int.fract_lt_one _
  · rcases hab with hlt | ⟨heq, -⟩
    · exact le_of_lt hlt
    · exact le_of_eq heq.symm

/-- Witness for C7 at a concrete two-agent node. -/
theorem C7_hnode_construction_witness :
    (Lacam2.makeHN (fun _ _ => 1) 2 [0, 0] (some 0) [⟨3, 2⟩, ⟨1, 1⟩] 0 0).order.Perm
      (List.range 2) :=
  (C7_hnode_construction (fun _ _ => 1) 2 [0, 0] 0 [⟨3, 2⟩, ⟨1, 1⟩] 0 0
    (by decide) (by decide)
    (by
      intro q hq
      rcases List.mem_cons.mp hq with rfl | hq
      · norm_num [Q.toRat]
      · rcases List.mem_cons.mp hq with rfl | hq
        · norm_num [Q.toRat]
        · simp at hq)).2.2.2.2.2.1

/-- Counterexample to the original C7: the stable tie-break by agent
index is not a consequence of the code's sort.  `std::sort` with the
strict comparator `priorities[i] > priorities[j]` only guarantees a
permutation in non-ascending priority order; at a two-agent child node
whose priorities tie (both parents' priorities 0 and both agents off
goal), the reversed order `[1, 0]` also satisfies everything the sort
contract guarantees, yet differs from the index-stable order `[0, 1]`
the claim asserts — so the claimed tie order is not determined by the
source. -/
theorem C7_counterexample :
    [1, 0].Perm (List.range 2) ∧
    List.Pairwise (fun i j =>
      Lacam2.orderLe (Lacam2.makeHN (fun _ _ => 1) 2 [0, 1] (some 0)
        [⟨0, 1⟩, ⟨0, 1⟩] 1 1).priorities i j = true) [1, 0] ∧
    [1, 0] ≠ (Lacam2.makeHN (fun _ _ => 1) 2 [0, 1] (some 0)
      [⟨0, 1⟩, ⟨0, 1⟩] 1 1).order :=
  ⟨by decide, by decide, by decide⟩

/-- One lacam2 loop iteration whose top node carries the goal
configuration (goal not yet recorded): the loop records it and breaks
immediately, whatever the objective. -/
theorem lacam2_goal_step (ins : Inst) (objective : Objective)
    (restart_rate : Q) (FLG_SWAP rngOn : Bool) (stream : Nat → Q)
    (ddl : Nat → Bool) (D : Nat → Nat → Nat) (rwFuel fuel : Nat)
    (s : Lacam2.SState) (Hidx : Nat) (rest : List Nat)
    (hOpen : s.OPEN = Hidx :: rest)
    (hddl : ddl s.loop_cnt = false)
    (htree : (s.arena Hidx).search_tree ≠ [])
    (hgoal : is_same_config (s.arena Hidx).C ins.goals = true) :
    Lacam2.loopGo ins objective restart_rate FLG_SWAP rngOn stream ddl D rwFuel
      (fuel + 1) s none =
      some ({ s with loop_cnt := s.loop_cnt + 1 }, some Hidx) := by
  simp only [Lacam2.loopGo, hOpen, hddl, Bool.false_eq_true, if_false, htree,
    hgoal, if_pos, and_true, if_true]

/-- One lacam loop iteration whose top node carries the goal configuration
(goal not yet recorded): the loop records `S_goal`, updates the history,
and breaks when the objective is `OBJ_NONE` but continues searching (with
`S_goal` set) otherwise. -/
theorem lacam_goal_step (ins : Inst) (objective : Objective)
    (restart_rate : Q) (rngOn : Bool) (stream : Nat → Q) (ddl : Nat → Bool)
    (elapsedF : Nat → Nat) (D : Nat → Nat → Nat) (rwFuel fuel : Nat)
    (s : Lacam.SState) (Sidx : Nat) (rest : List Nat)
    (hOpen : s.OPEN = Sidx :: rest)
    (hddl : ddl s.loop_cnt = false)
    (htree : (s.arena Sidx).search_tree ≠ [])
    (hgoal : is_same_config (s.arena Sidx).C ins.goals = true) :
    (objective = OBJ_NONE →
      Lacam.loopGo ins objective restart_rate rngOn stream ddl elapsedF D
        rwFuel (fuel + 1) s none =
        some (Lacam.update_hist (some Sidx) (elapsedF (s.loop_cnt + 1))
          { s with loop_cnt := s.loop_cnt + 1 }, some Sidx)) ∧
    (objective ≠ OBJ_NONE →
      Lacam.loopGo ins objective restart_rate rngOn stream ddl elapsedF D
        rwFuel (fuel + 1) s none =
        Lacam.loopGo ins objective restart_rate rngOn stream ddl elapsedF D
          rwFuel fuel
          (Lacam.update_hist (some Sidx) (elapsedF (s.loop_cnt + 1))
            { s with loop_cnt := s.loop_cnt + 1 }) (some Sidx)) := by
  constructor
  · intro h
    simp only [Lacam.loopGo, hOpen, hddl, Bool.false_eq_true, if_false, htree,
      hgoal, h, and_true, if_true]
  · intro h
    simp only [Lacam.loopGo, hOpen, hddl, Bool.false_eq_true, if_false, htree,
      hgoal, h, and_true, if_true]

/-- C3 (amended): when the top node's configuration first equals the
goals, lacam's solve loop records it as the goal node and terminates
immediately only when the objective is `OBJ_NONE` — under `OBJ_MAKESPAN`
or `OBJ_SUM_OF_LOSS` it continues exploring for improvement — while
lacam2's solve loop (whose objective test is commented out) records the
goal node and terminates immediately under every objective. -/
theorem C3_goal_break_behaviour :
    (∀ (ins : Inst) (objective : Objective) (restart_rate : Q) (rngOn : Bool)
      (stream : Nat → Q) (ddl : Nat → Bool) (elapsedF : Nat → Nat)
      (D : Nat → Nat → Nat) (rwFuel fuel : Nat) (s : Lacam.SState)
      (Sidx : Nat) (rest : List Nat),
      s.OPEN = Sidx :: rest →
      ddl s.loop_cnt = false →
      (s.arena Sidx).search_tree ≠ [] →
      is_same_config (s.arena Sidx).C ins.goals = true →
      (objective = OBJ_NONE →
        Lacam.loopGo ins objective restart_rate rngOn stream ddl elapsedF D
          rwFuel (fuel + 1) s none =
          some (Lacam.update_hist (some Sidx) (elapsedF (s.loop_cnt + 1))
            { s with loop_cnt := s.loop_cnt + 1 }, some Sidx)) ∧
      (objective ≠ OBJ_NONE →
        Lacam.loopGo ins objective restart_rate rngOn stream ddl elapsedF D
          rwFuel (fuel + 1) s none =
          Lacam.loopGo ins objective restart_rate rngOn stream ddl elapsedF D
            rwFuel fuel
            (Lacam.update_hist (some Sidx) (elapsedF (s.loop_cnt + 1))
              { s with loop_cnt := s.loop_cnt + 1 }) (some Sidx))) ∧
    (∀ (ins : Inst) (objective : Objective) (restart_rate : Q)
      (FLG_SWAP rngOn : Bool) (stream : Nat → Q) (ddl : Nat → Bool)
      (D : Nat → Nat → Nat) (rwFuel fuel : Nat) (s : Lacam2.SState)
      (Hidx : Nat) (rest : List Nat),
      s.OPEN = Hidx :: rest →
      ddl s.loop_cnt = false →
      (s.arena Hidx).search_tree ≠ [] →
      is_same_config (s.arena Hidx).C ins.goals = true →
      Lacam2.loopGo ins objective restart_rate FLG_SWAP rngOn stream ddl D
        rwFuel (fuel + 1) s none =
        some ({ s with loop_cnt := s.loop_cnt + 1 }, some Hidx)) :=
  ⟨fun ins objective restart_rate rngOn stream ddl elapsedF D rwFuel fuel s
      Sidx rest hOpen hddl htree hgoal =>
    lacam_goal_step ins objective restart_rate rngOn stream ddl elapsedF D
      rwFuel fuel s Sidx rest hOpen hddl htree hgoal,
   fun ins objective restart_rate FLG_SWAP rngOn stream ddl D rwFuel fuel s
      Hidx rest hOpen hddl htree hgoal =>
    lacam2_goal_step ins objective restart_rate FLG_SWAP rngOn stream ddl D
      rwFuel fuel s Hidx rest hOpen hddl htree hgoal⟩

/-- C3 counterexample: lacam2's loop, peeking a goal-configured top node
under `OBJ_MAKESPAN` (an objective other than `OBJ_NONE`), terminates at
once — recording the goal and returning with `OPEN` intact — rather than
continuing to explore as the claim states. -/
theorem C3_counterexample :
    (Lacam2.loopGo insA OBJ_MAKESPAN ⟨1, 100⟩ false false zeroStream ddlNever
        (distTable insA) 10 10 c3state none).map
        (fun r => (r.2, r.1.loop_cnt, r.1.OPEN)) =
      some (some 1, 2, [1, 0]) ∧
    OBJ_MAKESPAN ≠ OBJ_NONE := by
  constructor
  · rfl
  · decide

/-- Witness for C3 at a concrete goal-topped state of each planner. -/
theorem C3_goal_break_behaviour_witness :
    Lacam2.loopGo insA OBJ_SUM_OF_LOSS ⟨1, 100⟩ false false zeroStream ddlNever
      (distTable insA) 5 5 c3state none =
      some ({ c3state with loop_cnt := c3state.loop_cnt + 1 }, some 1) ∧
    Lacam.loopGo insA OBJ_NONE ⟨1, 100⟩ false zeroStream ddlNever elapsedId
      (distTable insA) 5 5 c3stateL none =
      some (Lacam.update_hist (some 1) (elapsedId (c3stateL.loop_cnt + 1))
        { c3stateL with loop_cnt := c3stateL.loop_cnt + 1 }, some 1) :=
  ⟨C3_goal_break_behaviour.2 insA OBJ_SUM_OF_LOSS ⟨1, 100⟩ false false
      zeroStream ddlNever (distTable insA) 5 4 c3state 1 [0] rfl rfl
      (by decide) (by decide),
   (C3_goal_break_behaviour.1 insA OBJ_NONE ⟨1, 100⟩ false zeroStream ddlNever
      elapsedId (distTable insA) 5 4 c3stateL 1 [0] rfl rfl (by decide)
      (by decide)).1 rfl⟩

/-- Whenever lacam2's loop (entered with no goal yet) returns with a goal
node recorded, it broke at the goal test, leaving the peeked goal node on
`OPEN`: the final `OPEN` is nonempty. -/
theorem lacam2_loop_goal_open_nonempty (ins : Inst) (objective : Objective)
    (restart_rate : Q) (FLG_SWAP rngOn : Bool) (stream : Nat → Q)
    (ddl : Nat → Bool) (D : Nat → Nat → Nat) (rwFuel : Nat) :
    ∀ (fuel : Nat) (s s' : Lacam2.SState) (gi : Nat),
      Lacam2.loopGo ins objective restart_rate FLG_SWAP rngOn stream ddl D
        rwFuel fuel s none = some (s', some gi) → s'.OPEN ≠ [] := by
  intro fuel
  induction fuel with
  | zero =>
    intro s s' gi h
    simp [Lacam2.loopGo] at h
  | succ n ih =>
    intro s s' gi h
    simp only [Lacam2.loopGo] at h
    split at h
    · simp at h
    · split at h
      · simp at h
      · split at h
        · exact ih _ _ _ h
        · split at h
          · exact ih _ _ _ h
          · split at h
            · have hs : s'.OPEN = s.OPEN := by
                have h2 := congrArg
                  (fun p : Lacam2.SState × Option Nat => p.1.OPEN)
                  (Option.some.inj h)
                simpa using h2.symm
              rw [hs]
              simp_all
            · split at h
              · simp at h
              · exact ih _ _ _ h
              · split at h
                · split at h
                  · simp at h
                  · exact ih _ _ _ h
                · exact ih _ _ _ h

/-- C10: lacam2's solve breaks out of the search loop at the first goal
configuration while the peeked goal node is still on `OPEN`, so `OPEN` is
never empty when `H_goal` is set, and the rendered `additional_info`
always starts with the line `optimal=0` (never `optimal=1`), whether or
not a solution was found. -/
theorem C10_lacam2_never_optimal :
    (∀ (ins : Inst) (objective : Objective) (restart_rate : Q)
      (FLG_SWAP rngOn : Bool) (stream : Nat → Q) (ddl : Nat → Bool)
      (D : Nat → Nat → Nat) (rwFuel fuel : Nat) (s s' : Lacam2.SState)
      (gi : Nat),
      Lacam2.loopGo ins objective restart_rate FLG_SWAP rngOn stream ddl D
        rwFuel fuel s none = some (s', some gi) → s'.OPEN ≠ []) ∧
    (∀ (ins : Inst) (objective : Objective) (restart_rate : Q)
      (FLG_SWAP : Bool) (ddl : Nat → Bool) (rngOn : Bool) (stream : Nat → Q)
      (fuel : Nat) (sol : List (List Nat)) (info : List String),
      Lacam2.solve ins objective restart_rate FLG_SWAP ddl rngOn stream fuel
        = some (sol, info) →
      ∃ rest, info = "optimal=0" :: rest) := by
  refine ⟨fun ins objective restart_rate FLG_SWAP rngOn stream ddl D rwFuel
      fuel s s' gi h =>
    lacam2_loop_goal_open_nonempty ins objective restart_rate FLG_SWAP rngOn
      stream ddl D rwFuel fuel s s' gi h, ?_⟩
  intro ins objective restart_rate FLG_SWAP ddl rngOn stream fuel sol info h
  simp only [Lacam2.solve] at h
  split at h
  · simp at h
  · next s hGoal heqLoop =>
    rcases hGoal with _ | gi
    · simp only [Option.isSome_none, Bool.false_and] at h
      rcases Option.some.inj h with ⟨rfl, rfl⟩
      exact ⟨_, rfl⟩
    · have hne : s.OPEN ≠ [] :=
        lacam2_loop_goal_open_nonempty ins objective restart_rate FLG_SWAP
          rngOn stream ddl (distTable ins) fuel fuel _ s gi heqLoop
      have hemp : s.OPEN.isEmpty = false := by
        rcases hO : s.OPEN with _ | ⟨a, t⟩
        · exact absurd hO hne
        · simp
      simp only [hemp, Bool.and_false] at h
      split at h
      · simp at h
      · rcases Option.some.inj h with ⟨rfl, rfl⟩
        exact ⟨_, rfl⟩

/-- Witness for C10 on a concrete solved run. -/
theorem C10_lacam2_never_optimal_witness :
    ∃ rest, (["optimal=0", "objective=1", "loop_cnt=2", "num_node_gen=2"] :
      List String) = "optimal=0" :: rest :=
  C10_lacam2_never_optimal.2 insA OBJ_MAKESPAN ⟨1, 100⟩ false ddlNever false
    zeroStream 50 [[0], [1]]
    ["optimal=0", "objective=1", "loop_cnt=2", "num_node_gen=2"] (by decide)

/-- The relaxation loop of lacam2's `rewrite` never increases any stored
`g`. -/
theorem lacam2_relaxNbrs_g_mono (objective : Objective) (goals : List Nat)
    (N : Nat) (hGoal : Option Nat) (n_from : Nat) :
    ∀ (l : List Nat) (arena : Nat → Lacam2.HN) (qAcc OPEN : List Nat)
      (i : Nat),
      ((Lacam2.relaxNbrs objective goals N hGoal n_from l arena qAcc OPEN).1 i).g
        ≤ (arena i).g := by
  intro l
  induction l with
  | nil => intro arena qAcc OPEN i; simp [Lacam2.relaxNbrs]
  | cons n_to rest ih =>
    intro arena qAcc OPEN i
    simp only [Lacam2.relaxNbrs]
    split
    · refine le_trans (ih _ _ _ i) ?_
      by_cases hi : i = n_to
      · subst hi
        simp only [upd_same]
        omega
      · rw [upd_ne _ _ _ hi]
    · exact ih _ _ _ i

/-- The queue loop of lacam2's `rewrite` never increases any stored
`g`. -/
theorem lacam2_rewriteGo_g_mono (objective : Objective) (goals : List Nat)
    (N : Nat) (hGoal : Option Nat) :
    ∀ (fuel : Nat) (Ql : List Nat) (arena : Nat → Lacam2.HN) (OPEN : List Nat)
      (arena' : Nat → Lacam2.HN) (OPEN' : List Nat),
      Lacam2.rewriteGo objective goals N hGoal fuel Ql arena OPEN
        = some (arena', OPEN') →
      ∀ i, (arena' i).g ≤ (arena i).g := by
  intro fuel
  induction fuel with
  | zero => intro Ql arena OPEN arena' OPEN' h; simp [Lacam2.rewriteGo] at h
  | succ n ih =>
    intro Ql arena OPEN arena' OPEN' h i
    match Ql, h with
    | [], h =>
      simp only [Lacam2.rewriteGo] at h
      rcases Option.some.inj h with ⟨rfl, rfl⟩
      exact le_refl _
    | n_from :: Qrest, h =>
      simp only [Lacam2.rewriteGo] at h
      exact le_trans (ih _ _ _ _ _ h i)
        (lacam2_relaxNbrs_g_mono objective goals N hGoal n_from _ arena [] OPEN i)

/-- lacam2's `rewrite` never increases any stored `g`. -/
theorem lacam2_rewrite_g_mono (objective : Objective) (goals : List Nat)
    (N : Nat) (fuel : Nat) (arena : Nat → Lacam2.HN) (OPEN : List Nat)
    (H_from H_to : Nat) (hGoal : Option Nat) (arena' : Nat → Lacam2.HN)
    (OPEN' : List Nat)
    (h : Lacam2.rewrite objective goals N fuel arena OPEN H_from H_to hGoal
      = some (arena', OPEN')) :
    ∀ i, (arena' i).g ≤ (arena i).g := by
  intro i
  simp only [Lacam2.rewrite] at h
  refine le_trans (lacam2_rewriteGo_g_mono objective goals N hGoal fuel _ _ _
    _ _ h i) ?_
  by_cases hi : i = H_from
  · subst hi; simp
  · rw [upd_ne _ _ _ hi]

/-- The relaxation loop of lacam's `rewrite` never increases any stored
`g`. -/
theorem lacam_relaxNbrs_g_mono (objective : Objective) (goals : List Nat)
    (N : Nat) (hGoal : Option Nat) (elapsedNow : Nat) (Sidx Tidx U : Nat)
    (firstRound : Bool) :
    ∀ (l : List Nat) (arena : Nat → Lacam.HN) (qAcc : List Nat)
      (hist : List Nat × List Nat) (i : Nat),
      ((Lacam.relaxNbrs objective goals N hGoal elapsedNow Sidx Tidx U
        firstRound l arena qAcc hist).1 i).g ≤ (arena i).g := by
  intro l
  induction l with
  | nil => intro arena qAcc hist i; simp [Lacam.relaxNbrs]
  | cons W rest ih =>
    intro arena qAcc hist i
    simp only [Lacam.relaxNbrs]
    split
    · exact ih _ _ _ i
    · split
      · refine le_trans (ih _ _ _ i) ?_
        by_cases hi : i = W
        · subst hi
          simp only [upd_same]
          omega
        · rw [upd_ne _ _ _ hi]
      · exact ih _ _ _ i

/-- The queue loop of lacam's `rewrite` never increases any stored `g`. -/
theorem lacam_rewriteGo_g_mono (objective : Objective) (goals : List Nat)
    (N : Nat) (hGoal : Option Nat) (elapsedNow : Nat) (Sidx Tidx : Nat) :
    ∀ (fuel : Nat) (Ql : List Nat) (arena : Nat → Lacam.HN)
      (hist : List Nat × List Nat) (arena' : Nat → Lacam.HN)
      (hist' : List Nat × List Nat),
      Lacam.rewriteGo objective goals N hGoal elapsedNow Sidx Tidx fuel Ql
        arena hist = some (arena', hist') →
      ∀ i, (arena' i).g ≤ (arena i).g := by
  intro fuel
  induction fuel with
  | zero => intro Ql arena hist arena' hist' h; simp [Lacam.rewriteGo] at h
  | succ n ih =>
    intro Ql arena hist arena' hist' h i
    match Ql, h with
    | [], h =>
      simp only [Lacam.rewriteGo] at h
      rcases Option.some.inj h with ⟨rfl, rfl⟩
      exact le_refl _
    | U :: Qrest, h =>
      simp only [Lacam.rewriteGo] at h
      exact le_trans (ih _ _ _ _ _ h i)
        (lacam_relaxNbrs_g_mono objective goals N hGoal elapsedNow Sidx Tidx U
          _ _ arena [] hist i)

/-- lacam's `rewrite` never increases any stored `g`. -/
theorem lacam_rewrite_g_mono (objective : Objective) (goals : List Nat)
    (N : Nat) (fuel : Nat) (arena : Nat → Lacam.HN) (Sidx Tidx : Nat)
    (hGoal : Option Nat) (elapsedNow : Nat) (hist : List Nat × List Nat)
    (arena' : Nat → Lacam.HN) (hist' : List Nat × List Nat)
    (h : Lacam.rewrite objective goals N fuel arena Sidx Tidx hGoal elapsedNow
      hist = some (arena', hist')) :
    ∀ i, (arena' i).g ≤ (arena i).g := by
  intro i
  simp only [Lacam.rewrite] at h
  have hbase : ∀ (j : Nat),
      ((upd (upd arena Sidx
          { arena Sidx with
            neighbor := nbrInsert (arena Sidx).neighbor Tidx })
        Tidx
        { (upd arena Sidx
            { arena Sidx with
              neighbor := nbrInsert (arena Sidx).neighbor Tidx }) Tidx with
          neighbor := nbrInsert ((upd arena Sidx
            { arena Sidx with
              neighbor := nbrInsert (arena Sidx).neighbor Tidx }) Tidx).neighbor
            Sidx }) j).g = (arena j).g := by
    intro j
    simp only [upd]
    by_cases hj : j = Tidx
    · rw [if_pos hj]
      by_cases hts : Tidx = Sidx
      · simp [hts, hj]
      · simp [hts, hj]
    · rw [if_neg hj]
      by_cases hs : j = Sidx
      · simp [hs]
      · rw [if_neg hs]
  split at h
  · rcases Option.some.inj h with ⟨rfl, rfl⟩
    exact le_of_eq (hbase i)
  · refine le_trans (lacam_rewriteGo_g_mono objective goals N hGoal elapsedNow
      Sidx Tidx fuel _ _ _ _ _ h i) (le_of_eq (hbase i))

/-- The explored-hit branch of lacam2 never increases any stored `g`. -/
theorem lacam2_hit_branch_g_mono (objective : Objective) (goals : List Nat)
    (N : Nat) (restart_rate : Q) (rngOn : Bool) (stream : Nat → Q)
    (fuel : Nat) (arena : Nat → Lacam2.HN) (OPEN : List Nat)
    (Hidx hitIdx : Nat) (hGoal : Option Nat) (k : Nat)
    (arena' : Nat → Lacam2.HN) (OPEN' : List Nat) (k' : Nat)
    (h : Lacam2.hit_branch objective goals N restart_rate rngOn stream fuel
      arena OPEN Hidx hitIdx hGoal k = some (arena', OPEN', k')) :
    ∀ i, (arena' i).g ≤ (arena i).g := by
  intro i
  simp only [Lacam2.hit_branch] at h
  split at h
  · simp at h
  · rename_i aR oR heq
    have ha : arena' = aR :=
      (congrArg (fun t : (Nat → Lacam2.HN) × List Nat × Nat => t.1)
        (Option.some.inj h)).symm
    rw [ha]
    exact lacam2_rewrite_g_mono objective goals N fuel arena OPEN Hidx hitIdx
      hGoal aR oR heq i

/-- The explored-hit branch of lacam never increases any stored `g`. -/
theorem lacam_hit_branch_g_mono (objective : Objective) (goals : List Nat)
    (N : Nat) (restart_rate : Q) (rngOn : Bool) (stream : Nat → Q)
    (fuel : Nat) (arena : Nat → Lacam.HN) (OPEN : List Nat)
    (Sidx hitIdx : Nat) (hGoal : Option Nat) (elapsedNow : Nat)
    (hist : List Nat × List Nat) (k : Nat) (arena' : Nat → Lacam.HN)
    (OPEN' : List Nat) (hist' : List Nat × List Nat) (k' : Nat)
    (h : Lacam.hit_branch objective goals N restart_rate rngOn stream fuel
      arena OPEN Sidx hitIdx hGoal elapsedNow hist k
      = some (arena', OPEN', hist', k')) :
    ∀ i, (arena' i).g ≤ (arena i).g := by
  intro i
  simp only [Lacam.hit_branch] at h
  split at h
  · simp at h
  · rename_i aR hR heq
    have ha : arena' = aR :=
      (congrArg
        (fun t : (Nat → Lacam.HN) × List Nat × (List Nat × List Nat) × Nat =>
          t.1)
        (Option.some.inj h)).symm
    rw [ha]
    exact lacam_rewrite_g_mono objective goals N fuel arena Sidx hitIdx hGoal
      elapsedNow hist aR hR heq i

/-- Replacing a node's search tree leaves every stored `g` unchanged. -/
theorem lacam2_g_upd_tree (arena : Nat → Lacam2.HN) (Hidx : Nat)
    (tree : List Lacam2.LNode) (i : Nat) :
    ((upd arena Hidx { arena Hidx with search_tree := tree }) i).g
      = (arena i).g := by
  by_cases hi : i = Hidx
  · rw [hi, upd_same]
  · rw [upd_ne _ _ _ hi]

/-- Replacing a node's search tree leaves every stored `g` unchanged
(lacam). -/
theorem lacam_g_upd_tree (arena : Nat → Lacam.HN) (Sidx : Nat)
    (tree : List Lacam.Constraint) (i : Nat) :
    ((upd arena Sidx { arena Sidx with search_tree := tree }) i).g
      = (arena i).g := by
  by_cases hi : i = Sidx
  · rw [hi, upd_same]
  · rw [upd_ne _ _ _ hi]

/-- Allocating a new node leaves the `g` of every existing node
unchanged. -/
theorem lacam2_allocHN_g (arena : Nat → Lacam2.HN) (size : Nat)
    (hn : Lacam2.HN) (p : Option Nat) {i : Nat} (hi : i < size) :
    ((Lacam2.allocHN arena size hn p).1 i).g = (arena i).g := by
  rcases p with _ | pp
  · simp only [Lacam2.allocHN]
    exact congrArg Lacam2.HN.g (upd_ne _ _ _ (by omega))
  · simp only [Lacam2.allocHN]
    by_cases hip : i = pp
    · rw [hip, upd_same]
      have hps : pp ≠ size := by omega
      rw [upd_ne _ _ _ hps]
    · rw [upd_ne _ _ _ hip, upd_ne _ _ _ (by omega)]

/-- Allocating a new node leaves the `g` of every existing node unchanged
(lacam). -/
theorem lacam_allocHN_g (arena : Nat → Lacam.HN) (size : Nat)
    (hn : Lacam.HN) (p : Option Nat) {i : Nat} (hi : i < size) :
    ((Lacam.allocHN arena size hn p).1 i).g = (arena i).g := by
  rcases p with _ | pp
  · simp only [Lacam.allocHN]
    exact congrArg Lacam.HN.g (upd_ne _ _ _ (by omega))
  · simp only [Lacam.allocHN]
    by_cases hip : i = pp
    · rw [hip, upd_same]
      have hps : pp ≠ size := by omega
      rw [upd_ne _ _ _ hps]
    · rw [upd_ne _ _ _ hip, upd_ne _ _ _ (by omega)]

/-- `update_hist` touches only the history lists. -/
theorem lacam_update_hist_fields (hg : Option Nat) (e : Nat)
    (s : Lacam.SState) :
    (Lacam.update_hist hg e s).arena = s.arena ∧
    (Lacam.update_hist hg e s).size = s.size ∧
    (Lacam.update_hist hg e s).OPEN = s.OPEN := by
  cases hg <;> simp [Lacam.update_hist]

/-- Along lacam2's solve loop, the arena only grows and no existing
node's `g` ever increases. -/
theorem lacam2_loopGo_g_mono (ins : Inst) (objective : Objective)
    (restart_rate : Q) (FLG_SWAP rngOn : Bool) (stream : Nat → Q)
    (ddl : Nat → Bool) (D : Nat → Nat → Nat) (rwFuel : Nat) :
    ∀ (fuel : Nat) (s : Lacam2.SState) (hGoal : Option Nat)
      (s' : Lacam2.SState) (hg' : Option Nat),
      Lacam2.loopGo ins objective restart_rate FLG_SWAP rngOn stream ddl D
        rwFuel fuel s hGoal = some (s', hg') →
      s.size ≤ s'.size ∧ ∀ i < s.size, (s'.arena i).g ≤ (s.arena i).g := by
  intro fuel
  induction fuel with
  | zero => intro s hGoal s' hg' h; simp [Lacam2.loopGo] at h
  | succ n ih =>
    intro s hGoal s' hg' h
    simp only [Lacam2.loopGo] at h
    split at h
    · have hs : s' = s := (congrArg Prod.fst (Option.some.inj h)).symm
      rw [hs]
      exact ⟨le_refl _, fun i _ => le_refl _⟩
    · split at h
      · have hs : s' = s := (congrArg Prod.fst (Option.some.inj h)).symm
        rw [hs]
        exact ⟨le_refl _, fun i _ => le_refl _⟩
      · split at h
        · have hh := ih _ _ _ _ h
          exact hh
        · split at h
          · have hh := ih _ _ _ _ h
            exact hh
          · split at h
            · have hs : s' = _ := (congrArg Prod.fst (Option.some.inj h)).symm
              rw [hs]
              exact ⟨le_refl _, fun i _ => le_refl _⟩
            · split at h
              · simp at h
              · obtain ⟨h1, h2⟩ := ih _ _ _ _ h
                exact ⟨h1, fun i hi =>
                  le_trans (h2 i hi) (le_of_eq (lacam2_g_upd_tree _ _ _ i))⟩
              · split at h
                · split at h
                  · simp at h
                  · rename_i aH oH kH heqH
                    obtain ⟨h1, h2⟩ := ih _ _ _ _ h
                    refine ⟨h1, fun i hi => ?_⟩
                    refine le_trans (h2 i hi) ?_
                    refine le_trans
                      (lacam2_hit_branch_g_mono _ _ _ _ _ _ _ _ _ _ _ _ _
                        aH oH kH heqH i) ?_
                    exact le_of_eq (lacam2_g_upd_tree _ _ _ i)
                · obtain ⟨h1, h2⟩ := ih _ _ _ _ h
                  have h1' : s.size + 1 ≤ s'.size := h1
                  refine ⟨by omega, fun i hi => ?_⟩
                  have hlt : i < s.size + 1 := by omega
                  have hstep :
                      ∀ arenaX : Nat → Lacam2.HN, ∀ hn pidx tree,
                      ((Lacam2.allocHN (upd s.arena pidx
                          { s.arena pidx with search_tree := tree })
                        s.size hn (some pidx)).1 i).g ≤ (s.arena i).g := by
                    intro arenaX hn pidx tree
                    refine le_trans (le_of_eq (lacam2_allocHN_g _ _ _ _ hi)) ?_
                    exact le_of_eq (lacam2_g_upd_tree _ _ _ i)
                  exact le_trans (h2 i hlt) (hstep s.arena _ _ _)

/-- Along lacam's solve loop, the arena only grows and no existing node's
`g` ever increases. -/
theorem lacam_loopGo_g_mono (ins : Inst) (objective : Objective)
    (restart_rate : Q) (rngOn : Bool) (stream : Nat → Q) (ddl : Nat → Bool)
    (elapsedF : Nat → Nat) (D : Nat → Nat → Nat) (rwFuel : Nat) :
    ∀ (fuel : Nat) (s : Lacam.SState) (hGoal : Option Nat)
      (s' : Lacam.SState) (hg' : Option Nat),
      Lacam.loopGo ins objective restart_rate rngOn stream ddl elapsedF D
        rwFuel fuel s hGoal = some (s', hg') →
      s.size ≤ s'.size ∧ ∀ i < s.size, (s'.arena i).g ≤ (s.arena i).g := by
  intro fuel
  induction fuel with
  | zero => intro s hGoal s' hg' h; simp [Lacam.loopGo] at h
  | succ n ih =>
    intro s hGoal s' hg' h
    simp only [Lacam.loopGo] at h
    split at h
    · have hs : s' = s := (congrArg Prod.fst (Option.some.inj h)).symm
      rw [hs]
      exact ⟨le_refl _, fun i _ => le_refl _⟩
    · split at h
      · have hs : s' = s := (congrArg Prod.fst (Option.some.inj h)).symm
        rw [hs]
        exact ⟨le_refl _, fun i _ => le_refl _⟩
      · split at h
        · have hh := ih _ _ _ _ h
          exact hh
        · split at h
          · split at h
            · have hs : s' = _ := (congrArg Prod.fst (Option.some.inj h)).symm
              rw [hs]
              exact ⟨le_refl _, fun i _ => le_refl _⟩
            · have hh := ih _ _ _ _ h
              obtain ⟨h1, h2⟩ := hh
              have h1' : s.size ≤ s'.size := h1
              refine ⟨h1', fun i hi => ?_⟩
              have hlt : i < s.size := hi
              exact le_trans (h2 i hlt) (le_refl _)
          · split at h
            · simp at h
            · obtain ⟨h1, h2⟩ := ih _ _ _ _ h
              exact ⟨h1, fun i hi =>
                le_trans (h2 i hi) (le_of_eq (lacam_g_upd_tree _ _ _ i))⟩
            · split at h
              · split at h
                · simp at h
                · rename_i aH oH hH kH heqH
                  obtain ⟨h1, h2⟩ := ih _ _ _ _ h
                  refine ⟨h1, fun i hi => ?_⟩
                  refine le_trans (h2 i hi) ?_
                  refine le_trans
                    (lacam_hit_branch_g_mono _ _ _ _ _ _ _ _ _ _ _ _ _ _ _
                      aH oH hH kH heqH i) ?_
                  exact le_of_eq (lacam_g_upd_tree _ _ _ i)
              · obtain ⟨h1, h2⟩ := ih _ _ _ _ h
                have h1' : s.size + 1 ≤ s'.size := h1
                refine ⟨by omega, fun i hi => ?_⟩
                have hlt : i < s.size + 1 := by omega
                have hstep :
                    ∀ hn pidx tree,
                    ((Lacam.allocHN (upd s.arena pidx
                        { s.arena pidx with search_tree := tree })
                      s.size hn (some pidx)).1 i).g ≤ (s.arena i).g := by
                  intro hn pidx tree
                  refine le_trans (le_of_eq (lacam_allocHN_g _ _ _ _ hi)) ?_
                  exact le_of_eq (lacam_g_upd_tree _ _ _ i)
                exact le_trans (h2 i hlt) (hstep _ _ _)

/-- C6: the stored cost `H.g` never increases over the lifetime of the
search: along both planners' solve loops the arena only grows and every
existing node's `g` is non-increasing (g is set once at construction;
`rewrite` relaxes a node's `g` only to a strictly smaller value, so
applying `rewrite` alone never increases any stored `g` either). -/
theorem C6_g_never_increases :
    (∀ (ins : Inst) (objective : Objective) (restart_rate : Q)
      (FLG_SWAP rngOn : Bool) (stream : Nat → Q) (ddl : Nat → Bool)
      (D : Nat → Nat → Nat) (rwFuel fuel : Nat) (s : Lacam2.SState)
      (hGoal : Option Nat) (s' : Lacam2.SState) (hg' : Option Nat),
      Lacam2.loopGo ins objective restart_rate FLG_SWAP rngOn stream ddl D
        rwFuel fuel s hGoal = some (s', hg') →
      s.size ≤ s'.size ∧ ∀ i < s.size, (s'.arena i).g ≤ (s.arena i).g) ∧
    (∀ (ins : Inst) (objective : Objective) (restart_rate : Q) (rngOn : Bool)
      (stream : Nat → Q) (ddl : Nat → Bool) (elapsedF : Nat → Nat)
      (D : Nat → Nat → Nat) (rwFuel fuel : Nat) (s : Lacam.SState)
      (hGoal : Option Nat) (s' : Lacam.SState) (hg' : Option Nat),
      Lacam.loopGo ins objective restart_rate rngOn stream ddl elapsedF D
        rwFuel fuel s hGoal = some (s', hg') →
      s.size ≤ s'.size ∧ ∀ i < s.size, (s'.arena i).g ≤ (s.arena i).g) ∧
    (∀ (objective : Objective) (goals : List Nat) (N fuel : Nat)
      (arena : Nat → Lacam2.HN) (OPEN : List Nat) (H_from H_to : Nat)
      (hGoal : Option Nat) (arena' : Nat → Lacam2.HN) (OPEN' : List Nat),
      Lacam2.rewrite objective goals N fuel arena OPEN H_from H_to hGoal
        = some (arena', OPEN') →
      ∀ i, (arena' i).g ≤ (arena i).g) ∧
    (∀ (objective : Objective) (goals : List Nat) (N fuel : Nat)
      (arena : Nat → Lacam.HN) (Sidx Tidx : Nat) (hGoal : Option Nat)
      (elapsedNow : Nat) (hist : List Nat × List Nat)
      (arena' : Nat → Lacam.HN) (hist' : List Nat × List Nat),
      Lacam.rewrite objective goals N fuel arena Sidx Tidx hGoal elapsedNow
        hist = some (arena', hist') →
      ∀ i, (arena' i).g ≤ (arena i).g) :=
  ⟨fun ins objective restart_rate FLG_SWAP rngOn stream ddl D rwFuel fuel s
      hGoal s' hg' h =>
    lacam2_loopGo_g_mono ins objective restart_rate FLG_SWAP rngOn stream ddl
      D rwFuel fuel s hGoal s' hg' h,
   fun ins objective restart_rate rngOn stream ddl elapsedF D rwFuel fuel s
      hGoal s' hg' h =>
    lacam_loopGo_g_mono ins objective restart_rate rngOn stream ddl elapsedF
      D rwFuel fuel s hGoal s' hg' h,
   fun objective goals N fuel arena OPEN H_from H_to hGoal arena' OPEN' h =>
    lacam2_rewrite_g_mono objective goals N fuel arena OPEN H_from H_to hGoal
      arena' OPEN' h,
   fun objective goals N fuel arena Sidx Tidx hGoal elapsedNow hist arena'
      hist' h =>
    lacam_rewrite_g_mono objective goals N fuel arena Sidx Tidx hGoal
      elapsedNow hist arena' hist' h⟩

/-- Witness for C6 on a concrete lacam2 loop run. -/
theorem C6_g_never_increases_witness :
    c3state.size ≤ ({ c3state with loop_cnt := c3state.loop_cnt + 1 }).size ∧
    ∀ i < c3state.size,
      (({ c3state with loop_cnt := c3state.loop_cnt + 1 }).arena i).g
        ≤ (c3state.arena i).g :=
  C6_g_never_increases.1 insA OBJ_MAKESPAN ⟨1, 100⟩ false false zeroStream
    ddlNever (distTable insA) 5 5 c3state none
    { c3state with loop_cnt := c3state.loop_cnt + 1 } (some 1) (by rfl)

/-- Characterisation of lacam2's explored-hit branch: `rewrite` runs on
the pair, the draw consumes entropy only when an RNG is present, the
pushed candidate is the hit node exactly when the RNG is present and its
draw clears the restart rate (the root, index 0, otherwise — in
particular always the root without an RNG), and the push happens only
under the goal bound. -/
theorem lacam2_hit_branch_spec (objective : Objective) (goals : List Nat)
    (N : Nat) (restart_rate : Q) (rngOn : Bool) (stream : Nat → Q)
    (fuel : Nat) (arena : Nat → Lacam2.HN) (OPEN : List Nat)
    (Hidx hitIdx : Nat) (hGoal : Option Nat) (k : Nat)
    (arena' : Nat → Lacam2.HN) (OPEN2 : List Nat) (k' : Nat)
    (h : Lacam2.hit_branch objective goals N restart_rate rngOn stream fuel
      arena OPEN Hidx hitIdx hGoal k = some (arena', OPEN2, k')) :
    ∃ OPENrw,
      Lacam2.rewrite objective goals N fuel arena OPEN Hidx hitIdx hGoal
        = some (arena', OPENrw) ∧
      k' = (if rngOn then k + 1 else k) ∧
      ∃ T, T = (if rngOn && Q.ble restart_rate (stream k) then hitIdx else 0) ∧
        (hGoal = none → OPEN2 = T :: OPENrw) ∧
        (∀ gi, hGoal = some gi → (arena' T).f < (arena' gi).f →
          OPEN2 = T :: OPENrw) ∧
        (∀ gi, hGoal = some gi → ¬((arena' T).f < (arena' gi).f) →
          OPEN2 = OPENrw) := by
  simp only [Lacam2.hit_branch] at h
  split at h
  · simp at h
  · rename_i aR oR heq
    rcases Option.some.inj h with ⟨rfl, rfl, rfl⟩
    refine ⟨oR, heq, by cases rngOn <;> simp,
      (if (if rngOn then (Q.ble restart_rate (stream k), k + 1)
        else (false, k)).1 then hitIdx else 0), by cases rngOn <;> simp,
      ?_, ?_, ?_⟩
    · intro hg
      subst hg
      simp
    · intro gi hg hlt
      subst hg
      simp [hlt]
    · intro gi hg hlt
      subst hg
      simp [hlt]

/-- Characterisation of lacam's explored-hit branch: `rewrite` runs on
the pair, then the unguarded draw (the stream value with an RNG, the
spec-modelled constant 0 without) selects the hit node when it clears the
restart rate and the root (index 0) otherwise, and the push happens only
under the goal bound. -/
theorem lacam_hit_branch_spec (objective : Objective) (goals : List Nat)
    (N : Nat) (restart_rate : Q) (rngOn : Bool) (stream : Nat → Q)
    (fuel : Nat) (arena : Nat → Lacam.HN) (OPEN : List Nat)
    (Sidx hitIdx : Nat) (hGoal : Option Nat) (elapsedNow : Nat)
    (hist : List Nat × List Nat) (k : Nat) (arena' : Nat → Lacam.HN)
    (OPEN2 : List Nat) (hist' : List Nat × List Nat) (k' : Nat)
    (h : Lacam.hit_branch objective goals N restart_rate rngOn stream fuel
      arena OPEN Sidx hitIdx hGoal elapsedNow hist k
      = some (arena', OPEN2, hist', k')) :
    Lacam.rewrite objective goals N fuel arena Sidx hitIdx hGoal elapsedNow
      hist = some (arena', hist') ∧
    k' = (if rngOn then k + 1 else k) ∧
    ∃ T, T = (if Q.ble restart_rate (if rngOn then stream k else ⟨0, 1⟩)
        then hitIdx else 0) ∧
      (hGoal = none → OPEN2 = T :: OPEN) ∧
      (∀ gi, hGoal = some gi → (arena' T).f < (arena' gi).f →
        OPEN2 = T :: OPEN) ∧
      (∀ gi, hGoal = some gi → ¬((arena' T).f < (arena' gi).f) →
        OPEN2 = OPEN) := by
  simp only [Lacam.hit_branch, Lacam.get_random_float] at h
  split at h
  · simp at h
  · rename_i aR hR heq
    rcases Option.some.inj h with ⟨rfl, rfl, rfl, rfl⟩
    refine ⟨heq, by cases rngOn <;> simp,
      (if Q.ble restart_rate
        (if rngOn then (stream k, k + 1) else (⟨0, 1⟩, k)).1
        then hitIdx else 0), by cases rngOn <;> simp, ?_, ?_, ?_⟩
    · intro hg
      subst hg
      simp
    · intro gi hg hlt
      subst hg
      simp [hlt]
    · intro gi hg hlt
      subst hg
      simp [hlt]

/-- C5: on an explored-set hit both planners call `rewrite` on the pair
and then push the hit node when the random draw clears `1 − RESTART_RATE`
(lacam2 demands an RNG for the draw; lacam draws unconditionally, the
null-RNG draw being the spec-modelled constant 0), pushing the root
otherwise — so the choice degenerates deterministically without an RNG —
and in either case the push happens only if `H_goal` is null or the
pushed node's `f` is strictly below `H_goal.f`. -/
theorem C5_hit_branch_discipline :
    (∀ (objective : Objective) (goals : List Nat) (N : Nat)
      (restart_rate : Q) (rngOn : Bool) (stream : Nat → Q) (fuel : Nat)
      (arena : Nat → Lacam2.HN) (OPEN : List Nat) (Hidx hitIdx : Nat)
      (hGoal : Option Nat) (k : Nat) (arena' : Nat → Lacam2.HN)
      (OPEN2 : List Nat) (k' : Nat),
      Lacam2.hit_branch objective goals N restart_rate rngOn stream fuel
        arena OPEN Hidx hitIdx hGoal k = some (arena', OPEN2, k') →
      ∃ OPENrw,
        Lacam2.rewrite objective goals N fuel arena OPEN Hidx hitIdx hGoal
          = some (arena', OPENrw) ∧
        k' = (if rngOn then k + 1 else k) ∧
        ∃ T, T = (if rngOn && Q.ble restart_rate (stream k) then hitIdx
            else 0) ∧
          (hGoal = none → OPEN2 = T :: OPENrw) ∧
          (∀ gi, hGoal = some gi → (arena' T).f < (arena' gi).f →
            OPEN2 = T :: OPENrw) ∧
          (∀ gi, hGoal = some gi → ¬((arena' T).f < (arena' gi).f) →
            OPEN2 = OPENrw)) ∧
    (∀ (objective : Objective) (goals : List Nat) (N : Nat)
      (restart_rate : Q) (rngOn : Bool) (stream : Nat → Q) (fuel : Nat)
      (arena : Nat → Lacam.HN) (OPEN : List Nat) (Sidx hitIdx : Nat)
      (hGoal : Option Nat) (elapsedNow : Nat) (hist : List Nat × List Nat)
      (k : Nat) (arena' : Nat → Lacam.HN) (OPEN2 : List Nat)
      (hist' : List Nat × List Nat) (k' : Nat),
      Lacam.hit_branch objective goals N restart_rate rngOn stream fuel arena
        OPEN Sidx hitIdx hGoal elapsedNow hist k
        = some (arena', OPEN2, hist', k') →
      Lacam.rewrite objective goals N fuel arena Sidx hitIdx hGoal elapsedNow
        hist = some (arena', hist') ∧
      k' = (if rngOn then k + 1 else k) ∧
      ∃ T, T = (if Q.ble restart_rate (if rngOn then stream k else ⟨0, 1⟩)
          then hitIdx else 0) ∧
        (hGoal = none → OPEN2 = T :: OPEN) ∧
        (∀ gi, hGoal = some gi → (arena' T).f < (arena' gi).f →
          OPEN2 = T :: OPEN) ∧
        (∀ gi, hGoal = some gi → ¬((arena' T).f < (arena' gi).f) →
          OPEN2 = OPEN)) :=
  ⟨fun objective goals N restart_rate rngOn stream fuel arena OPEN Hidx hitIdx
      hGoal k arena' OPEN2 k' h =>
    lacam2_hit_branch_spec objective goals N restart_rate rngOn stream fuel
      arena OPEN Hidx hitIdx hGoal k arena' OPEN2 k' h,
   fun objective goals N restart_rate rngOn stream fuel arena OPEN Sidx hitIdx
      hGoal elapsedNow hist k arena' OPEN2 hist' k' h =>
    lacam_hit_branch_spec objective goals N restart_rate rngOn stream fuel
      arena OPEN Sidx hitIdx hGoal elapsedNow hist k arena' OPEN2 hist' k' h⟩

/-- Witness for C5 on concrete single-node hit branches of both
planners. -/
theorem C5_hit_branch_discipline_witness :
    (∃ OPENrw,
      Lacam2.rewrite OBJ_MAKESPAN [1] 1 2 (fun _ => c3root) [] 0 0 none
        = some (upd (fun _ => c3root) 0 { c3root with neighbor := [0] },
            OPENrw) ∧
      (0 : Nat) = (if false then 0 + 1 else 0) ∧
      ∃ T, T = (if false && Q.ble ⟨1, 100⟩ (zeroStream 0) then 0 else 0) ∧
        ((none : Option Nat) = none → [0] = T :: OPENrw) ∧
        (∀ gi, (none : Option Nat) = some gi →
          ((upd (fun _ => c3root) 0 { c3root with neighbor := [0] }) T).f <
            ((upd (fun _ => c3root) 0 { c3root with neighbor := [0] }) gi).f →
          [0] = T :: OPENrw) ∧
        (∀ gi, (none : Option Nat) = some gi →
          ¬(((upd (fun _ => c3root) 0 { c3root with neighbor := [0] }) T).f <
            ((upd (fun _ => c3root) 0 { c3root with neighbor := [0] }) gi).f) →
          ([0] : List Nat) = OPENrw)) :=
  C5_hit_branch_discipline.1 OBJ_MAKESPAN [1] 1 ⟨1, 100⟩ false zeroStream 2
    (fun _ => c3root) [] 0 0 none 0
    (upd (fun _ => c3root) 0 { c3root with neighbor := [0] }) [0] 0 (by rfl)

/-- Without an RNG the tie-breaker loop leaves the state untouched
(lacam2). -/
theorem lacam2_setTies_false (stream : Nat → Q) :
    ∀ (l : List Nat) (s : PState), Lacam2.setTies false stream l s = s := by
  intro l
  induction l with
  | nil => intro s; rfl
  | cons u rest ih =>
    intro s
    simp only [Lacam2.setTies, Bool.false_eq_true, if_false]
    exact ih s

/-- Without an RNG the tie-breaker loop leaves the state untouched
(lacam). -/
theorem lacam_setTies_false (stream : Nat → Q) :
    ∀ (l : List Nat) (s : PState), Lacam.setTies false stream l s = s := by
  intro l
  induction l with
  | nil => intro s; rfl
  | cons u rest ih =>
    intro s
    simp only [Lacam.setTies, Bool.false_eq_true, if_false]
    exact ih s

/-- Without an RNG, lacam2's `funcPIBT` does not read the entropy
stream. -/
theorem lacam2_funcPIBT_stream_indep (ins : Inst) (D : Nat → Nat → Nat)
    (goals : List Nat) (FLG_SWAP : Bool) (s1 s2 : Nat → Q) :
    ∀ (fuel : Nat) (ai : Nat) (s : PState),
      Lacam2.funcPIBT ins D goals FLG_SWAP false s1 fuel ai s
        = Lacam2.funcPIBT ins D goals FLG_SWAP false s2 fuel ai s := by
  intro fuel
  induction fuel with
  | zero => intro ai s; rfl
  | succ n ih =>
    intro ai s
    have hrec : Lacam2.funcPIBT ins D goals FLG_SWAP false s1 n
        = Lacam2.funcPIBT ins D goals FLG_SWAP false s2 n :=
      funext fun a => funext fun st => ih a st
    simp only [Lacam2.funcPIBT, lacam2_setTies_false, hrec]

/-- Without an RNG, lacam's `funcPIBT` does not read the entropy
stream. -/
theorem lacam_funcPIBT_stream_indep (ins : Inst) (D : Nat → Nat → Nat)
    (s1 s2 : Nat → Q) :
    ∀ (fuel : Nat) (ai : Nat) (aj : Option Nat) (s : PState),
      Lacam.funcPIBT ins D false s1 fuel ai aj s
        = Lacam.funcPIBT ins D false s2 fuel ai aj s := by
  intro fuel
  induction fuel with
  | zero => intro ai aj s; rfl
  | succ n ih =>
    intro ai aj s
    have hrec : Lacam.funcPIBT ins D false s1 n
        = Lacam.funcPIBT ins D false s2 n :=
      funext fun a => funext fun aj' => funext fun st => ih a aj' st
    simp only [Lacam.funcPIBT, lacam_setTies_false, hrec]

/-- Without an RNG, lacam2's PIBT loop over the order does not read the
entropy stream. -/
theorem lacam2_pibtAll_stream_indep (ins : Inst) (D : Nat → Nat → Nat)
    (goals : List Nat) (FLG_SWAP : Bool) (s1 s2 : Nat → Q) :
    ∀ (l : List Nat) (s : PState),
      Lacam2.pibtAll ins D goals FLG_SWAP false s1 l s
        = Lacam2.pibtAll ins D goals FLG_SWAP false s2 l s := by
  intro l
  induction l with
  | nil => intro s; rfl
  | cons k rest ih =>
    intro s
    simp only [Lacam2.pibtAll,
      lacam2_funcPIBT_stream_indep ins D goals FLG_SWAP s1 s2]
    split
    · rcases hfp : Lacam2.funcPIBT ins D goals FLG_SWAP false s2 (ins.N + 1)
          k s with _ | ⟨b, s'⟩
      · simp [hfp]
      · rcases b <;> simp [hfp, ih]
    · exact ih s

/-- Without an RNG, lacam's PIBT loop over the order does not read the
entropy stream. -/
theorem lacam_pibtAll_stream_indep (ins : Inst) (D : Nat → Nat → Nat)
    (s1 s2 : Nat → Q) :
    ∀ (l : List Nat) (s : PState),
      Lacam.pibtAll ins D false s1 l s = Lacam.pibtAll ins D false s2 l s := by
  intro l
  induction l with
  | nil => intro s; rfl
  | cons k rest ih =>
    intro s
    simp only [Lacam.pibtAll, lacam_funcPIBT_stream_indep ins D s1 s2]
    split
    · rcases hfp : Lacam.funcPIBT ins D false s2 (ins.N + 1) k none s
          with _ | ⟨b, s'⟩
      · simp [hfp]
      · rcases b <;> simp [hfp, ih]
    · exact ih s

/-- Without an RNG, lacam2's `get_new_config` does not read the entropy
stream. -/
theorem lacam2_get_new_config_stream_indep (ins : Inst)
    (D : Nat → Nat → Nat) (goals : List Nat) (FLG_SWAP : Bool)
    (s1 s2 : Nat → Q) (C : List Nat) (order : List Nat) (L : Lacam2.LNode)
    (s : PState) :
    Lacam2.get_new_config ins D goals FLG_SWAP false s1 C order L s
      = Lacam2.get_new_config ins D goals FLG_SWAP false s2 C order L s := by
  simp only [Lacam2.get_new_config,
    lacam2_pibtAll_stream_indep ins D goals FLG_SWAP s1 s2]

/-- Without an RNG, lacam's `get_new_config` does not read the entropy
stream. -/
theorem lacam_get_new_config_stream_indep (ins : Inst) (D : Nat → Nat → Nat)
    (s1 s2 : Nat → Q) (C : List Nat) (order : List Nat)
    (M : Lacam.Constraint) (s : PState) :
    Lacam.get_new_config ins D false s1 C order M s
      = Lacam.get_new_config ins D false s2 C order M s := by
  simp only [Lacam.get_new_config, lacam_pibtAll_stream_indep ins D s1 s2]

/-- Without an RNG, lacam2's low-level expansion does not read the
entropy stream. -/
theorem lacam2_expand_stream_indep (ins : Inst) (s1 s2 : Nat → Q)
    (H : Lacam2.HN) (L : Lacam2.LNode) (k : Nat) :
    Lacam2.expand_lowlevel_tree ins false s1 H L k
      = Lacam2.expand_lowlevel_tree ins false s2 H L k := by
  simp [Lacam2.expand_lowlevel_tree]

/-- Without an RNG, lacam's low-level expansion does not read the entropy
stream. -/
theorem lacam_expand_stream_indep (ins : Inst) (s1 s2 : Nat → Q)
    (S : Lacam.HN) (M : Lacam.Constraint) (k : Nat) :
    Lacam.expand_lowlevel_tree ins false s1 S M k
      = Lacam.expand_lowlevel_tree ins false s2 S M k := by
  simp [Lacam.expand_lowlevel_tree]

/-- Without an RNG, lacam2's hit branch does not read the entropy
stream. -/
theorem lacam2_hit_branch_stream_indep (objective : Objective)
    (goals : List Nat) (N : Nat) (restart_rate : Q) (s1 s2 : Nat → Q)
    (fuel : Nat) (arena : Nat → Lacam2.HN) (OPEN : List Nat)
    (Hidx hitIdx : Nat) (hGoal : Option Nat) (k : Nat) :
    Lacam2.hit_branch objective goals N restart_rate false s1 fuel arena OPEN
      Hidx hitIdx hGoal k
      = Lacam2.hit_branch objective goals N restart_rate false s2 fuel arena
        OPEN Hidx hitIdx hGoal k := by
  simp [Lacam2.hit_branch]

/-- Without an RNG, lacam's hit branch does not read the entropy
stream. -/
theorem lacam_hit_branch_stream_indep (objective : Objective)
    (goals : List Nat) (N : Nat) (restart_rate : Q) (s1 s2 : Nat → Q)
    (fuel : Nat) (arena : Nat → Lacam.HN) (OPEN : List Nat)
    (Sidx hitIdx : Nat) (hGoal : Option Nat) (elapsedNow : Nat)
    (hist : List Nat × List Nat) (k : Nat) :
    Lacam.hit_branch objective goals N restart_rate false s1 fuel arena OPEN
      Sidx hitIdx hGoal elapsedNow hist k
      = Lacam.hit_branch objective goals N restart_rate false s2 fuel arena
        OPEN Sidx hitIdx hGoal elapsedNow hist k := by
  simp [Lacam.hit_branch, Lacam.get_random_float]

/-- Without an RNG, lacam2's solve loop does not read the entropy
stream. -/
theorem lacam2_loopGo_stream_indep (ins : Inst) (objective : Objective)
    (restart_rate : Q) (FLG_SWAP : Bool) (s1 s2 : Nat → Q)
    (ddl : Nat → Bool) (D : Nat → Nat → Nat) (rwFuel : Nat) :
    ∀ (fuel : Nat) (s : Lacam2.SState) (hGoal : Option Nat),
      Lacam2.loopGo ins objective restart_rate FLG_SWAP false s1 ddl D rwFuel
        fuel s hGoal
        = Lacam2.loopGo ins objective restart_rate FLG_SWAP false s2 ddl D
          rwFuel fuel s hGoal := by
  intro fuel
  induction fuel with
  | zero => intro s hGoal; rfl
  | succ n ih =>
    intro s hGoal
    have hrec : Lacam2.loopGo ins objective restart_rate FLG_SWAP false s1
        ddl D rwFuel n
        = Lacam2.loopGo ins objective restart_rate FLG_SWAP false s2 ddl D
          rwFuel n :=
      funext fun st => funext fun hg => ih st hg
    simp only [Lacam2.loopGo, hrec,
      lacam2_expand_stream_indep ins s1 s2,
      lacam2_get_new_config_stream_indep ins D ins.goals FLG_SWAP s1 s2,
      lacam2_hit_branch_stream_indep objective ins.goals ins.N restart_rate
        s1 s2]

/-- Without an RNG, lacam's solve loop does not read the entropy
stream. -/
theorem lacam_loopGo_stream_indep (ins : Inst) (objective : Objective)
    (restart_rate : Q) (s1 s2 : Nat → Q) (ddl : Nat → Bool)
    (elapsedF : Nat → Nat) (D : Nat → Nat → Nat) (rwFuel : Nat) :
    ∀ (fuel : Nat) (s : Lacam.SState) (hGoal : Option Nat),
      Lacam.loopGo ins objective restart_rate false s1 ddl elapsedF D rwFuel
        fuel s hGoal
        = Lacam.loopGo ins objective restart_rate false s2 ddl elapsedF D
          rwFuel fuel s hGoal := by
  intro fuel
  induction fuel with
  | zero => intro s hGoal; rfl
  | succ n ih =>
    intro s hGoal
    have hrec : Lacam.loopGo ins objective restart_rate false s1 ddl elapsedF
        D rwFuel n
        = Lacam.loopGo ins objective restart_rate false s2 ddl elapsedF D
          rwFuel n :=
      funext fun st => funext fun hg => ih st hg
    simp only [Lacam.loopGo, hrec,
      lacam_expand_stream_indep ins s1 s2,
      lacam_get_new_config_stream_indep ins D s1 s2,
      lacam_hit_branch_stream_indep objective ins.goals ins.N restart_rate
        s1 s2]

/-- C9: with a null RNG, a run of `solve` is a function of the instance,
objective, restart rate and deadline alone — the ambient entropy source
cannot influence it.  Two invocations with `rng = null` and identical
inputs therefore return identical solutions and identical
`additional_info` (in particular identical `num_node_gen`), for both
planners. -/
theorem C9_rng_null_deterministic :
    (∀ (ins : Inst) (objective : Objective) (restart_rate : Q)
      (FLG_SWAP : Bool) (ddl : Nat → Bool) (s1 s2 : Nat → Q) (fuel : Nat),
      Lacam2.solve ins objective restart_rate FLG_SWAP ddl false s1 fuel
        = Lacam2.solve ins objective restart_rate FLG_SWAP ddl false s2
          fuel) ∧
    (∀ (ins : Inst) (objective : Objective) (restart_rate : Q)
      (ddl : Nat → Bool) (elapsedF : Nat → Nat) (s1 s2 : Nat → Q)
      (fuel : Nat),
      Lacam.solve ins objective restart_rate ddl elapsedF false s1 fuel
        = Lacam.solve ins objective restart_rate ddl elapsedF false s2
          fuel) := by
  constructor
  · intro ins objective restart_rate FLG_SWAP ddl s1 s2 fuel
    simp only [Lacam2.solve,
      lacam2_loopGo_stream_indep ins objective restart_rate FLG_SWAP s1 s2]
  · intro ins objective restart_rate ddl elapsedF s1 s2 fuel
    simp only [Lacam.solve,
      lacam_loopGo_stream_indep ins objective restart_rate s1 s2]

/-! ### PIBT correctness: the scratch-state invariant through `funcPIBT` -/

theorem PInv_congr (ins : Inst) (s t : PState)
    (h1 : t.v_now = s.v_now) (h2 : t.v_next = s.v_next)
    (h3 : t.occupied_now = s.occupied_now)
    (h4 : t.occupied_next = s.occupied_next) :
    PInv ins s → PInv ins t := by
  simp only [PInv, NowConsistent, NextConsistent, NowComplete, NoSwapInv,
    AdjInv, h1, h2, h3, h4]
  exact id

theorem PibtPost_congr (ins : Inst) (ai vnow : Nat) (s t : PState)
    (r : Bool) (s' : PState)
    (h1 : t.v_now = s.v_now) (h2 : t.v_next = s.v_next)
    (h3 : t.occupied_now = s.occupied_now)
    (h4 : t.occupied_next = s.occupied_next) :
    PibtPost ins ai vnow t r s' → PibtPost ins ai vnow s r s' := by
  simp only [PibtPost, Good, h1, h2, h3, h4]
  exact id

theorem lacam2_setTies_fields (rngOn : Bool) (stream : Nat → Q) :
    ∀ (l : List Nat) (s : PState),
      (Lacam2.setTies rngOn stream l s).v_now = s.v_now ∧
      (Lacam2.setTies rngOn stream l s).v_next = s.v_next ∧
      (Lacam2.setTies rngOn stream l s).occupied_now = s.occupied_now ∧
      (Lacam2.setTies rngOn stream l s).occupied_next = s.occupied_next
  | [], _ => ⟨rfl, rfl, rfl, rfl⟩
  | u :: rest, s => by
    simp only [Lacam2.setTies]
    split
    · exact lacam2_setTies_fields rngOn stream rest _
    · exact lacam2_setTies_fields rngOn stream rest s

theorem lacam_setTies_fields (rngOn : Bool) (stream : Nat → Q) :
    ∀ (l : List Nat) (s : PState),
      (Lacam.setTies rngOn stream l s).v_now = s.v_now ∧
      (Lacam.setTies rngOn stream l s).v_next = s.v_next ∧
      (Lacam.setTies rngOn stream l s).occupied_now = s.occupied_now ∧
      (Lacam.setTies rngOn stream l s).occupied_next = s.occupied_next
  | [], _ => ⟨rfl, rfl, rfl, rfl⟩
  | u :: rest, s => by
    simp only [Lacam.setTies]
    split
    · exact lacam_setTies_fields rngOn stream rest _
    · exact lacam_setTies_fields rngOn stream rest s

/-- The effect of the shared reservation write `occupied_next[u] := ai;
ai.v_next = u` (the reserve step of both planners' candidate loops, and,
with `u := ai.v_now`, the exhaustion write): the scratch invariant is
preserved and `ai` ends backed. -/
theorem pibt_write_spec (ins : Inst) (ai vnow u : Nat) (s t : PState)
    (ht : t = { s with occupied_next := upd s.occupied_next u (some ai),
                       v_next := upd s.v_next ai (some u) })
    (hai : ai < ins.N) (hvnow : s.v_now ai = some vnow)
    (hinv : PInv ins s)
    (hframe : ∀ v, s.occupied_next v ≠ some ai)
    (hu : u ∈ ins.adj vnow ∨ u = vnow)
    (hhead : ∀ b, b ≠ ai → s.occupied_now u = some b →
      s.v_next b ≠ some vnow) :
    PInv ins t ∧ t.v_now = s.v_now ∧ t.occupied_now = s.occupied_now ∧
    (∀ b, b ≠ ai → ∀ w, s.v_next b = some w → t.v_next b = some w) ∧
    (∀ b, b ≠ ai → Good s b → s.occupied_next u ≠ some b → Good t b) ∧
    Good t ai ∧ t.v_next ai = some u ∧ t.occupied_next u = some ai ∧
    (∀ v, v ≠ u → t.occupied_next v = s.occupied_next v) := by
  subst ht
  obtain ⟨hNC, hXC, hCom, hNS, hAdj⟩ := hinv
  refine ⟨⟨?_, ?_, ?_, ?_, ?_⟩, rfl, rfl, ?_, ?_, ?_, ?_, ?_, ?_⟩
  · exact hNC
  · intro v b h
    have h' : upd s.occupied_next u (some ai) v = some b := h
    by_cases hv : v = u
    · subst hv
      rw [upd_same] at h'
      rcases Option.some.inj h' with rfl
      refine ⟨hai, ?_⟩
      show upd s.v_next ai (some v) ai = some v
      rw [upd_same]
    · rw [upd_ne _ _ _ hv] at h'
      rcases hXC v b h' with ⟨hbN, hvb⟩
      have hbne : b ≠ ai := by rintro rfl; exact hframe v h'
      refine ⟨hbN, ?_⟩
      show upd s.v_next ai (some u) b = some v
      rw [upd_ne _ _ _ hbne]; exact hvb
  · exact hCom
  · intro a ha b hb hne hcon
    obtain ⟨e1, e2⟩ := hcon
    by_cases hA : a = ai
    · subst hA
      have e1' : upd s.v_next a (some u) a = s.v_now b := e1
      rw [upd_same] at e1'
      have hvb : s.v_now b = some u := e1'.symm
      obtain ⟨vb, hvb', hob⟩ := hCom b hb
      rw [hvb] at hvb'
      rcases Option.some.inj hvb' with rfl
      have hbai : b ≠ a := fun e => hne e.symm
      have e2' : upd s.v_next a (some u) b = s.v_now a := e2
      rw [upd_ne _ _ _ hbai, hvnow] at e2'
      exact hhead b hbai hob e2'
    · by_cases hB : b = ai
      · subst hB
        have e2' : upd s.v_next b (some u) b = s.v_now a := e2
        rw [upd_same] at e2'
        have hva : s.v_now a = some u := e2'.symm
        obtain ⟨va, hva', hoa⟩ := hCom a ha
        rw [hva] at hva'
        rcases Option.some.inj hva' with rfl
        have e1' : upd s.v_next b (some u) a = s.v_now b := e1
        rw [upd_ne _ _ _ hA, hvnow] at e1'
        exact hhead a hA hoa e1'
      · have e1' : upd s.v_next ai (some u) a = s.v_now b := e1
        have e2' : upd s.v_next ai (some u) b = s.v_now a := e2
        rw [upd_ne _ _ _ hA] at e1'
        rw [upd_ne _ _ _ hB] at e2'
        exact hNS a ha b hb hne ⟨e1', e2'⟩
  · intro a ha w hw
    by_cases hA : a = ai
    · subst hA
      have hw' : upd s.v_next a (some u) a = some w := hw
      rw [upd_same] at hw'
      rcases Option.some.inj hw' with rfl
      show u ∈ ins.adj ((s.v_now a).getD 0) ∨ u = (s.v_now a).getD 0
      rw [hvnow]
      exact hu
    · have hw' : upd s.v_next ai (some u) a = some w := hw
      rw [upd_ne _ _ _ hA] at hw'
      exact hAdj a ha w hw'
  · intro b hb w hw
    show upd s.v_next ai (some u) b = some w
    rw [upd_ne _ _ _ hb]; exact hw
  · intro b hb hg hocc w hw
    have hw' : upd s.v_next ai (some u) b = some w := hw
    rw [upd_ne _ _ _ hb] at hw'
    have hbw := hg w hw'
    have hwu : w ≠ u := by rintro rfl; exact hocc hbw
    show upd s.occupied_next u (some ai) w = some b
    rw [upd_ne _ _ _ hwu]; exact hbw
  · intro w hw
    have hw' : upd s.v_next ai (some u) ai = some w := hw
    rw [upd_same] at hw'
    rcases Option.some.inj hw' with rfl
    show upd s.occupied_next u (some ai) u = some ai
    rw [upd_same]
  · show upd s.v_next ai (some u) ai = some u
    rw [upd_same]
  · show upd s.occupied_next u (some ai) u = some ai
    rw [upd_same]
  · intro v hv
    show upd s.occupied_next u (some ai) v = s.occupied_next v
    rw [upd_ne _ _ _ hv]

/-- The swap-pull epilogue preserves the scratch invariant: the pulled
agent is unassigned and the target slot free (the guards), the pull
target is adjacent to the pulled agent (`hswap`), and the pulled agent is
not the occupant of `ai`'s reserved candidate (`hocc`, ruling out a new
swap pair). -/
theorem lacam2_pullSwap_spec (ins : Inst) (FLG_SWAP isFirst : Bool)
    (swap_agent : Option Nat) (ai vnow u : Nat) (t : PState)
    (hai : ai < ins.N) (hvnow : t.v_now ai = some vnow)
    (hinv : PInv ins t) (hvai : t.v_next ai = some u)
    (hswap : ∀ x, swap_agent = some x → x < ins.N ∧
      (vnow ∈ ins.adj ((t.v_now x).getD 0) ∨ vnow = (t.v_now x).getD 0))
    (hocc : ∀ x, swap_agent = some x → t.v_next x = none →
      t.occupied_next vnow = none → t.occupied_now u ≠ some x) :
    PInv ins (Lacam2.pullSwap FLG_SWAP isFirst swap_agent vnow t) ∧
    (Lacam2.pullSwap FLG_SWAP isFirst swap_agent vnow t).v_now = t.v_now ∧
    (Lacam2.pullSwap FLG_SWAP isFirst swap_agent vnow t).occupied_now =
      t.occupied_now ∧
    (∀ b w, t.v_next b = some w →
      (Lacam2.pullSwap FLG_SWAP isFirst swap_agent vnow t).v_next b =
        some w) ∧
    (∀ b, Good t b →
      Good (Lacam2.pullSwap FLG_SWAP isFirst swap_agent vnow t) b) ∧
    (Lacam2.pullSwap FLG_SWAP isFirst swap_agent vnow t).v_next ai =
      some u := by
  cases FLG_SWAP with
  | false =>
    have e : Lacam2.pullSwap false isFirst swap_agent vnow t = t := by
      simp [Lacam2.pullSwap]
    rw [e]
    exact ⟨hinv, rfl, rfl, fun _ _ hw => hw, fun _ hg => hg, hvai⟩
  | true =>
    rcases swap_agent with _ | sa
    · have e : Lacam2.pullSwap true isFirst none vnow t = t := by
        simp [Lacam2.pullSwap]
      rw [e]
      exact ⟨hinv, rfl, rfl, fun _ _ hw => hw, fun _ hg => hg, hvai⟩
    · obtain ⟨hsaN, hsadj⟩ := hswap sa rfl
      by_cases hfire : (isFirst = true) ∧ t.v_next sa = none ∧
          t.occupied_next vnow = none
      · obtain ⟨hfirst, hsanone, hoccnone⟩ := hfire
        subst hfirst
        have e : Lacam2.pullSwap true true (some sa) vnow t =
            { t with v_next := upd t.v_next sa (some vnow),
                     occupied_next := upd t.occupied_next vnow (some sa) } := by
          simp [Lacam2.pullSwap, hsanone, hoccnone]
        rw [e]
        have hsaai : sa ≠ ai := by
          rintro rfl; rw [hvai] at hsanone; exact Option.noConfusion hsanone
        obtain ⟨hNC, hXC, hCom, hNS, hAdj⟩ := hinv
        refine ⟨⟨hNC, ?_, hCom, ?_, ?_⟩, rfl, rfl, ?_, ?_, ?_⟩
        · intro v b h
          have h' : upd t.occupied_next vnow (some sa) v = some b := h
          by_cases hv : v = vnow
          · rw [hv, upd_same] at h'
            rcases Option.some.inj h' with rfl
            refine ⟨hsaN, ?_⟩
            show upd t.v_next sa (some vnow) sa = some v
            rw [upd_same, hv]
          · rw [upd_ne _ _ _ hv] at h'
            rcases hXC v b h' with ⟨hbN, hvb⟩
            have hbsa : b ≠ sa := by
              rintro rfl; rw [hvb] at hsanone; exact Option.noConfusion hsanone
            refine ⟨hbN, ?_⟩
            show upd t.v_next sa (some vnow) b = some v
            rw [upd_ne _ _ _ hbsa]; exact hvb
        · intro a ha b hb hne hcon
          obtain ⟨e1, e2⟩ := hcon
          by_cases hA : a = sa
          · subst hA
            have e1' : upd t.v_next a (some vnow) a = t.v_now b := e1
            rw [upd_same] at e1'
            have hvb : t.v_now b = some vnow := e1'.symm
            obtain ⟨vb, hvb', hob⟩ := hCom b hb
            rw [hvb] at hvb'
            rcases Option.some.inj hvb' with rfl
            obtain ⟨vai, hvai', hoai⟩ := hCom ai hai
            rw [hvnow] at hvai'
            rcases Option.some.inj hvai' with rfl
            rw [hob] at hoai
            rcases Option.some.inj hoai with rfl
            have hba : b ≠ a := fun e => hne e.symm
            have e2' : upd t.v_next a (some vnow) b = t.v_now a := e2
            rw [upd_ne _ _ _ hba, hvai] at e2'
            have hva : t.v_now a = some u := e2'.symm
            obtain ⟨va, hva', hoa⟩ := hCom a ha
            rw [hva] at hva'
            rcases Option.some.inj hva' with rfl
            exact hocc a rfl hsanone hoccnone hoa
          · by_cases hB : b = sa
            · subst hB
              have e2' : upd t.v_next b (some vnow) b = t.v_now a := e2
              rw [upd_same] at e2'
              have hva : t.v_now a = some vnow := e2'.symm
              obtain ⟨va, hva', hoa⟩ := hCom a ha
              rw [hva] at hva'
              rcases Option.some.inj hva' with rfl
              obtain ⟨vai, hvai', hoai⟩ := hCom ai hai
              rw [hvnow] at hvai'
              rcases Option.some.inj hvai' with rfl
              rw [hoa] at hoai
              rcases Option.some.inj hoai with rfl
              have e1' : upd t.v_next b (some vnow) a = t.v_now b := e1
              rw [upd_ne _ _ _ hA, hvai] at e1'
              have hvb : t.v_now b = some u := e1'.symm
              obtain ⟨vb, hvb', hob⟩ := hCom b hb
              rw [hvb] at hvb'
              rcases Option.some.inj hvb' with rfl
              exact hocc b rfl hsanone hoccnone hob
            · have e1' : upd t.v_next sa (some vnow) a = t.v_now b := e1
              have e2' : upd t.v_next sa (some vnow) b = t.v_now a := e2
              rw [upd_ne _ _ _ hA] at e1'
              rw [upd_ne _ _ _ hB] at e2'
              exact hNS a ha b hb hne ⟨e1', e2'⟩
        · intro a ha w hw
          by_cases hA : a = sa
          · subst hA
            have hw' : upd t.v_next a (some vnow) a = some w := hw
            rw [upd_same] at hw'
            rcases Option.some.inj hw' with rfl
            exact hsadj
          · have hw' : upd t.v_next sa (some vnow) a = some w := hw
            rw [upd_ne _ _ _ hA] at hw'
            exact hAdj a ha w hw'
        · intro b w hw
          have hbsa : b ≠ sa := by
            rintro rfl; rw [hw] at hsanone; exact Option.noConfusion hsanone
          show upd t.v_next sa (some vnow) b = some w
          rw [upd_ne _ _ _ hbsa]; exact hw
        · intro b hg w hw
          by_cases hB : b = sa
          · subst hB
            have hw' : upd t.v_next b (some vnow) b = some w := hw
            rw [upd_same] at hw'
            rcases Option.some.inj hw' with rfl
            show upd t.occupied_next vnow (some b) vnow = some b
            rw [upd_same]
          · have hw' : upd t.v_next sa (some vnow) b = some w := hw
            rw [upd_ne _ _ _ hB] at hw'
            have hbw := hg w hw'
            have hwv : w ≠ vnow := by
              rintro rfl; rw [hbw] at hoccnone; exact Option.noConfusion hoccnone
            show upd t.occupied_next vnow (some sa) w = some b
            rw [upd_ne _ _ _ hwv]; exact hbw
        · show upd t.v_next sa (some vnow) ai = some u
          rw [upd_ne _ _ _ (fun e => hsaai e.symm)]
          exact hvai
      · have e : Lacam2.pullSwap true isFirst (some sa) vnow t = t := by
          simp only [Lacam2.pullSwap]
          rw [if_pos trivial, if_neg hfire]
        rw [e]
        exact ⟨hinv, rfl, rfl, fun _ _ hw => hw, fun _ hg => hg, hvai⟩

/-- The clear-operation scan returns an occupant of one of the scanned
vertices. -/
theorem lacam2_swapCaseC_mem (ins : Inst) (D : Nat → Nat → Nat)
    (goals : List Nat) (s : PState) (ai vnow c0 : Nat) :
    ∀ (l : List Nat) (aj : Nat),
      Lacam2.swapCaseC ins D goals s ai vnow c0 l = some (some aj) →
      ∃ u, u ∈ l ∧ s.occupied_now u = some aj
  | [], aj => by
    intro h
    simp [Lacam2.swapCaseC] at h
  | u :: rest, aj => by
    intro h
    simp only [Lacam2.swapCaseC] at h
    split at h
    · obtain ⟨w, hw, hocc⟩ :=
        lacam2_swapCaseC_mem ins D goals s ai vnow c0 rest aj h
      exact ⟨w, List.mem_cons_of_mem _ hw, hocc⟩
    · rename_i ak hak
      split at h
      · obtain ⟨w, hw, hocc⟩ :=
          lacam2_swapCaseC_mem ins D goals s ai vnow c0 rest aj h
        exact ⟨w, List.mem_cons_of_mem _ hw, hocc⟩
      · split at h
        · exact Option.noConfusion h
        · obtain ⟨w, hw, hocc⟩ :=
            lacam2_swapCaseC_mem ins D goals s ai vnow c0 rest aj h
          exact ⟨w, List.mem_cons_of_mem _ hw, hocc⟩
        · split at h
          · exact Option.noConfusion h
          · rcases Option.some.inj h with e
            rcases Option.some.inj e with rfl
            exact ⟨u, List.mem_cons_self u rest, hak⟩
          · obtain ⟨w, hw, hocc⟩ :=
              lacam2_swapCaseC_mem ins D goals s ai vnow c0 rest aj h
            exact ⟨w, List.mem_cons_of_mem _ hw, hocc⟩

/-- When lacam2's swap detection returns an agent, that agent is the
occupant either of the best candidate (then distinct from `ai`'s vertex)
or of a neighbor of `ai`'s vertex. -/
theorem lacam2_swap_agent_mem (ins : Inst) (D : Nat → Nat → Nat)
    (goals : List Nat) (s : PState) (ai : Nat) (cand : List Nat) (aj : Nat)
    (h : Lacam2.swap_possible_and_required ins D goals s ai cand =
      some (some aj)) :
    (s.occupied_now (cand.headD 0) = some aj ∧
      cand.headD 0 ≠ (s.v_now ai).getD 0) ∨
    ∃ u, u ∈ ins.adj ((s.v_now ai).getD 0) ∧ s.occupied_now u = some aj := by
  simp only [Lacam2.swap_possible_and_required] at h
  split at h
  · simp at h
  · rename_i hc0
    split at h
    · exact Option.noConfusion h
    · rename_i aj' heq
      rcases Option.some.inj h with e
      rcases Option.some.inj e with rfl
      split at heq
      · simp at heq
      · rename_i hoccc0
        split at heq
        · split at heq
          · exact Option.noConfusion heq
          · simp at heq
          · split at heq
            · exact Option.noConfusion heq
            · rcases Option.some.inj heq with e2
              rcases Option.some.inj e2 with rfl
              exact Or.inl ⟨hoccc0, hc0⟩
            · simp at heq
        · simp at heq
    · rename_i heq
      obtain ⟨u, hu, hocc⟩ :=
        lacam2_swapCaseC_mem ins D goals s ai ((s.v_now ai).getD 0)
          (cand.headD 0) (ins.adj ((s.v_now ai).getD 0)) aj h
      exact Or.inr ⟨u, hu, hocc⟩

/-- The candidate loop of lacam2's `funcPIBT` satisfies the PIBT
contract, given that the recursive calls it makes do (`hrec`).  The loop
hypotheses: `ai` holds no live reservation when an iteration starts,
every candidate is a neighbor of or equal to `ai`'s vertex, and a
detected swap agent stands next to `ai`'s vertex. -/
theorem lacam2_pibtLoop_spec (ins : Inst) (FLG_SWAP : Bool)
    (rec : Nat → PState → Option (Bool × PState))
    (ai vnow : Nat) (swap_agent : Option Nat)
    (hrec : ∀ ak s r s', rec ak s = some (r, s') → ak < ins.N →
      s.v_next ak = none → PInv ins s →
      PibtPost ins ak ((s.v_now ak).getD 0) s r s') :
    ∀ (cand : List Nat) (isFirst : Bool) (s : PState) (r : Bool)
      (s' : PState),
      Lacam2.pibtLoop rec ai vnow swap_agent FLG_SWAP isFirst cand s =
        some (r, s') →
      ai < ins.N → s.v_now ai = some vnow → PInv ins s →
      (∀ v, s.occupied_next v ≠ some ai) →
      (∀ u, u ∈ cand → u ∈ ins.adj vnow ∨ u = vnow) →
      (∀ x, swap_agent = some x → x < ins.N ∧
        (vnow ∈ ins.adj ((s.v_now x).getD 0) ∨ vnow = (s.v_now x).getD 0)) →
      PibtPost ins ai vnow s r s'
  | [], isFirst, s, r, s' => by
    intro h hai hvnow hinv hframe hcand hswap
    simp only [Lacam2.pibtLoop] at h
    rcases Option.some.inj h with e
    obtain ⟨rfl, rfl⟩ : false = r ∧
        ({ s with occupied_next := upd s.occupied_next vnow (some ai),
                  v_next := upd s.v_next ai (some vnow) } : PState) = s' :=
      ⟨congrArg Prod.fst e, congrArg Prod.snd e⟩
    obtain ⟨hPI1, hvn1, hon1, hmono1, hgood1, hgai1, hvai1, hocc1, hother1⟩ :=
      pibt_write_spec ins ai vnow vnow s _ rfl hai hvnow hinv hframe
        (Or.inr rfl)
        (by intro b hb hob hvb
            obtain ⟨v0, hv0, ho0⟩ := hinv.2.2.1 ai hai
            rw [hvnow] at hv0
            rcases Option.some.inj hv0 with rfl
            rw [hob] at ho0
            exact hb (Option.some.inj ho0))
    refine ⟨hPI1, hvn1, hon1, hmono1, ?_, hgai1, ?_,
      fun _ => ⟨hocc1, hvai1⟩, ?_⟩
    · intro b hb hg hside
      exact hgood1 b hb hg (hside rfl)
    · intro _ v
      by_cases hv : v = vnow
      · refine Or.inr ⟨ai, ?_, ?_⟩
        · rw [hv]; exact hocc1
        · rw [hv]; exact hvnow
      · exact Or.inl (hother1 v hv)
    · intro htf; exact absurd htf (by decide)
  | u :: rest, isFirst, s, r, s' => by
    intro h hai hvnow hinv hframe hcand hswap
    have hcand' : ∀ w, w ∈ rest → w ∈ ins.adj vnow ∨ w = vnow :=
      fun w hw => hcand w (List.mem_cons_of_mem _ hw)
    simp only [Lacam2.pibtLoop] at h
    split at h
    · exact lacam2_pibtLoop_spec ins FLG_SWAP rec ai vnow swap_agent hrec
        rest false s r s' h hai hvnow hinv hframe hcand' hswap
    · rename_i hfree0
      have hfree : s.occupied_next u = none := not_not.mp hfree0
      split at h
      · rename_i ak hak
        split at h
        · exact lacam2_pibtLoop_spec ins FLG_SWAP rec ai vnow swap_agent hrec
            rest false s r s' h hai hvnow hinv hframe hcand' hswap
        · rename_i hhead0
          set s1 : PState :=
            { s with occupied_next := upd s.occupied_next u (some ai),
                     v_next := upd s.v_next ai (some u) } with hs1
          have hu : u ∈ ins.adj vnow ∨ u = vnow :=
            hcand u (List.mem_cons_self u rest)
          have hvnow_ak : s.v_now ak = some u := (hinv.1 u ak hak).2
          have hakN : ak < ins.N := (hinv.1 u ak hak).1
          obtain ⟨hPI1, hvn1, hon1, hmono1, hgood1, hgai1, hvai1, hocc1,
              hother1⟩ :=
            pibt_write_spec ins ai vnow u s s1 hs1 hai hvnow hinv hframe hu
              (by intro b hb hob hvb
                  rw [hak] at hob
                  rcases Option.some.inj hob with rfl
                  exact hhead0 hvb)
          split at h
          · rename_i hrecond
            obtain ⟨hakai, haknone1⟩ := hrecond
            have hs1ak : s1.v_next ak = none := haknone1
            have haknone' : s.v_next ak = none := by
              have hx : upd s.v_next ai (some u) ak = none := haknone1
              rw [upd_ne _ _ _ hakai] at hx
              exact hx
            have haiak : ai ≠ ak := fun e => hakai e.symm
            have huvnow : u ≠ vnow := by
              rintro rfl
              obtain ⟨v0, hv0, ho0⟩ := hinv.2.2.1 ai hai
              rw [hvnow] at hv0
              rcases Option.some.inj hv0 with rfl
              rw [hak] at ho0
              exact hakai (Option.some.inj ho0)
            split at h
            · exact Option.noConfusion h
            · rename_i s2 hrec2
              have hrec2' : rec ak s1 = some (false, s2) := hrec2
              have hpost := hrec ak s1 false s2 hrec2' hakN hs1ak hPI1
              have egetd : (s1.v_now ak).getD 0 = u := by
                show (s.v_now ak).getD 0 = u
                rw [hvnow_ak]
                rfl
              rw [egetd] at hpost
              obtain ⟨hPI2, hvn2, hon2, hmono2, hgood2, hgai2, hclob2,
                  hfmain2, -⟩ := hpost
              obtain ⟨hocc2u, hvak2⟩ := hfmain2 rfl
              have hvn2s : s2.v_now = s.v_now := hvn2.trans rfl
              have hon2s : s2.occupied_now = s.occupied_now := hon2.trans rfl
              have hvai2 : s2.v_next ai = some u := hmono2 ai haiak u hvai1
              have hframe2 : ∀ v, s2.occupied_next v ≠ some ai := by
                intro v hcv
                have hv2 := (hPI2.2.1 v ai hcv).2
                rw [hvai2] at hv2
                rcases Option.some.inj hv2 with rfl
                rw [hocc2u] at hcv
                exact hakai (Option.some.inj hcv)
              have hvnoweq : s2.occupied_next vnow = s.occupied_next vnow := by
                rcases hclob2 rfl vnow with hsame | ⟨c, hc, hcnow⟩
                · rw [hsame]
                  exact hother1 vnow (fun e => huvnow e.symm)
                · exfalso
                  have hcN : c < ins.N := (hPI2.2.1 vnow c hc).1
                  obtain ⟨vc, hvc, hoc⟩ := hinv.2.2.1 c hcN
                  have hcs : s.v_now c = some vnow := hcnow
                  rw [hcs] at hvc
                  rcases Option.some.inj hvc with rfl
                  obtain ⟨v0, hv0, ho0⟩ := hinv.2.2.1 ai hai
                  rw [hvnow] at hv0
                  rcases Option.some.inj hv0 with rfl
                  rw [hoc] at ho0
                  rcases Option.some.inj ho0 with rfl
                  exact hframe2 vnow hc
              have h' : Lacam2.pibtLoop rec ai vnow swap_agent FLG_SWAP false
                  rest s2 = some (r, s') := h
              have hres := lacam2_pibtLoop_spec ins FLG_SWAP rec ai vnow
                swap_agent hrec rest false s2 r s' h' hai
                (by rw [hvn2s]; exact hvnow) hPI2 hframe2 hcand'
                (by intro x hx
                    obtain ⟨hxN, hxadj⟩ := hswap x hx
                    refine ⟨hxN, ?_⟩
                    rw [hvn2s]
                    exact hxadj)
              obtain ⟨hPI', hvn', hon', hmono', hgood', hgai', hclob',
                  hfmain', htrue'⟩ := hres
              refine ⟨hPI', hvn'.trans hvn2s, hon'.trans hon2s, ?_, ?_, hgai',
                ?_, hfmain', htrue'⟩
              · intro b hb w hw
                have hbak : b ≠ ak := by
                  rintro rfl; rw [haknone'] at hw; exact Option.noConfusion hw
                exact hmono' b hb w (hmono2 b hbak w (hmono1 b hb w hw))
              · intro b hb hg hside
                have hg1 : Good s1 b := hgood1 b hb hg
                  (by rw [hfree]; exact fun hh => Option.noConfusion hh)
                by_cases hbak : b = ak
                · subst hbak
                  exact hgood' b hb hgai2
                    (fun hrf => by rw [hvnoweq]; exact hside hrf)
                · have hg2 : Good s2 b := hgood2 b hbak hg1
                    (fun _ => by
                      rw [hocc1]
                      intro hc2
                      exact hb (Option.some.inj hc2).symm)
                  exact hgood' b hb hg2
                    (fun hrf => by rw [hvnoweq]; exact hside hrf)
              · intro hrf v
                rcases hclob' hrf v with hsame' | ⟨c, hc, hcv⟩
                · rcases hclob2 rfl v with hsame2 | ⟨c, hc, hcv⟩
                  · by_cases hv : v = u
                    · refine Or.inr ⟨ak, ?_, ?_⟩
                      · rw [hsame', hv]; exact hocc2u
                      · rw [hv]; exact hvnow_ak
                    · refine Or.inl ?_
                      rw [hsame', hsame2]
                      exact hother1 v hv
                  · refine Or.inr ⟨c, ?_, hcv⟩
                    rw [hsame']; exact hc
                · refine Or.inr ⟨c, hc, ?_⟩
                  rw [← hvn2s]; exact hcv
            · rename_i s2 hrec2
              have hrec2' : rec ak s1 = some (true, s2) := hrec2
              rcases Option.some.inj h with e
              obtain ⟨rfl, rfl⟩ : true = r ∧
                  Lacam2.pullSwap FLG_SWAP isFirst swap_agent vnow s2 = s' :=
                ⟨congrArg Prod.fst e, congrArg Prod.snd e⟩
              have hpost := hrec ak s1 true s2 hrec2' hakN hs1ak hPI1
              have egetd : (s1.v_now ak).getD 0 = u := by
                show (s.v_now ak).getD 0 = u
                rw [hvnow_ak]
                rfl
              rw [egetd] at hpost
              obtain ⟨hPI2, hvn2, hon2, hmono2, hgood2, hgai2, -, -, htop2⟩ :=
                hpost
              have hvn2s : s2.v_now = s.v_now := hvn2.trans rfl
              have hon2s : s2.occupied_now = s.occupied_now := hon2.trans rfl
              have hvai2 : s2.v_next ai = some u := hmono2 ai haiak u hvai1
              have hvnow2 : s2.v_now ai = some vnow := by
                rw [hvn2s]; exact hvnow
              have hgai2' : Good s2 ai := hgood2 ai haiak hgai1
                (fun htf => absurd htf (by decide))
              obtain ⟨pPI, pvn, pon, pmono, pgood, pvai⟩ :=
                lacam2_pullSwap_spec ins FLG_SWAP isFirst swap_agent ai vnow u
                  s2 hai hvnow2 hPI2 hvai2
                  (by intro x hx
                      obtain ⟨hxN, hxadj⟩ := hswap x hx
                      exact ⟨hxN, by rw [hvn2s]; exact hxadj⟩)
                  (by intro x hx hxnone hvnone hxocc
                      rw [hon2s] at hxocc
                      rw [hak] at hxocc
                      rcases Option.some.inj hxocc with rfl
                      obtain ⟨w, hw⟩ := htop2 rfl
                      rw [hw] at hxnone
                      exact Option.noConfusion hxnone)
              refine ⟨pPI, pvn.trans hvn2s, pon.trans hon2s, ?_, ?_,
                pgood ai hgai2', ?_, ?_, fun _ => ⟨u, pvai⟩⟩
              · intro b hb w hw
                have hbak : b ≠ ak := by
                  rintro rfl; rw [haknone'] at hw; exact Option.noConfusion hw
                exact pmono b w (hmono2 b hbak w (hmono1 b hb w hw))
              · intro b hb hg hside
                have hg1 : Good s1 b := hgood1 b hb hg
                  (by rw [hfree]; exact fun hh => Option.noConfusion hh)
                by_cases hbak : b = ak
                · subst hbak
                  exact pgood b hgai2
                · exact pgood b (hgood2 b hbak hg1
                    (fun htf => absurd htf (by decide)))
              · intro htf; exact absurd htf (by decide)
              · intro htf; exact absurd htf (by decide)
          · rename_i hncond
            rcases Option.some.inj h with e
            obtain ⟨rfl, rfl⟩ : true = r ∧
                Lacam2.pullSwap FLG_SWAP isFirst swap_agent vnow s1 = s' :=
              ⟨congrArg Prod.fst e, congrArg Prod.snd e⟩
            have hvnow1 : s1.v_now ai = some vnow := hvnow
            obtain ⟨pPI, pvn, pon, pmono, pgood, pvai⟩ :=
              lacam2_pullSwap_spec ins FLG_SWAP isFirst swap_agent ai vnow u
                s1 hai hvnow1 hPI1 hvai1
                (by intro x hx; exact hswap x hx)
                (by intro x hx hxnone hvnone hxocc
                    have hxocc' : s.occupied_now u = some x := hxocc
                    rw [hak] at hxocc'
                    rcases Option.some.inj hxocc' with rfl
                    by_cases hakai : ak = ai
                    · have hvnu : s.v_now ak = some u := hvnow_ak
                      rw [hakai] at hvnu
                      rw [hvnow] at hvnu
                      rcases Option.some.inj hvnu with e2
                      rw [e2] at hvnone
                      rw [hocc1] at hvnone
                      exact Option.noConfusion hvnone
                    · exact hncond ⟨hakai, hxnone⟩)
            refine ⟨pPI, pvn.trans rfl, pon.trans rfl, ?_, ?_,
              pgood ai hgai1, ?_, ?_, fun _ => ⟨u, pvai⟩⟩
            · intro b hb w hw
              exact pmono b w (hmono1 b hb w hw)
            · intro b hb hg hside
              exact pgood b (hgood1 b hb hg
                (by rw [hfree]; exact fun hh => Option.noConfusion hh))
            · intro htf; exact absurd htf (by decide)
            · intro htf; exact absurd htf (by decide)
      · rename_i hak
        set s1 : PState :=
          { s with occupied_next := upd s.occupied_next u (some ai),
                   v_next := upd s.v_next ai (some u) } with hs1
        have hu : u ∈ ins.adj vnow ∨ u = vnow :=
          hcand u (List.mem_cons_self u rest)
        obtain ⟨hPI1, hvn1, hon1, hmono1, hgood1, hgai1, hvai1, hocc1,
            hother1⟩ :=
          pibt_write_spec ins ai vnow u s s1 hs1 hai hvnow hinv hframe hu
            (by intro b hb hob
                rw [hak] at hob
                exact Option.noConfusion hob)
        rcases Option.some.inj h with e
        obtain ⟨rfl, rfl⟩ : true = r ∧
            Lacam2.pullSwap FLG_SWAP isFirst swap_agent vnow s1 = s' :=
          ⟨congrArg Prod.fst e, congrArg Prod.snd e⟩
        obtain ⟨pPI, pvn, pon, pmono, pgood, pvai⟩ :=
          lacam2_pullSwap_spec ins FLG_SWAP isFirst swap_agent ai vnow u s1
            hai hvnow hPI1 hvai1
            (by intro x hx; exact hswap x hx)
            (by intro x hx hxnone hvnone hxocc
                have hxocc' : s.occupied_now u = some x := hxocc
                rw [hak] at hxocc'
                exact Option.noConfusion hxocc')
        refine ⟨pPI, pvn.trans rfl, pon.trans rfl, ?_, ?_, pgood ai hgai1,
          ?_, ?_, fun _ => ⟨u, pvai⟩⟩
        · intro b hb w hw
          exact pmono b w (hmono1 b hb w hw)
        · intro b hb hg hside
          exact pgood b (hgood1 b hb hg
            (by rw [hfree]; exact fun hh => Option.noConfusion hh))
        · intro htf; exact absurd htf (by decide)
        · intro htf; exact absurd htf (by decide)

theorem headD_mem_of_ne_nil {α : Type} (l : List α) (d : α) (h : l ≠ []) :
    l.headD d ∈ l := by
  cases l with
  | nil => exact absurd rfl h
  | cons a t => exact List.mem_cons_self a t

theorem isortLe_headD_mem {α : Type} (le : α → α → Bool) (l : List α) (d : α)
    (hl : l ≠ []) : (isortLe le l).headD d ∈ l := by
  have hp := isortLe_perm le l
  have hne : isortLe le l ≠ [] := by
    intro hnil
    rw [hnil] at hp
    exact hl hp.nil_eq.symm
  rw [← isortLe_mem le l]
  exact headD_mem_of_ne_nil _ d hne

/-- `funcPIBT` of lacam2 satisfies the PIBT contract, by induction on the
priority-inheritance fuel.  `hSym` is symmetry of the adjacency lists (a
graph property, used only by the swap pull). -/
theorem lacam2_funcPIBT_spec (ins : Inst) (D : Nat → Nat → Nat)
    (goals : List Nat) (FLG_SWAP rngOn : Bool) (stream : Nat → Q)
    (hSym : ∀ a b, a ∈ ins.adj b → b ∈ ins.adj a) :
    ∀ (fuel ai : Nat) (s : PState) (r : Bool) (s' : PState),
      Lacam2.funcPIBT ins D goals FLG_SWAP rngOn stream fuel ai s =
        some (r, s') →
      ai < ins.N → s.v_next ai = none → PInv ins s →
      PibtPost ins ai ((s.v_now ai).getD 0) s r s'
  | 0, ai, s, r, s' => by
    intro h
    simp [Lacam2.funcPIBT] at h
  | fuel + 1, ai, s, r, s' => by
    intro h hai hvai hinv
    obtain ⟨ef1, ef2, ef3, ef4⟩ :=
      lacam2_setTies_fields rngOn stream (ins.adj ((s.v_now ai).getD 0)) s
    simp only [Lacam2.funcPIBT] at h
    split at h
    · exact Option.noConfusion h
    · rename_i swag hsw
      refine PibtPost_congr ins ai ((s.v_now ai).getD 0) s _ r s' ef1 ef2 ef3
        ef4
        (lacam2_pibtLoop_spec ins FLG_SWAP
          (Lacam2.funcPIBT ins D goals FLG_SWAP rngOn stream fuel) ai
          ((s.v_now ai).getD 0) swag ?_ _ true _ r s' h hai ?_ ?_ ?_ ?_ ?_)
      · exact fun ak sx rx sx' hx hxN hxnone hxinv =>
          lacam2_funcPIBT_spec ins D goals FLG_SWAP rngOn stream hSym fuel ak
            sx rx sx' hx hxN hxnone hxinv
      · rw [ef1]
        obtain ⟨v0, hv0, -⟩ := hinv.2.2.1 ai hai
        rw [hv0]
        rfl
      · exact PInv_congr ins s _ ef1 ef2 ef3 ef4 hinv
      · intro v hc
        rw [ef4] at hc
        have hx := (hinv.2.1 v ai hc).2
        rw [hvai] at hx
        exact Option.noConfusion hx
      · intro w hw
        split at hw
        · rw [List.mem_reverse, isortLe_mem] at hw
          rcases List.mem_append.mp hw with h1 | h2
          · exact Or.inl h1
          · exact Or.inr (List.mem_singleton.mp h2)
        · rw [isortLe_mem] at hw
          rcases List.mem_append.mp hw with h1 | h2
          · exact Or.inl h1
          · exact Or.inr (List.mem_singleton.mp h2)
      · intro x hx
        subst hx
        rw [ef1]
        split at hsw
        · have hmem := lacam2_swap_agent_mem _ _ _ _ _ _ _ hsw
          rw [ef1, ef3] at hmem
          rcases hmem with ⟨hoccx, hne⟩ | ⟨u, hu, hoccx⟩
          · have hfacts := hinv.1 _ x hoccx
            refine ⟨hfacts.1, Or.inl ?_⟩
            have hc0m := isortLe_headD_mem
              (fun v u => Q.ble
                (Q.add (Q.ofNat (D ai v))
                  ((Lacam2.setTies rngOn stream
                    (ins.adj ((s.v_now ai).getD 0)) s).tie_breakers v))
                (Q.add (Q.ofNat (D ai u))
                  ((Lacam2.setTies rngOn stream
                    (ins.adj ((s.v_now ai).getD 0)) s).tie_breakers u)))
              (ins.adj ((s.v_now ai).getD 0) ++ [(s.v_now ai).getD 0]) 0
              (by simp)
            rcases List.mem_append.mp hc0m with hin | hsing
            · rw [hfacts.2]
              exact hSym _ _ hin
            · exact absurd (List.mem_singleton.mp hsing) hne
          · have hfacts := hinv.1 u x hoccx
            refine ⟨hfacts.1, Or.inl ?_⟩
            rw [hfacts.2]
            exact hSym _ _ hu
        · exact Option.noConfusion (Option.some.inj hsw)

/-- The candidate loop of lacam's `funcPIBT(ai, aj)` satisfies the PIBT
contract, given that its recursive calls do. -/
theorem lacam_pibtLoop_spec (ins : Inst)
    (rec : Nat → Option Nat → PState → Option (Bool × PState))
    (ai vnow : Nat) (aj : Option Nat)
    (hrec : ∀ ak ajx s r s', rec ak ajx s = some (r, s') → ak < ins.N →
      s.v_next ak = none → PInv ins s →
      PibtPost ins ak ((s.v_now ak).getD 0) s r s') :
    ∀ (cand : List Nat) (s : PState) (r : Bool) (s' : PState),
      Lacam.pibtLoop rec ai vnow aj cand s = some (r, s') →
      ai < ins.N → s.v_now ai = some vnow → PInv ins s →
      (∀ v, s.occupied_next v ≠ some ai) →
      (∀ u, u ∈ cand → u ∈ ins.adj vnow ∨ u = vnow) →
      PibtPost ins ai vnow s r s'
  | [], s, r, s' => by
    intro h hai hvnow hinv hframe hcand
    simp only [Lacam.pibtLoop] at h
    rcases Option.some.inj h with e
    obtain ⟨rfl, rfl⟩ : false = r ∧
        ({ s with occupied_next := upd s.occupied_next vnow (some ai),
                  v_next := upd s.v_next ai (some vnow) } : PState) = s' :=
      ⟨congrArg Prod.fst e, congrArg Prod.snd e⟩
    obtain ⟨hPI1, hvn1, hon1, hmono1, hgood1, hgai1, hvai1, hocc1, hother1⟩ :=
      pibt_write_spec ins ai vnow vnow s _ rfl hai hvnow hinv hframe
        (Or.inr rfl)
        (by intro b hb hob hvb
            obtain ⟨v0, hv0, ho0⟩ := hinv.2.2.1 ai hai
            rw [hvnow] at hv0
            rcases Option.some.inj hv0 with rfl
            rw [hob] at ho0
            exact hb (Option.some.inj ho0))
    refine ⟨hPI1, hvn1, hon1, hmono1, ?_, hgai1, ?_,
      fun _ => ⟨hocc1, hvai1⟩, ?_⟩
    · intro b hb hg hside
      exact hgood1 b hb hg (hside rfl)
    · intro _ v
      by_cases hv : v = vnow
      · refine Or.inr ⟨ai, ?_, ?_⟩
        · rw [hv]; exact hocc1
        · rw [hv]; exact hvnow
      · exact Or.inl (hother1 v hv)
    · intro htf; exact absurd htf (by decide)
  | u :: rest, s, r, s' => by
    intro h hai hvnow hinv hframe hcand
    have hcand' : ∀ w, w ∈ rest → w ∈ ins.adj vnow ∨ w = vnow :=
      fun w hw => hcand w (List.mem_cons_of_mem _ hw)
    simp only [Lacam.pibtLoop] at h
    split at h
    · exact lacam_pibtLoop_spec ins rec ai vnow aj hrec rest s r s' h hai
        hvnow hinv hframe hcand'
    · rename_i hfree0
      have hfree : s.occupied_next u = none := not_not.mp hfree0
      split at h
      · exact lacam_pibtLoop_spec ins rec ai vnow aj hrec rest s r s' h hai
          hvnow hinv hframe hcand'
      · split at h
        · rename_i hak
          rcases Option.some.inj h with e
          obtain ⟨rfl, rfl⟩ : true = r ∧
              ({ s with occupied_next := upd s.occupied_next u (some ai),
                        v_next := upd s.v_next ai (some u) } : PState) = s' :=
            ⟨congrArg Prod.fst e, congrArg Prod.snd e⟩
          obtain ⟨hPI1, hvn1, hon1, hmono1, hgood1, hgai1, hvai1, hocc1,
              hother1⟩ :=
            pibt_write_spec ins ai vnow u s _ rfl hai hvnow hinv hframe
              (hcand u (List.mem_cons_self u rest))
              (by intro b hb hob
                  rw [hak] at hob
                  exact Option.noConfusion hob)
          refine ⟨hPI1, hvn1, hon1, hmono1, ?_, hgai1, ?_, ?_,
            fun _ => ⟨u, hvai1⟩⟩
          · intro b hb hg hside
            exact hgood1 b hb hg
              (by rw [hfree]; exact fun hh => Option.noConfusion hh)
          · intro htf; exact absurd htf (by decide)
          · intro htf; exact absurd htf (by decide)
        · rename_i ak hak
          split at h
          · exact lacam_pibtLoop_spec ins rec ai vnow aj hrec rest s r s' h
              hai hvnow hinv hframe hcand'
          · rename_i hhead0
            have hvnow_ak : s.v_now ak = some u := (hinv.1 u ak hak).2
            have hakN : ak < ins.N := (hinv.1 u ak hak).1
            set s1 : PState :=
              { s with occupied_next := upd s.occupied_next u (some ai),
                       v_next := upd s.v_next ai (some u) } with hs1
            obtain ⟨hPI1, hvn1, hon1, hmono1, hgood1, hgai1, hvai1, hocc1,
                hother1⟩ :=
              pibt_write_spec ins ai vnow u s s1 hs1 hai hvnow hinv hframe
                (hcand u (List.mem_cons_self u rest))
                (by intro b hb hob hvb
                    rw [hak] at hob
                    rcases Option.some.inj hob with rfl
                    exact hhead0 hvb)
            split at h
            · rename_i huvnow0
              rcases Option.some.inj h with e
              obtain ⟨rfl, rfl⟩ : true = r ∧ s1 = s' :=
                ⟨congrArg Prod.fst e, congrArg Prod.snd e⟩
              refine ⟨hPI1, hvn1, hon1, hmono1, ?_, hgai1, ?_, ?_,
                fun _ => ⟨u, hvai1⟩⟩
              · intro b hb hg hside
                exact hgood1 b hb hg
                  (by rw [hfree]; exact fun hh => Option.noConfusion hh)
              · intro htf; exact absurd htf (by decide)
              · intro htf; exact absurd htf (by decide)
            · rename_i huvnow0
              have huvnow : u ≠ vnow := huvnow0
              split at h
              · rename_i haknone1
                have hs1ak : s1.v_next ak = none := haknone1
                have hakai : ak ≠ ai := by
                  rintro rfl
                  rw [hvnow] at hvnow_ak
                  exact huvnow (Option.some.inj hvnow_ak).symm
                have haknone' : s.v_next ak = none := by
                  have hx : upd s.v_next ai (some u) ak = none := haknone1
                  rw [upd_ne _ _ _ hakai] at hx
                  exact hx
                have haiak : ai ≠ ak := fun e => hakai e.symm
                have huvnow2 : u ≠ vnow := huvnow
                split at h
                · exact Option.noConfusion h
                · rename_i s2 hrec2
                  have hrec2' : rec ak (some ai) s1 = some (false, s2) := hrec2
                  have hpost := hrec ak (some ai) s1 false s2 hrec2' hakN hs1ak
                    hPI1
                  have egetd : (s1.v_now ak).getD 0 = u := by
                    show (s.v_now ak).getD 0 = u
                    rw [hvnow_ak]
                    rfl
                  rw [egetd] at hpost
                  obtain ⟨hPI2, hvn2, hon2, hmono2, hgood2, hgai2, hclob2,
                      hfmain2, -⟩ := hpost
                  obtain ⟨hocc2u, hvak2⟩ := hfmain2 rfl
                  have hvn2s : s2.v_now = s.v_now := hvn2.trans rfl
                  have hon2s : s2.occupied_now = s.occupied_now :=
                    hon2.trans rfl
                  have hvai2 : s2.v_next ai = some u := hmono2 ai haiak u hvai1
                  have hframe2 : ∀ v, s2.occupied_next v ≠ some ai := by
                    intro v hcv
                    have hv2 := (hPI2.2.1 v ai hcv).2
                    rw [hvai2] at hv2
                    rcases Option.some.inj hv2 with rfl
                    rw [hocc2u] at hcv
                    exact hakai (Option.some.inj hcv)
                  have hvnoweq : s2.occupied_next vnow =
                      s.occupied_next vnow := by
                    rcases hclob2 rfl vnow with hsame | ⟨c, hc, hcnow⟩
                    · rw [hsame]
                      exact hother1 vnow (fun e => huvnow2 e.symm)
                    · exfalso
                      have hcN : c < ins.N := (hPI2.2.1 vnow c hc).1
                      obtain ⟨vc, hvc, hoc⟩ := hinv.2.2.1 c hcN
                      have hcs : s.v_now c = some vnow := hcnow
                      rw [hcs] at hvc
                      rcases Option.some.inj hvc with rfl
                      obtain ⟨v0, hv0, ho0⟩ := hinv.2.2.1 ai hai
                      rw [hvnow] at hv0
                      rcases Option.some.inj hv0 with rfl
                      rw [hoc] at ho0
                      rcases Option.some.inj ho0 with rfl
                      exact hframe2 vnow hc
                  have h' : Lacam.pibtLoop rec ai vnow aj rest s2 =
                      some (r, s') := h
                  have hres := lacam_pibtLoop_spec ins rec ai vnow aj hrec
                    rest s2 r s' h' hai (by rw [hvn2s]; exact hvnow) hPI2
                    hframe2 hcand'
                  obtain ⟨hPI', hvn', hon', hmono', hgood', hgai', hclob',
                      hfmain', htrue'⟩ := hres
                  refine ⟨hPI', hvn'.trans hvn2s, hon'.trans hon2s, ?_, ?_,
                    hgai', ?_, hfmain', htrue'⟩
                  · intro b hb w hw
                    have hbak : b ≠ ak := by
                      rintro rfl
                      rw [haknone'] at hw
                      exact Option.noConfusion hw
                    exact hmono' b hb w (hmono2 b hbak w (hmono1 b hb w hw))
                  · intro b hb hg hside
                    have hg1 : Good s1 b := hgood1 b hb hg
                      (by rw [hfree]; exact fun hh => Option.noConfusion hh)
                    by_cases hbak : b = ak
                    · subst hbak
                      exact hgood' b hb hgai2
                        (fun hrf => by rw [hvnoweq]; exact hside hrf)
                    · have hg2 : Good s2 b := hgood2 b hbak hg1
                        (fun _ => by
                          rw [hocc1]
                          intro hc2
                          exact hb (Option.some.inj hc2).symm)
                      exact hgood' b hb hg2
                        (fun hrf => by rw [hvnoweq]; exact hside hrf)
                  · intro hrf v
                    rcases hclob' hrf v with hsame' | ⟨c, hc, hcv⟩
                    · rcases hclob2 rfl v with hsame2 | ⟨c, hc, hcv⟩
                      · by_cases hv : v = u
                        · refine Or.inr ⟨ak, ?_, ?_⟩
                          · rw [hsame', hv]; exact hocc2u
                          · rw [hv]; exact hvnow_ak
                        · refine Or.inl ?_
                          rw [hsame', hsame2]
                          exact hother1 v hv
                      · refine Or.inr ⟨c, ?_, hcv⟩
                        rw [hsame']; exact hc
                    · refine Or.inr ⟨c, hc, ?_⟩
                      rw [← hvn2s]; exact hcv
                · rename_i s2 hrec2
                  have hrec2' : rec ak (some ai) s1 = some (true, s2) := hrec2
                  rcases Option.some.inj h with e
                  obtain ⟨rfl, rfl⟩ : true = r ∧ s2 = s' :=
                    ⟨congrArg Prod.fst e, congrArg Prod.snd e⟩
                  have hpost := hrec ak (some ai) s1 true s2 hrec2' hakN hs1ak
                    hPI1
                  have egetd : (s1.v_now ak).getD 0 = u := by
                    show (s.v_now ak).getD 0 = u
                    rw [hvnow_ak]
                    rfl
                  rw [egetd] at hpost
                  obtain ⟨hPI2, hvn2, hon2, hmono2, hgood2, hgai2, -, -,
                      htop2⟩ := hpost
                  have hvn2s : s2.v_now = s.v_now := hvn2.trans rfl
                  have hon2s : s2.occupied_now = s.occupied_now :=
                    hon2.trans rfl
                  have hvai2 : s2.v_next ai = some u := hmono2 ai haiak u hvai1
                  have hgai2' : Good s2 ai := hgood2 ai haiak hgai1
                    (fun htf => absurd htf (by decide))
                  refine ⟨hPI2, hvn2.trans rfl, hon2.trans rfl, ?_, ?_,
                    hgai2', ?_, ?_, fun _ => ⟨u, hvai2⟩⟩
                  · intro b hb w hw
                    have hbak : b ≠ ak := by
                      rintro rfl
                      rw [haknone'] at hw
                      exact Option.noConfusion hw
                    exact hmono2 b hbak w (hmono1 b hb w hw)
                  · intro b hb hg hside
                    have hg1 : Good s1 b := hgood1 b hb hg
                      (by rw [hfree]; exact fun hh => Option.noConfusion hh)
                    by_cases hbak : b = ak
                    · subst hbak
                      exact hgai2
                    · exact hgood2 b hbak hg1
                        (fun htf => absurd htf (by decide))
                  · intro htf; exact absurd htf (by decide)
                  · intro htf; exact absurd htf (by decide)
              · rcases Option.some.inj h with e
                obtain ⟨rfl, rfl⟩ : true = r ∧ s1 = s' :=
                  ⟨congrArg Prod.fst e, congrArg Prod.snd e⟩
                refine ⟨hPI1, hvn1, hon1, hmono1, ?_, hgai1, ?_, ?_,
                  fun _ => ⟨u, hvai1⟩⟩
                · intro b hb hg hside
                  exact hgood1 b hb hg
                    (by rw [hfree]; exact fun hh => Option.noConfusion hh)
                · intro htf; exact absurd htf (by decide)
                · intro htf; exact absurd htf (by decide)

/-- `funcPIBT` of lacam satisfies the PIBT contract, by induction on the
priority-inheritance fuel. -/
theorem lacam_funcPIBT_spec (ins : Inst) (D : Nat → Nat → Nat)
    (rngOn : Bool) (stream : Nat → Q) :
    ∀ (fuel ai : Nat) (aj : Option Nat) (s : PState) (r : Bool)
      (s' : PState),
      Lacam.funcPIBT ins D rngOn stream fuel ai aj s = some (r, s') →
      ai < ins.N → s.v_next ai = none → PInv ins s →
      PibtPost ins ai ((s.v_now ai).getD 0) s r s'
  | 0, ai, aj, s, r, s' => by
    intro h
    simp [Lacam.funcPIBT] at h
  | fuel + 1, ai, aj, s, r, s' => by
    intro h hai hvai hinv
    obtain ⟨ef1, ef2, ef3, ef4⟩ :=
      lacam_setTies_fields rngOn stream (ins.adj ((s.v_now ai).getD 0)) s
    simp only [Lacam.funcPIBT] at h
    refine PibtPost_congr ins ai ((s.v_now ai).getD 0) s _ r s' ef1 ef2 ef3
      ef4
      (lacam_pibtLoop_spec ins (Lacam.funcPIBT ins D rngOn stream fuel) ai
        ((s.v_now ai).getD 0) aj ?_ _ _ r s' h hai ?_ ?_ ?_ ?_)
    · exact fun ak ajx sx rx sx' hx hxN hxnone hxinv =>
        lacam_funcPIBT_spec ins D rngOn stream fuel ak ajx sx rx sx' hx hxN
          hxnone hxinv
    · rw [ef1]
      obtain ⟨v0, hv0, -⟩ := hinv.2.2.1 ai hai
      rw [hv0]
      rfl
    · exact PInv_congr ins s _ ef1 ef2 ef3 ef4 hinv
    · intro v hc
      rw [ef4] at hc
      have hx := (hinv.2.1 v ai hc).2
      rw [hvai] at hx
      exact Option.noConfusion hx
    · intro w hw
      rw [isortLe_mem] at hw
      rcases List.mem_append.mp hw with h1 | h2
      · exact Or.inl h1
      · exact Or.inr (List.mem_singleton.mp h2)

theorem insC_adj_symm : ∀ a b, a ∈ insC.adj b → b ∈ insC.adj a := by
  intro a b h
  by_cases hb0 : b = 0
  · subst hb0
    have h' : a ∈ [1] := h
    rw [List.mem_singleton] at h'
    subst h'
    decide
  · by_cases hb1 : b = 1
    · subst hb1
      have h' : a ∈ [0] := h
      rw [List.mem_singleton] at h'
      subst h'
      decide
    · have he : insC.adj b = [] := by simp [insC, hb0, hb1]
      rw [he] at h
      exact absurd h (List.not_mem_nil a)

theorem pinv_wPS : PInv insC wPS := by
  refine ⟨?_, ?_, ?_, ?_, ?_⟩
  · intro v a h
    have h' : (if v < 2 then some v else none) = some a := h
    split at h'
    · rename_i hv2
      rcases Option.some.inj h' with rfl
      refine ⟨hv2, ?_⟩
      show (if v < 2 then some v else none) = some v
      rw [if_pos hv2]
    · exact Option.noConfusion h'
  · intro v b h
    have h' : (if v = 0 then some 1 else none) = some b := h
    split at h'
    · rename_i hv0
      rcases Option.some.inj h' with rfl
      subst hv0
      exact ⟨by decide, rfl⟩
    · exact Option.noConfusion h'
  · intro a ha
    have ha2 : a < 2 := ha
    refine ⟨a, ?_, ?_⟩
    · show (if a < 2 then some a else none) = some a
      rw [if_pos ha2]
    · show (if a < 2 then some a else none) = some a
      rw [if_pos ha2]
  · intro a ha b hb hne hcon
    obtain ⟨e1, e2⟩ := hcon
    have ha2 : a < 2 := ha
    have hb2 : b < 2 := hb
    interval_cases a <;> interval_cases b
    · exact hne rfl
    · exact Option.noConfusion e1
    · exact Option.noConfusion e2
    · exact hne rfl
  · intro a ha u hu
    have hu' : (if a = 1 then some 0 else none) = some u := hu
    split at hu'
    · rename_i ha1
      subst ha1
      rcases Option.some.inj hu' with rfl
      exact Or.inl (by decide)
    · exact Option.noConfusion hu'

/-- C8: within one `funcPIBT(ai)` invocation, a priority-inheritance
recursion for the occupant `ak` of a reserved candidate `u` that returns
false leaves `ak`'s own current vertex (`u = ak->v_now`) reserved for
`ak` itself — so `occupied_next[u]` no longer maps to `ai` and the undo
of `ai`'s reservation is implicit; moreover no agent ever holds two live
reservations in `occupied_next`.  Stated for the failed callee of either
planner: it ends with `occupied_next[ak->v_now] = ak`,
`ak->v_next = ak->v_now`, that slot does not map to the caller, and
reservations name each agent at most once. -/
theorem C8_pibt_implicit_undo :
    (∀ (ins : Inst) (D : Nat → Nat → Nat) (goals : List Nat)
      (FLG_SWAP rngOn : Bool) (stream : Nat → Q) (fuel ai ak : Nat)
      (s s' : PState),
      (∀ a b, a ∈ ins.adj b → b ∈ ins.adj a) →
      PInv ins s → ak < ins.N → s.v_next ak = none → ak ≠ ai →
      Lacam2.funcPIBT ins D goals FLG_SWAP rngOn stream fuel ak s =
        some (false, s') →
      s'.occupied_next ((s.v_now ak).getD 0) = some ak ∧
      s'.v_next ak = some ((s.v_now ak).getD 0) ∧
      s'.occupied_next ((s.v_now ak).getD 0) ≠ some ai ∧
      (∀ v w c, s'.occupied_next v = some c → s'.occupied_next w = some c →
        v = w)) ∧
    (∀ (ins : Inst) (D : Nat → Nat → Nat) (rngOn : Bool) (stream : Nat → Q)
      (fuel ai ak : Nat) (aj : Option Nat) (s s' : PState),
      PInv ins s → ak < ins.N → s.v_next ak = none → ak ≠ ai →
      Lacam.funcPIBT ins D rngOn stream fuel ak aj s = some (false, s') →
      s'.occupied_next ((s.v_now ak).getD 0) = some ak ∧
      s'.v_next ak = some ((s.v_now ak).getD 0) ∧
      s'.occupied_next ((s.v_now ak).getD 0) ≠ some ai ∧
      (∀ v w c, s'.occupied_next v = some c → s'.occupied_next w = some c →
        v = w)) := by
  constructor
  · intro ins D goals FLG_SWAP rngOn stream fuel ai ak s s' hSym hinv hakN
      hvak hne h
    obtain ⟨hPI', -, -, -, -, -, -, hfmain, -⟩ :=
      lacam2_funcPIBT_spec ins D goals FLG_SWAP rngOn stream hSym fuel ak s
        false s' h hakN hvak hinv
    obtain ⟨hocc, hvn⟩ := hfmain rfl
    refine ⟨hocc, hvn, ?_, ?_⟩
    · rw [hocc]
      intro hc
      exact hne (Option.some.inj hc)
    · intro v w c hv hw
      have h1 := (hPI'.2.1 v c hv).2
      have h2 := (hPI'.2.1 w c hw).2
      rw [h1] at h2
      exact Option.some.inj h2
  · intro ins D rngOn stream fuel ai ak aj s s' hinv hakN hvak hne h
    obtain ⟨hPI', -, -, -, -, -, -, hfmain, -⟩ :=
      lacam_funcPIBT_spec ins D rngOn stream fuel ak aj s false s' h hakN
        hvak hinv
    obtain ⟨hocc, hvn⟩ := hfmain rfl
    refine ⟨hocc, hvn, ?_, ?_⟩
    · rw [hocc]
      intro hc
      exact hne (Option.some.inj hc)
    · intro v w c hv hw
      have h1 := (hPI'.2.1 v c hv).2
      have h2 := (hPI'.2.1 w c hw).2
      rw [h1] at h2
      exact Option.some.inj h2

/-- Witness for C8: on the two-vertex instance `insC`, agent 0's
`funcPIBT` call fails (agent 1 is committed onto vertex 0), and in both
planners the failed call ends by re-reserving vertex 0 for agent 0. -/
theorem C8_pibt_implicit_undo_witness :
    (wPS2.occupied_next 0 = some 0 ∧ wPS2.v_next 0 = some 0 ∧
      wPS2.occupied_next 0 ≠ some 1) ∧
    (wPSL.occupied_next 0 = some 0 ∧ wPSL.v_next 0 = some 0 ∧
      wPSL.occupied_next 0 ≠ some 1) := by
  have h2 := C8_pibt_implicit_undo.1 insC (fun _ _ => 0) [] false false
    zeroStream 3 1 0 wPS wPS2 insC_adj_symm pinv_wPS (by decide) rfl
    (by decide) (by rfl)
  have h1 := C8_pibt_implicit_undo.2 insC (fun _ _ => 0) false zeroStream 3
    1 0 none wPS wPSL pinv_wPS (by decide) rfl (by decide) (by rfl)
  exact ⟨⟨h2.1, h2.2.1, h2.2.2.1⟩, ⟨h1.1, h1.2.1, h1.2.2.1⟩⟩

/-! ### The cache-setup loop of `get_new_config` -/

theorem resetAgent_fields (C : List Nat) (a : Nat) (s : PState) :
    (Lacam2.resetAgent C a s).v_now = upd s.v_now a (some (C.getD a 0)) ∧
    (Lacam2.resetAgent C a s).v_next a = none ∧
    (∀ b, b ≠ a → (Lacam2.resetAgent C a s).v_next b = s.v_next b) ∧
    (∀ v c, (Lacam2.resetAgent C a s).occupied_next v = some c →
      s.occupied_next v = some c ∧ s.v_next a ≠ some v) ∧
    (Lacam2.resetAgent C a s).occupied_now (C.getD a 0) = some a ∧
    (∀ v c, v ≠ C.getD a 0 →
      (Lacam2.resetAgent C a s).occupied_now v = some c →
      s.occupied_now v = some c ∧ (c = a → s.v_now a ≠ some v)) ∧
    (∀ v c, v ≠ C.getD a 0 → c ≠ a → s.occupied_now v = some c →
      (Lacam2.resetAgent C a s).occupied_now v = some c) := by
  rcases hvn : s.v_now a with _ | v0
  · rcases hvx : s.v_next a with _ | u0
    · have he : Lacam2.resetAgent C a s =
          { s with v_now := upd s.v_now a (some (C.getD a 0)),
                   occupied_now := upd s.occupied_now (C.getD a 0) (some a) } := by
        simp only [Lacam2.resetAgent, hvn, hvx]
      rw [he]
      refine ⟨rfl, hvx, fun b hb => rfl, ?_, ?_, ?_, ?_⟩
      · intro v c hc
        exact ⟨hc, fun hh => Option.noConfusion hh⟩
      · show upd s.occupied_now (C.getD a 0) (some a) (C.getD a 0) = some a
        rw [upd_same]
      · intro v c hv hc
        have hc' : upd s.occupied_now (C.getD a 0) (some a) v = some c := hc
        rw [upd_ne _ _ _ hv] at hc'
        exact ⟨hc', fun _ hh => Option.noConfusion hh⟩
      · intro v c hv hca hc
        show upd s.occupied_now (C.getD a 0) (some a) v = some c
        rw [upd_ne _ _ _ hv]
        exact hc
    · have he : Lacam2.resetAgent C a s =
          { s with occupied_next := upd s.occupied_next u0 none,
                   v_next := upd s.v_next a none,
                   v_now := upd s.v_now a (some (C.getD a 0)),
                   occupied_now := upd s.occupied_now (C.getD a 0) (some a) } := by
        simp only [Lacam2.resetAgent, hvn, hvx]
      rw [he]
      refine ⟨rfl, ?_, ?_, ?_, ?_, ?_, ?_⟩
      · show upd s.v_next a none a = none
        rw [upd_same]
      · intro b hb
        show upd s.v_next a none b = s.v_next b
        rw [upd_ne _ _ _ hb]
      · intro v c hc
        have hc' : upd s.occupied_next u0 none v = some c := hc
        by_cases hv : v = u0
        · rw [hv, upd_same] at hc'
          exact Option.noConfusion hc'
        · rw [upd_ne _ _ _ hv] at hc'
          refine ⟨hc', ?_⟩
          intro hh
          exact hv (Option.some.inj hh).symm
      · show upd s.occupied_now (C.getD a 0) (some a) (C.getD a 0) = some a
        rw [upd_same]
      · intro v c hv hc
        have hc' : upd s.occupied_now (C.getD a 0) (some a) v = some c := hc
        rw [upd_ne _ _ _ hv] at hc'
        exact ⟨hc', fun _ hh => Option.noConfusion hh⟩
      · intro v c hv hca hc
        show upd s.occupied_now (C.getD a 0) (some a) v = some c
        rw [upd_ne _ _ _ hv]
        exact hc
  · by_cases hocc : s.occupied_now v0 = some a
    · rcases hvx : s.v_next a with _ | u0
      · have he : Lacam2.resetAgent C a s =
            { s with
                occupied_now := upd (upd s.occupied_now v0 none) (C.getD a 0) (some a),
                v_now := upd s.v_now a (some (C.getD a 0)) } := by
          simp only [Lacam2.resetAgent, hvn, hvx, if_pos hocc]
        rw [he]
        refine ⟨rfl, hvx, fun b hb => rfl, ?_, ?_, ?_, ?_⟩
        · intro v c hc
          exact ⟨hc, fun hh => Option.noConfusion hh⟩
        · show upd (upd s.occupied_now v0 none) (C.getD a 0) (some a)
            (C.getD a 0) = some a
          rw [upd_same]
        · intro v c hv hc
          have hc' : upd (upd s.occupied_now v0 none) (C.getD a 0) (some a) v
              = some c := hc
          rw [upd_ne _ _ _ hv] at hc'
          by_cases hv0 : v = v0
          · rw [hv0, upd_same] at hc'
            exact Option.noConfusion hc'
          · rw [upd_ne _ _ _ hv0] at hc'
            refine ⟨hc', fun _ hh => ?_⟩
            exact hv0 (Option.some.inj hh).symm
        · intro v c hv hca hc
          show upd (upd s.occupied_now v0 none) (C.getD a 0) (some a) v
            = some c
          rw [upd_ne _ _ _ hv]
          by_cases hv0 : v = v0
          · rw [hv0] at hc
            rw [hocc] at hc
            exact absurd (Option.some.inj hc).symm hca
          · rw [upd_ne _ _ _ hv0]
            exact hc
      · have he : Lacam2.resetAgent C a s =
            { s with
                occupied_now := upd (upd s.occupied_now v0 none) (C.getD a 0) (some a),
                occupied_next := upd s.occupied_next u0 none,
                v_next := upd s.v_next a none,
                v_now := upd s.v_now a (some (C.getD a 0)) } := by
          simp only [Lacam2.resetAgent, hvn, hvx, if_pos hocc]
        rw [he]
        refine ⟨rfl, ?_, ?_, ?_, ?_, ?_, ?_⟩
        · show upd s.v_next a none a = none
          rw [upd_same]
        · intro b hb
          show upd s.v_next a none b = s.v_next b
          rw [upd_ne _ _ _ hb]
        · intro v c hc
          have hc' : upd s.occupied_next u0 none v = some c := hc
          by_cases hv : v = u0
          · rw [hv, upd_same] at hc'
            exact Option.noConfusion hc'
          · rw [upd_ne _ _ _ hv] at hc'
            refine ⟨hc', ?_⟩
            intro hh
            exact hv (Option.some.inj hh).symm
        · show upd (upd s.occupied_now v0 none) (C.getD a 0) (some a)
            (C.getD a 0) = some a
          rw [upd_same]
        · intro v c hv hc
          have hc' : upd (upd s.occupied_now v0 none) (C.getD a 0) (some a) v
              = some c := hc
          rw [upd_ne _ _ _ hv] at hc'
          by_cases hv0 : v = v0
          · rw [hv0, upd_same] at hc'
            exact Option.noConfusion hc'
          · rw [upd_ne _ _ _ hv0] at hc'
            refine ⟨hc', fun _ hh => ?_⟩
            exact hv0 (Option.some.inj hh).symm
        · intro v c hv hca hc
          show upd (upd s.occupied_now v0 none) (C.getD a 0) (some a) v
            = some c
          rw [upd_ne _ _ _ hv]
          by_cases hv0 : v = v0
          · rw [hv0] at hc
            rw [hocc] at hc
            exact absurd (Option.some.inj hc).symm hca
          · rw [upd_ne _ _ _ hv0]
            exact hc
    · rcases hvx : s.v_next a with _ | u0
      · have he : Lacam2.resetAgent C a s =
            { s with v_now := upd s.v_now a (some (C.getD a 0)),
                     occupied_now := upd s.occupied_now (C.getD a 0) (some a) } := by
          simp only [Lacam2.resetAgent, hvn, hvx, if_neg hocc]
        rw [he]
        refine ⟨rfl, hvx, fun b hb => rfl, ?_, ?_, ?_, ?_⟩
        · intro v c hc
          exact ⟨hc, fun hh => Option.noConfusion hh⟩
        · show upd s.occupied_now (C.getD a 0) (some a) (C.getD a 0) = some a
          rw [upd_same]
        · intro v c hv hc
          have hc' : upd s.occupied_now (C.getD a 0) (some a) v = some c := hc
          rw [upd_ne _ _ _ hv] at hc'
          refine ⟨hc', fun hca hh => ?_⟩
          rcases Option.some.inj hh with rfl
          rw [hca] at hc'
          exact hocc hc'
        · intro v c hv hca hc
          show upd s.occupied_now (C.getD a 0) (some a) v = some c
          rw [upd_ne _ _ _ hv]
          exact hc
      · have he : Lacam2.resetAgent C a s =
            { s with occupied_next := upd s.occupied_next u0 none,
                     v_next := upd s.v_next a none,
                     v_now := upd s.v_now a (some (C.getD a 0)),
                     occupied_now := upd s.occupied_now (C.getD a 0) (some a) } := by
          simp only [Lacam2.resetAgent, hvn, hvx, if_neg hocc]
        rw [he]
        refine ⟨rfl, ?_, ?_, ?_, ?_, ?_, ?_⟩
        · show upd s.v_next a none a = none
          rw [upd_same]
        · intro b hb
          show upd s.v_next a none b = s.v_next b
          rw [upd_ne _ _ _ hb]
        · intro v c hc
          have hc' : upd s.occupied_next u0 none v = some c := hc
          by_cases hv : v = u0
          · rw [hv, upd_same] at hc'
            exact Option.noConfusion hc'
          · rw [upd_ne _ _ _ hv] at hc'
            refine ⟨hc', ?_⟩
            intro hh
            exact hv (Option.some.inj hh).symm
        · show upd s.occupied_now (C.getD a 0) (some a) (C.getD a 0) = some a
          rw [upd_same]
        · intro v c hv hc
          have hc' : upd s.occupied_now (C.getD a 0) (some a) v = some c := hc
          rw [upd_ne _ _ _ hv] at hc'
          refine ⟨hc', fun hca hh => ?_⟩
          rcases Option.some.inj hh with rfl
          rw [hca] at hc'
          exact hocc hc'
        · intro v c hv hca hc
          show upd s.occupied_now (C.getD a 0) (some a) v = some c
          rw [upd_ne _ _ _ hv]
          exact hc

/-- One cache-setup iteration advances the intermediate invariant. -/
theorem resetAgent_mid (C : List Nat) (N : Nat)
    (hCinj : ∀ a, a < N → ∀ b, b < N → a ≠ b → C.getD a 0 ≠ C.getD b 0)
    (done : Nat) (hdN : done < N) (s : PState) (h : ResetMid C N done s) :
    ResetMid C N (done + 1) (Lacam2.resetAgent C done s) := by
  obtain ⟨M1, M2, M3, M4, M5⟩ := h
  obtain ⟨F1, F2, F3, F4, F5, F6, F7⟩ := resetAgent_fields C done s
  refine ⟨?_, ?_, ?_, ?_, ?_⟩
  · intro b hb
    by_cases hba : b = done
    · rw [hba, F1, upd_same]
    · rw [F1, upd_ne _ _ _ hba]
      exact M1 b (by omega)
  · intro b hb
    by_cases hba : b = done
    · rw [hba]; exact F2
    · rw [F3 b hba]
      exact M2 b (by omega)
  · intro b hb
    by_cases hba : b = done
    · rw [hba]; exact F5
    · have hbd : b < done := by omega
      have hbN : b < N := by omega
      exact F7 (C.getD b 0) b
        (hCinj b hbN done hdN hba) hba (M3 b hbd)
  · intro v c hc
    obtain ⟨hsc, hne⟩ := F4 v c hc
    obtain ⟨hcN, hdc, hvx⟩ := M4 v c hsc
    have hca : c ≠ done := by
      rintro rfl
      exact hne hvx
    refine ⟨hcN, by omega, ?_⟩
    rw [F3 c hca]
    exact hvx
  · intro v c hc
    by_cases hv : v = C.getD done 0
    · subst hv
      rw [F5] at hc
      rcases Option.some.inj hc with rfl
      exact ⟨hdN, Or.inl ⟨by omega, rfl⟩⟩
    · obtain ⟨hsc, hnow⟩ := F6 v c hv hc
      obtain ⟨hcN, hrest⟩ := M5 v c hsc
      refine ⟨hcN, ?_⟩
      rcases hrest with ⟨hcd, hCv⟩ | ⟨hdc, hvw⟩
      · exact Or.inl ⟨by omega, hCv⟩
      · have hca : c ≠ done := by
          rintro rfl
          exact hnow rfl hvw
        refine Or.inr ⟨by omega, ?_⟩
        rw [F1, upd_ne _ _ _ hca]
        exact hvw

/-- Running the cache-setup loop over the remaining agents completes the
intermediate invariant. -/
theorem resetAll_mid (C : List Nat) (N : Nat)
    (hCinj : ∀ a, a < N → ∀ b, b < N → a ≠ b → C.getD a 0 ≠ C.getD b 0) :
    ∀ (m done : Nat) (s : PState), done + m = N → ResetMid C N done s →
      ResetMid C N N (Lacam2.resetAll C (List.range' done m) s)
  | 0, done, s => by
    intro hm h
    have hd : done = N := by omega
    subst hd
    simpa [Lacam2.resetAll] using h
  | m + 1, done, s => by
    intro hm h
    rw [List.range'_succ]
    show ResetMid C N N
      (Lacam2.resetAll C (List.range' (done + 1) m) (Lacam2.resetAgent C done s))
    exact resetAll_mid C N hCinj m (done + 1) (Lacam2.resetAgent C done s)
      (by omega) (resetAgent_mid C N hCinj done (by omega) s h)

/-- Full characterisation of the scratch state after `get_new_config`'s
cache-setup loop: agents sit at the node's configuration, no commitments
or reservations remain, and `occupied_now` is exactly the configuration's
occupancy. -/
theorem resetAll_spec (C : List Nat) (N : Nat) (s : PState)
    (hNC : NowConsistent N s) (hXC : NextConsistent N s)
    (hCinj : ∀ a, a < N → ∀ b, b < N → a ≠ b → C.getD a 0 ≠ C.getD b 0) :
    (∀ a, a < N →
      (Lacam2.resetAll C (List.range N) s).v_now a = some (C.getD a 0)) ∧
    (∀ a, a < N → (Lacam2.resetAll C (List.range N) s).v_next a = none) ∧
    (∀ v, (Lacam2.resetAll C (List.range N) s).occupied_next v = none) ∧
    (∀ a, a < N →
      (Lacam2.resetAll C (List.range N) s).occupied_now (C.getD a 0) =
        some a) ∧
    (∀ v c, (Lacam2.resetAll C (List.range N) s).occupied_now v = some c →
      c < N ∧ C.getD c 0 = v) := by
  have hmid : ResetMid C N N (Lacam2.resetAll C (List.range N) s) := by
    rw [List.range_eq_range']
    refine resetAll_mid C N hCinj N 0 s (by omega) ⟨?_, ?_, ?_, ?_, ?_⟩
    · intro a ha; omega
    · intro a ha; omega
    · intro a ha; omega
    · intro v c hc
      obtain ⟨hcN, hvx⟩ := hXC v c hc
      exact ⟨hcN, Nat.zero_le c, hvx⟩
    · intro v a ha
      obtain ⟨haN, hvw⟩ := hNC v a ha
      exact ⟨haN, Or.inr ⟨Nat.zero_le a, hvw⟩⟩
  obtain ⟨M1, M2, M3, M4, M5⟩ := hmid
  refine ⟨M1, M2, ?_, M3, ?_⟩
  · intro v
    rcases hv : (Lacam2.resetAll C (List.range N) s).occupied_next v
      with _ | c
    · rfl
    · obtain ⟨hcN, hNc, -⟩ := M4 v c hv
      omega
  · intro v c hc
    obtain ⟨hcN, hrest⟩ := M5 v c hc
    rcases hrest with ⟨-, hCv⟩ | ⟨hNc, -⟩
    · exact ⟨hcN, hCv⟩
    · omega

theorem getD_eq_get_of_lt {α : Type} (l : List α) (d : α) {i : Nat}
    (h : i < l.length) : l.getD i d = l.get ⟨i, h⟩ := by
  rw [List.getD_eq_getElem?_getD, List.getElem?_eq_getElem h]
  rfl

theorem nodup_getD_ne {α : Type} (l : List α) (hnd : l.Nodup) (d : α)
    {i j : Nat} (hi : i < l.length) (hj : j < l.length) (hij : i ≠ j) :
    l.getD i d ≠ l.getD j d := by
  rw [getD_eq_get_of_lt l d hi, getD_eq_get_of_lt l d hj]
  intro he
  have := (List.Nodup.get_inj_iff hnd).mp he
  exact hij (by simpa using this)

/-- Every constrained agent of a well-formed lacam2 chain is an `order`
entry at an index below the frame's depth. -/
theorem lacam2_whos_getD (ins : Inst) (C : List Nat) (order : List Nat) :
    ∀ L : Lacam2.LNode, Lacam2.treeFrame ins C order L →
      ∀ w, w ∈ Lacam2.LNode.whos L →
        ∃ d, d < Lacam2.LNode.depth L ∧ d < ins.N ∧ w = order.getD d 0
  | .root => by
    intro _ w hw
    simp [Lacam2.LNode.whos] at hw
  | .child p who loc => by
    intro htf w hw
    obtain ⟨hwho, hwN, hloc, hdN, htp⟩ := htf
    rcases List.mem_cons.mp hw with rfl | hw
    · exact ⟨Lacam2.LNode.depth p, by simp [Lacam2.LNode.depth], hdN, hwho⟩
    · obtain ⟨d, hd, hdN2, he⟩ := lacam2_whos_getD ins C order p htp w hw
      exact ⟨d, by simp [Lacam2.LNode.depth]; omega, hdN2, he⟩

/-- The constraint-installation loop of lacam2 preserves the scratch
invariant, keeps every agent backed, and only adds commitments. -/
theorem lacam2_addConstraints_spec (ins : Inst) (C : List Nat)
    (order : List Nat) (hperm : order.Perm (List.range ins.N)) :
    ∀ (L : Lacam2.LNode) (s : PState),
      PInv ins s → (∀ b, b < ins.N → Good s b) →
      (∀ a, a ∈ Lacam2.LNode.whos L → s.v_next a = none) →
      (∀ a, a < ins.N → s.v_now a = some (C.getD a 0)) →
      Lacam2.treeFrame ins C order L →
      ∀ r s', Lacam2.addConstraints C L s = (r, s') →
        PInv ins s' ∧ (∀ b, b < ins.N → Good s' b) ∧
        s'.v_now = s.v_now ∧ s'.occupied_now = s.occupied_now ∧
        (∀ b w, s.v_next b = some w → s'.v_next b = some w)
  | .root, s => by
    intro hinv hgood hwhos hvnow htf r s' h
    rcases Prod.mk.inj h with ⟨-, rfl⟩
    exact ⟨hinv, hgood, rfl, rfl, fun b w hw => hw⟩
  | .child p i l, s => by
    intro hinv hgood hwhos hvnow htf r s' h
    obtain ⟨hwho, hiN, hloc, hdN, htp⟩ := htf
    simp only [Lacam2.addConstraints] at h
    split at h
    · rcases Prod.mk.inj h with ⟨-, rfl⟩
      exact ⟨hinv, hgood, rfl, rfl, fun b w hw => hw⟩
    · rename_i hfree0
      have hfree : s.occupied_next l = none := not_not.mp hfree0
      split at h
      · rcases Prod.mk.inj h with ⟨-, rfl⟩
        exact ⟨hinv, hgood, rfl, rfl, fun b w hw => hw⟩
      · rename_i hcheck
        have hvi : s.v_next i = none :=
          hwhos i (List.mem_cons_self i _)
        have hinone : i ∉ Lacam2.LNode.whos p := by
          intro hmem
          obtain ⟨d, hd, hdN2, he⟩ := lacam2_whos_getD ins C order p htp i hmem
          rw [hwho] at he
          have hlen : order.length = ins.N := by
            rw [hperm.length_eq, List.length_range]
          exact nodup_getD_ne order
            (hperm.nodup_iff.mpr (List.nodup_range ins.N)) 0
            (by omega) (by omega) (by omega) he.symm
        obtain ⟨hNC, hXC, hCom, hNS, hAdj⟩ := hinv
        set s1 : PState :=
          { s with v_next := upd s.v_next i (some l),
                   occupied_next := upd s.occupied_next l (some i) } with hs1
        have hinv1 : PInv ins s1 := by
          refine ⟨hNC, ?_, hCom, ?_, ?_⟩
          · intro v b hb
            have hb' : upd s.occupied_next l (some i) v = some b := hb
            by_cases hv : v = l
            · rw [hv, upd_same] at hb'
              rcases Option.some.inj hb' with rfl
              refine ⟨hiN, ?_⟩
              show upd s.v_next i (some l) i = some v
              rw [upd_same, hv]
            · rw [upd_ne _ _ _ hv] at hb'
              obtain ⟨hbN, hvb⟩ := hXC v b hb'
              have hbi : b ≠ i := by
                rintro rfl
                rw [hvi] at hvb
                exact Option.noConfusion hvb
              refine ⟨hbN, ?_⟩
              show upd s.v_next i (some l) b = some v
              rw [upd_ne _ _ _ hbi]
              exact hvb
          · intro a ha b hb hne hcon
            obtain ⟨e1, e2⟩ := hcon
            by_cases hA : a = i
            · subst hA
              have e1' : upd s.v_next a (some l) a = s.v_now b := e1
              rw [upd_same] at e1'
              have hvb : s.v_now b = some l := e1'.symm
              have hbocc : s.occupied_now l = some b := by
                obtain ⟨vb, hvb', hob⟩ := hCom b hb
                rw [hvb] at hvb'
                rcases Option.some.inj hvb' with rfl
                exact hob
              have hba : b ≠ a := fun e => hne e.symm
              have e2' : upd s.v_next a (some l) b = s.v_now a := e2
              rw [upd_ne _ _ _ hba, hvnow a ha] at e2'
              have hgb : s.occupied_next (C.getD a 0) = some b :=
                hgood b hb (C.getD a 0) e2'
              exact hcheck (by rw [hgb, hbocc]; simp)
            · by_cases hB : b = i
              · subst hB
                have e2' : upd s.v_next b (some l) b = s.v_now a := e2
                rw [upd_same] at e2'
                have hva : s.v_now a = some l := e2'.symm
                have haocc : s.occupied_now l = some a := by
                  obtain ⟨va, hva', hoa⟩ := hCom a ha
                  rw [hva] at hva'
                  rcases Option.some.inj hva' with rfl
                  exact hoa
                have e1' : upd s.v_next b (some l) a = s.v_now b := e1
                rw [upd_ne _ _ _ hA, hvnow b hb] at e1'
                have hga : s.occupied_next (C.getD b 0) = some a :=
                  hgood a ha (C.getD b 0) e1'
                exact hcheck (by rw [hga, haocc]; simp)
              · have e1' : upd s.v_next i (some l) a = s.v_now b := e1
                have e2' : upd s.v_next i (some l) b = s.v_now a := e2
                rw [upd_ne _ _ _ hA] at e1'
                rw [upd_ne _ _ _ hB] at e2'
                exact hNS a ha b hb hne ⟨e1', e2'⟩
          · intro a ha w hw
            by_cases hA : a = i
            · subst hA
              have hw' : upd s.v_next a (some l) a = some w := hw
              rw [upd_same] at hw'
              rcases Option.some.inj hw' with rfl
              show l ∈ ins.adj ((s.v_now a).getD 0) ∨ l = (s.v_now a).getD 0
              rw [hvnow a ha]
              exact hloc
            · have hw' : upd s.v_next i (some l) a = some w := hw
              rw [upd_ne _ _ _ hA] at hw'
              exact hAdj a ha w hw'
        have hgood1 : ∀ b, b < ins.N → Good s1 b := by
          intro b hb w hw
          by_cases hB : b = i
          · subst hB
            have hw' : upd s.v_next b (some l) b = some w := hw
            rw [upd_same] at hw'
            rcases Option.some.inj hw' with rfl
            show upd s.occupied_next l (some b) l = some b
            rw [upd_same]
          · have hw' : upd s.v_next i (some l) b = some w := hw
            rw [upd_ne _ _ _ hB] at hw'
            have hbw := hgood b hb w hw'
            have hwl : w ≠ l := by
              rintro rfl
              rw [hbw] at hfree
              exact Option.noConfusion hfree
            show upd s.occupied_next l (some i) w = some b
            rw [upd_ne _ _ _ hwl]
            exact hbw
        have hres := lacam2_addConstraints_spec ins C order hperm p s1 hinv1
          hgood1
          (by
            intro a hmem
            have hai : a ≠ i := by
              rintro rfl
              exact hinone hmem
            show upd s.v_next i (some l) a = none
            rw [upd_ne _ _ _ hai]
            exact hwhos a (List.mem_cons_of_mem _ hmem))
          (by intro a ha; exact hvnow a ha)
          htp r s' h
        obtain ⟨hinv', hgood', hvn', hon', hmono'⟩ := hres
        refine ⟨hinv', hgood', hvn', hon', ?_⟩
        intro b w hw
        have hbi : b ≠ i := by
          rintro rfl
          rw [hvi] at hw
          exact Option.noConfusion hw
        refine hmono' b w ?_
        show upd s.v_next i (some l) b = some w
        rw [upd_ne _ _ _ hbi]
        exact hw

/-- The top-level PIBT loop of lacam2's `get_new_config` preserves the
scratch invariant; on success every ordered agent ends committed and
every agent stays backed. -/
theorem lacam2_pibtAll_spec (ins : Inst) (D : Nat → Nat → Nat)
    (goals : List Nat) (FLG_SWAP rngOn : Bool) (stream : Nat → Q)
    (hSym : ∀ a b, a ∈ ins.adj b → b ∈ ins.adj a) :
    ∀ (order : List Nat) (s : PState), PInv ins s →
      (∀ b, b < ins.N → Good s b) → (∀ k, k ∈ order → k < ins.N) →
      ∀ r s', Lacam2.pibtAll ins D goals FLG_SWAP rngOn stream order s =
        some (r, s') →
      PInv ins s' ∧ s'.v_now = s.v_now ∧ s'.occupied_now = s.occupied_now ∧
      (∀ b w, s.v_next b = some w → s'.v_next b = some w) ∧
      (r = true → (∀ b, b < ins.N → Good s' b) ∧
        (∀ k, k ∈ order → s'.v_next k ≠ none))
  | [], s => by
    intro hinv hgood horder r s' h
    simp only [Lacam2.pibtAll] at h
    rcases Option.some.inj h with e
    obtain ⟨rfl, rfl⟩ : true = r ∧ s = s' :=
      ⟨congrArg Prod.fst e, congrArg Prod.snd e⟩
    exact ⟨hinv, rfl, rfl, fun b w hw => hw,
      fun _ => ⟨hgood, fun k hk => absurd hk (List.not_mem_nil k)⟩⟩
  | k :: rest, s => by
    intro hinv hgood horder r s' h
    simp only [Lacam2.pibtAll] at h
    split at h
    · rename_i hknone
      split at h
      · exact Option.noConfusion h
      · rename_i s2 hfp
        rcases Option.some.inj h with e
        obtain ⟨rfl, rfl⟩ : false = r ∧ s2 = s' :=
          ⟨congrArg Prod.fst e, congrArg Prod.snd e⟩
        obtain ⟨hPI2, hvn2, hon2, hmono2, -, -, -, -, -⟩ :=
          lacam2_funcPIBT_spec ins D goals FLG_SWAP rngOn stream hSym
            (ins.N + 1) k s false s2 hfp
            (horder k (List.mem_cons_self k rest)) hknone hinv
        refine ⟨hPI2, hvn2, hon2, ?_, ?_⟩
        · intro b w hw
          have hbk : b ≠ k := by
            rintro rfl
            rw [hknone] at hw
            exact Option.noConfusion hw
          exact hmono2 b hbk w hw
        · intro htf
          exact absurd htf (by decide)
      · rename_i s2 hfp
        obtain ⟨hPI2, hvn2, hon2, hmono2, hgoodt2, hgai2, -, -, hex2⟩ :=
          lacam2_funcPIBT_spec ins D goals FLG_SWAP rngOn stream hSym
            (ins.N + 1) k s true s2 hfp
            (horder k (List.mem_cons_self k rest)) hknone hinv
        have hgood2 : ∀ b, b < ins.N → Good s2 b := by
          intro b hb
          by_cases hbk : b = k
          · rw [hbk]; exact hgai2
          · exact hgoodt2 b hbk (hgood b hb)
              (fun htf => absurd htf (by decide))
        have hres := lacam2_pibtAll_spec ins D goals FLG_SWAP rngOn stream
          hSym rest s2 hPI2 hgood2
          (fun k2 hk2 => horder k2 (List.mem_cons_of_mem _ hk2)) r s' h
        obtain ⟨hPI', hvn', hon', hmono', htrue'⟩ := hres
        refine ⟨hPI', hvn'.trans hvn2, hon'.trans hon2, ?_, ?_⟩
        · intro b w hw
          have hbk : b ≠ k := by
            rintro rfl
            rw [hknone] at hw
            exact Option.noConfusion hw
          exact hmono' b w (hmono2 b hbk w hw)
        · intro hrt
          obtain ⟨hgoodf, hexf⟩ := htrue' hrt
          refine ⟨hgoodf, ?_⟩
          intro k2 hk2
          rcases List.mem_cons.mp hk2 with rfl | hk2
          · obtain ⟨w, hw⟩ := hex2 rfl
            have hw' := hmono' k2 w hw
            rw [hw']
            exact fun hh => Option.noConfusion hh
          · exact hexf k2 hk2
    · rename_i hksome
      have hres := lacam2_pibtAll_spec ins D goals FLG_SWAP rngOn stream hSym
        rest s hinv hgood
        (fun k2 hk2 => horder k2 (List.mem_cons_of_mem _ hk2)) r s' h
      obtain ⟨hPI', hvn', hon', hmono', htrue'⟩ := hres
      refine ⟨hPI', hvn', hon', hmono', ?_⟩
      intro hrt
      obtain ⟨hgoodf, hexf⟩ := htrue' hrt
      refine ⟨hgoodf, ?_⟩
      intro k2 hk2
      rcases List.mem_cons.mp hk2 with rfl | hk2
      · rcases hv : s.v_next k2 with _ | w
        · exact absurd hv hksome
        · have hw' := hmono' k2 w hv
          rw [hw']
          exact fun hh => Option.noConfusion hh
      · exact hexf k2 hk2

/-- The scratch state right after the cache-setup loop satisfies the
PIBT invariant, and every agent is backed (vacuously: no commitments
remain). -/
theorem resetAll_pinv (ins : Inst) (C : List Nat) (s : PState)
    (hNC : NowConsistent ins.N s) (hXC : NextConsistent ins.N s)
    (hCinj : ∀ a, a < ins.N → ∀ b, b < ins.N → a ≠ b →
      C.getD a 0 ≠ C.getD b 0) :
    PInv ins (Lacam2.resetAll C (List.range ins.N) s) ∧
    (∀ b, b < ins.N → Good (Lacam2.resetAll C (List.range ins.N) s) b) ∧
    (∀ a, a < ins.N →
      (Lacam2.resetAll C (List.range ins.N) s).v_now a =
        some (C.getD a 0)) ∧
    (∀ a, a < ins.N →
      (Lacam2.resetAll C (List.range ins.N) s).v_next a = none) := by
  obtain ⟨R1, R2, R3, R4, R5⟩ := resetAll_spec C ins.N s hNC hXC hCinj
  refine ⟨⟨?_, ?_, ?_, ?_, ?_⟩, ?_, R1, R2⟩
  · intro v a ha
    obtain ⟨haN, hCv⟩ := R5 v a ha
    refine ⟨haN, ?_⟩
    rw [R1 a haN, hCv]
  · intro v b hb
    rw [R3 v] at hb
    exact Option.noConfusion hb
  · intro a ha
    exact ⟨C.getD a 0, R1 a ha, R4 a ha⟩
  · intro a ha b hb hne hcon
    obtain ⟨e1, e2⟩ := hcon
    rw [R2 a ha, R1 b hb] at e1
    exact Option.noConfusion e1
  · intro a ha u hu
    rw [R2 a ha] at hu
    exact Option.noConfusion hu
  · intro b hb u hu
    rw [R2 b hb] at hu
    exact Option.noConfusion hu

/-- `get_new_config` of lacam2 keeps the cross-iteration scratch
invariant, and on success it leaves every agent committed to a vertex
such that the move from `C` to the committed configuration is a valid
joint step. -/
theorem lacam2_get_new_config_spec (ins : Inst) (D : Nat → Nat → Nat)
    (goals : List Nat) (FLG_SWAP rngOn : Bool) (stream : Nat → Q)
    (hSym : ∀ a b, a ∈ ins.adj b → b ∈ ins.adj a)
    (C : List Nat) (order : List Nat) (L : Lacam2.LNode) (s : PState)
    (hNC : NowConsistent ins.N s) (hXC : NextConsistent ins.N s)
    (hCinj : ∀ a, a < ins.N → ∀ b, b < ins.N → a ≠ b →
      C.getD a 0 ≠ C.getD b 0)
    (hperm : order.Perm (List.range ins.N))
    (htf : Lacam2.treeFrame ins C order L)
    (r : Bool) (s' : PState)
    (h : Lacam2.get_new_config ins D goals FLG_SWAP rngOn stream C order L s
      = some (r, s')) :
    NowConsistent ins.N s' ∧ NextConsistent ins.N s' ∧
    (r = true →
      validStep ins C
        ((List.range ins.N).map fun i => (s'.v_next i).getD 0)) := by
  obtain ⟨hPI0, hgood0, hvnow0, hvnext0⟩ :=
    resetAll_pinv ins C s hNC hXC hCinj
  have hwz : ∀ a, a ∈ Lacam2.LNode.whos L →
      (Lacam2.resetAll C (List.range ins.N) s).v_next a = none := by
    intro a ha
    obtain ⟨d, hd, hdN, he⟩ := lacam2_whos_getD ins C order L htf a ha
    have hlen : order.length = ins.N := by
      rw [hperm.length_eq, List.length_range]
    have hmem := getD_mem_of_lt order d 0 (by omega)
    have hlt := List.mem_range.mp (hperm.mem_iff.mp hmem)
    rw [he]
    exact hvnext0 _ hlt
  simp only [Lacam2.get_new_config] at h
  split at h
  · rename_i s1 hadd
    rcases Option.some.inj h with e
    obtain ⟨rfl, rfl⟩ : false = r ∧ s1 = s' :=
      ⟨congrArg Prod.fst e, congrArg Prod.snd e⟩
    obtain ⟨hPI1, -, -, -, -⟩ :=
      lacam2_addConstraints_spec ins C order hperm L _ hPI0 hgood0 hwz
        hvnow0 htf false s1 hadd
    exact ⟨hPI1.1, hPI1.2.1, fun htff => absurd htff (by decide)⟩
  · rename_i s1 hadd
    obtain ⟨hPI1, hgood1, hvn1, hon1, hmono1⟩ :=
      lacam2_addConstraints_spec ins C order hperm L _ hPI0 hgood0 hwz
        hvnow0 htf true s1 hadd
    obtain ⟨hPI', hvn', hon', hmono', htrue'⟩ :=
      lacam2_pibtAll_spec ins D goals FLG_SWAP rngOn stream hSym order s1
        hPI1 hgood1
        (fun k hk => by
          have := hperm.mem_iff.mp hk
          rwa [List.mem_range] at this) r s' h
    refine ⟨hPI'.1, hPI'.2.1, ?_⟩
    intro hrt
    obtain ⟨hgoodf, hexf⟩ := htrue' hrt
    have hvnowf : ∀ a, a < ins.N → s'.v_now a = some (C.getD a 0) := by
      intro a ha
      rw [hvn', hvn1]
      exact hvnow0 a ha
    have hexa : ∀ a, a < ins.N → ∃ w, s'.v_next a = some w := by
      intro a ha
      have hmem : a ∈ order := hperm.mem_iff.mpr (List.mem_range.mpr ha)
      rcases hv : s'.v_next a with _ | w
      · exact absurd hv (hexf a hmem)
      · exact ⟨w, rfl⟩
    obtain ⟨hNCf, hXCf, hComf, hNSf, hAdjf⟩ := hPI'
    refine ⟨?_, ?_, ?_⟩
    · intro i hi
      obtain ⟨w, hw⟩ := hexa i hi
      rw [getD_map_range _ hi, hw]
      have hadj := hAdjf i hi w hw
      rw [hvnowf i hi] at hadj
      exact hadj
    · intro i hi j hj hne
      obtain ⟨wi, hwi⟩ := hexa i hi
      obtain ⟨wj, hwj⟩ := hexa j hj
      rw [getD_map_range _ hi, getD_map_range _ hj, hwi, hwj]
      intro heq
      have hoi := hgoodf i hi wi hwi
      have hoj := hgoodf j hj wj hwj
      show False
      have hww : wi = wj := heq
      rw [hww, hoj] at hoi
      exact hne (Option.some.inj hoi).symm
    · intro i hi j hj hne hcon
      obtain ⟨e1, e2⟩ := hcon
      obtain ⟨wi, hwi⟩ := hexa i hi
      obtain ⟨wj, hwj⟩ := hexa j hj
      rw [getD_map_range _ hj, hwj, Option.getD_some] at e1
      rw [getD_map_range _ hi, hwi, Option.getD_some] at e2
      refine hNSf i hi j hj hne ⟨?_, ?_⟩
      · rw [hwi, hvnowf j hj]
        rw [e2]
      · rw [hwj, hvnowf i hi]
        rw [e1]

/-- The constraint-installation loop of lacam (flat pair list, root to
leaf) preserves the scratch invariant, keeps every agent backed, and
only adds commitments. -/
theorem lacam_addConstraints_spec (ins : Inst) (C : List Nat) :
    ∀ (pairs : List (Nat × Nat)) (s : PState),
      PInv ins s → (∀ b, b < ins.N → Good s b) →
      (∀ p, p ∈ pairs → p.1 < ins.N ∧
        (p.2 ∈ ins.adj (C.getD p.1 0) ∨ p.2 = C.getD p.1 0)) →
      (pairs.map Prod.fst).Nodup →
      (∀ p, p ∈ pairs → s.v_next p.1 = none) →
      (∀ a, a < ins.N → s.v_now a = some (C.getD a 0)) →
      ∀ r s', Lacam.addConstraints C pairs s = (r, s') →
        PInv ins s' ∧ (∀ b, b < ins.N → Good s' b) ∧
        s'.v_now = s.v_now ∧ s'.occupied_now = s.occupied_now ∧
        (∀ b w, s.v_next b = some w → s'.v_next b = some w)
  | [], s => by
    intro hinv hgood hpairs hnd hwhos hvnow r s' h
    rcases Prod.mk.inj h with ⟨-, rfl⟩
    exact ⟨hinv, hgood, rfl, rfl, fun b w hw => hw⟩
  | (i, l) :: rest, s => by
    intro hinv hgood hpairs hnd hwhos hvnow r s' h
    obtain ⟨hiN, hloc⟩ := hpairs (i, l) (List.mem_cons_self _ _)
    simp only [Lacam.addConstraints] at h
    split at h
    · rcases Prod.mk.inj h with ⟨-, rfl⟩
      exact ⟨hinv, hgood, rfl, rfl, fun b w hw => hw⟩
    · rename_i hfree0
      have hfree : s.occupied_next l = none := not_not.mp hfree0
      split at h
      · rcases Prod.mk.inj h with ⟨-, rfl⟩
        exact ⟨hinv, hgood, rfl, rfl, fun b w hw => hw⟩
      · rename_i hcheck
        have hvi : s.v_next i = none := hwhos (i, l) (List.mem_cons_self _ _)
        have hinone : ∀ p, p ∈ rest → p.1 ≠ i := by
          intro p hp he
          have hnd' := hnd
          rw [List.map_cons] at hnd'
          have hni := (List.nodup_cons.mp hnd').1
          have hmm : p.1 ∈ List.map Prod.fst rest :=
            List.mem_map_of_mem Prod.fst hp
          rw [he] at hmm
          exact hni hmm
        obtain ⟨hNC, hXC, hCom, hNS, hAdj⟩ := hinv
        set s1 : PState :=
          { s with v_next := upd s.v_next i (some l),
                   occupied_next := upd s.occupied_next l (some i) } with hs1
        have hinv1 : PInv ins s1 := by
          refine ⟨hNC, ?_, hCom, ?_, ?_⟩
          · intro v b hb
            have hb' : upd s.occupied_next l (some i) v = some b := hb
            by_cases hv : v = l
            · rw [hv, upd_same] at hb'
              rcases Option.some.inj hb' with rfl
              refine ⟨hiN, ?_⟩
              show upd s.v_next i (some l) i = some v
              rw [upd_same, hv]
            · rw [upd_ne _ _ _ hv] at hb'
              obtain ⟨hbN, hvb⟩ := hXC v b hb'
              have hbi : b ≠ i := by
                rintro rfl
                rw [hvi] at hvb
                exact Option.noConfusion hvb
              refine ⟨hbN, ?_⟩
              show upd s.v_next i (some l) b = some v
              rw [upd_ne _ _ _ hbi]
              exact hvb
          · intro a ha b hb hne hcon
            obtain ⟨e1, e2⟩ := hcon
            by_cases hA : a = i
            · subst hA
              have e1' : upd s.v_next a (some l) a = s.v_now b := e1
              rw [upd_same] at e1'
              have hvb : s.v_now b = some l := e1'.symm
              have hbocc : s.occupied_now l = some b := by
                obtain ⟨vb, hvb', hob⟩ := hCom b hb
                rw [hvb] at hvb'
                rcases Option.some.inj hvb' with rfl
                exact hob
              have hba : b ≠ a := fun e => hne e.symm
              have e2' : upd s.v_next a (some l) b = s.v_now a := e2
              rw [upd_ne _ _ _ hba, hvnow a ha] at e2'
              have hgb : s.occupied_next (C.getD a 0) = some b :=
                hgood b hb (C.getD a 0) e2'
              exact hcheck (by rw [hgb, hbocc]; simp)
            · by_cases hB : b = i
              · subst hB
                have e2' : upd s.v_next b (some l) b = s.v_now a := e2
                rw [upd_same] at e2'
                have hva : s.v_now a = some l := e2'.symm
                have haocc : s.occupied_now l = some a := by
                  obtain ⟨va, hva', hoa⟩ := hCom a ha
                  rw [hva] at hva'
                  rcases Option.some.inj hva' with rfl
                  exact hoa
                have e1' : upd s.v_next b (some l) a = s.v_now b := e1
                rw [upd_ne _ _ _ hA, hvnow b hb] at e1'
                have hga : s.occupied_next (C.getD b 0) = some a :=
                  hgood a ha (C.getD b 0) e1'
                exact hcheck (by rw [hga, haocc]; simp)
              · have e1' : upd s.v_next i (some l) a = s.v_now b := e1
                have e2' : upd s.v_next i (some l) b = s.v_now a := e2
                rw [upd_ne _ _ _ hA] at e1'
                rw [upd_ne _ _ _ hB] at e2'
                exact hNS a ha b hb hne ⟨e1', e2'⟩
          · intro a ha w hw
            by_cases hA : a = i
            · subst hA
              have hw' : upd s.v_next a (some l) a = some w := hw
              rw [upd_same] at hw'
              rcases Option.some.inj hw' with rfl
              show l ∈ ins.adj ((s.v_now a).getD 0) ∨ l = (s.v_now a).getD 0
              rw [hvnow a ha]
              exact hloc
            · have hw' : upd s.v_next i (some l) a = some w := hw
              rw [upd_ne _ _ _ hA] at hw'
              exact hAdj a ha w hw'
        have hgood1 : ∀ b, b < ins.N → Good s1 b := by
          intro b hb w hw
          by_cases hB : b = i
          · subst hB
            have hw' : upd s.v_next b (some l) b = some w := hw
            rw [upd_same] at hw'
            rcases Option.some.inj hw' with rfl
            show upd s.occupied_next l (some b) l = some b
            rw [upd_same]
          · have hw' : upd s.v_next i (some l) b = some w := hw
            rw [upd_ne _ _ _ hB] at hw'
            have hbw := hgood b hb w hw'
            have hwl : w ≠ l := by
              rintro rfl
              rw [hbw] at hfree
              exact Option.noConfusion hfree
            show upd s.occupied_next l (some i) w = some b
            rw [upd_ne _ _ _ hwl]
            exact hbw
        have hres := lacam_addConstraints_spec ins C rest s1 hinv1 hgood1
          (fun p hp => hpairs p (List.mem_cons_of_mem _ hp))
          (by
            rw [List.map_cons] at hnd
            exact (List.nodup_cons.mp hnd).2)
          (by
            intro p hp
            show upd s.v_next i (some l) p.1 = none
            rw [upd_ne _ _ _ (hinone p hp)]
            exact hwhos p (List.mem_cons_of_mem _ hp))
          (by intro a ha; exact hvnow a ha)
          r s' h
        obtain ⟨hinv', hgood', hvn', hon', hmono'⟩ := hres
        refine ⟨hinv', hgood', hvn', hon', ?_⟩
        intro b w hw
        have hbi : b ≠ i := by
          rintro rfl
          rw [hvi] at hw
          exact Option.noConfusion hw
        refine hmono' b w ?_
        show upd s.v_next i (some l) b = some w
        rw [upd_ne _ _ _ hbi]
        exact hw

/-- The top-level PIBT loop of lacam's `get_new_config`, as in lacam2. -/
theorem lacam_pibtAll_spec (ins : Inst) (D : Nat → Nat → Nat)
    (rngOn : Bool) (stream : Nat → Q) :
    ∀ (order : List Nat) (s : PState), PInv ins s →
      (∀ b, b < ins.N → Good s b) → (∀ k, k ∈ order → k < ins.N) →
      ∀ r s', Lacam.pibtAll ins D rngOn stream order s = some (r, s') →
      PInv ins s' ∧ s'.v_now = s.v_now ∧ s'.occupied_now = s.occupied_now ∧
      (∀ b w, s.v_next b = some w → s'.v_next b = some w) ∧
      (r = true → (∀ b, b < ins.N → Good s' b) ∧
        (∀ k, k ∈ order → s'.v_next k ≠ none))
  | [], s => by
    intro hinv hgood horder r s' h
    simp only [Lacam.pibtAll] at h
    rcases Option.some.inj h with e
    obtain ⟨rfl, rfl⟩ : true = r ∧ s = s' :=
      ⟨congrArg Prod.fst e, congrArg Prod.snd e⟩
    exact ⟨hinv, rfl, rfl, fun b w hw => hw,
      fun _ => ⟨hgood, fun k hk => absurd hk (List.not_mem_nil k)⟩⟩
  | k :: rest, s => by
    intro hinv hgood horder r s' h
    simp only [Lacam.pibtAll] at h
    split at h
    · rename_i hknone
      split at h
      · exact Option.noConfusion h
      · rename_i s2 hfp
        rcases Option.some.inj h with e
        obtain ⟨rfl, rfl⟩ : false = r ∧ s2 = s' :=
          ⟨congrArg Prod.fst e, congrArg Prod.snd e⟩
        obtain ⟨hPI2, hvn2, hon2, hmono2, -, -, -, -, -⟩ :=
          lacam_funcPIBT_spec ins D rngOn stream (ins.N + 1) k none s false
            s2 hfp (horder k (List.mem_cons_self k rest)) hknone hinv
        refine ⟨hPI2, hvn2, hon2, ?_, ?_⟩
        · intro b w hw
          have hbk : b ≠ k := by
            rintro rfl
            rw [hknone] at hw
            exact Option.noConfusion hw
          exact hmono2 b hbk w hw
        · intro htf
          exact absurd htf (by decide)
      · rename_i s2 hfp
        obtain ⟨hPI2, hvn2, hon2, hmono2, hgoodt2, hgai2, -, -, hex2⟩ :=
          lacam_funcPIBT_spec ins D rngOn stream (ins.N + 1) k none s true
            s2 hfp (horder k (List.mem_cons_self k rest)) hknone hinv
        have hgood2 : ∀ b, b < ins.N → Good s2 b := by
          intro b hb
          by_cases hbk : b = k
          · rw [hbk]; exact hgai2
          · exact hgoodt2 b hbk (hgood b hb)
              (fun htf => absurd htf (by decide))
        have hres := lacam_pibtAll_spec ins D rngOn stream rest s2 hPI2
          hgood2 (fun k2 hk2 => horder k2 (List.mem_cons_of_mem _ hk2)) r
          s' h
        obtain ⟨hPI', hvn', hon', hmono', htrue'⟩ := hres
        refine ⟨hPI', hvn'.trans hvn2, hon'.trans hon2, ?_, ?_⟩
        · intro b w hw
          have hbk : b ≠ k := by
            rintro rfl
            rw [hknone] at hw
            exact Option.noConfusion hw
          exact hmono' b w (hmono2 b hbk w hw)
        · intro hrt
          obtain ⟨hgoodf, hexf⟩ := htrue' hrt
          refine ⟨hgoodf, ?_⟩
          intro k2 hk2
          rcases List.mem_cons.mp hk2 with rfl | hk2
          · obtain ⟨w, hw⟩ := hex2 rfl
            have hw' := hmono' k2 w hw
            rw [hw']
            exact fun hh => Option.noConfusion hh
          · exact hexf k2 hk2
    · rename_i hksome
      have hres := lacam_pibtAll_spec ins D rngOn stream rest s hinv hgood
        (fun k2 hk2 => horder k2 (List.mem_cons_of_mem _ hk2)) r s' h
      obtain ⟨hPI', hvn', hon', hmono', htrue'⟩ := hres
      refine ⟨hPI', hvn', hon', hmono', ?_⟩
      intro hrt
      obtain ⟨hgoodf, hexf⟩ := htrue' hrt
      refine ⟨hgoodf, ?_⟩
      intro k2 hk2
      rcases List.mem_cons.mp hk2 with rfl | hk2
      · rcases hv : s.v_next k2 with _ | w
        · exact absurd hv hksome
        · have hw' := hmono' k2 w hv
          rw [hw']
          exact fun hh => Option.noConfusion hh
      · exact hexf k2 hk2

/-- `get_new_config` of lacam keeps the cross-iteration scratch
invariant; on success the committed configuration is a valid joint step
from `C`. -/
theorem lacam_get_new_config_spec (ins : Inst) (D : Nat → Nat → Nat)
    (rngOn : Bool) (stream : Nat → Q)
    (C : List Nat) (order : List Nat) (M : Lacam.Constraint) (s : PState)
    (hNC : NowConsistent ins.N s) (hXC : NextConsistent ins.N s)
    (hCinj : ∀ a, a < ins.N → ∀ b, b < ins.N → a ≠ b →
      C.getD a 0 ≠ C.getD b 0)
    (hperm : order.Perm (List.range ins.N))
    (hfr : Lacam.frameOK ins C order M)
    (r : Bool) (s' : PState)
    (h : Lacam.get_new_config ins D rngOn stream C order M s
      = some (r, s')) :
    NowConsistent ins.N s' ∧ NextConsistent ins.N s' ∧
    (r = true →
      validStep ins C
        ((List.range ins.N).map fun i => (s'.v_next i).getD 0)) := by
  obtain ⟨hPI0, hgood0, hvnow0, hvnext0⟩ :=
    resetAll_pinv ins C s hNC hXC hCinj
  obtain ⟨hwl, hdN, hpairfacts⟩ := hfr
  have hordlen : order.length = ins.N := by
    rw [hperm.length_eq, List.length_range]
  have hziplen : (M.who.zip M.loc).length = M.who.length := by
    rw [List.length_zip, ← hwl, Nat.min_self]
  have hpairs : ∀ p, p ∈ M.who.zip M.loc → p.1 < ins.N ∧
      (p.2 ∈ ins.adj (C.getD p.1 0) ∨ p.2 = C.getD p.1 0) := by
    intro p hp
    obtain ⟨d, hd, he⟩ := List.mem_iff_getElem.mp hp
    rw [List.getElem_zip] at he
    rw [hziplen] at hd
    have hd2 : d < M.loc.length := by omega
    obtain ⟨hwho, hwhoN, hloc⟩ := hpairfacts d hd
    have he1 : M.who.getD d 0 = p.1 := by
      rw [getD_eq_get_of_lt M.who 0 hd]
      rw [← he]
      rfl
    have he2 : M.loc.getD d 0 = p.2 := by
      rw [getD_eq_get_of_lt M.loc 0 hd2]
      rw [← he]
      rfl
    rw [he1] at hwhoN hloc
    rw [he2] at hloc
    exact ⟨hwhoN, hloc⟩
  have hnd : ((M.who.zip M.loc).map Prod.fst).Nodup := by
    rw [List.map_fst_zip M.who M.loc (le_of_eq hwl)]
    show List.Pairwise (fun a b => a ≠ b) M.who
    refine List.pairwise_iff_getElem.mpr ?_
    intro i j hi hj hij
    have hdep : M.depth = M.who.length := rfl
    obtain ⟨hwi, -, -⟩ := hpairfacts i hi
    obtain ⟨hwj, -, -⟩ := hpairfacts j hj
    have hgi : M.who.getD i 0 = M.who.get ⟨i, hi⟩ :=
      getD_eq_get_of_lt M.who 0 hi
    have hgj : M.who.getD j 0 = M.who.get ⟨j, hj⟩ :=
      getD_eq_get_of_lt M.who 0 hj
    have hne := @nodup_getD_ne Nat order
      (hperm.nodup_iff.mpr (List.nodup_range ins.N)) 0 i j
      (by omega) (by omega) (by omega)
    intro he
    apply hne
    rw [← hwi, ← hwj, hgi, hgj]
    exact he
  have hwz : ∀ p, p ∈ M.who.zip M.loc →
      (Lacam2.resetAll C (List.range ins.N) s).v_next p.1 = none :=
    fun p hp => hvnext0 p.1 (hpairs p hp).1
  simp only [Lacam.get_new_config] at h
  split at h
  · rename_i s1 hadd
    rcases Option.some.inj h with e
    obtain ⟨rfl, rfl⟩ : false = r ∧ s1 = s' :=
      ⟨congrArg Prod.fst e, congrArg Prod.snd e⟩
    obtain ⟨hPI1, -, -, -, -⟩ :=
      lacam_addConstraints_spec ins C (M.who.zip M.loc) _ hPI0 hgood0
        hpairs hnd hwz hvnow0 false s1 hadd
    exact ⟨hPI1.1, hPI1.2.1, fun htff => absurd htff (by decide)⟩
  · rename_i s1 hadd
    obtain ⟨hPI1, hgood1, hvn1, hon1, hmono1⟩ :=
      lacam_addConstraints_spec ins C (M.who.zip M.loc) _ hPI0 hgood0
        hpairs hnd hwz hvnow0 true s1 hadd
    obtain ⟨hPI', hvn', hon', hmono', htrue'⟩ :=
      lacam_pibtAll_spec ins D rngOn stream order s1 hPI1 hgood1
        (fun k hk => by
          have := hperm.mem_iff.mp hk
          rwa [List.mem_range] at this) r s' h
    refine ⟨hPI'.1, hPI'.2.1, ?_⟩
    intro hrt
    obtain ⟨hgoodf, hexf⟩ := htrue' hrt
    have hvnowf : ∀ a, a < ins.N → s'.v_now a = some (C.getD a 0) := by
      intro a ha
      rw [hvn', hvn1]
      exact hvnow0 a ha
    have hexa : ∀ a, a < ins.N → ∃ w, s'.v_next a = some w := by
      intro a ha
      have hmem : a ∈ order := hperm.mem_iff.mpr (List.mem_range.mpr ha)
      rcases hv : s'.v_next a with _ | w
      · exact absurd hv (hexf a hmem)
      · exact ⟨w, rfl⟩
    obtain ⟨hNCf, hXCf, hComf, hNSf, hAdjf⟩ := hPI'
    refine ⟨?_, ?_, ?_⟩
    · intro i hi
      obtain ⟨w, hw⟩ := hexa i hi
      rw [getD_map_range _ hi, hw]
      have hadj := hAdjf i hi w hw
      rw [hvnowf i hi] at hadj
      exact hadj
    · intro i hi j hj hne
      obtain ⟨wi, hwi⟩ := hexa i hi
      obtain ⟨wj, hwj⟩ := hexa j hj
      rw [getD_map_range _ hi, getD_map_range _ hj, hwi, hwj]
      intro heq
      have hoi := hgoodf i hi wi hwi
      have hoj := hgoodf j hj wj hwj
      show False
      have hww : wi = wj := heq
      rw [hww, hoj] at hoi
      exact hne (Option.some.inj hoi).symm
    · intro i hi j hj hne hcon
      obtain ⟨e1, e2⟩ := hcon
      obtain ⟨wi, hwi⟩ := hexa i hi
      obtain ⟨wj, hwj⟩ := hexa j hj
      rw [getD_map_range _ hj, hwj, Option.getD_some] at e1
      rw [getD_map_range _ hi, hwi, Option.getD_some] at e2
      refine hNSf i hi j hj hne ⟨?_, ?_⟩
      · rw [hwi, hvnowf j hj]
        rw [e2]
      · rw [hwj, hvnowf i hi]
        rw [e1]

/-- Two length-`N` configurations agreeing at every index below `N` are
equal. -/
theorem getD_ext_eq (C1 C2 : List Nat) (N : Nat) (h1 : C1.length = N)
    (h2 : C2.length = N)
    (h : ∀ i, i < N → C1.getD i 0 = C2.getD i 0) : C1 = C2 := by
  refine List.ext_get (by omega) ?_
  intro n hn1 hn2
  have hg := h n (by omega)
  rwa [getD_eq_get_of_lt C1 0 hn1, getD_eq_get_of_lt C2 0 hn2] at hg

/-- A conditional-count fold never drops below its accumulator. -/
theorem foldl_count_le {α : Type} (p : α → Prop) [DecidablePred p] :
    ∀ (l : List α) (a : Nat),
      a ≤ l.foldl (fun c i => if p i then c + 1 else c) a := by
  intro l
  induction l with
  | nil => intro a; exact le_refl a
  | cons x xs ih =>
    intro a
    simp only [List.foldl_cons]
    by_cases hx : p x
    · rw [if_pos hx]
      exact le_trans (by omega) (ih (a + 1))
    · rw [if_neg hx]
      exact ih a

/-- A conditional-count fold over a list holding an element satisfying
the predicate exceeds its accumulator. -/
theorem foldl_count_pos {α : Type} (p : α → Prop) [DecidablePred p] :
    ∀ (l : List α) (a : Nat) (x : α), x ∈ l → p x →
      a + 1 ≤ l.foldl (fun c i => if p i then c + 1 else c) a := by
  intro l
  induction l with
  | nil => intro a x hx _; cases hx
  | cons y ys ih =>
    intro a x hx hp
    simp only [List.foldl_cons]
    rcases List.mem_cons.mp hx with rfl | hmem
    · rw [if_pos hp]
      exact foldl_count_le p ys (a + 1)
    · by_cases hy : p y
      · rw [if_pos hy]
        exact le_trans (by omega) (ih (a + 1) x hmem hp)
      · rw [if_neg hy]
        exact ih a x hmem hp

/-- lacam2's `get_edge_cost` is at least 1 between distinct length-`N`
configurations under every objective. -/
theorem lacam2_get_edge_cost_pos (objective : Objective) (goals : List Nat)
    (N : Nat) (C1 C2 : List Nat) (h1 : C1.length = N) (h2 : C2.length = N)
    (hne : C1 ≠ C2) :
    1 ≤ Lacam2.get_edge_cost objective goals N C1 C2 := by
  have hex : ∃ i, i < N ∧ C1.getD i 0 ≠ C2.getD i 0 := by
    by_contra hc
    push_neg at hc
    exact hne (getD_ext_eq C1 C2 N h1 h2 hc)
  obtain ⟨i, hi, hd⟩ := hex
  rcases objective with _ | _ | _
  · show 1 ≤ Lacam2.get_edge_cost OBJ_NONE goals N C1 C2
    rw [Lacam2.get_edge_cost, if_pos rfl]
    exact foldl_count_pos _ _ 0 i (List.mem_range.mpr hi) hd
  · show 1 ≤ Lacam2.get_edge_cost OBJ_MAKESPAN goals N C1 C2
    rw [Lacam2.get_edge_cost, if_neg (by decide), if_neg (by decide)]
  · show 1 ≤ Lacam2.get_edge_cost OBJ_SUM_OF_LOSS goals N C1 C2
    rw [Lacam2.get_edge_cost, if_neg (by decide), if_pos rfl]
    refine foldl_count_pos _ _ 0 i (List.mem_range.mpr hi) ?_
    by_contra hc
    push_neg at hc
    exact hd (hc.1.trans hc.2.symm)

/-- lacam's `get_edge_cost` is at least 1 between distinct length-`N`
configurations under every objective. -/
theorem lacam_get_edge_cost_pos (objective : Objective) (goals : List Nat)
    (N : Nat) (C1 C2 : List Nat) (h1 : C1.length = N) (h2 : C2.length = N)
    (hne : C1 ≠ C2) :
    1 ≤ Lacam.get_edge_cost objective goals N C1 C2 := by
  have hex : ∃ i, i < N ∧ C1.getD i 0 ≠ C2.getD i 0 := by
    by_contra hc
    push_neg at hc
    exact hne (getD_ext_eq C1 C2 N h1 h2 hc)
  obtain ⟨i, hi, hd⟩ := hex
  by_cases ho : objective = OBJ_SUM_OF_LOSS
  · subst ho
    rw [Lacam.get_edge_cost, if_pos rfl]
    refine foldl_count_pos _ _ 0 i (List.mem_range.mpr hi) ?_
    by_contra hc
    push_neg at hc
    exact hd (hc.1.trans hc.2.symm)
  · rw [Lacam.get_edge_cost, if_neg ho]

/-- A successful association-list lookup names a stored pair. -/
theorem lookup_mem {α β : Type} [BEq α] [LawfulBEq α] :
    ∀ (es : List (α × β)) (a : α) (b : β),
      es.lookup a = some b → (a, b) ∈ es := by
  intro es
  induction es with
  | nil => intro a b h; simp [List.lookup] at h
  | cons e rest ih =>
    intro a b h
    rcases e with ⟨k, v⟩
    simp only [List.lookup] at h
    rcases hak : (a == k) with _ | _
    · rw [hak] at h
      exact List.mem_cons_of_mem _ (ih a b h)
    · rw [hak] at h
      have hk : a = k := beq_iff_eq.mp hak
      have hv : b = v := (Option.some.inj h).symm
      rw [hk, hv]
      exact List.mem_cons_self _ _

/-- A valid joint step in an undirected graph reverses when the source
configuration is itself collision-free. -/
theorem validStep_symm (ins : Inst) (C C' : List Nat)
    (hSym : ∀ a b, a ∈ ins.adj b → b ∈ ins.adj a)
    (hcol : stepNoVertexCollision ins C)
    (h : validStep ins C C') : validStep ins C' C := by
  obtain ⟨hmv, -, hsw⟩ := h
  refine ⟨?_, hcol, ?_⟩
  · intro i hi
    rcases hmv i hi with hadj | heq
    · exact Or.inl (hSym _ _ hadj)
    · exact Or.inr heq.symm
  · intro i hi j hj hij hcon
    exact hsw j hj i hi (Ne.symm hij) ⟨hcon.1.symm, hcon.2.symm⟩

/-- The spec-modelled shuffle only permutes: every output element is an
input element (the fuel never exceeds the list length). -/
theorem shuffleGo_mem (stream : Nat → Q) :
    ∀ (n : Nat) (l : List Nat) (k : Nat), n ≤ l.length →
      ∀ y, y ∈ (Lacam2.shuffleGo stream n l k).1 → y ∈ l := by
  intro n
  induction n with
  | zero => intro l k _ y hy; exact hy
  | succ m ih =>
    intro l k hn y hy
    have hl : 0 < l.length := by omega
    simp only [Lacam2.shuffleGo] at hy
    rcases hsh : Lacam2.shuffleGo stream m
        (l.take (Lacam2.drawIdx (stream k) l.length) ++
          l.drop (Lacam2.drawIdx (stream k) l.length + 1)) (k + 1)
      with ⟨tl, k'⟩
    rw [hsh] at hy
    have hj : Lacam2.drawIdx (stream k) l.length < l.length := by
      have hmax : max l.length 1 = l.length := by omega
      have := Nat.mod_lt
        ((Q.trunc ⟨(stream k).num * l.length, (stream k).den⟩).toNat)
        (y := max l.length 1) (by omega)
      rw [Lacam2.drawIdx]
      omega
    rcases List.mem_cons.mp hy with rfl | hmem
    · exact getD_mem_of_lt l _ 0 hj
    · have hrest : y ∈ l.take (Lacam2.drawIdx (stream k) l.length) ++
          l.drop (Lacam2.drawIdx (stream k) l.length + 1) := by
        have hlen : (l.take (Lacam2.drawIdx (stream k) l.length) ++
            l.drop (Lacam2.drawIdx (stream k) l.length + 1)).length
            = l.length - 1 := by
          rw [List.length_append, List.length_take, List.length_drop]
          omega
        refine ih _ (k + 1) (by omega) y ?_
        rw [hsh]
        exact hmem
      rcases List.mem_append.mp hrest with hh | hh
      · exact List.take_subset _ _ hh
      · exact List.drop_subset _ _ hh

/-- Every child frame produced by lacam2's `expand_lowlevel_tree` on a
well-formed frame is itself well-formed. -/
theorem lacam2_expand_frames (ins : Inst) (rngOn : Bool) (stream : Nat → Q)
    (H : Lacam2.HN) (L : Lacam2.LNode) (k : Nat)
    (hperm : H.order.Perm (List.range ins.N))
    (htf : Lacam2.treeFrame ins H.C H.order L) :
    ∀ L', L' ∈ (Lacam2.expand_lowlevel_tree ins rngOn stream H L k).1 →
      Lacam2.treeFrame ins H.C H.order L' := by
  intro L' hL'
  simp only [Lacam2.expand_lowlevel_tree] at hL'
  split at hL'
  · cases hL'
  · rename_i hdep
    have hdN : L.depth < ins.N := by omega
    set i := H.order.getD L.depth 0 with hi
    set cand := ins.adj (H.C.getD i 0) ++ [H.C.getD i 0] with hcand
    obtain ⟨v, hv, he⟩ := List.mem_map.mp hL'
    have hvc : v ∈ cand := by
      by_cases hr : rngOn
      · rw [if_pos hr] at hv
        exact shuffleGo_mem stream cand.length cand k (le_refl _) v hv
      · rw [if_neg hr] at hv
        exact hv
    have hordlen : H.order.length = ins.N := by
      rw [hperm.length_eq, List.length_range]
    have hiN : i < ins.N := by
      have hmem := getD_mem_of_lt H.order L.depth 0 (by omega)
      exact List.mem_range.mp (hperm.mem_iff.mp hmem)
    rw [← he]
    refine ⟨rfl, hiN, ?_, hdN, htf⟩
    rcases List.mem_append.mp hvc with hh | hh
    · exact Or.inl hh
    · exact Or.inr (List.mem_singleton.mp hh)

/-- Every child frame produced by lacam's `expand_lowlevel_tree` on a
well-formed frame is itself well-formed. -/
theorem lacam_expand_frames (ins : Inst) (rngOn : Bool) (stream : Nat → Q)
    (S : Lacam.HN) (M : Lacam.Constraint) (k : Nat)
    (hperm : S.order.Perm (List.range ins.N))
    (hfr : Lacam.frameOK ins S.C S.order M) :
    ∀ M', M' ∈ (Lacam.expand_lowlevel_tree ins rngOn stream S M k).1 →
      Lacam.frameOK ins S.C S.order M' := by
  intro M' hM'
  simp only [Lacam.expand_lowlevel_tree] at hM'
  split at hM'
  · cases hM'
  · rename_i hdep
    have hdN : M.depth < ins.N := by omega
    obtain ⟨hwl, hdle, hpf⟩ := hfr
    set i := S.order.getD M.depth 0 with hi
    set cand := ins.adj (S.C.getD i 0) ++ [S.C.getD i 0] with hcand
    obtain ⟨v, hv, he⟩ := List.mem_map.mp hM'
    have hvc : v ∈ cand := by
      by_cases hr : rngOn
      · rw [if_pos hr] at hv
        exact shuffleGo_mem stream cand.length cand k (le_refl _) v hv
      · rw [if_neg hr] at hv
        exact hv
    have hordlen : S.order.length = ins.N := by
      rw [hperm.length_eq, List.length_range]
    have hiN : i < ins.N := by
      have hmem := getD_mem_of_lt S.order M.depth 0 (by omega)
      exact List.mem_range.mp (hperm.mem_iff.mp hmem)
    have hvfact : v ∈ ins.adj (S.C.getD i 0) ∨ v = S.C.getD i 0 := by
      rcases List.mem_append.mp hvc with hh | hh
      · exact Or.inl hh
      · exact Or.inr (List.mem_singleton.mp hh)
    rw [← he]
    have hdepth : (M.child i v).depth = M.depth + 1 := by
      show (M.who ++ [i]).length = M.who.length + 1
      rw [List.length_append]
      rfl
    refine ⟨?_, ?_, ?_⟩
    · show (M.who ++ [i]).length = (M.loc ++ [v]).length
      rw [List.length_append, List.length_append, hwl]
      rfl
    · rw [hdepth]
      omega
    · intro d hd
      rw [hdepth] at hd
      show (M.who ++ [i]).getD d 0 = S.order.getD d 0 ∧
        (M.who ++ [i]).getD d 0 < ins.N ∧
        ((M.loc ++ [v]).getD d 0 ∈
            ins.adj (S.C.getD ((M.who ++ [i]).getD d 0) 0) ∨
          (M.loc ++ [v]).getD d 0 = S.C.getD ((M.who ++ [i]).getD d 0) 0)
      by_cases hdd : d < M.depth
      · have hdw : d < M.who.length := hdd
        have hdl : d < M.loc.length := by rw [← hwl]; exact hdd
        have e1 : (M.who ++ [i]).getD d 0 = M.who.getD d 0 :=
          List.getD_append _ _ _ _ hdw
        have e2 : (M.loc ++ [v]).getD d 0 = M.loc.getD d 0 :=
          List.getD_append _ _ _ _ hdl
        rw [e1, e2]
        exact hpf d hdd
      · have hde : d = M.depth := by omega
        have hdw : M.depth = M.who.length := rfl
        have e1 : (M.who ++ [i]).getD d 0 = i := by
          rw [List.getD_append_right _ _ _ _ (by omega)]
          have hz : d - M.who.length = 0 := by omega
          rw [hz]
          rfl
        have e2 : (M.loc ++ [v]).getD d 0 = v := by
          rw [List.getD_append_right _ _ _ _ (by omega)]
          have hz : d - M.loc.length = 0 := by omega
          rw [hz]
          rfl
        rw [e1, e2]
        refine ⟨?_, hiN, hvfact⟩
        rw [hde]

/-- Membership after an `unordered_set`-style insert. -/
theorem nbrInsert_mem (l : List Nat) (y x : Nat) (h : x ∈ nbrInsert l y) :
    x ∈ l ∨ x = y := by
  rw [nbrInsert] at h
  split at h
  · exact Or.inl h
  · rcases List.mem_append.mp h with hh | hh
    · exact Or.inl hh
    · exact Or.inr (List.mem_singleton.mp hh)

/-- Pushing onto `OPEN` under the goal bound keeps every entry live. -/
theorem open_push_bound (size n_to : Nat) (OPEN : List Nat)
    (hGoal : Option Nat) (c : Nat → Prop) [DecidablePred c]
    (hto : n_to < size) (hopen : ∀ k, k ∈ OPEN → k < size) :
    ∀ k, k ∈ (match hGoal with
      | some gi => if c gi then n_to :: OPEN else OPEN
      | none => OPEN) → k < size := by
  rcases hGoal with _ | gi
  · exact hopen
  · intro k hk
    have hk' : k ∈ (if c gi then n_to :: OPEN else OPEN) := hk
    by_cases hc : c gi
    · rw [if_pos hc] at hk'
      rcases List.mem_cons.mp hk' with rfl | hk2
      · exact hto
      · exact hopen k hk2
    · rw [if_neg hc] at hk'
      exact hopen k hk'

/-- Rewiring one node's parent to a strictly cheaper live predecessor
across a valid step preserves the lacam2 arena invariant. -/
theorem lacam2_rewire_ok (ins : Inst) (size : Nat)
    (arena : Nat → Lacam2.HN) (n_from n_to g_val : Nat)
    (hA : Lacam2.ArenaOK ins size arena)
    (hfrom : n_from < size) (hto : n_to < size)
    (hvs : validStep ins (arena n_from).C (arena n_to).C)
    (hg1 : (arena n_from).g < g_val) (hg2 : g_val < (arena n_to).g) :
    Lacam2.ArenaOK ins size
      (upd arena n_to
        { arena n_to with g := g_val, f := g_val + (arena n_to).h,
                          parent := some n_from }) := by
  obtain ⟨h1, h2, h3, h4, h5, h6, h7, h8, h9⟩ := hA
  set arena1 := upd arena n_to
    { arena n_to with g := g_val, f := g_val + (arena n_to).h,
                      parent := some n_from } with ha1
  have h0ne : n_to ≠ 0 := by
    intro he
    rw [he, h3] at hg2
    omega
  have hfne : n_from ≠ n_to := by
    intro he
    rw [he] at hg1
    omega
  have hCeq : ∀ i, (arena1 i).C = (arena i).C := by
    intro i
    by_cases hi : i = n_to
    · subst hi
      rw [ha1, upd_same]
    · rw [ha1, upd_ne _ _ _ hi]
  have hNeq : ∀ i, (arena1 i).neighbor = (arena i).neighbor := by
    intro i
    by_cases hi : i = n_to
    · subst hi
      rw [ha1, upd_same]
    · rw [ha1, upd_ne _ _ _ hi]
  have hgle : ∀ i, (arena1 i).g ≤ (arena i).g := by
    intro i
    by_cases hi : i = n_to
    · subst hi
      rw [ha1, upd_same]
      exact le_of_lt hg2
    · rw [ha1, upd_ne _ _ _ hi]
  refine ⟨?_, ?_, ?_, ?_, ?_, ?_, ?_, ?_, ?_⟩
  · rw [ha1, upd_ne _ _ _ (Ne.symm h0ne)]
    exact h1
  · rw [hCeq 0]
    exact h2
  · rw [ha1, upd_ne _ _ _ (Ne.symm h0ne)]
    exact h3
  · intro i hi p hp
    by_cases hin : i = n_to
    · rw [ha1, hin, upd_same] at hp
      have hpf : p = n_from := (Option.some.inj hp).symm
      have e1 : (arena1 i).g = g_val := by
        rw [ha1, hin, upd_same]
      have e2 : (arena1 n_from).g = (arena n_from).g := by
        rw [ha1, upd_ne _ _ _ hfne]
      refine ⟨?_, ?_, ?_⟩
      · rw [hpf]
        exact hfrom
      · rw [hpf, e2, e1]
        exact hg1
      · rw [hpf, hCeq n_from, hCeq i, hin]
        exact hvs
    · have hp' : (arena i).parent = some p := by
        rw [ha1, upd_ne _ _ _ hin] at hp
        exact hp
      obtain ⟨hpl, hpg, hpv⟩ := h4 i hi p hp'
      refine ⟨hpl, ?_, ?_⟩
      · have e1 : (arena1 i).g = (arena i).g := by
          rw [ha1, upd_ne _ _ _ hin]
        rw [e1]
        exact lt_of_le_of_lt (hgle p) hpg
      · rw [hCeq p, hCeq i]
        exact hpv
  · intro i hi hpn
    by_cases hin : i = n_to
    · rw [ha1, hin, upd_same] at hpn
      cases hpn
    · have hpn' : (arena i).parent = none := by
        rw [ha1, upd_ne _ _ _ hin] at hpn
        exact hpn
      rw [hCeq i]
      exact h5 i hi hpn'
  · intro i hi j hj
    rw [hNeq i] at hj
    obtain ⟨hjl, hjv⟩ := h6 i hi j hj
    refine ⟨hjl, ?_⟩
    rw [hCeq i, hCeq j]
    exact hjv
  · intro i hi
    rw [hCeq i]
    exact h7 i hi
  · intro i hi
    rw [hCeq i]
    exact h8 i hi
  · intro i hi j hj hij
    rw [hCeq i, hCeq j]
    exact h9 i hi j hj hij

/-- The relaxation loop of lacam2's `rewrite` preserves the arena
invariant, touches neither configurations nor search frames, and keeps
`OPEN` and the queue additions live. -/
theorem lacam2_relaxNbrs_ok (ins : Inst) (objective : Objective)
    (hGoal : Option Nat) (n_from : Nat) (size : Nat)
    (hfrom : n_from < size) :
    ∀ (l : List Nat) (arena : Nat → Lacam2.HN) (qAcc OPEN : List Nat)
      (arena' : Nat → Lacam2.HN) (qAcc' OPEN' : List Nat),
      Lacam2.relaxNbrs objective ins.goals ins.N hGoal n_from l arena qAcc
        OPEN = (arena', qAcc', OPEN') →
      Lacam2.ArenaOK ins size arena →
      (∀ x, x ∈ l → x ∈ (arena n_from).neighbor) →
      (∀ k, k ∈ OPEN → k < size) →
      (∀ x, x ∈ qAcc → x < size) →
      Lacam2.ArenaOK ins size arena' ∧
      (∀ i, (arena' i).neighbor = (arena i).neighbor) ∧
      Lacam2.sameFrame arena arena' ∧
      (∀ x, x ∈ qAcc' → x < size) ∧
      (∀ k, k ∈ OPEN' → k < size) := by
  intro l
  induction l with
  | nil =>
    intro arena qAcc OPEN arena' qAcc' OPEN' h hA hl hopen hq
    simp only [Lacam2.relaxNbrs] at h
    rcases h with ⟨rfl, rfl, rfl⟩
    exact ⟨hA, fun i => rfl, fun i => ⟨rfl, rfl, rfl⟩, hq, hopen⟩
  | cons n_to rest ih =>
    intro arena qAcc OPEN arena' qAcc' OPEN' h hA hl hopen hq
    have hnb : n_to ∈ (arena n_from).neighbor :=
      hl n_to (List.mem_cons_self _ _)
    obtain ⟨hto_lt, hto_vs⟩ := hA.2.2.2.2.2.1 n_from hfrom n_to hnb
    simp only [Lacam2.relaxNbrs] at h
    set g_val := (arena n_from).g + Lacam2.get_edge_cost objective ins.goals
      ins.N (arena n_from).C (arena n_to).C with hgv
    set arena1 := upd arena n_to
      { arena n_to with g := g_val, f := g_val + (arena n_to).h,
                        parent := some n_from } with ha1
    split at h
    · rename_i hguard
      have hfne : n_from ≠ n_to := by
        intro he
        rw [hgv, he] at hguard
        omega
      have hcost : 1 ≤ Lacam2.get_edge_cost objective ins.goals ins.N
          (arena n_from).C (arena n_to).C :=
        lacam2_get_edge_cost_pos objective ins.goals ins.N _ _
          (hA.2.2.2.2.2.2.1 n_from hfrom) (hA.2.2.2.2.2.2.1 n_to hto_lt)
          (hA.2.2.2.2.2.2.2.2 n_from hfrom n_to hto_lt hfne)
      have hg1 : (arena n_from).g < g_val := by
        rw [hgv]
        omega
      have hA1 : Lacam2.ArenaOK ins size arena1 := by
        rw [ha1]
        exact lacam2_rewire_ok ins size arena n_from n_to g_val hA hfrom
          hto_lt hto_vs hg1 hguard
      have hnbr1 : ∀ i, (arena1 i).neighbor = (arena i).neighbor := by
        intro i
        by_cases hi : i = n_to
        · subst hi
          rw [ha1, upd_same]
        · rw [ha1, upd_ne _ _ _ hi]
      have hsf1 : Lacam2.sameFrame arena arena1 := by
        intro i
        by_cases hi : i = n_to
        · exact ⟨by rw [ha1, hi, upd_same], by rw [ha1, hi, upd_same],
            by rw [ha1, hi, upd_same]⟩
        · exact ⟨by rw [ha1, upd_ne _ _ _ hi],
            by rw [ha1, upd_ne _ _ _ hi], by rw [ha1, upd_ne _ _ _ hi]⟩
      have hl1 : ∀ x, x ∈ rest → x ∈ (arena1 n_from).neighbor := by
        intro x hx
        rw [hnbr1 n_from]
        exact hl x (List.mem_cons_of_mem _ hx)
      have hq1 : ∀ x, x ∈ qAcc ++ [n_to] → x < size := by
        intro x hx
        rcases List.mem_append.mp hx with hh | hh
        · exact hq x hh
        · rw [List.mem_singleton.mp hh]
          exact hto_lt
      have hopen1 := open_push_bound size n_to OPEN hGoal
        (fun gi => g_val + (arena n_to).h < (arena1 gi).f) hto_lt hopen
      obtain ⟨hA', hnbr', hsf', hq', hopen'⟩ :=
        ih arena1 (qAcc ++ [n_to]) _ arena' qAcc' OPEN' h hA1 hl1 hopen1 hq1
      refine ⟨hA', ?_, ?_, hq', hopen'⟩
      · intro i
        rw [hnbr' i, hnbr1 i]
      · intro i
        obtain ⟨e1, e2, e3⟩ := hsf' i
        obtain ⟨f1, f2, f3⟩ := hsf1 i
        exact ⟨e1.trans f1, e2.trans f2, e3.trans f3⟩
    · exact ih arena qAcc OPEN arena' qAcc' OPEN' h hA
        (fun x hx => hl x (List.mem_cons_of_mem _ hx)) hopen hq

/-- The queue loop of lacam2's `rewrite` preserves the arena invariant
and the frame fields and keeps `OPEN` live. -/
theorem lacam2_rewriteGo_ok (ins : Inst) (objective : Objective)
    (hGoal : Option Nat) (size : Nat) :
    ∀ (fuel : Nat) (Ql : List Nat) (arena : Nat → Lacam2.HN)
      (OPEN : List Nat) (arena' : Nat → Lacam2.HN) (OPEN' : List Nat),
      Lacam2.rewriteGo objective ins.goals ins.N hGoal fuel Ql arena OPEN
        = some (arena', OPEN') →
      Lacam2.ArenaOK ins size arena →
      (∀ x, x ∈ Ql → x < size) →
      (∀ k, k ∈ OPEN → k < size) →
      Lacam2.ArenaOK ins size arena' ∧
      (∀ i, (arena' i).neighbor = (arena i).neighbor) ∧
      Lacam2.sameFrame arena arena' ∧
      (∀ k, k ∈ OPEN' → k < size) := by
  intro fuel
  induction fuel with
  | zero =>
    intro Ql arena OPEN arena' OPEN' h
    simp [Lacam2.rewriteGo] at h
  | succ n ih =>
    intro Ql arena OPEN arena' OPEN' h hA hQ hopen
    match Ql, h with
    | [], h =>
      simp only [Lacam2.rewriteGo] at h
      rcases Option.some.inj h with ⟨rfl, rfl⟩
      exact ⟨hA, fun i => rfl, fun i => ⟨rfl, rfl, rfl⟩, hopen⟩
    | n_from :: Qrest, h =>
      simp only [Lacam2.rewriteGo] at h
      have hfrom : n_from < size := hQ n_from (List.mem_cons_self _ _)
      rcases hR : Lacam2.relaxNbrs objective ins.goals ins.N hGoal n_from
          (arena n_from).neighbor arena [] OPEN with ⟨arenaR, qR, openR⟩
      rw [hR] at h
      obtain ⟨hAR, hnbrR, hsfR, hqR, hopenR⟩ :=
        lacam2_relaxNbrs_ok ins objective hGoal n_from size hfrom
          (arena n_from).neighbor arena [] OPEN arenaR qR openR hR hA
          (fun x hx => hx) hopen (fun x hx => by cases hx)
      have hQ1 : ∀ x, x ∈ Qrest ++ qR → x < size := by
        intro x hx
        rcases List.mem_append.mp hx with hh | hh
        · exact hQ x (List.mem_cons_of_mem _ hh)
        · exact hqR x hh
      obtain ⟨hA', hnbr', hsf', hopen'⟩ :=
        ih (Qrest ++ qR) arenaR openR arena' OPEN' h hAR hQ1 hopenR
      refine ⟨hA', ?_, ?_, hopen'⟩
      · intro i
        rw [hnbr' i, hnbrR i]
      · intro i
        obtain ⟨e1, e2, e3⟩ := hsf' i
        obtain ⟨f1, f2, f3⟩ := hsfR i
        exact ⟨e1.trans f1, e2.trans f2, e3.trans f3⟩

/-- lacam2's `rewrite` preserves the arena invariant (together with every
configuration, order and search tree) and keeps `OPEN` live, given that
the recorded edge is a valid step between live nodes. -/
theorem lacam2_rewrite_ok (ins : Inst) (objective : Objective) (size : Nat)
    (fuel : Nat) (arena : Nat → Lacam2.HN) (OPEN : List Nat)
    (H_from H_to : Nat) (hGoal : Option Nat)
    (arena' : Nat → Lacam2.HN) (OPEN' : List Nat)
    (h : Lacam2.rewrite objective ins.goals ins.N fuel arena OPEN H_from
      H_to hGoal = some (arena', OPEN'))
    (hA : Lacam2.ArenaOK ins size arena)
    (hfrom : H_from < size) (hto : H_to < size)
    (hvs : validStep ins (arena H_from).C (arena H_to).C)
    (hopen : ∀ k, k ∈ OPEN → k < size) :
    Lacam2.ArenaOK ins size arena' ∧ Lacam2.sameFrame arena arena' ∧
    (∀ k, k ∈ OPEN' → k < size) := by
  simp only [Lacam2.rewrite] at h
  set arena0 := upd arena H_from
    { arena H_from with
      neighbor := nbrInsert (arena H_from).neighbor H_to } with ha0
  have hfields : ∀ i, (arena0 i).C = (arena i).C ∧
      (arena0 i).parent = (arena i).parent ∧
      (arena0 i).g = (arena i).g ∧
      (arena0 i).order = (arena i).order ∧
      (arena0 i).search_tree = (arena i).search_tree := by
    intro i
    by_cases hi : i = H_from
    · subst hi
      rw [ha0, upd_same]
      exact ⟨rfl, rfl, rfl, rfl, rfl⟩
    · rw [ha0, upd_ne _ _ _ hi]
      exact ⟨rfl, rfl, rfl, rfl, rfl⟩
  obtain ⟨h1, h2, h3, h4, h5, h6, h7, h8, h9⟩ := hA
  have hA0 : Lacam2.ArenaOK ins size arena0 := by
    refine ⟨?_, ?_, ?_, ?_, ?_, ?_, ?_, ?_, ?_⟩
    · rw [(hfields 0).2.1]
      exact h1
    · rw [(hfields 0).1]
      exact h2
    · rw [(hfields 0).2.2.1]
      exact h3
    · intro i hi p hp
      rw [(hfields i).2.1] at hp
      obtain ⟨hpl, hpg, hpv⟩ := h4 i hi p hp
      refine ⟨hpl, ?_, ?_⟩
      · rw [(hfields i).2.2.1, (hfields p).2.2.1]
        exact hpg
      · rw [(hfields i).1, (hfields p).1]
        exact hpv
    · intro i hi hpn
      rw [(hfields i).2.1] at hpn
      rw [(hfields i).1]
      exact h5 i hi hpn
    · intro i hi j hj
      by_cases hif : i = H_from
      · subst hif
        have hj' : j ∈ nbrInsert (arena i).neighbor H_to := by
          have e : (arena0 i).neighbor
              = nbrInsert (arena i).neighbor H_to := by
            rw [ha0, upd_same]
          rw [e] at hj
          exact hj
        rcases nbrInsert_mem _ _ _ hj' with hh | rfl
        · obtain ⟨hjl, hjv⟩ := h6 i hi j hh
          refine ⟨hjl, ?_⟩
          rw [(hfields i).1, (hfields j).1]
          exact hjv
        · refine ⟨hto, ?_⟩
          rw [(hfields i).1, (hfields j).1]
          exact hvs
      · have hj' : j ∈ (arena i).neighbor := by
          have e : (arena0 i).neighbor = (arena i).neighbor := by
            rw [ha0, upd_ne _ _ _ hif]
          rw [e] at hj
          exact hj
        obtain ⟨hjl, hjv⟩ := h6 i hi j hj'
        refine ⟨hjl, ?_⟩
        rw [(hfields i).1, (hfields j).1]
        exact hjv
    · intro i hi
      rw [(hfields i).1]
      exact h7 i hi
    · intro i hi
      rw [(hfields i).1]
      exact h8 i hi
    · intro i hi j hj hij
      rw [(hfields i).1, (hfields j).1]
      exact h9 i hi j hj hij
  obtain ⟨hA', hnbr', hsf', hopen'⟩ :=
    lacam2_rewriteGo_ok ins objective hGoal size fuel [H_from] arena0 OPEN
      arena' OPEN' h hA0
      (fun x hx => by rw [List.mem_singleton.mp hx]; exact hfrom) hopen
  refine ⟨hA', ?_, hopen'⟩
  intro i
  obtain ⟨e1, e2, e3⟩ := hsf' i
  exact ⟨e1.trans (hfields i).1, e2.trans (hfields i).2.2.2.1,
    e3.trans (hfields i).2.2.2.2⟩

/-- Rewiring one node's parent to a strictly cheaper live predecessor
across a valid step preserves the lacam arena invariant. -/
theorem lacam_rewire_ok (ins : Inst) (size : Nat)
    (arena : Nat → Lacam.HN) (U W c : Nat)
    (hA : Lacam.ArenaOK ins size arena)
    (hfrom : U < size) (hto : W < size)
    (hvs : validStep ins (arena U).C (arena W).C)
    (hg1 : (arena U).g < c) (hg2 : c < (arena W).g) :
    Lacam.ArenaOK ins size
      (upd arena W
        { arena W with g := c, f := c + (arena W).h,
                       parent := some U }) := by
  obtain ⟨h1, h2, h3, h4, h5, h6, h7, h8, h9⟩ := hA
  set arena1 := upd arena W
    { arena W with g := c, f := c + (arena W).h,
                   parent := some U } with ha1
  have h0ne : W ≠ 0 := by
    intro he
    rw [he, h3] at hg2
    omega
  have hfne : U ≠ W := by
    intro he
    rw [he] at hg1
    omega
  have hCeq : ∀ i, (arena1 i).C = (arena i).C := by
    intro i
    by_cases hi : i = W
    · rw [ha1, hi, upd_same]
    · rw [ha1, upd_ne _ _ _ hi]
  have hNeq : ∀ i, (arena1 i).neighbor = (arena i).neighbor := by
    intro i
    by_cases hi : i = W
    · rw [ha1, hi, upd_same]
    · rw [ha1, upd_ne _ _ _ hi]
  have hgle : ∀ i, (arena1 i).g ≤ (arena i).g := by
    intro i
    by_cases hi : i = W
    · rw [ha1, hi, upd_same]
      show c ≤ (arena W).g
      omega
    · rw [ha1, upd_ne _ _ _ hi]
  refine ⟨?_, ?_, ?_, ?_, ?_, ?_, ?_, ?_, ?_⟩
  · rw [ha1, upd_ne _ _ _ (Ne.symm h0ne)]
    exact h1
  · rw [hCeq 0]
    exact h2
  · rw [ha1, upd_ne _ _ _ (Ne.symm h0ne)]
    exact h3
  · intro i hi p hp
    by_cases hin : i = W
    · rw [ha1, hin, upd_same] at hp
      have hpf : p = U := (Option.some.inj hp).symm
      have e1 : (arena1 i).g = c := by
        rw [ha1, hin, upd_same]
      have e2 : (arena1 U).g = (arena U).g := by
        rw [ha1, upd_ne _ _ _ hfne]
      refine ⟨?_, ?_, ?_⟩
      · rw [hpf]
        exact hfrom
      · rw [hpf, e2, e1]
        exact hg1
      · rw [hpf, hCeq U, hCeq i, hin]
        exact hvs
    · have hp' : (arena i).parent = some p := by
        rw [ha1, upd_ne _ _ _ hin] at hp
        exact hp
      obtain ⟨hpl, hpg, hpv⟩ := h4 i hi p hp'
      refine ⟨hpl, ?_, ?_⟩
      · have e1 : (arena1 i).g = (arena i).g := by
          rw [ha1, upd_ne _ _ _ hin]
        rw [e1]
        exact lt_of_le_of_lt (hgle p) hpg
      · rw [hCeq p, hCeq i]
        exact hpv
  · intro i hi hpn
    by_cases hin : i = W
    · rw [ha1, hin, upd_same] at hpn
      cases hpn
    · have hpn' : (arena i).parent = none := by
        rw [ha1, upd_ne _ _ _ hin] at hpn
        exact hpn
      rw [hCeq i]
      exact h5 i hi hpn'
  · intro i hi j hj
    rw [hNeq i] at hj
    obtain ⟨hjl, hjv⟩ := h6 i hi j hj
    refine ⟨hjl, ?_⟩
    rw [hCeq i, hCeq j]
    exact hjv
  · intro i hi
    rw [hCeq i]
    exact h7 i hi
  · intro i hi
    rw [hCeq i]
    exact h8 i hi
  · intro i hi j hj hij
    rw [hCeq i, hCeq j]
    exact h9 i hi j hj hij

/-- The relaxation loop of lacam's `rewrite` preserves the arena
invariant, configurations and search frames, and keeps the queue
additions live. -/
theorem lacam_relaxNbrs_ok (ins : Inst) (objective : Objective)
    (hGoal : Option Nat) (elapsedNow : Nat) (Sidx Tidx U : Nat)
    (firstRound : Bool) (size : Nat) (hU : U < size) :
    ∀ (l : List Nat) (arena : Nat → Lacam.HN) (qAcc : List Nat)
      (hist : List Nat × List Nat) (arena' : Nat → Lacam.HN)
      (qAcc' : List Nat) (hist' : List Nat × List Nat),
      Lacam.relaxNbrs objective ins.goals ins.N hGoal elapsedNow Sidx Tidx U
        firstRound l arena qAcc hist = (arena', qAcc', hist') →
      Lacam.ArenaOK ins size arena →
      (∀ x, x ∈ l → x ∈ (arena U).neighbor) →
      (∀ x, x ∈ qAcc → x < size) →
      Lacam.ArenaOK ins size arena' ∧
      (∀ i, (arena' i).neighbor = (arena i).neighbor) ∧
      Lacam.sameFrame arena arena' ∧
      (∀ x, x ∈ qAcc' → x < size) := by
  intro l
  induction l with
  | nil =>
    intro arena qAcc hist arena' qAcc' hist' h hA hl hq
    simp only [Lacam.relaxNbrs] at h
    rcases h with ⟨rfl, rfl, rfl⟩
    exact ⟨hA, fun i => rfl, fun i => ⟨rfl, rfl, rfl⟩, hq⟩
  | cons W rest ih =>
    intro arena qAcc hist arena' qAcc' hist' h hA hl hq
    have hnb : W ∈ (arena U).neighbor := hl W (List.mem_cons_self _ _)
    obtain ⟨hto_lt, hto_vs⟩ := hA.2.2.2.2.2.1 U hU W hnb
    simp only [Lacam.relaxNbrs] at h
    split at h
    · exact ih arena qAcc hist arena' qAcc' hist' h hA
        (fun x hx => hl x (List.mem_cons_of_mem _ hx)) hq
    · set c := (arena U).g + Lacam.get_edge_cost objective ins.goals ins.N
        (arena U).C (arena W).C with hgc
      set arena1 := upd arena W
        { arena W with g := c, f := c + (arena W).h,
                       parent := some U } with ha1
      split at h
      · rename_i hguard
        have hfne : U ≠ W := by
          intro he
          rw [hgc, he] at hguard
          omega
        have hcost : 1 ≤ Lacam.get_edge_cost objective ins.goals ins.N
            (arena U).C (arena W).C :=
          lacam_get_edge_cost_pos objective ins.goals ins.N _ _
            (hA.2.2.2.2.2.2.1 U hU) (hA.2.2.2.2.2.2.1 W hto_lt)
            (hA.2.2.2.2.2.2.2.2 U hU W hto_lt hfne)
        have hg1 : (arena U).g < c := by
          rw [hgc]
          omega
        have hA1 : Lacam.ArenaOK ins size arena1 := by
          rw [ha1]
          exact lacam_rewire_ok ins size arena U W c hA hU hto_lt hto_vs
            hg1 hguard
        have hnbr1 : ∀ i, (arena1 i).neighbor = (arena i).neighbor := by
          intro i
          by_cases hi : i = W
          · rw [ha1, hi, upd_same]
          · rw [ha1, upd_ne _ _ _ hi]
        have hsf1 : Lacam.sameFrame arena arena1 := by
          intro i
          by_cases hi : i = W
          · exact ⟨by rw [ha1, hi, upd_same], by rw [ha1, hi, upd_same],
              by rw [ha1, hi, upd_same]⟩
          · exact ⟨by rw [ha1, upd_ne _ _ _ hi],
              by rw [ha1, upd_ne _ _ _ hi], by rw [ha1, upd_ne _ _ _ hi]⟩
        have hl1 : ∀ x, x ∈ rest → x ∈ (arena1 U).neighbor := by
          intro x hx
          rw [hnbr1 U]
          exact hl x (List.mem_cons_of_mem _ hx)
        have hq1 : ∀ x, x ∈ qAcc ++ [W] → x < size := by
          intro x hx
          rcases List.mem_append.mp hx with hh | hh
          · exact hq x hh
          · rw [List.mem_singleton.mp hh]
            exact hto_lt
        obtain ⟨hA', hnbr', hsf', hq'⟩ :=
          ih arena1 (qAcc ++ [W]) _ arena' qAcc' hist' h hA1 hl1 hq1
        refine ⟨hA', ?_, ?_, hq'⟩
        · intro i
          rw [hnbr' i, hnbr1 i]
        · intro i
          obtain ⟨e1, e2, e3⟩ := hsf' i
          obtain ⟨f1, f2, f3⟩ := hsf1 i
          exact ⟨e1.trans f1, e2.trans f2, e3.trans f3⟩
      · exact ih arena qAcc hist arena' qAcc' hist' h hA
          (fun x hx => hl x (List.mem_cons_of_mem _ hx)) hq

/-- The queue loop of lacam's `rewrite` preserves the arena invariant and
the frame fields. -/
theorem lacam_rewriteGo_ok (ins : Inst) (objective : Objective)
    (hGoal : Option Nat) (elapsedNow : Nat) (Sidx Tidx : Nat) (size : Nat) :
    ∀ (fuel : Nat) (Ql : List Nat) (arena : Nat → Lacam.HN)
      (hist : List Nat × List Nat) (arena' : Nat → Lacam.HN)
      (hist' : List Nat × List Nat),
      Lacam.rewriteGo objective ins.goals ins.N hGoal elapsedNow Sidx Tidx
        fuel Ql arena hist = some (arena', hist') →
      Lacam.ArenaOK ins size arena →
      (∀ x, x ∈ Ql → x < size) →
      Lacam.ArenaOK ins size arena' ∧
      (∀ i, (arena' i).neighbor = (arena i).neighbor) ∧
      Lacam.sameFrame arena arena' := by
  intro fuel
  induction fuel with
  | zero =>
    intro Ql arena hist arena' hist' h
    simp [Lacam.rewriteGo] at h
  | succ n ih =>
    intro Ql arena hist arena' hist' h hA hQ
    match Ql, h with
    | [], h =>
      simp only [Lacam.rewriteGo] at h
      rcases Option.some.inj h with ⟨rfl, rfl⟩
      exact ⟨hA, fun i => rfl, fun i => ⟨rfl, rfl, rfl⟩⟩
    | U :: Qrest, h =>
      simp only [Lacam.rewriteGo] at h
      have hU : U < size := hQ U (List.mem_cons_self _ _)
      rcases hR : Lacam.relaxNbrs objective ins.goals ins.N hGoal elapsedNow
          Sidx Tidx U (decide (U = Sidx)) (arena U).neighbor arena [] hist
        with ⟨arenaR, qR, histR⟩
      rw [hR] at h
      obtain ⟨hAR, hnbrR, hsfR, hqR⟩ :=
        lacam_relaxNbrs_ok ins objective hGoal elapsedNow Sidx Tidx U
          (decide (U = Sidx)) size hU (arena U).neighbor arena [] hist
          arenaR qR histR hR hA (fun x hx => hx) (fun x hx => by cases hx)
      have hQ1 : ∀ x, x ∈ Qrest ++ qR → x < size := by
        intro x hx
        rcases List.mem_append.mp hx with hh | hh
        · exact hQ x (List.mem_cons_of_mem _ hh)
        · exact hqR x hh
      obtain ⟨hA', hnbr', hsf'⟩ :=
        ih (Qrest ++ qR) arenaR histR arena' hist' h hAR hQ1
      refine ⟨hA', ?_, ?_⟩
      · intro i
        rw [hnbr' i, hnbrR i]
      · intro i
        obtain ⟨e1, e2, e3⟩ := hsf' i
        obtain ⟨f1, f2, f3⟩ := hsfR i
        exact ⟨e1.trans f1, e2.trans f2, e3.trans f3⟩

/-- lacam's `rewrite` preserves the arena invariant and every
configuration, order and search tree, given a valid step between live
nodes and an undirected instance graph (the inserted edge is
undirected). -/
theorem lacam_rewrite_ok (ins : Inst) (objective : Objective) (size : Nat)
    (fuel : Nat) (arena : Nat → Lacam.HN) (Sidx Tidx : Nat)
    (hGoal : Option Nat) (elapsedNow : Nat) (hist : List Nat × List Nat)
    (arena' : Nat → Lacam.HN) (hist' : List Nat × List Nat)
    (h : Lacam.rewrite objective ins.goals ins.N fuel arena Sidx Tidx hGoal
      elapsedNow hist = some (arena', hist'))
    (hSym : ∀ a b, a ∈ ins.adj b → b ∈ ins.adj a)
    (hA : Lacam.ArenaOK ins size arena)
    (hfrom : Sidx < size) (hto : Tidx < size)
    (hvs : validStep ins (arena Sidx).C (arena Tidx).C) :
    Lacam.ArenaOK ins size arena' ∧ Lacam.sameFrame arena arena' := by
  simp only [Lacam.rewrite] at h
  set arena0 := upd arena Sidx
    { arena Sidx with
      neighbor := nbrInsert (arena Sidx).neighbor Tidx } with ha0
  set arena1 := upd arena0 Tidx
    { arena0 Tidx with
      neighbor := nbrInsert (arena0 Tidx).neighbor Sidx } with ha1
  have hfields0 : ∀ i, (arena0 i).C = (arena i).C ∧
      (arena0 i).parent = (arena i).parent ∧
      (arena0 i).g = (arena i).g ∧
      (arena0 i).order = (arena i).order ∧
      (arena0 i).search_tree = (arena i).search_tree := by
    intro i
    by_cases hi : i = Sidx
    · rw [ha0, hi, upd_same]
      exact ⟨rfl, rfl, rfl, rfl, rfl⟩
    · rw [ha0, upd_ne _ _ _ hi]
      exact ⟨rfl, rfl, rfl, rfl, rfl⟩
  have hfields : ∀ i, (arena1 i).C = (arena i).C ∧
      (arena1 i).parent = (arena i).parent ∧
      (arena1 i).g = (arena i).g ∧
      (arena1 i).order = (arena i).order ∧
      (arena1 i).search_tree = (arena i).search_tree := by
    intro i
    have hstep : (arena1 i).C = (arena0 i).C ∧
        (arena1 i).parent = (arena0 i).parent ∧
        (arena1 i).g = (arena0 i).g ∧
        (arena1 i).order = (arena0 i).order ∧
        (arena1 i).search_tree = (arena0 i).search_tree := by
      by_cases hi : i = Tidx
      · rw [ha1, hi, upd_same]
        exact ⟨rfl, rfl, rfl, rfl, rfl⟩
      · rw [ha1, upd_ne _ _ _ hi]
        exact ⟨rfl, rfl, rfl, rfl, rfl⟩
    obtain ⟨e1, e2, e3, e4, e5⟩ := hstep
    obtain ⟨f1, f2, f3, f4, f5⟩ := hfields0 i
    exact ⟨e1.trans f1, e2.trans f2, e3.trans f3, e4.trans f4, e5.trans f5⟩
  have hnbr_char : ∀ i j, j ∈ (arena1 i).neighbor →
      j ∈ (arena i).neighbor ∨ (i = Sidx ∧ j = Tidx) ∨
        (i = Tidx ∧ j = Sidx) := by
    intro i j hj
    by_cases hiT : i = Tidx
    · have e : (arena1 i).neighbor
          = nbrInsert (arena0 Tidx).neighbor Sidx := by
        rw [ha1, hiT, upd_same]
      rw [e] at hj
      rcases nbrInsert_mem _ _ _ hj with hh | rfl
      · by_cases hTS : Tidx = Sidx
        · have e0 : (arena0 Tidx).neighbor
              = nbrInsert (arena Sidx).neighbor Tidx := by
            rw [ha0, hTS, upd_same]
          rw [e0] at hh
          rcases nbrInsert_mem _ _ _ hh with hh2 | rfl
          · rw [hiT, hTS]
            exact Or.inl hh2
          · exact Or.inr (Or.inl ⟨hiT.trans hTS, rfl⟩)
        · have e0 : (arena0 Tidx).neighbor = (arena Tidx).neighbor := by
            rw [ha0, upd_ne _ _ _ hTS]
          rw [e0] at hh
          rw [hiT]
          exact Or.inl hh
      · exact Or.inr (Or.inr ⟨hiT, rfl⟩)
    · have e : (arena1 i).neighbor = (arena0 i).neighbor := by
        rw [ha1, upd_ne _ _ _ hiT]
      rw [e] at hj
      by_cases hiS : i = Sidx
      · have e0 : (arena0 i).neighbor
            = nbrInsert (arena Sidx).neighbor Tidx := by
          rw [ha0, hiS, upd_same]
        rw [e0] at hj
        rcases nbrInsert_mem _ _ _ hj with hh | rfl
        · rw [hiS]
          exact Or.inl hh
        · exact Or.inr (Or.inl ⟨hiS, rfl⟩)
      · have e0 : (arena0 i).neighbor = (arena i).neighbor := by
          rw [ha0, upd_ne _ _ _ hiS]
        rw [e0] at hj
        exact Or.inl hj
  obtain ⟨h1, h2, h3, h4, h5, h6, h7, h8, h9⟩ := hA
  have hvs' : validStep ins (arena Tidx).C (arena Sidx).C :=
    validStep_symm ins (arena Sidx).C (arena Tidx).C hSym
      (h8 Sidx hfrom) hvs
  have hA1 : Lacam.ArenaOK ins size arena1 := by
    refine ⟨?_, ?_, ?_, ?_, ?_, ?_, ?_, ?_, ?_⟩
    · rw [(hfields 0).2.1]
      exact h1
    · rw [(hfields 0).1]
      exact h2
    · rw [(hfields 0).2.2.1]
      exact h3
    · intro i hi p hp
      rw [(hfields i).2.1] at hp
      obtain ⟨hpl, hpg, hpv⟩ := h4 i hi p hp
      refine ⟨hpl, ?_, ?_⟩
      · rw [(hfields i).2.2.1, (hfields p).2.2.1]
        exact hpg
      · rw [(hfields i).1, (hfields p).1]
        exact hpv
    · intro i hi hpn
      rw [(hfields i).2.1] at hpn
      rw [(hfields i).1]
      exact h5 i hi hpn
    · intro i hi j hj
      rcases hnbr_char i j hj with hh | ⟨hiS, hjT⟩ | ⟨hiT, hjS⟩
      · obtain ⟨hjl, hjv⟩ := h6 i hi j hh
        refine ⟨hjl, ?_⟩
        rw [(hfields i).1, (hfields j).1]
        exact hjv
      · refine ⟨?_, ?_⟩
        · rw [hjT]
          exact hto
        · rw [(hfields i).1, (hfields j).1, hiS, hjT]
          exact hvs
      · refine ⟨?_, ?_⟩
        · rw [hjS]
          exact hfrom
        · rw [(hfields i).1, (hfields j).1, hiT, hjS]
          exact hvs'
    · intro i hi
      rw [(hfields i).1]
      exact h7 i hi
    · intro i hi
      rw [(hfields i).1]
      exact h8 i hi
    · intro i hi j hj hij
      rw [(hfields i).1, (hfields j).1]
      exact h9 i hi j hj hij
  split at h
  · have ha' : arena' = arena1 :=
      (congrArg Prod.fst (Option.some.inj h)).symm
    refine ⟨?_, ?_⟩
    · rw [ha']
      exact hA1
    · intro i
      rw [ha']
      exact ⟨(hfields i).1, (hfields i).2.2.2.1, (hfields i).2.2.2.2⟩
  · obtain ⟨hA', hnbr', hsf'⟩ :=
      lacam_rewriteGo_ok ins objective hGoal elapsedNow Sidx Tidx size fuel
        [Sidx] arena1 hist arena' hist' h hA1
        (fun x hx => by rw [List.mem_singleton.mp hx]; exact hfrom)
    refine ⟨hA', ?_⟩
    intro i
    obtain ⟨e1, e2, e3⟩ := hsf' i
    exact ⟨e1.trans (hfields i).1, e2.trans (hfields i).2.2.2.1,
      e3.trans (hfields i).2.2.2.2⟩

/-- The lacam2 arena invariant only reads `C`, `parent`, `g` and
`neighbor`: arenas agreeing on those fields share it. -/
theorem lacam2_ArenaOK_of_fields (ins : Inst) (size : Nat)
    (arena arena' : Nat → Lacam2.HN)
    (hf : ∀ i, (arena' i).C = (arena i).C ∧
      (arena' i).parent = (arena i).parent ∧
      (arena' i).g = (arena i).g ∧
      (arena' i).neighbor = (arena i).neighbor)
    (hA : Lacam2.ArenaOK ins size arena) :
    Lacam2.ArenaOK ins size arena' := by
  obtain ⟨h1, h2, h3, h4, h5, h6, h7, h8, h9⟩ := hA
  refine ⟨?_, ?_, ?_, ?_, ?_, ?_, ?_, ?_, ?_⟩
  · rw [(hf 0).2.1]
    exact h1
  · rw [(hf 0).1]
    exact h2
  · rw [(hf 0).2.2.1]
    exact h3
  · intro i hi p hp
    rw [(hf i).2.1] at hp
    obtain ⟨hpl, hpg, hpv⟩ := h4 i hi p hp
    refine ⟨hpl, ?_, ?_⟩
    · rw [(hf i).2.2.1, (hf p).2.2.1]
      exact hpg
    · rw [(hf i).1, (hf p).1]
      exact hpv
  · intro i hi hpn
    rw [(hf i).2.1] at hpn
    rw [(hf i).1]
    exact h5 i hi hpn
  · intro i hi j hj
    rw [(hf i).2.2.2] at hj
    obtain ⟨hjl, hjv⟩ := h6 i hi j hj
    refine ⟨hjl, ?_⟩
    rw [(hf i).1, (hf j).1]
    exact hjv
  · intro i hi
    rw [(hf i).1]
    exact h7 i hi
  · intro i hi
    rw [(hf i).1]
    exact h8 i hi
  · intro i hi j hj hij
    rw [(hf i).1, (hf j).1]
    exact h9 i hi j hj hij

/-- The lacam arena invariant only reads `C`, `parent`, `g` and
`neighbor`. -/
theorem lacam_ArenaOK_of_fields (ins : Inst) (size : Nat)
    (arena arena' : Nat → Lacam.HN)
    (hf : ∀ i, (arena' i).C = (arena i).C ∧
      (arena' i).parent = (arena i).parent ∧
      (arena' i).g = (arena i).g ∧
      (arena' i).neighbor = (arena i).neighbor)
    (hA : Lacam.ArenaOK ins size arena) :
    Lacam.ArenaOK ins size arena' := by
  obtain ⟨h1, h2, h3, h4, h5, h6, h7, h8, h9⟩ := hA
  refine ⟨?_, ?_, ?_, ?_, ?_, ?_, ?_, ?_, ?_⟩
  · rw [(hf 0).2.1]
    exact h1
  · rw [(hf 0).1]
    exact h2
  · rw [(hf 0).2.2.1]
    exact h3
  · intro i hi p hp
    rw [(hf i).2.1] at hp
    obtain ⟨hpl, hpg, hpv⟩ := h4 i hi p hp
    refine ⟨hpl, ?_, ?_⟩
    · rw [(hf i).2.2.1, (hf p).2.2.1]
      exact hpg
    · rw [(hf i).1, (hf p).1]
      exact hpv
  · intro i hi hpn
    rw [(hf i).2.1] at hpn
    rw [(hf i).1]
    exact h5 i hi hpn
  · intro i hi j hj
    rw [(hf i).2.2.2] at hj
    obtain ⟨hjl, hjv⟩ := h6 i hi j hj
    refine ⟨hjl, ?_⟩
    rw [(hf i).1, (hf j).1]
    exact hjv
  · intro i hi
    rw [(hf i).1]
    exact h7 i hi
  · intro i hi
    rw [(hf i).1]
    exact h8 i hi
  · intro i hi j hj hij
    rw [(hf i).1, (hf j).1]
    exact h9 i hi j hj hij

/-- Allocating a fresh child node (strictly costlier than its live
parent, across a valid step, on a configuration new to the arena)
extends the lacam2 arena invariant to `size + 1`, leaves every existing
node's frame fields unchanged and stores the node verbatim. -/
theorem lacam2_alloc_ok (ins : Inst) (size : Nat)
    (arena : Nat → Lacam2.HN) (Hidx : Nat) (hn : Lacam2.HN)
    (hA : Lacam2.ArenaOK ins size arena)
    (hsz : 1 ≤ size) (hHidx : Hidx < size)
    (hpar : hn.parent = some Hidx)
    (hnbr : hn.neighbor = [])
    (hgp : (arena Hidx).g < hn.g)
    (hvs : validStep ins (arena Hidx).C hn.C)
    (hlen : hn.C.length = ins.N)
    (hcol : stepNoVertexCollision ins hn.C)
    (hne : ∀ i, i < size → hn.C ≠ (arena i).C) :
    Lacam2.ArenaOK ins (size + 1)
      (Lacam2.allocHN arena size hn (some Hidx)).1 ∧
    (∀ i, i ≠ size →
      ((Lacam2.allocHN arena size hn (some Hidx)).1 i).C = (arena i).C ∧
      ((Lacam2.allocHN arena size hn (some Hidx)).1 i).order
        = (arena i).order ∧
      ((Lacam2.allocHN arena size hn (some Hidx)).1 i).search_tree
        = (arena i).search_tree) ∧
    (Lacam2.allocHN arena size hn (some Hidx)).1 size = hn := by
  have hHs : Hidx ≠ size := by omega
  simp only [Lacam2.allocHN]
  set arenaA := upd arena size hn with haA
  set arena2 := upd arenaA Hidx
    { arenaA Hidx with
      neighbor := nbrInsert (arenaA Hidx).neighbor size } with ha2
  have eA : ∀ i, i ≠ size → arenaA i = arena i := by
    intro i hi
    rw [haA, upd_ne _ _ _ hi]
  have eAs : arenaA size = hn := by
    rw [haA, upd_same]
  have e2 : ∀ i, i ≠ Hidx → arena2 i = arenaA i := by
    intro i hi
    rw [ha2, upd_ne _ _ _ hi]
  have e2s : arena2 size = hn := by
    rw [e2 size (Ne.symm hHs)]
    exact eAs
  have eH : arena2 Hidx
      = { arena Hidx with
          neighbor := nbrInsert (arena Hidx).neighbor size } := by
    rw [ha2, upd_same, eA Hidx hHs]
  have eOld : ∀ i, i ≠ size → (arena2 i).C = (arena i).C ∧
      (arena2 i).parent = (arena i).parent ∧
      (arena2 i).g = (arena i).g ∧
      (arena2 i).order = (arena i).order ∧
      (arena2 i).search_tree = (arena i).search_tree := by
    intro i hi
    by_cases hiH : i = Hidx
    · rw [hiH, eH]
      exact ⟨rfl, rfl, rfl, rfl, rfl⟩
    · rw [e2 i hiH, eA i hi]
      exact ⟨rfl, rfl, rfl, rfl, rfl⟩
  obtain ⟨h1, h2, h3, h4, h5, h6, h7, h8, h9⟩ := hA
  have h0s : (0 : Nat) ≠ size := by omega
  refine ⟨⟨?_, ?_, ?_, ?_, ?_, ?_, ?_, ?_, ?_⟩, ?_, e2s⟩
  · rw [(eOld 0 h0s).2.1]
    exact h1
  · rw [(eOld 0 h0s).1]
    exact h2
  · rw [(eOld 0 h0s).2.2.1]
    exact h3
  · intro i hi p hp
    by_cases his : i = size
    · rw [his, e2s, hpar] at hp
      have hpH : p = Hidx := (Option.some.inj hp).symm
      refine ⟨?_, ?_, ?_⟩
      · rw [hpH]
        omega
      · rw [hpH, his, e2s, (eOld Hidx hHs).2.2.1]
        exact hgp
      · rw [hpH, his, e2s, (eOld Hidx hHs).1]
        exact hvs
    · have hi' : i < size := by omega
      rw [(eOld i his).2.1] at hp
      obtain ⟨hpl, hpg, hpv⟩ := h4 i hi' p hp
      have hps : p ≠ size := by omega
      refine ⟨by omega, ?_, ?_⟩
      · rw [(eOld i his).2.2.1, (eOld p hps).2.2.1]
        exact hpg
      · rw [(eOld i his).1, (eOld p hps).1]
        exact hpv
  · intro i hi hpn
    by_cases his : i = size
    · rw [his, e2s, hpar] at hpn
      cases hpn
    · have hi' : i < size := by omega
      rw [(eOld i his).2.1] at hpn
      rw [(eOld i his).1]
      exact h5 i hi' hpn
  · intro i hi j hj
    by_cases his : i = size
    · rw [his, e2s, hnbr] at hj
      cases hj
    · have hi' : i < size := by omega
      by_cases hiH : i = Hidx
      · rw [hiH, eH] at hj
        have hj' : j ∈ nbrInsert (arena Hidx).neighbor size := hj
        rcases nbrInsert_mem _ _ _ hj' with hh | rfl
        · obtain ⟨hjl, hjv⟩ := h6 Hidx hHidx j hh
          have hjs : j ≠ size := by omega
          refine ⟨by omega, ?_⟩
          rw [(eOld i his).1, (eOld j hjs).1, hiH]
          exact hjv
        · refine ⟨by omega, ?_⟩
          rw [(eOld i his).1, e2s, hiH]
          exact hvs
      · have e := (e2 i hiH).trans (eA i his)
        rw [e] at hj
        obtain ⟨hjl, hjv⟩ := h6 i hi' j hj
        have hjs : j ≠ size := by omega
        refine ⟨by omega, ?_⟩
        rw [(eOld i his).1, (eOld j hjs).1]
        exact hjv
  · intro i hi
    by_cases his : i = size
    · rw [his, e2s]
      exact hlen
    · rw [(eOld i his).1]
      exact h7 i (by omega)
  · intro i hi
    by_cases his : i = size
    · rw [his, e2s]
      exact hcol
    · rw [(eOld i his).1]
      exact h8 i (by omega)
  · intro i hi j hj hij
    by_cases his : i = size
    · have hjs : j ≠ size := by omega
      rw [his, e2s, (eOld j hjs).1]
      exact hne j (by omega)
    · by_cases hjs : j = size
      · rw [hjs, e2s, (eOld i his).1]
        exact (hne i (by omega)).symm
      · rw [(eOld i his).1, (eOld j hjs).1]
        exact h9 i (by omega) j (by omega) hij
  · intro i hi
    exact ⟨(eOld i hi).1, (eOld i hi).2.2.2.1, (eOld i hi).2.2.2.2⟩

/-- Allocating a fresh child node extends the lacam arena invariant to
`size + 1`, leaves every existing node's frame fields unchanged and
stores the node verbatim. -/
theorem lacam_alloc_ok (ins : Inst) (size : Nat)
    (arena : Nat → Lacam.HN) (Sidx : Nat) (hn : Lacam.HN)
    (hA : Lacam.ArenaOK ins size arena)
    (hsz : 1 ≤ size) (hSidx : Sidx < size)
    (hpar : hn.parent = some Sidx)
    (hnbr : hn.neighbor = [])
    (hgp : (arena Sidx).g < hn.g)
    (hvs : validStep ins (arena Sidx).C hn.C)
    (hlen : hn.C.length = ins.N)
    (hcol : stepNoVertexCollision ins hn.C)
    (hne : ∀ i, i < size → hn.C ≠ (arena i).C) :
    Lacam.ArenaOK ins (size + 1)
      (Lacam.allocHN arena size hn (some Sidx)).1 ∧
    (∀ i, i ≠ size →
      ((Lacam.allocHN arena size hn (some Sidx)).1 i).C = (arena i).C ∧
      ((Lacam.allocHN arena size hn (some Sidx)).1 i).order
        = (arena i).order ∧
      ((Lacam.allocHN arena size hn (some Sidx)).1 i).search_tree
        = (arena i).search_tree) ∧
    (Lacam.allocHN arena size hn (some Sidx)).1 size = hn := by
  have hHs : Sidx ≠ size := by omega
  simp only [Lacam.allocHN]
  set arenaA := upd arena size hn with haA
  set arena2 := upd arenaA Sidx
    { arenaA Sidx with
      neighbor := nbrInsert (arenaA Sidx).neighbor size } with ha2
  have eA : ∀ i, i ≠ size → arenaA i = arena i := by
    intro i hi
    rw [haA, upd_ne _ _ _ hi]
  have eAs : arenaA size = hn := by
    rw [haA, upd_same]
  have e2 : ∀ i, i ≠ Sidx → arena2 i = arenaA i := by
    intro i hi
    rw [ha2, upd_ne _ _ _ hi]
  have e2s : arena2 size = hn := by
    rw [e2 size (Ne.symm hHs)]
    exact eAs
  have eH : arena2 Sidx
      = { arena Sidx with
          neighbor := nbrInsert (arena Sidx).neighbor size } := by
    rw [ha2, upd_same, eA Sidx hHs]
  have eOld : ∀ i, i ≠ size → (arena2 i).C = (arena i).C ∧
      (arena2 i).parent = (arena i).parent ∧
      (arena2 i).g = (arena i).g ∧
      (arena2 i).order = (arena i).order ∧
      (arena2 i).search_tree = (arena i).search_tree := by
    intro i hi
    by_cases hiH : i = Sidx
    · rw [hiH, eH]
      exact ⟨rfl, rfl, rfl, rfl, rfl⟩
    · rw [e2 i hiH, eA i hi]
      exact ⟨rfl, rfl, rfl, rfl, rfl⟩
  obtain ⟨h1, h2, h3, h4, h5, h6, h7, h8, h9⟩ := hA
  have h0s : (0 : Nat) ≠ size := by omega
  refine ⟨⟨?_, ?_, ?_, ?_, ?_, ?_, ?_, ?_, ?_⟩, ?_, e2s⟩
  · rw [(eOld 0 h0s).2.1]
    exact h1
  · rw [(eOld 0 h0s).1]
    exact h2
  · rw [(eOld 0 h0s).2.2.1]
    exact h3
  · intro i hi p hp
    by_cases his : i = size
    · rw [his, e2s, hpar] at hp
      have hpH : p = Sidx := (Option.some.inj hp).symm
      refine ⟨?_, ?_, ?_⟩
      · rw [hpH]
        omega
      · rw [hpH, his, e2s, (eOld Sidx hHs).2.2.1]
        exact hgp
      · rw [hpH, his, e2s, (eOld Sidx hHs).1]
        exact hvs
    · have hi' : i < size := by omega
      rw [(eOld i his).2.1] at hp
      obtain ⟨hpl, hpg, hpv⟩ := h4 i hi' p hp
      have hps : p ≠ size := by omega
      refine ⟨by omega, ?_, ?_⟩
      · rw [(eOld i his).2.2.1, (eOld p hps).2.2.1]
        exact hpg
      · rw [(eOld i his).1, (eOld p hps).1]
        exact hpv
  · intro i hi hpn
    by_cases his : i = size
    · rw [his, e2s, hpar] at hpn
      cases hpn
    · have hi' : i < size := by omega
      rw [(eOld i his).2.1] at hpn
      rw [(eOld i his).1]
      exact h5 i hi' hpn
  · intro i hi j hj
    by_cases his : i = size
    · rw [his, e2s, hnbr] at hj
      cases hj
    · have hi' : i < size := by omega
      by_cases hiH : i = Sidx
      · rw [hiH, eH] at hj
        have hj' : j ∈ nbrInsert (arena Sidx).neighbor size := hj
        rcases nbrInsert_mem _ _ _ hj' with hh | rfl
        · obtain ⟨hjl, hjv⟩ := h6 Sidx hSidx j hh
          have hjs : j ≠ size := by omega
          refine ⟨by omega, ?_⟩
          rw [(eOld i his).1, (eOld j hjs).1, hiH]
          exact hjv
        · refine ⟨by omega, ?_⟩
          rw [(eOld i his).1, e2s, hiH]
          exact hvs
      · have e := (e2 i hiH).trans (eA i his)
        rw [e] at hj
        obtain ⟨hjl, hjv⟩ := h6 i hi' j hj
        have hjs : j ≠ size := by omega
        refine ⟨by omega, ?_⟩
        rw [(eOld i his).1, (eOld j hjs).1]
        exact hjv
  · intro i hi
    by_cases his : i = size
    · rw [his, e2s]
      exact hlen
    · rw [(eOld i his).1]
      exact h7 i (by omega)
  · intro i hi
    by_cases his : i = size
    · rw [his, e2s]
      exact hcol
    · rw [(eOld i his).1]
      exact h8 i (by omega)
  · intro i hi j hj hij
    by_cases his : i = size
    · have hjs : j ≠ size := by omega
      rw [his, e2s, (eOld j hjs).1]
      exact hne j (by omega)
    · by_cases hjs : j = size
      · rw [hjs, e2s, (eOld i his).1]
        exact (hne i (by omega)).symm
      · rw [(eOld i his).1, (eOld j hjs).1]
        exact h9 i (by omega) j (by omega) hij
  · intro i hi
    exact ⟨(eOld i hi).1, (eOld i hi).2.2.2.1, (eOld i hi).2.2.2.2⟩

/-- `occupied_now` consistency only reads `v_now` and `occupied_now`. -/
theorem NowConsistent_of_eq (N : Nat) (s t : PState)
    (hv : t.v_now = s.v_now) (ho : t.occupied_now = s.occupied_now)
    (h : NowConsistent N s) : NowConsistent N t := by
  intro v a ha
  rw [ho] at ha
  obtain ⟨h1, h2⟩ := h v a ha
  refine ⟨h1, ?_⟩
  rw [hv]
  exact h2

/-- `occupied_next` consistency only reads `v_next` and `occupied_next`. -/
theorem NextConsistent_of_eq (N : Nat) (s t : PState)
    (hv : t.v_next = s.v_next) (ho : t.occupied_next = s.occupied_next)
    (h : NextConsistent N s) : NextConsistent N t := by
  intro v b hb
  rw [ho] at hb
  obtain ⟨h1, h2⟩ := h v b hb
  refine ⟨h1, ?_⟩
  rw [hv]
  exact h2

/-- Conditionally pushing the fresh index keeps `OPEN` within the grown
arena. -/
theorem open_cons_bound (size : Nat) (OPEN : List Nat) (b : Bool)
    (hopen : ∀ k, k ∈ OPEN → k < size) :
    ∀ k, k ∈ (if b then size :: OPEN else OPEN) → k < size + 1 := by
  intro k hk
  rcases b with _ | _
  · have := hopen k hk
    omega
  · rcases List.mem_cons.mp hk with rfl | hk2
    · omega
    · have := hopen k hk2
      omega

/-- lacam2's solve loop preserves the search-state and recorded-goal
invariants. -/
theorem lacam2_loopGo_SOK (ins : Inst) (objective : Objective)
    (restart_rate : Q) (FLG_SWAP rngOn : Bool) (stream : Nat → Q)
    (ddl : Nat → Bool) (D : Nat → Nat → Nat) (rwFuel : Nat)
    (hSym : ∀ a b, a ∈ ins.adj b → b ∈ ins.adj a) :
    ∀ (fuel : Nat) (s : Lacam2.SState) (hGoal : Option Nat)
      (s' : Lacam2.SState) (hg' : Option Nat),
      Lacam2.loopGo ins objective restart_rate FLG_SWAP rngOn stream ddl D
        rwFuel fuel s hGoal = some (s', hg') →
      Lacam2.SOK ins s → Lacam2.GoalOK ins s hGoal →
      Lacam2.SOK ins s' ∧ Lacam2.GoalOK ins s' hg' := by
  intro fuel
  induction fuel with
  | zero =>
    intro s hGoal s' hg' h
    simp [Lacam2.loopGo] at h
  | succ n ih =>
    intro s hGoal s' hg' h hsok hgok
    obtain ⟨c1, c2, c3, c4, c5, c6, c7, c8, c9⟩ := hsok
    have a7 : ∀ i, i < s.size → (s.arena i).C.length = ins.N :=
      c2.2.2.2.2.2.2.1
    have a8 : ∀ i, i < s.size → stepNoVertexCollision ins (s.arena i).C :=
      c2.2.2.2.2.2.2.2.1
    simp only [Lacam2.loopGo] at h
    split at h
    · have e := Option.some.inj h
      have hs : s' = s := (congrArg Prod.fst e).symm
      have hgE : hg' = hGoal := (congrArg Prod.snd e).symm
      rw [hs, hgE]
      exact ⟨⟨c1, c2, c3, c4, c5, c6, c7, c8, c9⟩, hgok⟩
    · rename_i Hidx rest heqO
      have hHidx : Hidx < s.size := c3 Hidx (by
        rw [heqO]
        exact List.mem_cons_self _ _)
      have hrest : ∀ k, k ∈ rest → k < s.size := fun k hk => c3 k (by
        rw [heqO]
        exact List.mem_cons_of_mem _ hk)
      split at h
      · have e := Option.some.inj h
        have hs : s' = s := (congrArg Prod.fst e).symm
        have hgE : hg' = hGoal := (congrArg Prod.snd e).symm
        rw [hs, hgE]
        exact ⟨⟨c1, c2, c3, c4, c5, c6, c7, c8, c9⟩, hgok⟩
      · split at h
        · exact ih _ _ _ _ h ⟨c1, c2, hrest, c4, c5, c6, c7, c8, c9⟩ hgok
        · split at h
          · exact ih _ _ _ _ h ⟨c1, c2, hrest, c4, c5, c6, c7, c8, c9⟩ hgok
          · split at h
            · rename_i hcond
              have e := Option.some.inj h
              have hs : s' = _ := (congrArg Prod.fst e).symm
              have hgE : hg' = some Hidx := (congrArg Prod.snd e).symm
              rw [hs, hgE]
              refine ⟨⟨c1, c2, c3, c4, c5, c6, c7, c8, c9⟩, ?_⟩
              intro gi hgi
              have hgiH : gi = Hidx := (Option.some.inj hgi).symm
              refine ⟨?_, ?_⟩
              · rw [hgiH]
                exact hHidx
              · rw [hgiH]
                exact of_decide_eq_true hcond.2
            · rename_i hne_tree hnoprune hnogoal
              set L := (s.arena Hidx).search_tree.headD Lacam2.LNode.root
                with hL
              set ex := Lacam2.expand_lowlevel_tree ins rngOn stream
                (s.arena Hidx) L s.scr.rngK with hex
              set H1 : Lacam2.HN := { s.arena Hidx with
                search_tree := (s.arena Hidx).search_tree.tail ++ ex.1 }
                with hH1
              set arenaU := upd s.arena Hidx H1 with haU
              have hLmem : L ∈ (s.arena Hidx).search_tree := by
                rw [hL]
                exact headD_mem_of_ne_nil _ _ hne_tree
              have htf : Lacam2.treeFrame ins (s.arena Hidx).C
                  (s.arena Hidx).order L := c7 Hidx hHidx L hLmem
              have hpermH : (s.arena Hidx).order.Perm (List.range ins.N) :=
                c6 Hidx hHidx
              have hfU : ∀ i, (arenaU i).C = (s.arena i).C ∧
                  (arenaU i).parent = (s.arena i).parent ∧
                  (arenaU i).g = (s.arena i).g ∧
                  (arenaU i).neighbor = (s.arena i).neighbor ∧
                  (arenaU i).order = (s.arena i).order := by
                intro i
                by_cases hiH : i = Hidx
                · rw [haU, hiH, upd_same]
                  exact ⟨rfl, rfl, rfl, rfl, rfl⟩
                · rw [haU, upd_ne _ _ _ hiH]
                  exact ⟨rfl, rfl, rfl, rfl, rfl⟩
              have hfT : ∀ i, i ≠ Hidx →
                  (arenaU i).search_tree = (s.arena i).search_tree := by
                intro i hiH
                rw [haU, upd_ne _ _ _ hiH]
              have hA_U : Lacam2.ArenaOK ins s.size arenaU :=
                lacam2_ArenaOK_of_fields ins s.size s.arena arenaU
                  (fun i => ⟨(hfU i).1, (hfU i).2.1, (hfU i).2.2.1,
                    (hfU i).2.2.2.1⟩) c2
              have hstU : (arenaU Hidx).search_tree
                  = (s.arena Hidx).search_tree.tail ++ ex.1 := by
                rw [haU, upd_same]
              have htfU : ∀ i, i < s.size → ∀ Lx,
                  Lx ∈ (arenaU i).search_tree →
                  Lacam2.treeFrame ins (arenaU i).C (arenaU i).order Lx := by
                intro i hi Lx hLx
                rw [(hfU i).1, (hfU i).2.2.2.2]
                by_cases hiH : i = Hidx
                · rw [hiH, hstU] at hLx
                  rw [hiH]
                  rcases List.mem_append.mp hLx with hh | hh
                  · exact c7 Hidx hHidx Lx (List.mem_of_mem_tail hh)
                  · exact lacam2_expand_frames ins rngOn stream
                      (s.arena Hidx) L s.scr.rngK hpermH htf Lx hh
                · rw [hfT i hiH] at hLx
                  exact c7 i hi Lx hLx
              have hexp2 : ∀ e, e ∈ s.explored →
                  e.2 < s.size ∧ (arenaU e.2).C = e.1 := by
                intro e he
                refine ⟨(c4 e he).1, ?_⟩
                rw [(hfU e.2).1]
                exact (c4 e he).2
              have hlook2 : ∀ i, i < s.size →
                  s.explored.lookup (arenaU i).C = some i := by
                intro i hi
                rw [(hfU i).1]
                exact c5 i hi
              have hord2 : ∀ i, i < s.size →
                  (arenaU i).order.Perm (List.range ins.N) := by
                intro i hi
                rw [(hfU i).2.2.2.2]
                exact c6 i hi
              split at h
              · simp at h
              · rename_i scr' heqG
                obtain ⟨hNC', hXC', -⟩ :=
                  lacam2_get_new_config_spec ins D ins.goals FLG_SWAP rngOn
                    stream hSym (s.arena Hidx).C (s.arena Hidx).order L
                    { s.scr with rngK := ex.2 }
                    (NowConsistent_of_eq ins.N s.scr _ rfl rfl c8)
                    (NextConsistent_of_eq ins.N s.scr _ rfl rfl c9)
                    (a8 Hidx hHidx) (c6 Hidx hHidx) htf false scr' heqG
                refine ih _ _ _ _ h
                  ⟨c1, hA_U, c3, hexp2, hlook2, hord2, htfU, hNC', hXC'⟩ ?_
                intro gi hgi
                obtain ⟨hg1, hg2⟩ := hgok gi hgi
                refine ⟨hg1, ?_⟩
                show (arenaU gi).C = ins.goals
                rw [(hfU gi).1]
                exact hg2
              · rename_i scr' heqG
                obtain ⟨hNC', hXC', hVS'⟩ :=
                  lacam2_get_new_config_spec ins D ins.goals FLG_SWAP rngOn
                    stream hSym (s.arena Hidx).C (s.arena Hidx).order L
                    { s.scr with rngK := ex.2 }
                    (NowConsistent_of_eq ins.N s.scr _ rfl rfl c8)
                    (NextConsistent_of_eq ins.N s.scr _ rfl rfl c9)
                    (a8 Hidx hHidx) (c6 Hidx hHidx) htf true scr' heqG
                have hvalid := hVS' rfl
                set C_new := (List.range ins.N).map
                  (fun i => (scr'.v_next i).getD 0) with hCn
                split at h
                · rename_i hitIdx heqL
                  have hhit := c4 _ (lookup_mem _ _ _ heqL)
                  split at h
                  · simp at h
                  · rename_i arena' OPEN' k' heqH
                    obtain ⟨OPENrw, hrw, hk', T, hT, hTnone, hTsome1,
                        hTsome2⟩ :=
                      lacam2_hit_branch_spec objective ins.goals ins.N
                        restart_rate rngOn stream rwFuel arenaU s.OPEN Hidx
                        hitIdx hGoal scr'.rngK arena' OPEN' k' heqH
                    have hCU_H : (arenaU Hidx).C = (s.arena Hidx).C :=
                      (hfU Hidx).1
                    have hCU_hit : (arenaU hitIdx).C = C_new := by
                      rw [(hfU hitIdx).1]
                      exact hhit.2
                    obtain ⟨hA', hsf', hopenrw⟩ :=
                      lacam2_rewrite_ok ins objective s.size rwFuel arenaU
                        s.OPEN Hidx hitIdx hGoal arena' OPENrw hrw hA_U
                        hHidx hhit.1
                        (by rw [hCU_H, hCU_hit]; exact hvalid) c3
                    have hT_lt : T < s.size := by
                      rw [hT]
                      split
                      · exact hhit.1
                      · omega
                    have hopen2 : ∀ k, k ∈ OPEN' → k < s.size := by
                      rcases hGoal with _ | gi
                      · rw [hTnone rfl]
                        intro k hk
                        rcases List.mem_cons.mp hk with rfl | hk2
                        · exact hT_lt
                        · exact hopenrw k hk2
                      · by_cases hlt : (arena' T).f < (arena' gi).f
                        · rw [hTsome1 gi rfl hlt]
                          intro k hk
                          rcases List.mem_cons.mp hk with rfl | hk2
                          · exact hT_lt
                          · exact hopenrw k hk2
                        · rw [hTsome2 gi rfl hlt]
                          exact hopenrw
                    refine ih _ _ _ _ h
                      ⟨c1, hA', hopen2, ?_, ?_, ?_, ?_, ?_, ?_⟩ ?_
                    · intro e he
                      refine ⟨(c4 e he).1, ?_⟩
                      rw [(hsf' e.2).1, (hfU e.2).1]
                      exact (c4 e he).2
                    · intro i hi
                      rw [(hsf' i).1, (hfU i).1]
                      exact c5 i hi
                    · intro i hi
                      rw [(hsf' i).2.1, (hfU i).2.2.2.2]
                      exact c6 i hi
                    · intro i hi Lx hLx
                      rw [(hsf' i).2.2] at hLx
                      rw [(hsf' i).1, (hsf' i).2.1]
                      exact htfU i hi Lx hLx
                    · exact NowConsistent_of_eq ins.N scr' _ rfl rfl hNC'
                    · exact NextConsistent_of_eq ins.N scr' _ rfl rfl hXC'
                    · intro gi hgi
                      obtain ⟨hg1, hg2⟩ := hgok gi hgi
                      refine ⟨hg1, ?_⟩
                      show (arena' gi).C = ins.goals
                      rw [(hsf' gi).1, (hfU gi).1]
                      exact hg2
                · rename_i heqL
                  have hCnew_len : C_new.length = ins.N := by
                    rw [hCn, List.length_map, List.length_range]
                  have hCnew_ne : ∀ i, i < s.size →
                      C_new ≠ (s.arena i).C := by
                    intro i hi hc
                    have hl5 := c5 i hi
                    rw [← hc, heqL] at hl5
                    cases hl5
                  have hcost : 1 ≤ Lacam2.get_edge_cost objective ins.goals
                      ins.N (s.arena Hidx).C C_new :=
                    lacam2_get_edge_cost_pos objective ins.goals ins.N _ _
                      (a7 Hidx hHidx) hCnew_len
                      (fun hc => hCnew_ne Hidx hHidx hc.symm)
                  set hnew := Lacam2.makeHN D ins.N C_new (some Hidx)
                    (s.arena Hidx).priorities
                    ((s.arena Hidx).g + Lacam2.get_edge_cost objective
                      ins.goals ins.N (s.arena Hidx).C C_new)
                    (Lacam2.get_h_value objective D ins.N C_new) with hhn
                  have hCU_H : (arenaU Hidx).C = (s.arena Hidx).C :=
                    (hfU Hidx).1
                  obtain ⟨hA2, hfOld, hfNew⟩ :=
                    lacam2_alloc_ok ins s.size arenaU Hidx hnew hA_U c1
                      hHidx rfl rfl
                      (by rw [(hfU Hidx).2.2.1]
                          show (s.arena Hidx).g < (s.arena Hidx).g
                            + Lacam2.get_edge_cost objective ins.goals ins.N
                              (s.arena Hidx).C C_new
                          omega)
                      (by rw [hCU_H]
                          exact hvalid)
                      hCnew_len hvalid.2.1
                      (by intro i hi
                          rw [(hfU i).1]
                          exact hCnew_ne i hi)
                  refine ih _ _ _ _ h
                    ⟨?_, hA2, ?_, ?_, ?_, ?_, ?_, ?_, ?_⟩ ?_
                  · show 1 ≤ s.size + 1
                    omega
                  · exact open_cons_bound s.size s.OPEN _ c3
                  · intro e he
                    rcases List.mem_cons.mp he with rfl | he2
                    · refine ⟨?_, ?_⟩
                      · show s.size < s.size + 1
                        omega
                      · show ((Lacam2.allocHN arenaU s.size hnew
                          (some Hidx)).1 s.size).C = C_new
                        rw [hfNew]
                        rfl
                    · have hlt := (c4 e he2).1
                      have hns : e.2 ≠ s.size := by omega
                      refine ⟨?_, ?_⟩
                      · show e.2 < s.size + 1
                        omega
                      · show ((Lacam2.allocHN arenaU s.size hnew
                          (some Hidx)).1 e.2).C = e.1
                        rw [(hfOld e.2 hns).1, (hfU e.2).1]
                        exact (c4 e he2).2
                  · intro i hi
                    have hi2 : i < s.size + 1 := hi
                    show List.lookup ((Lacam2.allocHN arenaU s.size hnew
                      (some Hidx)).1 i).C ((C_new, s.size) :: s.explored)
                      = some i
                    by_cases his : i = s.size
                    · rw [his, hfNew]
                      show List.lookup C_new ((C_new, s.size) :: s.explored)
                        = some s.size
                      simp [List.lookup]
                    · have hi' : i < s.size := by omega
                      rw [(hfOld i his).1, (hfU i).1]
                      simp only [List.lookup]
                      rw [beq_eq_false_iff_ne.mpr
                        (fun hc => hCnew_ne i hi' hc.symm)]
                      exact c5 i hi'
                  · intro i hi
                    have hi2 : i < s.size + 1 := hi
                    show ((Lacam2.allocHN arenaU s.size hnew
                      (some Hidx)).1 i).order.Perm (List.range ins.N)
                    by_cases his : i = s.size
                    · rw [his, hfNew]
                      exact isortLe_perm _ _
                    · have hi' : i < s.size := by omega
                      rw [(hfOld i his).2.1, (hfU i).2.2.2.2]
                      exact c6 i hi'
                  · intro i hi Lx hLx
                    have hi2 : i < s.size + 1 := hi
                    have hLx2 : Lx ∈ ((Lacam2.allocHN arenaU s.size hnew
                      (some Hidx)).1 i).search_tree := hLx
                    show Lacam2.treeFrame ins
                      ((Lacam2.allocHN arenaU s.size hnew (some Hidx)).1 i).C
                      ((Lacam2.allocHN arenaU s.size hnew
                        (some Hidx)).1 i).order Lx
                    by_cases his : i = s.size
                    · rw [his, hfNew] at hLx2
                      rw [his, hfNew]
                      have hroot : Lx = Lacam2.LNode.root :=
                        List.mem_singleton.mp hLx2
                      rw [hroot]
                      exact trivial
                    · have hi' : i < s.size := by omega
                      rw [(hfOld i his).2.2] at hLx2
                      rw [(hfOld i his).1, (hfOld i his).2.1]
                      exact htfU i hi' Lx hLx2
                  · exact NowConsistent_of_eq ins.N scr' _ rfl rfl hNC'
                  · exact NextConsistent_of_eq ins.N scr' _ rfl rfl hXC'
                  · intro gi hgi
                    obtain ⟨hg1, hg2⟩ := hgok gi hgi
                    have hns : gi ≠ s.size := by omega
                    refine ⟨?_, ?_⟩
                    · show gi < s.size + 1
                      omega
                    · show ((Lacam2.allocHN arenaU s.size hnew
                        (some Hidx)).1 gi).C = ins.goals
                      rw [(hfOld gi hns).1, (hfU gi).1]
                      exact hg2

/-- The empty lacam constraint frame is well-formed for any node. -/
theorem lacam_frameOK_empty (ins : Inst) (C order : List Nat) :
    Lacam.frameOK ins C order ⟨[], []⟩ :=
  ⟨rfl, Nat.zero_le _, fun d hd => absurd hd (Nat.not_lt_zero d)⟩

/-- lacam's solve loop preserves the search-state and recorded-goal
invariants. -/
theorem lacam_loopGo_SOK (ins : Inst) (objective : Objective)
    (restart_rate : Q) (rngOn : Bool) (stream : Nat → Q)
    (ddl : Nat → Bool) (elapsedF : Nat → Nat) (D : Nat → Nat → Nat)
    (rwFuel : Nat)
    (hSym : ∀ a b, a ∈ ins.adj b → b ∈ ins.adj a) :
    ∀ (fuel : Nat) (s : Lacam.SState) (hGoal : Option Nat)
      (s' : Lacam.SState) (hg' : Option Nat),
      Lacam.loopGo ins objective restart_rate rngOn stream ddl elapsedF D
        rwFuel fuel s hGoal = some (s', hg') →
      Lacam.SOK ins s → Lacam.GoalOK ins s hGoal →
      Lacam.SOK ins s' ∧ Lacam.GoalOK ins s' hg' := by
  intro fuel
  induction fuel with
  | zero =>
    intro s hGoal s' hg' h
    simp [Lacam.loopGo] at h
  | succ n ih =>
    intro s hGoal s' hg' h hsok hgok
    obtain ⟨c1, c2, c3, c4, c5, c6, c7, c8, c9⟩ := hsok
    have a7 : ∀ i, i < s.size → (s.arena i).C.length = ins.N :=
      c2.2.2.2.2.2.2.1
    have a8 : ∀ i, i < s.size → stepNoVertexCollision ins (s.arena i).C :=
      c2.2.2.2.2.2.2.2.1
    simp only [Lacam.loopGo] at h
    split at h
    · have e := Option.some.inj h
      have hs : s' = s := (congrArg Prod.fst e).symm
      have hgE : hg' = hGoal := (congrArg Prod.snd e).symm
      rw [hs, hgE]
      exact ⟨⟨c1, c2, c3, c4, c5, c6, c7, c8, c9⟩, hgok⟩
    · rename_i Sidx rest heqO
      have hSidx : Sidx < s.size := c3 Sidx (by
        rw [heqO]
        exact List.mem_cons_self _ _)
      have hrest : ∀ k, k ∈ rest → k < s.size := fun k hk => c3 k (by
        rw [heqO]
        exact List.mem_cons_of_mem _ hk)
      split at h
      · have e := Option.some.inj h
        have hs : s' = s := (congrArg Prod.fst e).symm
        have hgE : hg' = hGoal := (congrArg Prod.snd e).symm
        rw [hs, hgE]
        exact ⟨⟨c1, c2, c3, c4, c5, c6, c7, c8, c9⟩, hgok⟩
      · split at h
        · exact ih _ _ _ _ h ⟨c1, c2, hrest, c4, c5, c6, c7, c8, c9⟩ hgok
        · split at h
          · rename_i hcond
            have hCgoal : (s.arena Sidx).C = ins.goals :=
              of_decide_eq_true hcond.2
            have hgok2 : Lacam.GoalOK ins
                (Lacam.update_hist (some Sidx)
                  (elapsedF (s.loop_cnt + 1))
                  { s with loop_cnt := s.loop_cnt + 1 }) (some Sidx) := by
              intro gi hgi
              have hgiS : gi = Sidx := (Option.some.inj hgi).symm
              refine ⟨?_, ?_⟩
              · rw [hgiS]
                exact hSidx
              · rw [hgiS]
                exact hCgoal
            have hsok2 : Lacam.SOK ins
                (Lacam.update_hist (some Sidx)
                  (elapsedF (s.loop_cnt + 1))
                  { s with loop_cnt := s.loop_cnt + 1 }) :=
              ⟨c1, c2, c3, c4, c5, c6, c7, c8, c9⟩
            split at h
            · have e := Option.some.inj h
              have hs : s' = _ := (congrArg Prod.fst e).symm
              have hgE : hg' = some Sidx := (congrArg Prod.snd e).symm
              rw [hs, hgE]
              exact ⟨hsok2, hgok2⟩
            · exact ih _ _ _ _ h hsok2 hgok2
          · rename_i hne_tree hnogoal
            set M := (s.arena Sidx).search_tree.headD
              (⟨[], []⟩ : Lacam.Constraint) with hM
            set ex := Lacam.expand_lowlevel_tree ins rngOn stream
              (s.arena Sidx) M s.scr.rngK with hex
            set S1 : Lacam.HN := { s.arena Sidx with
              search_tree := (s.arena Sidx).search_tree.tail ++ ex.1 }
              with hS1
            set arenaU := upd s.arena Sidx S1 with haU
            have hMmem : M ∈ (s.arena Sidx).search_tree := by
              rw [hM]
              exact headD_mem_of_ne_nil _ _ hne_tree
            have hfr : Lacam.frameOK ins (s.arena Sidx).C
                (s.arena Sidx).order M := c7 Sidx hSidx M hMmem
            have hpermS : (s.arena Sidx).order.Perm (List.range ins.N) :=
              c6 Sidx hSidx
            have hfU : ∀ i, (arenaU i).C = (s.arena i).C ∧
                (arenaU i).parent = (s.arena i).parent ∧
                (arenaU i).g = (s.arena i).g ∧
                (arenaU i).neighbor = (s.arena i).neighbor ∧
                (arenaU i).order = (s.arena i).order := by
              intro i
              by_cases hiH : i = Sidx
              · rw [haU, hiH, upd_same]
                exact ⟨rfl, rfl, rfl, rfl, rfl⟩
              · rw [haU, upd_ne _ _ _ hiH]
                exact ⟨rfl, rfl, rfl, rfl, rfl⟩
            have hfT : ∀ i, i ≠ Sidx →
                (arenaU i).search_tree = (s.arena i).search_tree := by
              intro i hiH
              rw [haU, upd_ne _ _ _ hiH]
            have hA_U : Lacam.ArenaOK ins s.size arenaU :=
              lacam_ArenaOK_of_fields ins s.size s.arena arenaU
                (fun i => ⟨(hfU i).1, (hfU i).2.1, (hfU i).2.2.1,
                  (hfU i).2.2.2.1⟩) c2
            have hstU : (arenaU Sidx).search_tree
                = (s.arena Sidx).search_tree.tail ++ ex.1 := by
              rw [haU, upd_same]
            have htfU : ∀ i, i < s.size → ∀ Mx,
                Mx ∈ (arenaU i).search_tree →
                Lacam.frameOK ins (arenaU i).C (arenaU i).order Mx := by
              intro i hi Mx hMx
              rw [(hfU i).1, (hfU i).2.2.2.2]
              by_cases hiH : i = Sidx
              · rw [hiH, hstU] at hMx
                rw [hiH]
                rcases List.mem_append.mp hMx with hh | hh
                · exact c7 Sidx hSidx Mx (List.mem_of_mem_tail hh)
                · exact lacam_expand_frames ins rngOn stream
                    (s.arena Sidx) M s.scr.rngK hpermS hfr Mx hh
              · rw [hfT i hiH] at hMx
                exact c7 i hi Mx hMx
            have hexp2 : ∀ e, e ∈ s.explored →
                e.2 < s.size ∧ (arenaU e.2).C = e.1 := by
              intro e he
              refine ⟨(c4 e he).1, ?_⟩
              rw [(hfU e.2).1]
              exact (c4 e he).2
            have hlook2 : ∀ i, i < s.size →
                s.explored.lookup (arenaU i).C = some i := by
              intro i hi
              rw [(hfU i).1]
              exact c5 i hi
            have hord2 : ∀ i, i < s.size →
                (arenaU i).order.Perm (List.range ins.N) := by
              intro i hi
              rw [(hfU i).2.2.2.2]
              exact c6 i hi
            split at h
            · simp at h
            · rename_i scr' heqG
              obtain ⟨hNC', hXC', -⟩ :=
                lacam_get_new_config_spec ins D rngOn stream
                  (s.arena Sidx).C (s.arena Sidx).order M
                  { s.scr with rngK := ex.2 }
                  (NowConsistent_of_eq ins.N s.scr _ rfl rfl c8)
                  (NextConsistent_of_eq ins.N s.scr _ rfl rfl c9)
                  (a8 Sidx hSidx) (c6 Sidx hSidx) hfr false scr' heqG
              refine ih _ _ _ _ h
                ⟨c1, hA_U, c3, hexp2, hlook2, hord2, htfU, hNC', hXC'⟩ ?_
              intro gi hgi
              obtain ⟨hg1, hg2⟩ := hgok gi hgi
              refine ⟨hg1, ?_⟩
              show (arenaU gi).C = ins.goals
              rw [(hfU gi).1]
              exact hg2
            · rename_i scr' heqG
              obtain ⟨hNC', hXC', hVS'⟩ :=
                lacam_get_new_config_spec ins D rngOn stream
                  (s.arena Sidx).C (s.arena Sidx).order M
                  { s.scr with rngK := ex.2 }
                  (NowConsistent_of_eq ins.N s.scr _ rfl rfl c8)
                  (NextConsistent_of_eq ins.N s.scr _ rfl rfl c9)
                  (a8 Sidx hSidx) (c6 Sidx hSidx) hfr true scr' heqG
              have hvalid := hVS' rfl
              set C_new := (List.range ins.N).map
                (fun i => (scr'.v_next i).getD 0) with hCn
              split at h
              · rename_i hitIdx heqL
                have hhit := c4 _ (lookup_mem _ _ _ heqL)
                split at h
                · simp at h
                · rename_i arena' OPEN' hist' k' heqH
                  obtain ⟨hrw, hk', T, hT, hTnone, hTsome1, hTsome2⟩ :=
                    lacam_hit_branch_spec objective ins.goals ins.N
                      restart_rate rngOn stream rwFuel arenaU s.OPEN Sidx
                      hitIdx hGoal (elapsedF (s.loop_cnt + 1))
                      (s.hist_cost, s.hist_time) scr'.rngK arena' OPEN'
                      hist' k' heqH
                  have hCU_H : (arenaU Sidx).C = (s.arena Sidx).C :=
                    (hfU Sidx).1
                  have hCU_hit : (arenaU hitIdx).C = C_new := by
                    rw [(hfU hitIdx).1]
                    exact hhit.2
                  obtain ⟨hA', hsf'⟩ :=
                    lacam_rewrite_ok ins objective s.size rwFuel arenaU
                      Sidx hitIdx hGoal (elapsedF (s.loop_cnt + 1))
                      (s.hist_cost, s.hist_time) arena' hist' hrw hSym hA_U
                      hSidx hhit.1
                      (by rw [hCU_H, hCU_hit]; exact hvalid)
                  have hT_lt : T < s.size := by
                    rw [hT]
                    by_cases hb : Q.ble restart_rate
                      (if rngOn then stream scr'.rngK else ⟨0, 1⟩) = true
                    · rw [if_pos hb]
                      exact hhit.1
                    · rw [if_neg hb]
                      omega
                  have hopen2 : ∀ k, k ∈ OPEN' → k < s.size := by
                    rcases hGoal with _ | gi
                    · rw [hTnone rfl]
                      intro k hk
                      rcases List.mem_cons.mp hk with rfl | hk2
                      · exact hT_lt
                      · exact c3 k hk2
                    · by_cases hlt : (arena' T).f < (arena' gi).f
                      · rw [hTsome1 gi rfl hlt]
                        intro k hk
                        rcases List.mem_cons.mp hk with rfl | hk2
                        · exact hT_lt
                        · exact c3 k hk2
                      · rw [hTsome2 gi rfl hlt]
                        exact c3
                  refine ih _ _ _ _ h
                    ⟨c1, hA', hopen2, ?_, ?_, ?_, ?_, ?_, ?_⟩ ?_
                  · intro e he
                    refine ⟨(c4 e he).1, ?_⟩
                    rw [(hsf' e.2).1, (hfU e.2).1]
                    exact (c4 e he).2
                  · intro i hi
                    rw [(hsf' i).1, (hfU i).1]
                    exact c5 i hi
                  · intro i hi
                    rw [(hsf' i).2.1, (hfU i).2.2.2.2]
                    exact c6 i hi
                  · intro i hi Mx hMx
                    rw [(hsf' i).2.2] at hMx
                    rw [(hsf' i).1, (hsf' i).2.1]
                    exact htfU i hi Mx hMx
                  · exact NowConsistent_of_eq ins.N scr' _ rfl rfl hNC'
                  · exact NextConsistent_of_eq ins.N scr' _ rfl rfl hXC'
                  · intro gi hgi
                    obtain ⟨hg1, hg2⟩ := hgok gi hgi
                    refine ⟨hg1, ?_⟩
                    show (arena' gi).C = ins.goals
                    rw [(hsf' gi).1, (hfU gi).1]
                    exact hg2
              · rename_i heqL
                have hCnew_len : C_new.length = ins.N := by
                  rw [hCn, List.length_map, List.length_range]
                have hCnew_ne : ∀ i, i < s.size →
                    C_new ≠ (s.arena i).C := by
                  intro i hi hc
                  have hl5 := c5 i hi
                  rw [← hc, heqL] at hl5
                  cases hl5
                have hcost : 1 ≤ Lacam.get_edge_cost objective ins.goals
                    ins.N (s.arena Sidx).C C_new :=
                  lacam_get_edge_cost_pos objective ins.goals ins.N _ _
                    (a7 Sidx hSidx) hCnew_len
                    (fun hc => hCnew_ne Sidx hSidx hc.symm)
                set hnew := Lacam.makeHN D ins.N C_new (some Sidx)
                  (s.arena Sidx).priorities
                  ((s.arena Sidx).g + Lacam.get_edge_cost objective
                    ins.goals ins.N (s.arena Sidx).C C_new)
                  (Lacam.get_h_value objective D ins.N C_new) with hhn
                have hCU_H : (arenaU Sidx).C = (s.arena Sidx).C :=
                  (hfU Sidx).1
                obtain ⟨hA2, hfOld, hfNew⟩ :=
                  lacam_alloc_ok ins s.size arenaU Sidx hnew hA_U c1
                    hSidx rfl rfl
                    (by rw [(hfU Sidx).2.2.1]
                        show (s.arena Sidx).g < (s.arena Sidx).g
                          + Lacam.get_edge_cost objective ins.goals ins.N
                            (s.arena Sidx).C C_new
                        omega)
                    (by rw [hCU_H]
                        exact hvalid)
                    hCnew_len hvalid.2.1
                    (by intro i hi
                        rw [(hfU i).1]
                        exact hCnew_ne i hi)
                refine ih _ _ _ _ h
                  ⟨?_, hA2, ?_, ?_, ?_, ?_, ?_, ?_, ?_⟩ ?_
                · show 1 ≤ s.size + 1
                  omega
                · exact open_cons_bound s.size s.OPEN _ c3
                · intro e he
                  rcases List.mem_cons.mp he with rfl | he2
                  · refine ⟨?_, ?_⟩
                    · show s.size < s.size + 1
                      omega
                    · show ((Lacam.allocHN arenaU s.size hnew
                        (some Sidx)).1 s.size).C = C_new
                      rw [hfNew]
                      rfl
                  · have hlt := (c4 e he2).1
                    have hns : e.2 ≠ s.size := by omega
                    refine ⟨?_, ?_⟩
                    · show e.2 < s.size + 1
                      omega
                    · show ((Lacam.allocHN arenaU s.size hnew
                        (some Sidx)).1 e.2).C = e.1
                      rw [(hfOld e.2 hns).1, (hfU e.2).1]
                      exact (c4 e he2).2
                · intro i hi
                  have hi2 : i < s.size + 1 := hi
                  show List.lookup ((Lacam.allocHN arenaU s.size hnew
                    (some Sidx)).1 i).C ((C_new, s.size) :: s.explored)
                    = some i
                  by_cases his : i = s.size
                  · rw [his, hfNew]
                    show List.lookup C_new ((C_new, s.size) :: s.explored)
                      = some s.size
                    simp [List.lookup]
                  · have hi' : i < s.size := by omega
                    rw [(hfOld i his).1, (hfU i).1]
                    simp only [List.lookup]
                    rw [beq_eq_false_iff_ne.mpr
                      (fun hc => hCnew_ne i hi' hc.symm)]
                    exact c5 i hi'
                · intro i hi
                  have hi2 : i < s.size + 1 := hi
                  show ((Lacam.allocHN arenaU s.size hnew
                    (some Sidx)).1 i).order.Perm (List.range ins.N)
                  by_cases his : i = s.size
                  · rw [his, hfNew]
                    exact isortLe_perm _ _
                  · have hi' : i < s.size := by omega
                    rw [(hfOld i his).2.1, (hfU i).2.2.2.2]
                    exact c6 i hi'
                · intro i hi Mx hMx
                  have hi2 : i < s.size + 1 := hi
                  have hMx2 : Mx ∈ ((Lacam.allocHN arenaU s.size hnew
                    (some Sidx)).1 i).search_tree := hMx
                  show Lacam.frameOK ins
                    ((Lacam.allocHN arenaU s.size hnew (some Sidx)).1 i).C
                    ((Lacam.allocHN arenaU s.size hnew
                      (some Sidx)).1 i).order Mx
                  by_cases his : i = s.size
                  · rw [his, hfNew] at hMx2
                    have hroot : Mx = (⟨[], []⟩ : Lacam.Constraint) :=
                      List.mem_singleton.mp hMx2
                    rw [hroot]
                    exact lacam_frameOK_empty ins _ _
                  · have hi' : i < s.size := by omega
                    rw [(hfOld i his).2.2] at hMx2
                    rw [(hfOld i his).1, (hfOld i his).2.1]
                    exact htfU i hi' Mx hMx2
                · exact NowConsistent_of_eq ins.N scr' _ rfl rfl hNC'
                · exact NextConsistent_of_eq ins.N scr' _ rfl rfl hXC'
                · intro gi hgi
                  obtain ⟨hg1, hg2⟩ := hgok gi hgi
                  have hns : gi ≠ s.size := by omega
                  refine ⟨?_, ?_⟩
                  · show gi < s.size + 1
                    omega
                  · show ((Lacam.allocHN arenaU s.size hnew
                      (some Sidx)).1 gi).C = ins.goals
                    rw [(hfOld gi hns).1, (hfU gi).1]
                    exact hg2

/-- Walking parent pointers from a live node of a well-formed lacam2
arena with enough fuel succeeds and yields the node's configuration
first, the start configuration last, and a parent-edge-valid chain
(parent chains strictly decrease `g`, so they visit distinct live nodes
and their length is bounded by the arena size). -/
theorem lacam2_backtrack_ok (ins : Inst) (size : Nat)
    (arena : Nat → Lacam2.HN) (hA : Lacam2.ArenaOK ins size arena) :
    ∀ (fuel idx : Nat), idx < size →
      (Finset.filter (fun j => (arena j).g < (arena idx).g)
        (Finset.range size)).card < fuel →
      ∃ l, Lacam2.backtrackGo arena fuel idx = some l ∧ l ≠ [] ∧
        l.head? = some (arena idx).C ∧ l.getLast? = some ins.starts ∧
        List.Chain' (fun a b => validStep ins b a) l := by
  intro fuel
  induction fuel with
  | zero =>
    intro idx hidx hc
    exact absurd hc (Nat.not_lt_zero _)
  | succ m ih =>
    intro idx hidx hc
    rcases hp : (arena idx).parent with _ | p
    · refine ⟨[(arena idx).C], ?_, ?_, rfl, ?_, ?_⟩
      · simp only [Lacam2.backtrackGo, hp]
      · simp
      · have hCs : (arena idx).C = ins.starts :=
          hA.2.2.2.2.1 idx hidx hp
        rw [hCs]
        rfl
      · simp
    · obtain ⟨hpl, hpg, hpv⟩ := hA.2.2.2.1 idx hidx p hp
      have hsub : Finset.filter (fun j => (arena j).g < (arena p).g)
          (Finset.range size) ⊂
          Finset.filter (fun j => (arena j).g < (arena idx).g)
            (Finset.range size) := by
        refine (Finset.ssubset_iff_of_subset ?_).mpr ⟨p, ?_, ?_⟩
        · intro x hx
          rw [Finset.mem_filter] at hx ⊢
          exact ⟨hx.1, lt_trans hx.2 hpg⟩
        · rw [Finset.mem_filter]
          exact ⟨Finset.mem_range.mpr hpl, hpg⟩
        · rw [Finset.mem_filter]
          intro hcon
          exact lt_irrefl _ hcon.2
      have hcard := Finset.card_lt_card hsub
      have hcp : (Finset.filter (fun j => (arena j).g < (arena p).g)
          (Finset.range size)).card < m := by omega
      obtain ⟨l, hbt, hne, hhd, hlast, hch⟩ := ih p hpl hcp
      refine ⟨(arena idx).C :: l, ?_, ?_, rfl, ?_, ?_⟩
      · simp only [Lacam2.backtrackGo, hp, hbt]
      · simp
      · cases l with
        | nil => exact absurd rfl hne
        | cons x xs =>
          rw [List.getLast?_cons_cons]
          exact hlast
      · cases l with
        | nil => exact absurd rfl hne
        | cons x xs =>
          refine List.chain'_cons.mpr ⟨?_, hch⟩
          have hx : x = (arena p).C := Option.some.inj hhd
          rw [hx]
          exact hpv

/-- Walking parent pointers from a live node of a well-formed lacam
arena with enough fuel succeeds and yields the node's configuration
first, the start configuration last, and a parent-edge-valid chain. -/
theorem lacam_backtrack_ok (ins : Inst) (size : Nat)
    (arena : Nat → Lacam.HN) (hA : Lacam.ArenaOK ins size arena) :
    ∀ (fuel idx : Nat), idx < size →
      (Finset.filter (fun j => (arena j).g < (arena idx).g)
        (Finset.range size)).card < fuel →
      ∃ l, Lacam.backtrackGo arena fuel idx = some l ∧ l ≠ [] ∧
        l.head? = some (arena idx).C ∧ l.getLast? = some ins.starts ∧
        List.Chain' (fun a b => validStep ins b a) l := by
  intro fuel
  induction fuel with
  | zero =>
    intro idx hidx hc
    exact absurd hc (Nat.not_lt_zero _)
  | succ m ih =>
    intro idx hidx hc
    rcases hp : (arena idx).parent with _ | p
    · refine ⟨[(arena idx).C], ?_, ?_, rfl, ?_, ?_⟩
      · simp only [Lacam.backtrackGo, hp]
      · simp
      · have hCs : (arena idx).C = ins.starts :=
          hA.2.2.2.2.1 idx hidx hp
        rw [hCs]
        rfl
      · simp
    · obtain ⟨hpl, hpg, hpv⟩ := hA.2.2.2.1 idx hidx p hp
      have hsub : Finset.filter (fun j => (arena j).g < (arena p).g)
          (Finset.range size) ⊂
          Finset.filter (fun j => (arena j).g < (arena idx).g)
            (Finset.range size) := by
        refine (Finset.ssubset_iff_of_subset ?_).mpr ⟨p, ?_, ?_⟩
        · intro x hx
          rw [Finset.mem_filter] at hx ⊢
          exact ⟨hx.1, lt_trans hx.2 hpg⟩
        · rw [Finset.mem_filter]
          exact ⟨Finset.mem_range.mpr hpl, hpg⟩
        · rw [Finset.mem_filter]
          intro hcon
          exact lt_irrefl _ hcon.2
      have hcard := Finset.card_lt_card hsub
      have hcp : (Finset.filter (fun j => (arena j).g < (arena p).g)
          (Finset.range size)).card < m := by omega
      obtain ⟨l, hbt, hne, hhd, hlast, hch⟩ := ih p hpl hcp
      refine ⟨(arena idx).C :: l, ?_, ?_, rfl, ?_, ?_⟩
      · simp only [Lacam.backtrackGo, hp, hbt]
      · simp
      · cases l with
        | nil => exact absurd rfl hne
        | cons x xs =>
          rw [List.getLast?_cons_cons]
          exact hlast
      · cases l with
        | nil => exact absurd rfl hne
        | cons x xs =>
          refine List.chain'_cons.mpr ⟨?_, hch⟩
          have hx : x = (arena p).C := Option.some.inj hhd
          rw [hx]
          exact hpv

/-- The fresh search state built by lacam2's `solve` satisfies the loop
invariant. -/
theorem lacam2_SOK_init (ins : Inst) (objective : Objective)
    (hstart : ins.starts.length = ins.N)
    (hscol : stepNoVertexCollision ins ins.starts) :
    Lacam2.SOK ins
      { arena := fun _ => Lacam2.makeHN (distTable ins) ins.N ins.starts
          none [] 0
          (Lacam2.get_h_value objective (distTable ins) ins.N ins.starts),
        size := 1, explored := [(ins.starts, 0)], OPEN := [0],
        scr := PState.init, loop_cnt := 0 } := by
  refine ⟨le_refl 1, ⟨rfl, rfl, rfl, ?_, ?_, ?_, ?_, ?_, ?_⟩, ?_, ?_, ?_,
    ?_, ?_, ?_, ?_⟩
  · intro i hi p hp
    exact Option.noConfusion hp
  · intro i hi hpn
    rfl
  · intro i hi j hj
    cases hj
  · intro i hi
    exact hstart
  · intro i hi
    exact hscol
  · intro i hi j hj hij
    have hi1 : i < 1 := hi
    have hj1 : j < 1 := hj
    exact absurd (by omega : i = j) hij
  · intro k hk
    rw [List.mem_singleton.mp hk]
    exact Nat.zero_lt_one
  · intro e he
    rw [List.mem_singleton.mp he]
    exact ⟨Nat.zero_lt_one, rfl⟩
  · intro i hi
    have hi1 : i < 1 := hi
    have hi0 : i = 0 := by omega
    rw [hi0]
    show List.lookup ins.starts [(ins.starts, 0)] = some 0
    simp [List.lookup]
  · intro i hi
    exact isortLe_perm _ _
  · intro i hi L hL
    rw [List.mem_singleton.mp hL]
    exact trivial
  · intro v a ha
    exact Option.noConfusion ha
  · intro v b hb
    exact Option.noConfusion hb

/-- The fresh search state built by lacam's `solve` satisfies the loop
invariant. -/
theorem lacam_SOK_init (ins : Inst) (objective : Objective)
    (hstart : ins.starts.length = ins.N)
    (hscol : stepNoVertexCollision ins ins.starts) :
    Lacam.SOK ins
      { arena := fun _ => Lacam.makeHN (distTable ins) ins.N ins.starts
          none [] 0
          (Lacam.get_h_value objective (distTable ins) ins.N ins.starts),
        size := 1, explored := [(ins.starts, 0)], OPEN := [0],
        scr := PState.init, loop_cnt := 0,
        hist_cost := [], hist_time := [] } := by
  refine ⟨le_refl 1, ⟨rfl, rfl, rfl, ?_, ?_, ?_, ?_, ?_, ?_⟩, ?_, ?_, ?_,
    ?_, ?_, ?_, ?_⟩
  · intro i hi p hp
    exact Option.noConfusion hp
  · intro i hi hpn
    rfl
  · intro i hi j hj
    cases hj
  · intro i hi
    exact hstart
  · intro i hi
    exact hscol
  · intro i hi j hj hij
    have hi1 : i < 1 := hi
    have hj1 : j < 1 := hj
    exact absurd (by omega : i = j) hij
  · intro k hk
    rw [List.mem_singleton.mp hk]
    exact Nat.zero_lt_one
  · intro e he
    rw [List.mem_singleton.mp he]
    exact ⟨Nat.zero_lt_one, rfl⟩
  · intro i hi
    have hi1 : i < 1 := hi
    have hi0 : i = 0 := by omega
    rw [hi0]
    show List.lookup ins.starts [(ins.starts, 0)] = some 0
    simp [List.lookup]
  · intro i hi
    exact isortLe_perm _ _
  · intro i hi M hM
    rw [List.mem_singleton.mp hM]
    exact lacam_frameOK_empty ins _ _
  · intro v a ha
    exact Option.noConfusion ha
  · intro v b hb
    exact Option.noConfusion hb

/-- A returned lacam2 solution is a valid step chain and, when
non-empty, runs from the start configuration to the goal
configuration. -/
theorem lacam2_solve_spec (ins : Inst) (objective : Objective)
    (restart_rate : Q) (FLG_SWAP : Bool) (ddl : Nat → Bool) (rngOn : Bool)
    (stream : Nat → Q) (fuel : Nat) (sol : List (List Nat))
    (info : List String)
    (hstart : ins.starts.length = ins.N)
    (hscol : stepNoVertexCollision ins ins.starts)
    (hSym : ∀ a b, a ∈ ins.adj b → b ∈ ins.adj a)
    (h : Lacam2.solve ins objective restart_rate FLG_SWAP ddl rngOn stream
      fuel = some (sol, info)) :
    List.Chain' (fun Cp Cn => validStep ins Cp Cn) sol ∧
    (sol ≠ [] →
      sol.head? = some ins.starts ∧ sol.getLast? = some ins.goals) := by
  simp only [Lacam2.solve] at h
  split at h
  · exact Option.noConfusion h
  · rename_i sF hgF heqLoop
    obtain ⟨hsokF, hgokF⟩ :=
      lacam2_loopGo_SOK ins objective restart_rate FLG_SWAP rngOn stream
        ddl (distTable ins) fuel hSym fuel _ none sF hgF heqLoop
        (lacam2_SOK_init ins objective hstart hscol)
        (fun gi hgi => Option.noConfusion hgi)
    split at h
    · exact Option.noConfusion h
    · rename_i solution heq2
      have e := Option.some.inj h
      have hsol : sol = solution := (congrArg Prod.fst e).symm
      split at heq2
      · rename_i gi
        split at heq2
        · rename_i l2 heq3
          have hsolution : solution = l2.reverse :=
            (Option.some.inj heq2).symm
          obtain ⟨hgi_lt, hgi_C⟩ := hgokF gi rfl
          have hAF : Lacam2.ArenaOK ins sF.size sF.arena := hsokF.2.1
          have hszF : 1 ≤ sF.size := hsokF.1
          have hsub : Finset.filter
              (fun j => (sF.arena j).g < (sF.arena gi).g)
              (Finset.range sF.size)
              ⊆ (Finset.range sF.size).erase gi := by
            intro x hx
            rw [Finset.mem_filter] at hx
            rw [Finset.mem_erase]
            refine ⟨?_, hx.1⟩
            intro he
            rw [he] at hx
            exact lt_irrefl _ hx.2
          have hcard := Finset.card_le_card hsub
          have herase : ((Finset.range sF.size).erase gi).card
              = sF.size - 1 := by
            rw [Finset.card_erase_of_mem (Finset.mem_range.mpr hgi_lt),
              Finset.card_range]
          obtain ⟨l, hbt, hlne, hhd, hlast, hch⟩ :=
            lacam2_backtrack_ok ins sF.size sF.arena hAF sF.size gi hgi_lt
              (by omega)
          have hll : l2 = l := (Option.some.inj (hbt.symm.trans heq3)).symm
          rw [hgi_C] at hhd
          rw [hsol, hsolution, hll]
          refine ⟨?_, fun _ => ⟨?_, ?_⟩⟩
          · exact List.chain'_reverse.mpr hch
          · rw [List.head?_reverse]
            exact hlast
          · rw [List.getLast?_reverse]
            exact hhd
        · exact Option.noConfusion heq2
      · have hsolution : solution = [] := (Option.some.inj heq2).symm
        rw [hsol, hsolution]
        exact ⟨List.chain'_nil, fun hne => absurd rfl hne⟩

/-- A returned lacam solution is a valid step chain and, when non-empty,
runs from the start configuration to the goal configuration. -/
theorem lacam_solve_spec (ins : Inst) (objective : Objective)
    (restart_rate : Q) (ddl : Nat → Bool) (elapsedF : Nat → Nat)
    (rngOn : Bool) (stream : Nat → Q) (fuel : Nat) (sol : List (List Nat))
    (info : List String)
    (hstart : ins.starts.length = ins.N)
    (hscol : stepNoVertexCollision ins ins.starts)
    (hSym : ∀ a b, a ∈ ins.adj b → b ∈ ins.adj a)
    (h : Lacam.solve ins objective restart_rate ddl elapsedF rngOn stream
      fuel = some (sol, info)) :
    List.Chain' (fun Cp Cn => validStep ins Cp Cn) sol ∧
    (sol ≠ [] →
      sol.head? = some ins.starts ∧ sol.getLast? = some ins.goals) := by
  simp only [Lacam.solve] at h
  split at h
  · exact Option.noConfusion h
  · rename_i sF hgF heqLoop
    obtain ⟨hsokF, hgokF⟩ :=
      lacam_loopGo_SOK ins objective restart_rate rngOn stream ddl
        elapsedF (distTable ins) fuel hSym fuel _ none sF hgF heqLoop
        (lacam_SOK_init ins objective hstart hscol)
        (fun gi hgi => Option.noConfusion hgi)
    split at h
    · exact Option.noConfusion h
    · rename_i solution heq2
      have e := Option.some.inj h
      have hsol : sol = solution := (congrArg Prod.fst e).symm
      split at heq2
      · rename_i gi
        split at heq2
        · rename_i l2 heq3
          have hsolution : solution = l2.reverse :=
            (Option.some.inj heq2).symm
          obtain ⟨hgi_lt, hgi_C⟩ := hgokF gi rfl
          have hAF : Lacam.ArenaOK ins sF.size sF.arena := hsokF.2.1
          have hszF : 1 ≤ sF.size := hsokF.1
          have hsub : Finset.filter
              (fun j => (sF.arena j).g < (sF.arena gi).g)
              (Finset.range sF.size)
              ⊆ (Finset.range sF.size).erase gi := by
            intro x hx
            rw [Finset.mem_filter] at hx
            rw [Finset.mem_erase]
            refine ⟨?_, hx.1⟩
            intro he
            rw [he] at hx
            exact lt_irrefl _ hx.2
          have hcard := Finset.card_le_card hsub
          have herase : ((Finset.range sF.size).erase gi).card
              = sF.size - 1 := by
            rw [Finset.card_erase_of_mem (Finset.mem_range.mpr hgi_lt),
              Finset.card_range]
          obtain ⟨l, hbt, hlne, hhd, hlast, hch⟩ :=
            lacam_backtrack_ok ins sF.size sF.arena hAF sF.size gi hgi_lt
              (by omega)
          have hll : l2 = l := (Option.some.inj (hbt.symm.trans heq3)).symm
          rw [hgi_C] at hhd
          rw [hsol, hsolution, hll]
          refine ⟨?_, fun _ => ⟨?_, ?_⟩⟩
          · exact List.chain'_reverse.mpr hch
          · rw [List.head?_reverse]
            exact hlast
          · rw [List.getLast?_reverse]
            exact hhd
        · exact Option.noConfusion heq2
      · have hsolution : solution = [] := (Option.some.inj heq2).symm
        rw [hsol, hsolution]
        exact ⟨List.chain'_nil, fun hne => absurd rfl hne⟩

/-- The 2-vertex fixture's graph is undirected. -/
theorem insA_adj_symm : ∀ a b, a ∈ insA.adj b → b ∈ insA.adj a := by
  intro a b hab
  rcases b with _ | _ | b2
  · have he : insA.adj 0 = [1] := rfl
    rw [he] at hab
    have ha : a = 1 := List.mem_singleton.mp hab
    rw [ha]
    decide
  · have he : insA.adj 1 = [0] := rfl
    rw [he] at hab
    have ha : a = 0 := List.mem_singleton.mp hab
    rw [ha]
    decide
  · have he : insA.adj (b2 + 2) = [] := rfl
    rw [he] at hab
    cases hab

/-- C2: a solution returned by either planner's `solve` is the reversed
parent-pointer chain walked from the recorded goal node to the root, so
every returned non-empty solution starts at the start configuration and
ends at the goal configuration (for a well-formed instance: starts of
length `N`, collision-free starts, undirected adjacency); without a
recorded goal node the returned solution is empty, which the non-empty
hypothesis excludes. -/
theorem C2_solution_endpoints :
    (∀ (ins : Inst) (objective : Objective) (restart_rate : Q)
      (FLG_SWAP : Bool) (ddl : Nat → Bool) (rngOn : Bool)
      (stream : Nat → Q) (fuel : Nat) (sol : List (List Nat))
      (info : List String),
      ins.starts.length = ins.N →
      stepNoVertexCollision ins ins.starts →
      (∀ a b, a ∈ ins.adj b → b ∈ ins.adj a) →
      Lacam2.solve ins objective restart_rate FLG_SWAP ddl rngOn stream
        fuel = some (sol, info) →
      sol ≠ [] →
      sol.head? = some ins.starts ∧ sol.getLast? = some ins.goals) ∧
    (∀ (ins : Inst) (objective : Objective) (restart_rate : Q)
      (ddl : Nat → Bool) (elapsedF : Nat → Nat) (rngOn : Bool)
      (stream : Nat → Q) (fuel : Nat) (sol : List (List Nat))
      (info : List String),
      ins.starts.length = ins.N →
      stepNoVertexCollision ins ins.starts →
      (∀ a b, a ∈ ins.adj b → b ∈ ins.adj a) →
      Lacam.solve ins objective restart_rate ddl elapsedF rngOn stream
        fuel = some (sol, info) →
      sol ≠ [] →
      sol.head? = some ins.starts ∧ sol.getLast? = some ins.goals) :=
  ⟨fun ins objective restart_rate FLG_SWAP ddl rngOn stream fuel sol info
      hstart hscol hSym h hne =>
    (lacam2_solve_spec ins objective restart_rate FLG_SWAP ddl rngOn
      stream fuel sol info hstart hscol hSym h).2 hne,
   fun ins objective restart_rate ddl elapsedF rngOn stream fuel sol info
      hstart hscol hSym h hne =>
    (lacam_solve_spec ins objective restart_rate ddl elapsedF rngOn
      stream fuel sol info hstart hscol hSym h).2 hne⟩

/-- Witness for C2 on a concrete lacam2 run that reaches the goal. -/
theorem C2_solution_endpoints_witness :
    ([[0], [1]] : List (List Nat)).head? = some insA.starts ∧
    ([[0], [1]] : List (List Nat)).getLast? = some insA.goals :=
  C2_solution_endpoints.1 insA OBJ_MAKESPAN ⟨1, 100⟩ false ddlNever false
    zeroStream 50 [[0], [1]]
    ["optimal=0", "objective=1", "loop_cnt=2", "num_node_gen=2"]
    (by decide)
    (by intro i hi j hj hij
        have hi1 : i < 1 := hi
        have hj1 : j < 1 := hj
        exact absurd (by omega : i = j) hij)
    insA_adj_symm (by decide) (by decide)

/-- C1: every solution returned by either planner's `solve` is a valid
joint plan: along every consecutive pair of configurations each agent
stays or moves along an edge, the target configuration is
vertex-collision-free, and no two agents swap (for a well-formed
instance: starts of length `N`, collision-free starts, undirected
adjacency).  The chain is inherited from the arena's parent edges, each
of which was produced by a successful PIBT step. -/
theorem C1_solution_steps_valid :
    (∀ (ins : Inst) (objective : Objective) (restart_rate : Q)
      (FLG_SWAP : Bool) (ddl : Nat → Bool) (rngOn : Bool)
      (stream : Nat → Q) (fuel : Nat) (sol : List (List Nat))
      (info : List String),
      ins.starts.length = ins.N →
      stepNoVertexCollision ins ins.starts →
      (∀ a b, a ∈ ins.adj b → b ∈ ins.adj a) →
      Lacam2.solve ins objective restart_rate FLG_SWAP ddl rngOn stream
        fuel = some (sol, info) →
      List.Chain' (fun Cp Cn => validStep ins Cp Cn) sol) ∧
    (∀ (ins : Inst) (objective : Objective) (restart_rate : Q)
      (ddl : Nat → Bool) (elapsedF : Nat → Nat) (rngOn : Bool)
      (stream : Nat → Q) (fuel : Nat) (sol : List (List Nat))
      (info : List String),
      ins.starts.length = ins.N →
      stepNoVertexCollision ins ins.starts →
      (∀ a b, a ∈ ins.adj b → b ∈ ins.adj a) →
      Lacam.solve ins objective restart_rate ddl elapsedF rngOn stream
        fuel = some (sol, info) →
      List.Chain' (fun Cp Cn => validStep ins Cp Cn) sol) :=
  ⟨fun ins objective restart_rate FLG_SWAP ddl rngOn stream fuel sol info
      hstart hscol hSym h =>
    (lacam2_solve_spec ins objective restart_rate FLG_SWAP ddl rngOn
      stream fuel sol info hstart hscol hSym h).1,
   fun ins objective restart_rate ddl elapsedF rngOn stream fuel sol info
      hstart hscol hSym h =>
    (lacam_solve_spec ins objective restart_rate ddl elapsedF rngOn
      stream fuel sol info hstart hscol hSym h).1⟩

/-- Witness for C1 on a concrete lacam2 run that reaches the goal. -/
theorem C1_solution_steps_valid_witness :
    List.Chain' (fun Cp Cn => validStep insA Cp Cn) [[0], [1]] :=
  C1_solution_steps_valid.1 insA OBJ_MAKESPAN ⟨1, 100⟩ false ddlNever
    false zeroStream 50 [[0], [1]]
    ["optimal=0", "objective=1", "loop_cnt=2", "num_node_gen=2"]
    (by decide)
    (by intro i hi j hj hij
        have hi1 : i < 1 := hi
        have hj1 : j < 1 := hj
        exact absurd (by omega : i = j) hij)
    insA_adj_symm (by decide)
